import Mathlib

/-!
ManaScript: the transpiler and the lexer.

A shallow embedding of `src/transpiler.cpp` and `src/lexer.cpp` of the ManaScript
repository, together with the properties of the emitted text and of the token
stream that the design document states.

Conventions of the embedding.

* A `std::string` is a `List Char`; every `Char` stands for one `char` of the source.
* A smart pointer (`ExprPtr`, `StmtPtr`) is an `Option`; `none` is the null pointer.
  Dereferencing a null pointer is undefined behaviour in the source and is the
  only way a visitor can fail: the visitors return `Option Transpiler`, `none`
  being that failure.
* The visitors of the source return `void` and mutate the members `output` and
  `indent_level`; here they take the transpiler state and return the new one. The
  lexer's methods are treated the same way, on the state `Lexer`.
* The counters `indent_level`, `line`, `column` and `nesting` are `Int`, the
  positions `start` and `current` are `Nat`; nesting depth and source length are
  assumed to stay below `2^31`, so no machine arithmetic wraps.
* A `while` loop of the lexer is a recursion on a fuel argument, given
  `source.length() + 1` by its caller; it returns `none` when the fuel runs out
  before the loop condition fails.
* `Keywords::getKeyword` is defined in `token.cpp`, which is not among the sources:
  the scanner takes it as the parameter `getKeyword`, and `Keywords.getKeyword` is
  the table the specification describes.
-/

set_option maxRecDepth 100000

namespace mana

/-! ## Tokens (`include/token.hpp`) -/

/-- The enumeration `TokenType` of `token.hpp`, in declaration order. -/
inductive TokenType where
  | END_OF_FILE | ERROR
  | IDENTIFIER | INTEGER_LITERAL | FLOAT_LITERAL | STRING_LITERAL | BOOL_LITERAL
  | FUNCTION | VAR | CONST | IF | ELSE | WHILE | FOR | RETURN | BREAK | CONTINUE
  | TRUE | FALSE | NIL
  | PLUS | MINUS | STAR | SLASH | PERCENT
  | EQUAL | EQUAL_EQUAL | BANG | BANG_EQUAL | LESS | LESS_EQUAL | GREATER | GREATER_EQUAL
  | AND | OR
  | DOT | COMMA | SEMICOLON | COLON | LEFT_PAREN | RIGHT_PAREN | LEFT_BRACE | RIGHT_BRACE
  | LEFT_BRACKET | RIGHT_BRACKET
deriving DecidableEq, Repr

/-- The class `Token` of `token.hpp`. -/
structure Token where
  type : TokenType
  lexeme : List Char
  line : Int
  column : Int
deriving DecidableEq, Repr

/-! ## Rendering of numbers (`std::to_string`) -/

/-- The character of one decimal digit. -/
def digitChar (d : Nat) : Char := Char.ofNat (48 + d % 10)

/-- Decimal digits of `n` in front of `acc`, most significant first; `fuel` bounds
the number of digits. -/
def natDigitsAux : Nat → Nat → List Char → List Char
  | 0, _, acc => acc
  | fuel + 1, n, acc =>
    if n < 10 then digitChar n :: acc
    else natDigitsAux fuel (n / 10) (digitChar n :: acc)

/-- Decimal rendering of a natural number, as `%u` prints it. -/
def natDigits (n : Nat) : List Char := natDigitsAux (n + 1) n []

/-- The overload `std::to_string(int)`: the `%d` rendering. -/
def to_string_int (v : Int) : List Char :=
  if v < 0 then '-' :: natDigits v.natAbs else natDigits v.natAbs

/-- An IEEE-754 binary64 value by its three fields: sign bit, biased exponent
(below `2048`) and fraction (below `2^52`). -/
structure Double where
  sign : Bool
  exponent : Nat
  fraction : Nat
deriving DecidableEq, Repr

/-- Quotient `num / den` rounded to the nearest integer, ties to even. -/
def roundHalfEven (num den : Nat) : Nat :=
  let q := num / den
  let r := num % den
  if 2 * r < den then q
  else if den < 2 * r then q + 1
  else if q % 2 = 0 then q else q + 1

/-- The last `w` decimal digits of `n`, leading zeros included. -/
def padDigits : Nat → Nat → List Char
  | 0, _ => []
  | w + 1, n => padDigits w (n / 10) ++ [digitChar n]

/-- The overload `std::to_string(double)`: the `%f` rendering, six digits after the
point, rounded to nearest; infinities and NaNs print as `inf` and `nan`. -/
def to_string_double (d : Double) : List Char :=
  let s : List Char := if d.sign then ['-'] else []
  if 2047 ≤ d.exponent then
    if d.fraction = 0 then s ++ "inf".toList else s ++ "nan".toList
  else
    let m := if d.exponent = 0 then d.fraction else 2 ^ 52 + d.fraction
    let e := if d.exponent = 0 then 1 else d.exponent
    let scaled :=
      if 1075 ≤ e then m * 10 ^ 6 * 2 ^ (e - 1075)
      else roundHalfEven (m * 10 ^ 6) (2 ^ (1075 - e))
    s ++ natDigits (scaled / 10 ^ 6) ++ '.' :: padDigits 6 (scaled % 10 ^ 6)

/-! ## Syntax tree (`ast.hpp`) -/

/-- Modelled from the spec: the header `ast.hpp` is not among the sources. The value
of a literal is the variant `int | double | bool | string | nil` that
`visitLiteralExpr` inspects, in the order of its `holds_alternative` tests. -/
inductive LiteralValue where
  | int (v : Int)
  | double (d : Double)
  | bool (b : Bool)
  | string (s : List Char)
  | nil
deriving DecidableEq, Repr

/-- Modelled from the spec: the header `ast.hpp` is not among the sources. The
expression family of the design document (Literal, Unary, Binary, Grouping,
Variable, Assign, Call) with the fields the getters used in `transpiler.cpp`
return; every child is a pointer that may be null. -/
inductive Expr where
  | Literal (value : LiteralValue)
  | Unary (op : Token) (right : Option Expr)
  | Binary (left : Option Expr) (op : Token) (right : Option Expr)
  | Grouping (expression : Option Expr)
  | Variable (name : Token)
  | Assign (name : Token) (value : Option Expr)
  | Call (callee : Option Expr) (arguments : List (Option Expr))

/-- Modelled from the spec: the header `ast.hpp` is not among the sources. The
statement family of the design document (ExpressionStmt, VarDecl, Block, If,
While, Function, Return) with the fields the getters used in `transpiler.cpp`
return; every child is a pointer that may be null. -/
inductive Stmt where
  | Expression (expression : Option Expr)
  | VarDecl (name : Token) (isConst : Bool) (initializer : Option Expr)
  | Block (statements : List (Option Stmt))
  | If (condition : Option Expr) (thenBranch : Option Stmt) (elseBranch : Option Stmt)
  | While (condition : Option Expr) (body : Option Stmt)
  | Function (name : Token) (params : List Token) (body : List (Option Stmt))
  | Return (value : Option Expr)

/-! ## The transpiler (`src/transpiler.cpp`) -/

/-- The data members of `class Transpiler` (`transpiler.hpp`, lines 16-20). -/
structure Transpiler where
  output : List Char
  indent_level : Int
  type_map : List (List Char × List Char)
  current_var_decls : List (List Char)
deriving DecidableEq, Repr

/-- The constructor `Transpiler::Transpiler`: empty buffer, level zero, the five
type names. -/
def Transpiler.new : Transpiler :=
  { output := []
    indent_level := 0
    type_map :=
      [("int".toList, "int".toList), ("float".toList, "double".toList),
       ("bool".toList, "bool".toList), ("string".toList, "std::string".toList),
       ("void".toList, "void".toList)]
    current_var_decls := [] }

/-- The method `Transpiler::write`. -/
def write (text : List Char) (t : Transpiler) : Transpiler :=
  { t with output := t.output ++ text }

/-- The loop of `Transpiler::indent`, run `n` times. -/
def indentLoop : Nat → Transpiler → Transpiler
  | 0, t => t
  | n + 1, t => indentLoop n (write "    ".toList t)

/-- The method `Transpiler::indent`: `i` runs from `0` while `i < indent_level`. -/
def indent (t : Transpiler) : Transpiler := indentLoop t.indent_level.toNat t

/-- The method `Transpiler::writeLine`. -/
def writeLine (line : List Char) (t : Transpiler) : Transpiler :=
  write (line ++ "\n".toList) (indent t)

/-- The method `Transpiler::getTypeName`. -/
def getTypeName (mana_type : List Char) (t : Transpiler) : List Char :=
  match t.type_map.find? (fun p => p.1 = mana_type) with
  | some p => p.2
  | none => "auto".toList

/-- The method `Transpiler::visitLiteralExpr`. -/
def visitLiteralExpr (value : LiteralValue) (t : Transpiler) : Transpiler :=
  match value with
  | .int v => write (to_string_int v) t
  | .double d => write (to_string_double d) t
  | .bool b => write (if b then "true".toList else "false".toList) t
  | .string s => write ("\"".toList ++ s ++ "\"".toList) t
  | .nil => write "nullptr".toList t

/-- The operator text chosen by the `switch` of `visitBinaryExpr`. -/
def binaryOpText : TokenType → List Char
  | .PLUS => " + ".toList
  | .MINUS => " - ".toList
  | .STAR => " * ".toList
  | .SLASH => " / ".toList
  | .PERCENT => " % ".toList
  | .EQUAL_EQUAL => " == ".toList
  | .BANG_EQUAL => " != ".toList
  | .LESS => " < ".toList
  | .LESS_EQUAL => " <= ".toList
  | .GREATER => " > ".toList
  | .GREATER_EQUAL => " >= ".toList
  | .AND => " && ".toList
  | .OR => " || ".toList
  | _ => " ? ".toList

/-- The operator text written first by `visitUnaryExpr`. -/
def unaryOpText (op : TokenType) : List Char :=
  if op = .MINUS then "-".toList
  else if op = .BANG then "!".toList
  else []

mutual
/-- The expression visitors of `Transpiler`, selected by the node's `accept`. -/
def visitExpr : Expr → Transpiler → Option Transpiler
  | .Literal value, t => some (visitLiteralExpr value t)
  | .Unary op right, t => do
    let t1 := write (unaryOpText op.type) t
    let t2 := write "(".toList t1
    let t3 ← acceptExpr right t2
    some (write ")".toList t3)
  | .Binary left op right, t => do
    let t1 := write "(".toList t
    let t2 ← acceptExpr left t1
    let t3 := write (binaryOpText op.type) t2
    let t4 ← acceptExpr right t3
    some (write ")".toList t4)
  | .Grouping expression, t => do
    let t1 := write "(".toList t
    let t2 ← acceptExpr expression t1
    some (write ")".toList t2)
  | .Variable name, t => some (write name.lexeme t)
  | .Assign name value, t => do
    let t1 := write (name.lexeme ++ " = ".toList) t
    acceptExpr value t1
  | .Call callee arguments, t => do
    let t1 ← acceptExpr callee t
    let t2 := write "(".toList t1
    let t3 ← visitArguments arguments 0 t2
    some (write ")".toList t3)
/-- The call `ptr->accept(*this)` on an expression pointer; a null pointer fails. -/
def acceptExpr : Option Expr → Transpiler → Option Transpiler
  | none, _ => none
  | some e, t => visitExpr e t
/-- The argument loop of `visitCallExpr`, from index `i` on. -/
def visitArguments : List (Option Expr) → Nat → Transpiler → Option Transpiler
  | [], _, t => some t
  | a :: rest, i, t => do
    let t1 := if 0 < i then write ", ".toList t else t
    let t2 ← acceptExpr a t1
    visitArguments rest (i + 1) t2
end

/-- The parameter loop of `visitFunctionStmt`, from index `i` on. -/
def writeParams : List Token → Nat → Transpiler → Transpiler
  | [], _, t => t
  | p :: rest, i, t =>
    let t1 := if 0 < i then write ", ".toList t else t
    writeParams rest (i + 1) (write ("auto ".toList ++ p.lexeme) t1)

/-- The test `dynamic_cast<BlockStmt*>(ptr.get())` succeeding. -/
def isBlock : Option Stmt → Bool
  | some (.Block _) => true
  | _ => false

/-- The statement `indent_level++`. -/
def incIndent (t : Transpiler) : Transpiler := { t with indent_level := t.indent_level + 1 }

/-- The statement `indent_level--`. -/
def decIndent (t : Transpiler) : Transpiler := { t with indent_level := t.indent_level - 1 }

/-- The branch emission shared by `visitIfStmt` (twice) and `visitWhileStmt`: a
block is visited as it is, any other statement between a `{` line and a `}` line,
one level deeper; `accept` is the branch's `accept(*this)`. -/
def visitBranch (isBlk : Bool) (accept : Transpiler → Option Transpiler) (t : Transpiler) :
    Option Transpiler :=
  if isBlk then accept t
  else do
    let u1 := writeLine "\x7b".toList t
    let u2 := incIndent u1
    let u3 ← accept u2
    let u4 := decIndent u3
    some (writeLine "\x7d".toList u4)

mutual
/-- The statement visitors of `Transpiler`, selected by the node's `accept`. -/
def visitStmt : Stmt → Transpiler → Option Transpiler
  | .Expression expression, t => do
    let t1 := indent t
    let t2 ← acceptExpr expression t1
    some (write ";\n".toList t2)
  | .VarDecl name isConst initializer, t => do
    let t1 := indent t
    let t2 := write (if isConst then "const auto ".toList else "auto ".toList) t1
    let t3 := write name.lexeme t2
    let t4 ← (match initializer with
      | some e => acceptExpr (some e) (write " = ".toList t3)
      | none => some t3)
    some (write ";\n".toList t4)
  | .Block statements, t => do
    let t1 := writeLine "\x7b".toList t
    let t2 := incIndent t1
    let t3 ← visitStatements statements t2
    let t4 := decIndent t3
    some (writeLine "\x7d".toList t4)
  | .If condition thenBranch elseBranch, t => do
    let t1 := indent t
    let t2 := write "if (".toList t1
    let t3 ← acceptExpr condition t2
    let t4 := write ") ".toList t3
    let t5 ← visitBranch (isBlock thenBranch) (acceptStmt thenBranch) t4
    match elseBranch with
    | none => some t5
    | some s =>
      let t6 := indent t5
      let t7 := write "else ".toList t6
      visitBranch (isBlock (some s)) (acceptStmt (some s)) t7
  | .While condition body, t => do
    let t1 := indent t
    let t2 := write "while (".toList t1
    let t3 ← acceptExpr condition t2
    let t4 := write ") ".toList t3
    visitBranch (isBlock body) (acceptStmt body) t4
  | .Function name params body, t => do
    let is_main : Bool := decide (name.lexeme = "main".toList)
    let t1 := indent t
    let t2 := write (if is_main then "int ".toList else "auto ".toList) t1
    let t3 := write (name.lexeme ++ "(".toList) t2
    let t4 := writeParams params 0 t3
    let t5 := write ") ".toList t4
    let t6 := writeLine "\x7b".toList t5
    let t7 := incIndent t6
    let t8 ← visitStatements body t7
    let t9 := if is_main then writeLine "return 0;".toList t8 else t8
    let t10 := decIndent t9
    some (writeLine "\x7d".toList t10)
  | .Return value, t => do
    let t1 := indent t
    let t2 := write "return".toList t1
    let t3 ← (match value with
      | some e => acceptExpr (some e) (write " ".toList t2)
      | none => some t2)
    some (write ";\n".toList t3)
/-- The call `ptr->accept(*this)` on a statement pointer; a null pointer fails. -/
def acceptStmt : Option Stmt → Transpiler → Option Transpiler
  | none, _ => none
  | some s, t => visitStmt s t
/-- The loop `for (s : statements) if (s) s->accept(*this)`: null entries are
skipped. -/
def visitStatements : List (Option Stmt) → Transpiler → Option Transpiler
  | [], t => some t
  | none :: rest, t => visitStatements rest t
  | some s :: rest, t => do
    let t1 ← visitStmt s t
    visitStatements rest t1
end

/-- The member `std::string::find(needle)`: the first position at which `needle`
occurs, `none` standing for `npos`. -/
def find (s needle : List Char) : Option Nat :=
  match s with
  | [] => if needle.isEmpty then some 0 else none
  | c :: cs =>
    if needle.isPrefixOf (c :: cs) then some 0
    else (find cs needle).map (· + 1)

/-- The text written before the statements (`transpile`, lines 40-50). -/
def prelude : List Char :=
  "#include <iostream>\n".toList ++ "#include <string>\n".toList ++
  "#include <vector>\n".toList ++ "#include <functional>\n".toList ++
  "#include <cmath>\n\n".toList ++
  "// Manascript runtime support\n".toList ++
  "void print(const std::string& message) \x7b\n".toList ++
  "    std::cout << message << std::endl;\n".toList ++
  "\x7d\n\n".toList

/-- The fallback entry point (`transpile`, lines 61-65). -/
def fallbackMain : List Char :=
  "\n// Auto-generated main function\n".toList ++
  "int main() \x7b\n".toList ++
  "    // Your code here\n".toList ++
  "    return 0;\n".toList ++
  "\x7d\n".toList

/-- The method `Transpiler::transpile`: the returned text, and the state the
transpiler is left in. -/
def transpile (statements : List (Option Stmt)) (t : Transpiler) :
    Option (List Char × Transpiler) := do
  let t0 : Transpiler := { t with output := [] }
  let t1 := write "#include <iostream>\n".toList t0
  let t2 := write "#include <string>\n".toList t1
  let t3 := write "#include <vector>\n".toList t2
  let t4 := write "#include <functional>\n".toList t3
  let t5 := write "#include <cmath>\n\n".toList t4
  let t6 := write "// Manascript runtime support\n".toList t5
  let t7 := write "void print(const std::string& message) \x7b\n".toList t6
  let t8 := write "    std::cout << message << std::endl;\n".toList t7
  let t9 := write "\x7d\n\n".toList t8
  let t10 ← visitStatements statements t9
  let t11 :=
    if find t10.output "int main(".toList = none then
      write "\x7d\n".toList (write "    return 0;\n".toList
        (write "    // Your code here\n".toList (write "int main() \x7b\n".toList
          (write "\n// Auto-generated main function\n".toList t10))))
    else t10
  some (t11.output, t11)

/-- The text a statement pointer emits at indentation level `d`, on an empty
buffer. -/
def stmtText (d : Int) (s : Option Stmt) : Option (List Char) :=
  (acceptStmt s { Transpiler.new with indent_level := d }).map (·.output)

/-- The text an expression pointer emits, on an empty buffer. -/
def exprText (e : Option Expr) : Option (List Char) :=
  (acceptExpr e Transpiler.new).map (·.output)

/-- The text of a list of top-level statements, null entries skipped. -/
def statementsText (d : Int) (ss : List (Option Stmt)) : Option (List Char) :=
  (visitStatements ss { Transpiler.new with indent_level := d }).map (·.output)

/-- A token with the given type and lexeme, at line 1, column 1. -/
def tok (ty : TokenType) (lexeme : String) : Token :=
  { type := ty, lexeme := lexeme.toList, line := 1, column := 1 }


/-! ## Closed form of the emitted text -/

/-- The indentation written by `indent` at level `d`. -/
def indentText (d : Int) : List Char := (List.replicate d.toNat "    ".toList).flatten

/-- The text `visitLiteralExpr` writes. -/
def literalText : LiteralValue → List Char
  | .int v => to_string_int v
  | .double d => to_string_double d
  | .bool b => if b then "true".toList else "false".toList
  | .string s => "\"".toList ++ s ++ "\"".toList
  | .nil => "nullptr".toList

mutual
/-- The text an expression emits, in closed form. -/
def emitExpr : Expr → Option (List Char)
  | .Literal value => some (literalText value)
  | .Unary op right =>
    (emitExprPtr right).map (fun x => unaryOpText op.type ++ "(".toList ++ x ++ ")".toList)
  | .Binary left op right =>
    (emitExprPtr left).bind (fun l => (emitExprPtr right).map (fun r =>
      "(".toList ++ l ++ binaryOpText op.type ++ r ++ ")".toList))
  | .Grouping expression =>
    (emitExprPtr expression).map (fun x => "(".toList ++ x ++ ")".toList)
  | .Variable name => some name.lexeme
  | .Assign name value =>
    (emitExprPtr value).map (fun x => name.lexeme ++ " = ".toList ++ x)
  | .Call callee arguments =>
    (emitExprPtr callee).bind (fun c => (emitArguments arguments 0).map (fun a =>
      c ++ "(".toList ++ a ++ ")".toList))
/-- The text an expression pointer emits, in closed form. -/
def emitExprPtr : Option Expr → Option (List Char)
  | none => none
  | some e => emitExpr e
/-- The text of the arguments from index `i` on, in closed form. -/
def emitArguments : List (Option Expr) → Nat → Option (List Char)
  | [], _ => some []
  | a :: rest, i =>
    (emitExprPtr a).bind (fun x => (emitArguments rest (i + 1)).map (fun y =>
      (if 0 < i then ", ".toList else []) ++ x ++ y))
end

/-- A body wrapped in braces at level `d`. -/
def wrapBraces (d : Int) (x : List Char) : List Char :=
  indentText d ++ "\x7b\n".toList ++ x ++ indentText d ++ "\x7d\n".toList

/-- The text of the parameters from index `i` on, in closed form. -/
def paramsText : List Token → Nat → List Char
  | [], _ => []
  | p :: rest, i =>
    (if 0 < i then ", ".toList else []) ++ "auto ".toList ++ p.lexeme ++ paramsText rest (i + 1)

/-- The text of a branch at level `d`: the statement's own text at level `d` when
it is a block, its text at level `d + 1` between braces otherwise. -/
def emitBranch (d : Int) (isBlk : Bool) (same deeper : Option (List Char)) :
    Option (List Char) :=
  if isBlk then same else deeper.map (wrapBraces d)

mutual
/-- The text a statement emits at level `d`, in closed form. -/
def emitStmt : Int → Stmt → Option (List Char)
  | d, .Expression expression =>
    (emitExprPtr expression).map (fun x => indentText d ++ x ++ ";\n".toList)
  | d, .VarDecl name isConst initializer =>
    (match initializer with
      | some e => (emitExpr e).map (fun x => " = ".toList ++ x)
      | none => some []).map (fun x =>
        indentText d ++ (if isConst then "const auto ".toList else "auto ".toList) ++
          name.lexeme ++ x ++ ";\n".toList)
  | d, .Block statements => (emitStatements (d + 1) statements).map (wrapBraces d)
  | d, .If condition thenBranch elseBranch =>
    (emitExprPtr condition).bind (fun c =>
      (emitBranch d (isBlock thenBranch) (emitStmtPtr d thenBranch)
        (emitStmtPtr (d + 1) thenBranch)).bind (fun th =>
      (match elseBranch with
        | none => some []
        | some s =>
          (emitBranch d (isBlock (some s)) (emitStmtPtr d (some s))
            (emitStmtPtr (d + 1) (some s))).map (fun x =>
              indentText d ++ "else ".toList ++ x)).map (fun el =>
      indentText d ++ "if (".toList ++ c ++ ") ".toList ++ th ++ el)))
  | d, .While condition body =>
    (emitExprPtr condition).bind (fun c =>
      (emitBranch d (isBlock body) (emitStmtPtr d body) (emitStmtPtr (d + 1) body)).map (fun b =>
      indentText d ++ "while (".toList ++ c ++ ") ".toList ++ b))
  | d, .Function name params body =>
    (emitStatements (d + 1) body).map (fun b =>
      indentText d ++
        (if name.lexeme = "main".toList then "int ".toList else "auto ".toList) ++
        name.lexeme ++ "(".toList ++ paramsText params 0 ++ ") ".toList ++
        wrapBraces d (b ++
          (if name.lexeme = "main".toList then indentText (d + 1) ++ "return 0;\n".toList
            else [])))
  | d, .Return value =>
    (match value with
      | some e => (emitExpr e).map (fun x => " ".toList ++ x)
      | none => some []).map (fun x =>
        indentText d ++ "return".toList ++ x ++ ";\n".toList)
/-- The text a statement pointer emits at level `d`, in closed form. -/
def emitStmtPtr : Int → Option Stmt → Option (List Char)
  | _, none => none
  | d, some s => emitStmt d s
/-- The text of a statement list at level `d`, null entries skipped. -/
def emitStatements : Int → List (Option Stmt) → Option (List Char)
  | _, [] => some []
  | d, none :: rest => emitStatements d rest
  | d, some s :: rest =>
    (emitStmt d s).bind (fun x => (emitStatements d rest).map (fun y => x ++ y))
end

/-! ## Predicates used by the statements -/

mutual
/-- An expression without a null child. -/
def wellFormedExpr : Expr → Bool
  | .Literal _ => true
  | .Unary _ right => wellFormedExprPtr right
  | .Binary left _ right => wellFormedExprPtr left && wellFormedExprPtr right
  | .Grouping expression => wellFormedExprPtr expression
  | .Variable _ => true
  | .Assign _ value => wellFormedExprPtr value
  | .Call callee arguments => wellFormedExprPtr callee && wellFormedArguments arguments
/-- A non-null expression pointer to a well-formed expression. -/
def wellFormedExprPtr : Option Expr → Bool
  | none => false
  | some e => wellFormedExpr e
/-- Arguments that are all non-null and well formed. -/
def wellFormedArguments : List (Option Expr) → Bool
  | [] => true
  | a :: rest => wellFormedExprPtr a && wellFormedArguments rest
end

mutual
/-- A statement without a null expression child and without a null `If`/`While`
branch or body; the optional parts (initializer, else branch, return value) may
be absent, and a statement list may hold null entries, which the loops skip. -/
def wellFormedStmt : Stmt → Bool
  | .Expression expression => wellFormedExprPtr expression
  | .VarDecl _ _ initializer =>
    (match initializer with
      | none => true
      | some e => wellFormedExpr e)
  | .Block statements => wellFormedStatements statements
  | .If condition thenBranch elseBranch =>
    wellFormedExprPtr condition && wellFormedStmtPtr thenBranch &&
      (match elseBranch with
        | none => true
        | some s => wellFormedStmt s)
  | .While condition body => wellFormedExprPtr condition && wellFormedStmtPtr body
  | .Function _ _ body => wellFormedStatements body
  | .Return value =>
    (match value with
      | none => true
      | some e => wellFormedExpr e)
/-- A non-null statement pointer to a well-formed statement. -/
def wellFormedStmtPtr : Option Stmt → Bool
  | none => false
  | some s => wellFormedStmt s
/-- A statement list whose non-null entries are well formed. -/
def wellFormedStatements : List (Option Stmt) → Bool
  | [] => true
  | none :: rest => wellFormedStatements rest
  | some s :: rest => wellFormedStmt s && wellFormedStatements rest
end

/-- Some top-level statement is a `Function` named `main`. -/
def hasTopLevelMain : List (Option Stmt) → Bool
  | [] => false
  | some (.Function name _ _) :: rest =>
    decide (name.lexeme = "main".toList) || hasTopLevelMain rest
  | _ :: rest => hasTopLevelMain rest

/-- The states a transpiler object can be in: freshly constructed, or left behind
by a `transpile` call that returned. -/
inductive Reachable : Transpiler → Prop where
  | fresh : Reachable Transpiler.new
  | step {t t' : Transpiler} {statements : List (Option Stmt)} {text : List Char} :
      Reachable t → transpile statements t = some (text, t') → Reachable t'

/-- Scan for the `)` that closes `depth` open parentheses; `pos` is the index of
the head of the remaining text. -/
def closeScan : List Char → Nat → Nat → Option Nat
  | [], _, _ => none
  | c :: cs, depth, pos =>
    if c = '(' then closeScan cs (depth + 1) (pos + 1)
    else if c = ')' then
      if depth ≤ 1 then some pos else closeScan cs (depth - 1) (pos + 1)
    else closeScan cs depth (pos + 1)

/-- The index of the `)` that matches a leading `(`, counting parentheses. -/
def matchingClose : List Char → Option Nat
  | '(' :: cs => closeScan cs 1 1
  | _ => none

/-- The text starts with `(` and its last character is the `)` matching it. -/
def enclosedInParens (s : List Char) : Bool :=
  s.head? == some '(' && matchingClose s == some (s.length - 1)

/-- No character of the string fails `p`. -/
def allChars (p : Char → Bool) (s : List Char) : Bool := s.all p

mutual
/-- Every identifier and every string literal of the expression consists of
characters satisfying `p`. -/
def namesSatisfyExpr (p : Char → Bool) : Expr → Bool
  | .Literal (.string s) => allChars p s
  | .Literal _ => true
  | .Unary _ right => namesSatisfyExprPtr p right
  | .Binary left _ right => namesSatisfyExprPtr p left && namesSatisfyExprPtr p right
  | .Grouping expression => namesSatisfyExprPtr p expression
  | .Variable name => allChars p name.lexeme
  | .Assign name value => allChars p name.lexeme && namesSatisfyExprPtr p value
  | .Call callee arguments => namesSatisfyExprPtr p callee && namesSatisfyArguments p arguments
/-- The same for an expression pointer; a null pointer holds no name. -/
def namesSatisfyExprPtr (p : Char → Bool) : Option Expr → Bool
  | none => true
  | some e => namesSatisfyExpr p e
/-- The same for an argument list. -/
def namesSatisfyArguments (p : Char → Bool) : List (Option Expr) → Bool
  | [] => true
  | a :: rest => namesSatisfyExprPtr p a && namesSatisfyArguments p rest
end

/-- A character that is not a parenthesis. -/
def notParen (c : Char) : Bool := c != '(' && c != ')'

/-- Prepend `pre` to every line of the text; `atStart` tells whether the head of
the text starts a line. -/
def prependLines (pre : List Char) : Bool → List Char → List Char
  | _, [] => []
  | atStart, c :: cs =>
    (if atStart then pre else []) ++ c :: prependLines pre (c == '\n') cs

/-- The text with `4 * d` spaces prepended to each of its lines. -/
def indentLines (d : Nat) (text : List Char) : List Char :=
  prependLines (List.replicate (4 * d) ' ') true text

/-- The text is exactly one line ending the statement: it ends with `;` and a
newline, and holds no other newline. -/
def isOneStatementLine (text : List Char) : Bool :=
  ";\n".toList.isSuffixOf text && text.count '\n' == 1

/-- A transpiler that has been used once, on the empty program. -/
def usedTranspiler : Transpiler :=
  { Transpiler.new with output := prelude ++ fallbackMain }

/-- The program `print("int main(");`, which defines no function. -/
def printsMainText : List (Option Stmt) :=
  [some (.Expression (some (.Call (some (.Variable (tok .IDENTIFIER "print")))
    [some (.Literal (.string "int main(".toList))])))]

/-- The statement `if (x) {}`. -/
def emptyIf : Stmt :=
  .If (some (.Variable (tok .IDENTIFIER "x"))) (some (.Block [])) none

/-- The statement `print("a\nb");` as the lexer delivers it: the escape sequence
of the source is a newline character in the literal's value. -/
def printsTwoLines : Stmt :=
  .Expression (some (.Call (some (.Variable (tok .IDENTIFIER "print")))
    [some (.Literal (.string "a\nb".toList))]))

/-- The expression `false && sideEffect()`. -/
def falseAndSideEffect : Expr :=
  .Binary (some (.Literal (.bool false))) (tok .AND "&&")
    (some (.Call (some (.Variable (tok .IDENTIFIER "sideEffect"))) []))

/-- The expression `-x`. -/
def minusX : Expr := .Unary (tok .MINUS "-") (some (.Variable (tok .IDENTIFIER "x")))

/-- The text `transpile` returns for statements whose text is `body`: the prelude,
the body, and the fallback entry point unless `int main(` occurs in what precedes. -/
def finalText (body : List Char) : List Char :=
  if find (prelude ++ body) "int main(".toList = none then prelude ++ body ++ fallbackMain
  else prelude ++ body

/-- The program `(1 , 2);`: a binary node whose operator token is not one the
`switch` of `visitBinaryExpr` knows, and no function at all. -/
def unknownOperatorProgram : List (Option Stmt) :=
  [some (.Expression (some (.Binary (some (.Literal (.int 1))) (tok .COMMA ",")
    (some (.Literal (.int 2))))))]

/-- The expression `f(a, 2, b)`. -/
def callOfThree : Expr :=
  .Call (some (.Variable (tok .IDENTIFIER "f")))
    [some (.Variable (tok .IDENTIFIER "a")), some (.Literal (.int 2)),
     some (.Variable (tok .IDENTIFIER "b"))]

/-- The program `function f(a) { return a; }` followed by a null entry and `f(1);`. -/
def smallProgram : List (Option Stmt) :=
  [some (.Function (tok .IDENTIFIER "f") [tok .IDENTIFIER "a"]
      [some (.Return (some (.Variable (tok .IDENTIFIER "a"))))]),
   none,
   some (.Expression (some (.Call (some (.Variable (tok .IDENTIFIER "f")))
      [some (.Literal (.int 1))])))]

/-- A text the parenthesis scanner passes over without a change of depth: it holds
as many `(` as `)` and never closes more than it has opened. -/
def ParenTransparent (s : List Char) : Prop :=
  ∀ (rest : List Char) (depth pos : Nat), 1 ≤ depth →
    closeScan (s ++ rest) depth pos = closeScan rest depth (pos + s.length)

/-! ## The lexer (`src/lexer.cpp`) -/

/-- Modelled from the spec: the header `error.hpp` is not among the sources. The
severity passed to `diagnostics.report`; the lexer only uses `ERROR`. -/
inductive DiagnosticSeverity where
  | ERROR
deriving DecidableEq, Repr

/-- Modelled from the spec: the header `error.hpp` is not among the sources. The
value `SourceLocation(filename, line, column)` built by `getCurrentLocation`. -/
structure SourceLocation where
  filename : List Char
  line : Int
  column : Int
deriving DecidableEq, Repr

/-- Modelled from the spec: the header `error.hpp` is not among the sources. One
call of `diagnostics.report`, by its four arguments. -/
structure Diagnostic where
  severity : DiagnosticSeverity
  message : List Char
  location : SourceLocation
  context : List Char
deriving DecidableEq, Repr

/-- The data members of `class Lexer` (`lexer.hpp`, lines 44-50), and the global
`diagnostics` as the list of the reports made so far. -/
structure Lexer where
  source : List Char
  filename : List Char
  tokens : List Token
  start : Nat
  current : Nat
  line : Int
  column : Int
  diagnostics : List Diagnostic
deriving DecidableEq, Repr

/-- The constructor `Lexer::Lexer`. -/
def Lexer.new (source filename : List Char) : Lexer :=
  { source := source, filename := filename, tokens := [], start := 0, current := 0,
    line := 1, column := 1, diagnostics := [] }

/-- The read `source[i]`; at `i = source.length()` it gives the null character. -/
def charAt (source : List Char) (i : Nat) : Char := source.getD i (Char.ofNat 0)

/-- The call `source.substr(pos, n)`. -/
def substr (source : List Char) (pos n : Nat) : List Char := (source.drop pos).take n

/-- The classification `std::isdigit` in the C locale. -/
def isdigit (c : Char) : Bool := decide ('0' ≤ c ∧ c ≤ '9')

/-- The classification `std::isxdigit` in the C locale. -/
def isxdigit (c : Char) : Bool :=
  isdigit c || decide ('a' ≤ c ∧ c ≤ 'f') || decide ('A' ≤ c ∧ c ≤ 'F')

/-- The classification `std::isalpha` in the C locale. -/
def isalpha (c : Char) : Bool := decide ('a' ≤ c ∧ c ≤ 'z') || decide ('A' ≤ c ∧ c ≤ 'Z')

/-- The classification `std::isalnum` in the C locale. -/
def isalnum (c : Char) : Bool := isalpha c || isdigit c

/-- The method `Lexer::isAtEnd`. -/
def isAtEnd (l : Lexer) : Bool := decide (l.source.length ≤ l.current)

/-- The method `Lexer::advance`: the character read, and the state after it. -/
def advance (l : Lexer) : Char × Lexer :=
  (charAt l.source l.current, { l with column := l.column + 1, current := l.current + 1 })

/-- The method `Lexer::peek`. -/
def peek (l : Lexer) : Char :=
  if isAtEnd l then Char.ofNat 0 else charAt l.source l.current

/-- The method `Lexer::peekNext`. -/
def peekNext (l : Lexer) : Char :=
  if l.source.length ≤ l.current + 1 then Char.ofNat 0 else charAt l.source (l.current + 1)

/-- The method `Lexer::match`: whether it matched, and the state after it. -/
def matchChar (expected : Char) (l : Lexer) : Bool × Lexer :=
  if isAtEnd l || charAt l.source l.current != expected then (false, l)
  else (true, { l with current := l.current + 1, column := l.column + 1 })

/-- The overload `Lexer::addToken(type)`: the lexeme is the scanned text. -/
def addToken (type : TokenType) (l : Lexer) : Lexer :=
  let lexeme := substr l.source l.start (l.current - l.start)
  { l with tokens := l.tokens ++ [⟨type, lexeme, l.line, l.column - lexeme.length⟩] }

/-- The overload `Lexer::addToken(type, lexeme)`. -/
def addTokenWith (type : TokenType) (lexeme : List Char) (l : Lexer) : Lexer :=
  { l with tokens := l.tokens ++ [⟨type, lexeme, l.line, l.column - lexeme.length⟩] }

/-- The method `Lexer::getCurrentLocation`. -/
def getCurrentLocation (l : Lexer) : SourceLocation :=
  ⟨l.filename, l.line, l.column⟩

/-- The first loop of `getLineContext`: move `lineStart` back to the start of its
line. -/
def lineStartLoop (source : List Char) : Nat → Nat
  | 0 => 0
  | lineStart + 1 =>
    if charAt source lineStart != '\n' then lineStartLoop source lineStart else lineStart + 1

/-- The second loop of `getLineContext`: move `lineEnd` forward to the end of its
line; `fuel` bounds the number of steps. -/
def lineEndLoop (source : List Char) : Nat → Nat → Nat
  | 0, lineEnd => lineEnd
  | fuel + 1, lineEnd =>
    if lineEnd < source.length && charAt source lineEnd != '\n' then
      lineEndLoop source fuel (lineEnd + 1)
    else lineEnd

/-- The method `Lexer::getLineContext`. -/
def getLineContext (l : Lexer) : List Char :=
  let lineStart := lineStartLoop l.source l.start
  let lineEnd := lineEndLoop l.source (l.source.length - l.current) l.current
  substr l.source lineStart (lineEnd - lineStart)

/-- The method `Lexer::reportError`: one report, and one `ERROR` token whose lexeme
is the message. -/
def reportError (message : List Char) (l : Lexer) : Lexer :=
  let location := getCurrentLocation l
  let context := getLineContext l
  { l with
    diagnostics := l.diagnostics ++ [⟨.ERROR, message, location, context⟩]
    tokens := l.tokens ++ [⟨.ERROR, message, l.line, l.column⟩] }

/-- The loop `while (p(peek())) advance();`, which also tells whether it ran at
least once (the flag `hasDigits` of `scanNumber`); `none` when `fuel` runs out. -/
def advanceWhile (p : Char → Bool) : Nat → Lexer → Bool → Option (Lexer × Bool)
  | 0, _, _ => none
  | fuel + 1, l, ran =>
    if p (peek l) then advanceWhile p fuel (advance l).2 true else some (l, ran)

/-- One iteration of the loop of `scanString`: the state and the value after it. -/
def scanStringBody (l : Lexer) (value : List Char) : Lexer × List Char :=
  let l1 := if peek l = '\n' then { l with line := l.line + 1, column := 1 } else l
  if peek l1 = '\\' && !isAtEnd l1 then
    let l2 := (advance l1).2
    let c := peek l2
    let (l3, value1) :=
      if c = 'n' then (l2, value ++ ['\n'])
      else if c = 't' then (l2, value ++ ['\t'])
      else if c = 'r' then (l2, value ++ ['\r'])
      else if c = '\\' then (l2, value ++ ['\\'])
      else if c = '"' then (l2, value ++ ['"'])
      else (reportError ("Invalid escape sequence '\\".toList ++ [c] ++ "'".toList) l2, value)
    ((advance l3).2, value1)
  else
    let (c, l2) := advance l1
    (l2, value ++ [c])

/-- The loop of `scanString`, with the value collected so far; `none` when `fuel`
runs out. -/
def scanStringLoop : Nat → Lexer → List Char → Option (Lexer × List Char)
  | 0, _, _ => none
  | fuel + 1, l, value =>
    if peek l != '"' && !isAtEnd l then
      let (l1, value1) := scanStringBody l value
      scanStringLoop fuel l1 value1
    else some (l, value)

/-- The method `Lexer::scanString`. -/
def scanString (l : Lexer) : Option Lexer := do
  let (l1, value) ← scanStringLoop (l.source.length + 1) l []
  if isAtEnd l1 then some (reportError "Unterminated string".toList l1)
  else
    let l2 := (advance l1).2
    some (addTokenWith .STRING_LITERAL value l2)

/-- The method `Lexer::scanNumber`. -/
def scanNumber (l : Lexer) : Option Lexer :=
  if peek l = 'x' && l.current - l.start = 1 && charAt l.source l.start = '0' then do
    let l1 := (advance l).2
    let (l2, hasDigits) ← advanceWhile isxdigit (l.source.length + 1) l1 false
    if !hasDigits then some (reportError "Invalid hexadecimal number".toList l2)
    else some (addToken .INTEGER_LITERAL l2)
  else if peek l = 'b' && l.current - l.start = 1 && charAt l.source l.start = '0' then do
    let l1 := (advance l).2
    let (l2, hasDigits) ←
      advanceWhile (fun c => c = '0' || c = '1') (l.source.length + 1) l1 false
    if !hasDigits then some (reportError "Invalid binary number".toList l2)
    else some (addToken .INTEGER_LITERAL l2)
  else do
    let (l1, _) ← advanceWhile isdigit (l.source.length + 1) l false
    if peek l1 = '.' && isdigit (peekNext l1) then do
      let l2 := (advance l1).2
      let (l3, _) ← advanceWhile isdigit (l.source.length + 1) l2 false
      if peek l3 = 'e' || peek l3 = 'E' then do
        let l4 := (advance l3).2
        let l5 := if peek l4 = '+' || peek l4 = '-' then (advance l4).2 else l4
        if !isdigit (peek l5) then some (reportError "Invalid scientific notation".toList l5)
        else do
          let (l6, _) ← advanceWhile isdigit (l.source.length + 1) l5 false
          some (addToken .FLOAT_LITERAL l6)
      else some (addToken .FLOAT_LITERAL l3)
    else some (addToken .INTEGER_LITERAL l1)

/-- The method `Lexer::scanIdentifier`; `getKeyword` is `Keywords::getKeyword`,
whose definition is not among the sources. -/
def scanIdentifier (getKeyword : List Char → TokenType) (l : Lexer) : Option Lexer := do
  let (l1, _) ← advanceWhile (fun c => isalnum c || c = '_') (l.source.length + 1) l false
  let text := substr l1.source l1.start (l1.current - l1.start)
  let type := getKeyword text
  if type = .TRUE || type = .FALSE then some (addTokenWith .BOOL_LITERAL text l1)
  else some (addToken type l1)

/-- One iteration of the loop of the block comment: the state and the nesting
depth after it. -/
def blockCommentBody (l : Lexer) (nesting : Int) : Lexer × Int :=
  if peek l = '/' && peekNext l = '*' then ((advance (advance l).2).2, nesting + 1)
  else if peek l = '*' && peekNext l = '/' then ((advance (advance l).2).2, nesting - 1)
  else if peek l = '\n' then
    let l1 := (advance l).2
    ({ l1 with line := l1.line + 1, column := 1 }, nesting)
  else ((advance l).2, nesting)

/-- The loop of the block comment, with the nesting depth; `none` when `fuel` runs
out. -/
def blockCommentLoop : Nat → Lexer → Int → Option (Lexer × Int)
  | 0, _, _ => none
  | fuel + 1, l, nesting =>
    if 0 < nesting && !isAtEnd l then
      let (l1, nesting1) := blockCommentBody l nesting
      blockCommentLoop fuel l1 nesting1
    else some (l, nesting)

/-- The loop of the line comment; `none` when `fuel` runs out. -/
def lineCommentLoop : Nat → Lexer → Option Lexer
  | 0, _ => none
  | fuel + 1, l =>
    if peek l != '\n' && !isAtEnd l then lineCommentLoop fuel (advance l).2 else some l

/-- The method `Lexer::scanToken`. -/
def scanToken (getKeyword : List Char → TokenType) (l0 : Lexer) : Option Lexer :=
  let (c, l) := advance l0
  if c = '(' then some (addToken .LEFT_PAREN l)
  else if c = ')' then some (addToken .RIGHT_PAREN l)
  else if c = '{' then some (addToken .LEFT_BRACE l)
  else if c = '}' then some (addToken .RIGHT_BRACE l)
  else if c = '[' then some (addToken .LEFT_BRACKET l)
  else if c = ']' then some (addToken .RIGHT_BRACKET l)
  else if c = ',' then some (addToken .COMMA l)
  else if c = '.' then some (addToken .DOT l)
  else if c = ';' then some (addToken .SEMICOLON l)
  else if c = ':' then some (addToken .COLON l)
  else if c = '+' then some (addToken .PLUS l)
  else if c = '-' then some (addToken .MINUS l)
  else if c = '*' then some (addToken .STAR l)
  else if c = '%' then some (addToken .PERCENT l)
  else if c = '!' then
    let (m, l1) := matchChar '=' l
    some (addToken (if m then .BANG_EQUAL else .BANG) l1)
  else if c = '=' then
    let (m, l1) := matchChar '=' l
    some (addToken (if m then .EQUAL_EQUAL else .EQUAL) l1)
  else if c = '<' then
    let (m, l1) := matchChar '=' l
    some (addToken (if m then .LESS_EQUAL else .LESS) l1)
  else if c = '>' then
    let (m, l1) := matchChar '=' l
    some (addToken (if m then .GREATER_EQUAL else .GREATER) l1)
  else if c = '&' then
    let (m, l1) := matchChar '&' l
    if m then some (addToken .AND l1)
    else some (reportError "Unexpected character '&'".toList l1)
  else if c = '|' then
    let (m, l1) := matchChar '|' l
    if m then some (addToken .OR l1)
    else some (reportError "Unexpected character '|'".toList l1)
  else if c = '/' then
    let (m, l1) := matchChar '/' l
    if m then lineCommentLoop (l.source.length + 1) l1
    else
      let (m2, l2) := matchChar '*' l1
      if m2 then do
        let (l3, nesting) ← blockCommentLoop (l.source.length + 1) l2 1
        if 0 < nesting then some (reportError "Unterminated comment".toList l3)
        else some l3
      else some (addToken .SLASH l2)
  else if c = ' ' || c = '\r' || c = '\t' then some l
  else if c = '\n' then some { l with line := l.line + 1, column := 1 }
  else if c = '"' then scanString l
  else if isdigit c then scanNumber l
  else if isalpha c || c = '_' then scanIdentifier getKeyword l
  else some (reportError ("Unexpected character '".toList ++ [c] ++ "'".toList) l)

/-- The loop of `scanTokens`; `none` when `fuel` runs out. -/
def scanTokensLoop (getKeyword : List Char → TokenType) : Nat → Lexer → Option Lexer
  | 0, _ => none
  | fuel + 1, l =>
    if !isAtEnd l then
      (scanToken getKeyword { l with start := l.current }).bind
        (scanTokensLoop getKeyword fuel)
    else some l

/-- The method `Lexer::scanTokens`: the returned vector, and the state the lexer is
left in. -/
def scanTokens (getKeyword : List Char → TokenType) (l : Lexer) :
    Option (List Token × Lexer) := do
  let l0 := { l with tokens := [], start := 0, current := 0, line := 1, column := 1 }
  let l1 ← scanTokensLoop getKeyword (l0.source.length + 1) l0
  let l2 := { l1 with tokens := l1.tokens ++ [⟨.END_OF_FILE, [], l1.line, l1.column⟩] }
  some (l2.tokens, l2)

/-- The type and the lexeme of each token. -/
def typesAndLexemes (tokens : List Token) : List (TokenType × List Char) :=
  tokens.map (fun t => (t.type, t.lexeme))

/-- One element of the body of a string literal: an ordinary character, or one of
the escape sequences `\n`, `\t`, `\r`, `\"`, `\\`. -/
inductive StringPiece where
  | ordinary (c : Char)
  | newline
  | tab
  | carriageReturn
  | quote
  | backslash
deriving DecidableEq, Repr

/-- An ordinary character is neither the double quote nor the backslash. -/
def StringPiece.wellFormed : StringPiece → Bool
  | .ordinary c => c != '"' && c != '\\'
  | _ => true

/-- The spelling of the piece in the source text. -/
def StringPiece.sourceText : StringPiece → List Char
  | .ordinary c => [c]
  | .newline => ['\\', 'n']
  | .tab => ['\\', 't']
  | .carriageReturn => ['\\', 'r']
  | .quote => ['\\', '"']
  | .backslash => ['\\', '\\']

/-- The single character the piece denotes. -/
def StringPiece.denotes : StringPiece → Char
  | .ordinary c => c
  | .newline => '\n'
  | .tab => '\t'
  | .carriageReturn => '\r'
  | .quote => '"'
  | .backslash => '\\'

/-- The source text of the body of a string literal. -/
def bodyText (body : List StringPiece) : List Char :=
  (body.map StringPiece.sourceText).flatten

/-- The source text of a string literal: the body between double quotes. -/
def stringLiteral (body : List StringPiece) : List Char :=
  '"' :: (bodyText body ++ ['"'])

/-- The state after the scanner has moved over `n` more characters of the same
source, without a token or a report, whatever happened to the line and column
counters. -/
def MovedBy (n : Nat) (l l' : Lexer) : Prop :=
  l'.source = l.source ∧ l'.current = l.current + n ∧ l'.tokens = l.tokens ∧
    l'.diagnostics = l.diagnostics ∧ l'.start = l.start ∧ l'.filename = l.filename

/-! ## Keywords (`token.cpp`) -/

/-- Modelled from the spec: `Keywords::keywords` is defined in `token.cpp`, which is
not among the sources. The table maps each keyword spelling to the token type of
the same name, as `test_keywords` reads them back. -/
def Keywords.keywords : List (List Char × TokenType) :=
  [("function".toList, .FUNCTION), ("var".toList, .VAR), ("const".toList, .CONST),
   ("if".toList, .IF), ("else".toList, .ELSE), ("while".toList, .WHILE),
   ("for".toList, .FOR), ("return".toList, .RETURN), ("break".toList, .BREAK),
   ("continue".toList, .CONTINUE), ("true".toList, .TRUE), ("false".toList, .FALSE),
   ("nil".toList, .NIL)]

/-- Modelled from the spec: `Keywords::getKeyword` is defined in `token.cpp`, which
is not among the sources. It returns the type the table gives for the text, and
`IDENTIFIER` for a text that is not a keyword. -/
def Keywords.getKeyword (text : List Char) : TokenType :=
  match Keywords.keywords.find? (fun p => p.1 = text) with
  | some p => p.2
  | none => .IDENTIFIER

/-! ## Vocabulary of the lexer statements -/

/-- The types of the returned tokens, in order. -/
def typesOf (tokens : List Token) : List TokenType := tokens.map (fun t => t.type)

/-- The token types that `scanToken` and the methods it calls pass as constants to
`addToken` or to the `ERROR` token of `reportError`. -/
def fixedTokenTypes : List TokenType :=
  [.ERROR, .INTEGER_LITERAL, .FLOAT_LITERAL, .STRING_LITERAL, .BOOL_LITERAL,
   .PLUS, .MINUS, .STAR, .SLASH, .PERCENT, .EQUAL, .EQUAL_EQUAL, .BANG, .BANG_EQUAL,
   .LESS, .LESS_EQUAL, .GREATER, .GREATER_EQUAL, .AND, .OR, .DOT, .COMMA, .SEMICOLON,
   .COLON, .LEFT_PAREN, .RIGHT_PAREN, .LEFT_BRACE, .RIGHT_BRACE, .LEFT_BRACKET,
   .RIGHT_BRACKET]

/-- A type a token added during scanning can have: one of the constants, or a type
returned by `getKeyword` other than `TRUE` and `FALSE`. -/
def EmittedType (getKeyword : List Char → TokenType) (ty : TokenType) : Prop :=
  ty ∈ fixedTokenTypes ∨ ∃ text, ty = getKeyword text ∧ ty ≠ .TRUE ∧ ty ≠ .FALSE

/-- A later state of the same scan: the same source and file name, a position not
before, and the token list extended by tokens of emitted types. -/
def Extends (getKeyword : List Char → TokenType) (l l1 : Lexer) : Prop :=
  l1.source = l.source ∧ l1.filename = l.filename ∧ l.current ≤ l1.current ∧
    ∃ added, l1.tokens = l.tokens ++ added ∧ ∀ t ∈ added, EmittedType getKeyword t.type

/-- A whitespace character of the lexer: space, carriage return, tab or newline. -/
def isWhitespace (c : Char) : Bool := c = ' ' || c = '\r' || c = '\t' || c = '\n'

/-- A character that continues an identifier. -/
def isWordChar (c : Char) : Bool := isalnum c || c = '_'

/-- A word: a letter or an underscore followed by letters, digits and underscores. -/
def isWord : List Char → Bool
  | [] => false
  | c :: cs => (isalpha c || c = '_') && cs.all isWordChar

/-- The text does not go on with a character satisfying `p`. -/
def notContinuedBy (p : Char → Bool) : List Char → Bool
  | [] => true
  | c :: _ => !p c

/-- The type `scanIdentifier` gives a word whose keyword lookup returns `ty`. -/
def wordType (ty : TokenType) : TokenType :=
  if ty = .TRUE ∨ ty = .FALSE then .BOOL_LITERAL else ty

/-- The one-character tokens of `scanToken` that depend on nothing after them. -/
def singleCharTokens : List (Char × TokenType) :=
  [('(', .LEFT_PAREN), (')', .RIGHT_PAREN), ('{', .LEFT_BRACE), ('}', .RIGHT_BRACE),
   ('[', .LEFT_BRACKET), (']', .RIGHT_BRACKET), (',', .COMMA), ('.', .DOT),
   (';', .SEMICOLON), (':', .COLON), ('+', .PLUS), ('-', .MINUS), ('*', .STAR),
   ('%', .PERCENT)]

/-- The operators that take a following `=` into a two-character token: the
character, the type alone, the type with `=`. -/
def equalOperators : List (Char × TokenType × TokenType) :=
  [('!', .BANG, .BANG_EQUAL), ('=', .EQUAL, .EQUAL_EQUAL), ('<', .LESS, .LESS_EQUAL),
   ('>', .GREATER, .GREATER_EQUAL)]

/-- The characters that start an operator or a punctuation token, or a comment. -/
def operatorChars : List Char :=
  ['(', ')', '{', '}', '[', ']', ',', '.', ';', ':', '+', '-', '*', '%', '!', '=', '<', '>',
   '&', '|', '/']

/-- A character that cannot start a token: not whitespace, not a digit, a letter or
an underscore, not a double quote, not an operator or punctuation character. -/
def cannotStartToken (c : Char) : Bool :=
  !isWhitespace c && !isdigit c && !isalpha c && c != '_' && c != '"' &&
    !operatorChars.contains c

/-- The message of the error for an unexpected character. -/
def unexpectedCharacter (c : Char) : List Char :=
  "Unexpected character '".toList ++ [c] ++ "'".toList

/-- Reading the text after the opener of a block comment at nesting depth `n`: the
text left after the comment is closed, or `none` when the text ends inside the
comment. -/
def afterComment : List Char → Nat → Option (List Char)
  | [], _ => none
  | '/' :: '*' :: rest, n => afterComment rest (n + 1)
  | '*' :: '/' :: rest, n => if n ≤ 1 then some rest else afterComment rest (n - 1)
  | _ :: rest, n => afterComment rest n

/-- Reading the markers `/*` and `*/` of a text from left to right, without overlap,
at depth `d` above the start: the depth at the end and whether the text ends with
a `/` that belongs to no marker; `none` when a `*/` closes more than was opened. -/
def markerScan : List Char → Nat → Option (Nat × Bool)
  | [], d => some (d, false)
  | '/' :: '*' :: rest, d => markerScan rest (d + 1)
  | '*' :: '/' :: rest, d => if d = 0 then none else markerScan rest (d - 1)
  | ['/'], d => some (d, true)
  | _ :: rest, d => markerScan rest d

/-- The markers of the text are balanced and never close more than they open. -/
def markersBalanced (t : List Char) : Bool :=
  match markerScan t 0 with
  | some (0, _) => true
  | _ => false

/-- The markers are balanced and the text does not end with a `/` outside a
marker. -/
def markersClosed (t : List Char) : Bool := markerScan t 0 == some (0, false)

/-- Reading the text after the opening quote of a string literal: `true` when no
unescaped `"` closes it; a backslash escapes the character after it. -/
def stringUnterminated : List Char → Bool
  | [] => true
  | '\\' :: _ :: rest => stringUnterminated rest
  | '"' :: _ => false
  | _ :: rest => stringUnterminated rest

/-- The tokens correspond one to one, with equal types and lexemes; when `pos` is
set, also with equal columns and with lines that differ by `dl`. -/
def TokenShift (pos : Bool) (dl : Int) (t t' : Token) : Prop :=
  t'.type = t.type ∧ t'.lexeme = t.lexeme ∧
    (pos = true → t'.line = t.line + dl ∧ t'.column = t.column)

/-- The state `l'` scans the source of `l` behind the text `pre`: the positions
are those of `l` moved by the length of `pre`, and the tokens correspond. -/
def ShiftRel (pre : List Char) (pos : Bool) (dl : Int) (l l' : Lexer) : Prop :=
  l'.source = pre ++ l.source ∧ l'.current = pre.length + l.current ∧
    l'.start = pre.length + l.start ∧
    List.Forall₂ (TokenShift pos dl) l.tokens l'.tokens ∧
    (pos = true → l'.line = l.line + dl ∧ l'.column = l.column)

/-- The same correspondence between two states of the loop of `scanTokens`, where
`start` is not yet set. -/
def ShiftTop (pre : List Char) (pos : Bool) (dl : Int) (l l' : Lexer) : Prop :=
  l'.source = pre ++ l.source ∧ l'.current = pre.length + l.current ∧
    List.Forall₂ (TokenShift pos dl) l.tokens l'.tokens ∧
    (pos = true → l'.line = l.line + dl ∧ l'.column = l.column)

/-- The tokens have equal types, and equal lexemes when `strict` is set. -/
def TokenSame (strict : Bool) (t t' : Token) : Prop :=
  t'.type = t.type ∧ (strict = true → t'.lexeme = t.lexeme)

/-- A whitespace character or the null character that `peek` gives at the end. -/
def isBlankOrNull (c : Char) : Bool := isWhitespace c || c = Char.ofNat 0

/-- A test on a character that fails on whitespace and on the null character. -/
def BlankBlind (p : Char → Bool) : Prop := ∀ c, isBlankOrNull c = true → p c = false

/-- The state `l'` scans the source of `l` followed by the whitespace `w`, with
corresponding tokens: of equal types, and of equal lexemes too when `strict` is
set and `l` has not moved past the end of its source. Once `l` has moved past the
end, its source ends with a backslash and, unless `w` is empty, some lexeme
differs. -/
structure ExtBase (w : List Char) (strict : Bool) (l l' : Lexer) : Prop where
  source : l'.source = l.source ++ w
  blank : w.all isWhitespace = true
  over : l.source.length < l.current →
    l.source.getLast? = some '\\' ∧
      (w ≠ [] → ¬ List.Forall₂ (TokenSame true) l.tokens l'.tokens)
  tokens : List.Forall₂ (TokenSame (strict && decide (l.current ≤ l.source.length)))
    l.tokens l'.tokens

/-- Both states are at the same position, not beyond the source of `l`. -/
structure ExtLock (w : List Char) (strict : Bool) (l l' : Lexer) : Prop where
  base : ExtBase w strict l l'
  current : l'.current = l.current
  start : l'.start = l.start
  bound : l.current ≤ l.source.length

/-- Both states are at or beyond the end of the source of `l`. -/
structure ExtDone (w : List Char) (strict : Bool) (l l' : Lexer) : Prop where
  base : ExtBase w strict l l'
  left : l.source.length ≤ l.current
  right : l.source.length ≤ l'.current

/-- The two states after a token: at the same position, or both past the source of
`l`. -/
def ExtRel (w : List Char) (strict : Bool) (l l' : Lexer) : Prop :=
  ExtLock w strict l l' ∨ ExtDone w strict l l'

/-- The case of the `switch` of `scanToken` that a first character selects. -/
inductive StartKind where
  | single (ty : TokenType)
  | withEqual (alone both : TokenType)
  | ampersand
  | bar
  | slash
  | blank
  | newline
  | quote
  | digit
  | letter
  | other
deriving DecidableEq, Repr

/-- The case selected by the character `c`, in the order of the tests of
`scanToken`. -/
def startKind (c : Char) : StartKind :=
  if c = '(' then .single .LEFT_PAREN
  else if c = ')' then .single .RIGHT_PAREN
  else if c = '{' then .single .LEFT_BRACE
  else if c = '}' then .single .RIGHT_BRACE
  else if c = '[' then .single .LEFT_BRACKET
  else if c = ']' then .single .RIGHT_BRACKET
  else if c = ',' then .single .COMMA
  else if c = '.' then .single .DOT
  else if c = ';' then .single .SEMICOLON
  else if c = ':' then .single .COLON
  else if c = '+' then .single .PLUS
  else if c = '-' then .single .MINUS
  else if c = '*' then .single .STAR
  else if c = '%' then .single .PERCENT
  else if c = '!' then .withEqual .BANG .BANG_EQUAL
  else if c = '=' then .withEqual .EQUAL .EQUAL_EQUAL
  else if c = '<' then .withEqual .LESS .LESS_EQUAL
  else if c = '>' then .withEqual .GREATER .GREATER_EQUAL
  else if c = '&' then .ampersand
  else if c = '|' then .bar
  else if c = '/' then .slash
  else if c = ' ' || c = '\r' || c = '\t' then .blank
  else if c = '\n' then .newline
  else if c = '"' then .quote
  else if isdigit c then .digit
  else if isalpha c || c = '_' then .letter
  else .other

/-- The body of the case of `scanToken` for a first character `c` of kind `k`, on
the state `l` after that character. -/
def scanTokenCase (getKeyword : List Char → TokenType) (k : StartKind) (c : Char)
    (l : Lexer) : Option Lexer :=
  match k with
  | .single ty => some (addToken ty l)
  | .withEqual alone both =>
    some (addToken (if (matchChar '=' l).1 then both else alone) (matchChar '=' l).2)
  | .ampersand =>
    if (matchChar '&' l).1 then some (addToken .AND (matchChar '&' l).2)
    else some (reportError "Unexpected character '&'".toList (matchChar '&' l).2)
  | .bar =>
    if (matchChar '|' l).1 then some (addToken .OR (matchChar '|' l).2)
    else some (reportError "Unexpected character '|'".toList (matchChar '|' l).2)
  | .slash =>
    if (matchChar '/' l).1 then lineCommentLoop (l.source.length + 1) (matchChar '/' l).2
    else if (matchChar '*' (matchChar '/' l).2).1 then
      (blockCommentLoop (l.source.length + 1) (matchChar '*' (matchChar '/' l).2).2 1).bind
        (fun r => if 0 < r.2 then some (reportError "Unterminated comment".toList r.1)
          else some r.1)
    else some (addToken .SLASH (matchChar '*' (matchChar '/' l).2).2)
  | .blank => some l
  | .newline => some { l with line := l.line + 1, column := 1 }
  | .quote => scanString l
  | .digit => scanNumber l
  | .letter => scanIdentifier getKeyword l
  | .other => some (reportError ("Unexpected character '".toList ++ [c] ++ "'".toList) l)

/-- The token types of the kind are among the constants of `scanToken`. -/
def StartKind.valid : StartKind → Bool
  | .single ty => decide (ty ∈ fixedTokenTypes)
  | .withEqual alone both => decide (alone ∈ fixedTokenTypes) && decide (both ∈ fixedTokenTypes)
  | _ => true

/-- Whenever the first computation returns a state, the second returns a state
related to it by `R`. -/
def OptSim (R : Lexer → Lexer → Prop) (x x' : Option Lexer) : Prop :=
  ∀ r, x = some r → ∃ r', x' = some r' ∧ R r r'

/-- The same for computations that return a state and a value: the states are
related and the values are equal. -/
def OptSimWith {α : Type} (R : Lexer → Lexer → Prop) (x x' : Option (Lexer × α)) : Prop :=
  ∀ r, x = some r → ∃ r', x' = some r' ∧ R r.1 r'.1 ∧ r'.2 = r.2

/-- The hexadecimal branch of `scanNumber`, after the test for `0x`. -/
def scanHexDigits (l : Lexer) : Option Lexer :=
  (advanceWhile isxdigit (l.source.length + 1) (advance l).2 false).bind (fun r =>
    if !r.2 then some (reportError "Invalid hexadecimal number".toList r.1)
    else some (addToken .INTEGER_LITERAL r.1))

/-- The binary branch of `scanNumber`, after the test for `0b`. -/
def scanBinaryDigits (l : Lexer) : Option Lexer :=
  (advanceWhile (fun c => c = '0' || c = '1') (l.source.length + 1) (advance l).2 false).bind
    (fun r =>
      if !r.2 then some (reportError "Invalid binary number".toList r.1)
      else some (addToken .INTEGER_LITERAL r.1))

/-- The state of `scanNumber` after the optional sign of an exponent. -/
def afterSign (l : Lexer) : Lexer :=
  if peek l = '+' || peek l = '-' then (advance l).2 else l

/-- The part of `scanNumber` for scientific notation, on the state `l` after the
digits of the fraction; `fuel` is that of the digit loops. -/
def scanExponent (fuel : Nat) (l : Lexer) : Option Lexer :=
  if peek l = 'e' || peek l = 'E' then
    if !isdigit (peek (afterSign (advance l).2)) then
      some (reportError "Invalid scientific notation".toList (afterSign (advance l).2))
    else
      (advanceWhile isdigit fuel (afterSign (advance l).2) false).bind (fun r =>
        some (addToken .FLOAT_LITERAL r.1))
  else some (addToken .FLOAT_LITERAL l)

/-- The part of `scanNumber` for the decimal part, on the state `l` after the
digits of the integer part. -/
def scanFraction (fuel : Nat) (l : Lexer) : Option Lexer :=
  if peek l = '.' && isdigit (peekNext l) then
    (advanceWhile isdigit fuel (advance l).2 false).bind (fun r => scanExponent fuel r.1)
  else some (addToken .INTEGER_LITERAL l)

/-- The decimal branch of `scanNumber`. -/
def scanDecimal (l : Lexer) : Option Lexer :=
  (advanceWhile isdigit (l.source.length + 1) l false).bind (fun r =>
    scanFraction (l.source.length + 1) r.1)

/-- The state of the loop of `scanTokens` after `n` more characters of the same
source were scanned without a token and without a report. -/
def MovedTop (n : Nat) (l l1 : Lexer) : Prop :=
  l1.source = l.source ∧ l1.current = l.current + n ∧ l1.tokens = l.tokens ∧
    l1.diagnostics = l.diagnostics ∧ l1.filename = l.filename

/-- At the state `l`, `scanToken` consumes `n` characters and adds exactly one
token, of type `ty` and with lexeme `lexeme`, without a report. -/
def EmitsToken (getKeyword : List Char → TokenType) (l : Lexer) (n : Nat) (ty : TokenType)
    (lexeme : List Char) : Prop :=
  ∃ (l1 : Lexer) (token : Token), scanToken getKeyword l = some l1 ∧
    l1.source = l.source ∧ l1.current = l.current + n ∧ l1.tokens = l.tokens ++ [token] ∧
    token.type = ty ∧ token.lexeme = lexeme ∧ l1.diagnostics = l.diagnostics

/-- At the state `l`, `scanToken` consumes `n` characters, adds exactly one `ERROR`
token whose lexeme is `message` and reports one diagnostic of severity `ERROR` with
that message. -/
def ReportsError (getKeyword : List Char → TokenType) (l : Lexer) (n : Nat)
    (message : List Char) : Prop :=
  ∃ (l1 : Lexer) (token : Token) (d : Diagnostic), scanToken getKeyword l = some l1 ∧
    l1.source = l.source ∧ l1.current = l.current + n ∧ l1.tokens = l.tokens ++ [token] ∧
    token.type = .ERROR ∧ token.lexeme = message ∧
    l1.diagnostics = l.diagnostics ++ [d] ∧ d.severity = .ERROR ∧ d.message = message

/-- The characters with a case of their own in `scanToken`. -/
def specialChars : List Char := operatorChars ++ [' ', '\r', '\t', '\n', '"']

/-- The operators with a token of their own, as the specification lists them: the
operator text and its token type. -/
def operatorTable : List (List Char × TokenType) :=
  [("+".toList, .PLUS), ("-".toList, .MINUS), ("*".toList, .STAR), ("/".toList, .SLASH),
   ("%".toList, .PERCENT), ("!=".toList, .BANG_EQUAL), ("==".toList, .EQUAL_EQUAL),
   ("<=".toList, .LESS_EQUAL), (">=".toList, .GREATER_EQUAL), ("!".toList, .BANG),
   ("=".toList, .EQUAL), ("<".toList, .LESS), (">".toList, .GREATER),
   ("&&".toList, .AND), ("||".toList, .OR)]

/-- One or more characters, all satisfying `p`. -/
def isRunOf (p : Char → Bool) (ds : List Char) : Bool := !ds.isEmpty && ds.all p

/-- The optional exponent of a decimal number: the letter `e` or `E`, an optional
sign and the digits. -/
inductive Exponent where
  | absent
  | present (marker : Char) (sign : Option Char) (digits : List Char)
deriving DecidableEq, Repr

/-- The text of the exponent. -/
def Exponent.text : Exponent → List Char
  | .absent => []
  | .present marker sign digits => marker :: (sign.toList ++ digits)

/-- The marker is `e` or `E`, the sign is `+` or `-` if there is one, and there is
at least one digit. -/
def Exponent.wellFormed : Exponent → Bool
  | .absent => true
  | .present marker sign digits =>
    (marker = 'e' || marker = 'E') && (sign = none || sign = some '+' || sign = some '-') &&
      isRunOf isdigit digits

/-- A decimal number with a fractional part and an optional exponent. -/
def floatText (integerPart fraction : List Char) (e : Exponent) : List Char :=
  integerPart ++ '.' :: (fraction ++ e.text)

/-- The text after the number does not continue it: no digit follows, and no `e` or
`E` follows a number without exponent. -/
def Exponent.endsBefore (e : Exponent) (rest : List Char) : Bool :=
  match e with
  | .absent => notContinuedBy (fun c => isdigit c || c = 'e' || c = 'E') rest
  | .present _ _ _ => notContinuedBy isdigit rest

/-- The state after the scanner has moved over `n` more characters of the same
source, adding nothing but `ERROR` tokens. -/
def OnlyErrors (n : Nat) (l l1 : Lexer) : Prop :=
  l1.source = l.source ∧ l1.current = l.current + n ∧ l1.start = l.start ∧
    ∃ added, l1.tokens = l.tokens ++ added ∧ ∀ t ∈ added, t.type = .ERROR

/-- From the position of the state on, the source holds only whitespace. -/
def TailBlank (l : Lexer) : Prop :=
  ∀ j, l.current ≤ j → j < l.source.length → isWhitespace (charAt l.source j) = true

/-- The two states of the loop of `scanTokens` between tokens: at the same position
within the source of `l`, or both at or beyond its end. -/
def ExtTop (w : List Char) (strict : Bool) (l l' : Lexer) : Prop :=
  ExtBase w strict l l' ∧
    ((l'.current = l.current ∧ l.current ≤ l.source.length) ∨
      (l.source.length ≤ l.current ∧ l.source.length ≤ l'.current))

/-! ## The execution engine (`src/jit.cpp`) -/

/-- An `llvm::Module` as far as `JIT::addModule` is concerned: its identifier and
the address of the `llvm::LLVMContext` it was created in (what
`Module::getContext` returns). -/
structure Module where
  name : List Char
  context : Nat
deriving DecidableEq, Repr

/-- The object `llvm::orc::ThreadSafeModule(module, context)`: a module and the
address of the context paired with it. -/
structure ThreadSafeModule where
  module : Module
  context : Nat
deriving DecidableEq, Repr

/-- The `llvm::LLVMContext` objects alive: the addresses below `contexts` are taken,
each by one context. -/
structure Heap where
  contexts : Nat
deriving DecidableEq, Repr

/-- The call `std::make_unique<llvm::LLVMContext>()`: a new context, at an address
no context alive has, and the heap after it. -/
def makeUniqueContext (h : Heap) : Nat × Heap :=
  (h.contexts, { h with contexts := h.contexts + 1 })

/-- The state of a `JIT` that `addModule` changes: the arguments `compile_layer.add`
has received for `main_jd`, in call order. -/
structure JIT where
  added : List ThreadSafeModule
deriving DecidableEq, Repr

/-- A `JIT` as `JIT::create` returns it: nothing added yet. -/
def JIT.new : JIT := { added := [] }

/-- The call `compile_layer.add(main_jd, tsm)`. -/
def JIT.compileLayerAdd (tsm : ThreadSafeModule) (jit : JIT) : JIT :=
  { jit with added := jit.added ++ [tsm] }

/-- The method `JIT::addModule` (`jit.cpp`, lines 36-39): the module is paired with
the result of `std::make_unique<llvm::LLVMContext>()` and handed to the compile
layer. -/
def JIT.addModule (module : Module) (jit : JIT) (h : Heap) : JIT × Heap :=
  let (context, h1) := makeUniqueContext h
  (jit.compileLayerAdd ⟨module, context⟩, h1)

/-- Modelled from the spec: `codegen.cpp` is not among the sources. The heap once a
`CodeGenerator` has created its `context` member (`codegen.hpp`, line 26), at
address 0. -/
def codeGeneratorHeap : Heap := { contexts := 1 }

/-- Modelled from the spec: `codegen.cpp` is not among the sources. The `module`
member of a `CodeGenerator` (`codegen.hpp`, line 28), created in the context of the
same object. -/
def generatedModule : Module := { name := "main_module".toList, context := 0 }

/-! ## Braces and parentheses of the emitted text -/

/-- A character that is neither a brace nor a parenthesis. -/
def notBracket (c : Char) : Bool := c != '{' && c != '}' && c != '(' && c != ')'

mutual
/-- Every identifier and every string literal of the statement consists of
characters satisfying `p`: the names of variables, functions and parameters, and
what `namesSatisfyExpr` covers in the expressions. -/
def namesSatisfyStmt (p : Char → Bool) : Stmt → Bool
  | .Expression expression => namesSatisfyExprPtr p expression
  | .VarDecl name _ initializer => allChars p name.lexeme && namesSatisfyExprPtr p initializer
  | .Block statements => namesSatisfyStatements p statements
  | .If condition thenBranch elseBranch =>
    namesSatisfyExprPtr p condition && namesSatisfyStmtPtr p thenBranch &&
      namesSatisfyStmtPtr p elseBranch
  | .While condition body => namesSatisfyExprPtr p condition && namesSatisfyStmtPtr p body
  | .Function name params body =>
    allChars p name.lexeme && params.all (fun q => allChars p q.lexeme) &&
      namesSatisfyStatements p body
  | .Return value => namesSatisfyExprPtr p value
/-- The same for a statement pointer; a null pointer holds no name. -/
def namesSatisfyStmtPtr (p : Char → Bool) : Option Stmt → Bool
  | none => true
  | some s => namesSatisfyStmt p s
/-- The same for a statement list. -/
def namesSatisfyStatements (p : Char → Bool) : List (Option Stmt) → Bool
  | [] => true
  | s :: rest => namesSatisfyStmtPtr p s && namesSatisfyStatements p rest
end

/-- The nesting depth after reading the text from depth `d`, with `o` opening and
`c` closing; `none` when a `c` stands where nothing is open. -/
def depthAfter (o c : Char) : List Char → Nat → Option Nat
  | [], d => some d
  | x :: xs, d =>
    if x = o then depthAfter o c xs (d + 1)
    else if x = c then (if d = 0 then none else depthAfter o c xs (d - 1))
    else depthAfter o c xs d

/-- The text has as many `o` as `c`, and no prefix of it has more `c` than `o`. -/
def Balanced (o c : Char) (s : List Char) : Prop :=
  s.count o = s.count c ∧ ∀ n, (s.take n).count c ≤ (s.take n).count o

/-- The two kinds of bracket the transpiler writes: parentheses and braces. -/
def IsBracketPair (o c : Char) : Prop := (o = '(' ∧ c = ')') ∨ (o = '{' ∧ c = '}')

/-! ## Lexemes and the source -/

/-- The lexemes of the tokens, concatenated in order. -/
def lexemesOf (tokens : List Token) : List Char := (tokens.map (fun t => t.lexeme)).flatten

/-- The text with every space, tab, carriage return and newline removed. -/
def withoutWhitespace (s : List Char) : List Char := s.filter (fun c => !isWhitespace c)

/-- The text holds a comment opener, `//` or `/*`. -/
def hasCommentOpener : List Char → Bool
  | [] => false
  | c :: rest =>
    (c = '/' && (rest.head? = some '/' || rest.head? = some '*')) || hasCommentOpener rest

/-- The state `m` is inside the token that `scanToken` started at the position of
the loop state `l`: nothing was added, and the characters scanned since then are
within the source and hold no whitespace. -/
def Inside (l m : Lexer) : Prop :=
  m.source = l.source ∧ m.tokens = l.tokens ∧ m.start = l.current ∧
    l.current ≤ m.current ∧ m.current ≤ l.source.length ∧
    (substr l.source l.current (m.current - l.current)).all (fun c => !isWhitespace c) = true

/-- The state of the loop of `scanTokens` between tokens, as far as the lexemes go:
an `ERROR` token was added, or the position is within the source and the lexemes
so far are the scanned text without its whitespace. -/
def Covered (l : Lexer) : Prop :=
  (∃ t ∈ l.tokens, t.type = .ERROR) ∨
    (l.current ≤ l.source.length ∧
      lexemesOf l.tokens = withoutWhitespace (l.source.take l.current))

/-- A source with keywords, numbers of every format, operators and whitespace. -/
def sampleSource : List Char :=
  "var x1 = 0x1F + 2.5e-3 / y;\n\twhile (true) \x7b x1 = x1 % 0b10; \x7d\r\n".toList

/-! # Properties -/

/-! ## The visitors append the closed-form text -/

theorem write_write (a b : List Char) (t : Transpiler) :
    write a (write b t) = write (b ++ a) t := by
  simp [write]

theorem write_nil (t : Transpiler) : write [] t = t := by
  simp [write]

mutual
theorem visitExpr_eq : ∀ (e : Expr) (t : Transpiler),
    visitExpr e t = (emitExpr e).map (fun x => write x t)
  | .Literal value, t => by
    cases value <;> simp [visitExpr, emitExpr, visitLiteralExpr, literalText]
  | .Unary op right, t => by
    simp only [visitExpr, emitExpr, acceptExpr_eq right]
    cases emitExprPtr right <;> simp [write_write]
  | .Binary left op right, t => by
    simp only [visitExpr, emitExpr, acceptExpr_eq left, acceptExpr_eq right]
    cases emitExprPtr left <;> cases emitExprPtr right <;> simp [write_write]
  | .Grouping expression, t => by
    simp only [visitExpr, emitExpr, acceptExpr_eq expression]
    cases emitExprPtr expression <;> simp [write_write]
  | .Variable name, t => by simp [visitExpr, emitExpr]
  | .Assign name value, t => by
    simp only [visitExpr, emitExpr, acceptExpr_eq value]
    cases emitExprPtr value <;> simp [write_write]
  | .Call callee arguments, t => by
    simp only [visitExpr, emitExpr, acceptExpr_eq callee, visitArguments_eq arguments]
    cases emitExprPtr callee <;> cases emitArguments arguments 0 <;> simp [write_write]
theorem acceptExpr_eq : ∀ (e : Option Expr) (t : Transpiler),
    acceptExpr e t = (emitExprPtr e).map (fun x => write x t)
  | none, t => by simp [acceptExpr, emitExprPtr]
  | some e, t => by simp [acceptExpr, emitExprPtr, visitExpr_eq e]
theorem visitArguments_eq : ∀ (a : List (Option Expr)) (i : Nat) (t : Transpiler),
    visitArguments a i t = (emitArguments a i).map (fun x => write x t)
  | [], i, t => by simp [visitArguments, emitArguments, write_nil]
  | a :: rest, i, t => by
    simp only [visitArguments, emitArguments, acceptExpr_eq a, visitArguments_eq rest]
    cases emitExprPtr a <;> cases emitArguments rest (i + 1) <;> simp [write_write]
    split <;> simp [write_write, write_nil]
end

theorem indentLoop_eq (n : Nat) (t : Transpiler) :
    indentLoop n t = write (List.replicate n "    ".toList).flatten t := by
  induction n generalizing t with
  | zero => simp [indentLoop, write]
  | succ n ih => simp [indentLoop, ih, write_write, List.replicate_succ]

theorem indent_eq (t : Transpiler) : indent t = write (indentText t.indent_level) t := by
  simp [indent, indentText, indentLoop_eq]

theorem writeLine_eq (line : List Char) (t : Transpiler) :
    writeLine line t = write (indentText t.indent_level ++ (line ++ "\n".toList)) t := by
  simp [writeLine, indent_eq, write_write]

@[simp] theorem indent_level_write (a : List Char) (t : Transpiler) :
    (write a t).indent_level = t.indent_level := rfl

@[simp] theorem indent_level_incIndent (t : Transpiler) :
    (incIndent t).indent_level = t.indent_level + 1 := rfl

theorem incIndent_write (a : List Char) (t : Transpiler) :
    incIndent (write a t) = write a (incIndent t) := rfl

theorem decIndent_write (a : List Char) (t : Transpiler) :
    decIndent (write a t) = write a (decIndent t) := rfl

theorem decIndent_incIndent (t : Transpiler) : decIndent (incIndent t) = t := by
  cases t; simp [decIndent, incIndent]

theorem writeParams_eq (ps : List Token) (i : Nat) (t : Transpiler) :
    writeParams ps i t = write (paramsText ps i) t := by
  induction ps generalizing i t with
  | nil => simp [writeParams, paramsText, write_nil]
  | cons p rest ih =>
    simp only [writeParams, paramsText, ih]
    split <;> simp [write_write]

theorem visitBranch_eq (isBlk : Bool) (accept : Transpiler → Option Transpiler)
    (f : Int → Option (List Char)) (t : Transpiler)
    (h : ∀ u : Transpiler, accept u = (f u.indent_level).map (fun x => write x u)) :
    visitBranch isBlk accept t =
      (emitBranch t.indent_level isBlk (f t.indent_level) (f (t.indent_level + 1))).map
        (fun x => write x t) := by
  cases isBlk with
  | true => simp [visitBranch, emitBranch, h]
  | false =>
    simp only [visitBranch, emitBranch, h, writeLine_eq, indent_level_write,
      indent_level_incIndent]
    cases f (t.indent_level + 1) <;>
      simp [write_write, incIndent_write, decIndent_write, decIndent_incIndent, wrapBraces]

mutual
theorem visitStmt_eq : ∀ (s : Stmt) (t : Transpiler),
    visitStmt s t = (emitStmt t.indent_level s).map (fun x => write x t)
  | .Expression expression, t => by
    simp only [visitStmt, emitStmt, acceptExpr_eq, indent_eq]
    cases emitExprPtr expression <;> simp [write_write]
  | .VarDecl name isConst initializer, t => by
    cases initializer with
    | none => simp [visitStmt, emitStmt, indent_eq, write_write]
    | some e =>
      simp only [visitStmt, emitStmt, acceptExpr_eq, indent_eq, emitExprPtr]
      cases emitExpr e <;> simp [write_write]
  | .Block statements, t => by
    simp only [visitStmt, emitStmt, writeLine_eq, visitStatements_eq statements,
      indent_level_write, indent_level_incIndent]
    cases emitStatements (t.indent_level + 1) statements <;>
      simp [write_write, incIndent_write, decIndent_write, decIndent_incIndent, wrapBraces]
  | .If condition thenBranch elseBranch, t => by
    have ihT := acceptStmt_eq thenBranch
    have ihE := acceptStmt_eq elseBranch
    cases elseBranch with
    | none =>
      simp only [visitStmt, emitStmt, acceptExpr_eq, indent_eq]
      cases emitExprPtr condition with
      | none => simp
      | some c =>
        simp only [Option.map_some', Option.some_bind, Option.bind_eq_bind]
        rw [visitBranch_eq _ _ (fun d => emitStmtPtr d thenBranch) _ ihT]
        simp only [indent_level_write]
        cases emitBranch t.indent_level (isBlock thenBranch)
          (emitStmtPtr t.indent_level thenBranch)
          (emitStmtPtr (t.indent_level + 1) thenBranch) <;> simp [write_write]
    | some s =>
      simp only [visitStmt, emitStmt, acceptExpr_eq, indent_eq]
      cases emitExprPtr condition with
      | none => simp
      | some c =>
        simp only [Option.map_some', Option.some_bind, Option.bind_eq_bind]
        rw [visitBranch_eq _ _ (fun d => emitStmtPtr d thenBranch) _ ihT]
        simp only [indent_level_write]
        cases emitBranch t.indent_level (isBlock thenBranch)
          (emitStmtPtr t.indent_level thenBranch)
          (emitStmtPtr (t.indent_level + 1) thenBranch) with
        | none => simp
        | some th =>
          simp only [Option.map_some', Option.some_bind, Option.bind_eq_bind]
          rw [visitBranch_eq _ _ (fun d => emitStmtPtr d (some s)) _ ihE]
          simp only [indent_level_write]
          cases emitBranch t.indent_level (isBlock (some s))
            (emitStmtPtr t.indent_level (some s))
            (emitStmtPtr (t.indent_level + 1) (some s)) <;> simp [write_write]
  | .While condition body, t => by
    have ihB := acceptStmt_eq body
    simp only [visitStmt, emitStmt, acceptExpr_eq, indent_eq]
    cases emitExprPtr condition with
    | none => simp
    | some c =>
      simp only [Option.map_some', Option.some_bind, Option.bind_eq_bind]
      rw [visitBranch_eq _ _ (fun d => emitStmtPtr d body) _ ihB]
      simp only [indent_level_write]
      cases emitBranch t.indent_level (isBlock body) (emitStmtPtr t.indent_level body)
        (emitStmtPtr (t.indent_level + 1) body) <;> simp [write_write]
  | .Function name params body, t => by
    simp only [visitStmt, emitStmt, writeLine_eq, visitStatements_eq body, indent_eq,
      writeParams_eq, indent_level_write, indent_level_incIndent]
    cases emitStatements (t.indent_level + 1) body with
    | none => simp
    | some b =>
      by_cases hm : name.lexeme = "main".toList <;> simp at hm <;>
        simp [hm, write_write, incIndent_write, decIndent_write, decIndent_incIndent, wrapBraces,
          writeLine_eq]
  | .Return value, t => by
    cases value with
    | none => simp [visitStmt, emitStmt, indent_eq, write_write]
    | some e =>
      simp only [visitStmt, emitStmt, acceptExpr_eq, indent_eq, emitExprPtr]
      cases emitExpr e <;> simp [write_write]
termination_by s => sizeOf s
theorem acceptStmt_eq : ∀ (s : Option Stmt) (t : Transpiler),
    acceptStmt s t = (emitStmtPtr t.indent_level s).map (fun x => write x t)
  | none, t => by simp [acceptStmt, emitStmtPtr]
  | some s, t => by simp [acceptStmt, emitStmtPtr, visitStmt_eq s]
termination_by s => sizeOf s
theorem visitStatements_eq : ∀ (ss : List (Option Stmt)) (t : Transpiler),
    visitStatements ss t = (emitStatements t.indent_level ss).map (fun x => write x t)
  | [], t => by simp [visitStatements, emitStatements, write_nil]
  | none :: rest, t => by simp [visitStatements, emitStatements, visitStatements_eq rest]
  | some s :: rest, t => by
    simp only [visitStatements, emitStatements, visitStmt_eq s, visitStatements_eq rest]
    cases emitStmt t.indent_level s <;> simp
    cases emitStatements t.indent_level rest <;> simp [write_write]
termination_by ss => sizeOf ss
end

/-! ## Texts on an empty buffer -/

theorem exprText_eq (e : Option Expr) : exprText e = emitExprPtr e := by
  simp only [exprText, acceptExpr_eq]
  cases emitExprPtr e <;> simp [write, Transpiler.new]

theorem stmtText_eq (d : Int) (s : Option Stmt) : stmtText d s = emitStmtPtr d s := by
  simp only [stmtText, acceptStmt_eq]
  cases emitStmtPtr d s <;> simp [write, Transpiler.new]

theorem statementsText_eq (d : Int) (ss : List (Option Stmt)) :
    statementsText d ss = emitStatements d ss := by
  simp only [statementsText, visitStatements_eq]
  cases emitStatements d ss <;> simp [write, Transpiler.new]

theorem transpile_eq (ss : List (Option Stmt)) (t : Transpiler) :
    transpile ss t = (emitStatements t.indent_level ss).map
      (fun body => (finalText body, { t with output := finalText body })) := by
  have hpre : ∀ u : Transpiler,
      write "\x7d\n\n".toList (write "    std::cout << message << std::endl;\n".toList
        (write "void print(const std::string& message) \x7b\n".toList
        (write "// Manascript runtime support\n".toList
        (write "#include <cmath>\n\n".toList (write "#include <functional>\n".toList
        (write "#include <vector>\n".toList (write "#include <string>\n".toList
        (write "#include <iostream>\n".toList u)))))))) = write prelude u := by
    intro u
    simp only [write_write, prelude, List.append_assoc]
  have hfall : ∀ u : Transpiler,
      write "\x7d\n".toList (write "    return 0;\n".toList
        (write "    // Your code here\n".toList (write "int main() \x7b\n".toList
          (write "\n// Auto-generated main function\n".toList u)))) = write fallbackMain u := by
    intro u
    simp only [write_write, fallbackMain, List.append_assoc]
  simp only [transpile, hpre, hfall, visitStatements_eq, indent_level_write]
  cases emitStatements t.indent_level ss with
  | none => simp
  | some body =>
    simp only [Option.map_some', Option.some_bind, Option.bind_eq_bind, finalText]
    simp only [indent_level_write, write, List.nil_append, List.append_assoc]
    generalize find (prelude ++ body) "int main(".toList = r
    cases r <;> simp

theorem emitStatements_flatten (d : Int) :
    ∀ (ss : List (Option Stmt)) (body : List Char), emitStatements d ss = some body →
      ∃ texts : List (List Char),
        List.Forall₂ (fun s x => emitStmt d s = some x) (ss.filterMap id) texts ∧
          body = texts.flatten
  | [], body, h => by
    simp only [emitStatements, Option.some.injEq] at h
    exact ⟨[], by simp, by simp [← h]⟩
  | none :: rest, body, h => by
    simp only [emitStatements] at h
    obtain ⟨texts, h1, h2⟩ := emitStatements_flatten d rest body h
    exact ⟨texts, by simpa using h1, h2⟩
  | some s :: rest, body, h => by
    simp only [emitStatements, Option.bind_eq_some, Option.map_eq_some'] at h
    obtain ⟨x, hx, y, hy, rfl⟩ := h
    obtain ⟨texts, h1, h2⟩ := emitStatements_flatten d rest y hy
    refine ⟨x :: texts, ?_, by simp [h2]⟩
    have hf : (some s :: rest).filterMap id = s :: rest.filterMap id := by simp
    rw [hf]
    exact List.Forall₂.cons hx h1

/-! ## Well-formed trees are rendered -/

mutual
theorem emitExpr_isSome : ∀ e : Expr, wellFormedExpr e = true → ∃ x, emitExpr e = some x
  | .Literal value, _ => by simp [emitExpr]
  | .Unary op right, h => by
    simp only [wellFormedExpr] at h
    obtain ⟨x, hx⟩ := emitExprPtr_isSome right h
    simp [emitExpr, hx]
  | .Binary left op right, h => by
    simp only [wellFormedExpr, Bool.and_eq_true] at h
    obtain ⟨x, hx⟩ := emitExprPtr_isSome left h.1
    obtain ⟨y, hy⟩ := emitExprPtr_isSome right h.2
    simp [emitExpr, hx, hy]
  | .Grouping expression, h => by
    simp only [wellFormedExpr] at h
    obtain ⟨x, hx⟩ := emitExprPtr_isSome expression h
    simp [emitExpr, hx]
  | .Variable name, _ => by simp [emitExpr]
  | .Assign name value, h => by
    simp only [wellFormedExpr] at h
    obtain ⟨x, hx⟩ := emitExprPtr_isSome value h
    simp [emitExpr, hx]
  | .Call callee arguments, h => by
    simp only [wellFormedExpr, Bool.and_eq_true] at h
    obtain ⟨x, hx⟩ := emitExprPtr_isSome callee h.1
    obtain ⟨y, hy⟩ := emitArguments_isSome arguments 0 h.2
    simp [emitExpr, hx, hy]
theorem emitExprPtr_isSome : ∀ e : Option Expr, wellFormedExprPtr e = true →
    ∃ x, emitExprPtr e = some x
  | none, h => by simp [wellFormedExprPtr] at h
  | some e, h => by
    simp only [wellFormedExprPtr] at h
    simpa [emitExprPtr] using emitExpr_isSome e h
theorem emitArguments_isSome : ∀ (a : List (Option Expr)) (i : Nat),
    wellFormedArguments a = true → ∃ x, emitArguments a i = some x
  | [], _, _ => by simp [emitArguments]
  | a :: rest, i, h => by
    simp only [wellFormedArguments, Bool.and_eq_true] at h
    obtain ⟨x, hx⟩ := emitExprPtr_isSome a h.1
    obtain ⟨y, hy⟩ := emitArguments_isSome rest (i + 1) h.2
    simp [emitArguments, hx, hy]
end

theorem emitBranch_isSome (d : Int) (isBlk : Bool) (same deeper : Option (List Char))
    (h1 : ∃ x, same = some x) (h2 : ∃ x, deeper = some x) :
    ∃ x, emitBranch d isBlk same deeper = some x := by
  obtain ⟨x, hx⟩ := h1
  obtain ⟨y, hy⟩ := h2
  cases isBlk <;> simp [emitBranch, hx, hy]

mutual
theorem emitStmt_isSome : ∀ (s : Stmt) (d : Int), wellFormedStmt s = true →
    ∃ x, emitStmt d s = some x
  | .Expression expression, d, h => by
    simp only [wellFormedStmt] at h
    obtain ⟨x, hx⟩ := emitExprPtr_isSome expression h
    simp [emitStmt, hx]
  | .VarDecl name isConst none, d, _ => by simp [emitStmt]
  | .VarDecl name isConst (some e), d, h => by
    simp only [wellFormedStmt] at h
    obtain ⟨x, hx⟩ := emitExpr_isSome e h
    simp [emitStmt, hx]
  | .Block statements, d, h => by
    simp only [wellFormedStmt] at h
    obtain ⟨x, hx⟩ := emitStatements_isSome statements (d + 1) h
    simp [emitStmt, hx]
  | .If condition thenBranch none, d, h => by
    simp only [wellFormedStmt, Bool.and_eq_true] at h
    obtain ⟨c, hc⟩ := emitExprPtr_isSome condition h.1.1
    obtain ⟨x, hx⟩ := emitBranch_isSome d (isBlock thenBranch) _ _
      (emitStmtPtr_isSome thenBranch d h.1.2) (emitStmtPtr_isSome thenBranch (d + 1) h.1.2)
    simp [emitStmt, hc, hx]
  | .If condition thenBranch (some s), d, h => by
    simp only [wellFormedStmt, Bool.and_eq_true] at h
    obtain ⟨c, hc⟩ := emitExprPtr_isSome condition h.1.1
    obtain ⟨x, hx⟩ := emitBranch_isSome d (isBlock thenBranch) _ _
      (emitStmtPtr_isSome thenBranch d h.1.2) (emitStmtPtr_isSome thenBranch (d + 1) h.1.2)
    have hs : wellFormedStmtPtr (some s) = true := by simpa [wellFormedStmtPtr] using h.2
    obtain ⟨y, hy⟩ := emitBranch_isSome d (isBlock (some s)) _ _
      (emitStmtPtr_isSome (some s) d hs) (emitStmtPtr_isSome (some s) (d + 1) hs)
    simp [emitStmt, hc, hx, hy]
  | .While condition body, d, h => by
    simp only [wellFormedStmt, Bool.and_eq_true] at h
    obtain ⟨c, hc⟩ := emitExprPtr_isSome condition h.1
    obtain ⟨x, hx⟩ := emitBranch_isSome d (isBlock body) _ _
      (emitStmtPtr_isSome body d h.2) (emitStmtPtr_isSome body (d + 1) h.2)
    simp [emitStmt, hc, hx]
  | .Function name params body, d, h => by
    simp only [wellFormedStmt] at h
    obtain ⟨x, hx⟩ := emitStatements_isSome body (d + 1) h
    simp [emitStmt, hx]
  | .Return none, d, _ => by simp [emitStmt]
  | .Return (some e), d, h => by
    simp only [wellFormedStmt] at h
    obtain ⟨x, hx⟩ := emitExpr_isSome e h
    simp [emitStmt, hx]
termination_by s => sizeOf s
theorem emitStmtPtr_isSome : ∀ (s : Option Stmt) (d : Int), wellFormedStmtPtr s = true →
    ∃ x, emitStmtPtr d s = some x
  | none, _, h => by simp [wellFormedStmtPtr] at h
  | some s, d, h => by
    simp only [wellFormedStmtPtr] at h
    simpa [emitStmtPtr] using emitStmt_isSome s d h
termination_by s => sizeOf s
theorem emitStatements_isSome : ∀ (ss : List (Option Stmt)) (d : Int),
    wellFormedStatements ss = true → ∃ x, emitStatements d ss = some x
  | [], _, _ => by simp [emitStatements]
  | none :: rest, d, h => by
    simp only [wellFormedStatements] at h
    simpa [emitStatements] using emitStatements_isSome rest d h
  | some s :: rest, d, h => by
    simp only [wellFormedStatements, Bool.and_eq_true] at h
    obtain ⟨x, hx⟩ := emitStmt_isSome s d h.1
    obtain ⟨y, hy⟩ := emitStatements_isSome rest d h.2
    simp [emitStatements, hx, hy]
termination_by ss => sizeOf ss
end

theorem reachable_indent_level {t : Transpiler} (h : Reachable t) : t.indent_level = 0 := by
  induction h with
  | fresh => rfl
  | step _ htr ih =>
    rw [transpile_eq] at htr
    simp only [Option.map_eq_some'] at htr
    obtain ⟨body, _, hb⟩ := htr
    have := congrArg (fun p => p.2.indent_level) hb
    simp only at this
    rw [← this]
    exact ih

/-! ## Parentheses of expression texts -/

theorem parenTransparent_nil : ParenTransparent [] := by
  intro rest depth pos _
  simp

theorem parenTransparent_append {a b : List Char} (ha : ParenTransparent a)
    (hb : ParenTransparent b) : ParenTransparent (a ++ b) := by
  intro rest depth pos hd
  rw [List.append_assoc, ha _ _ _ hd, hb _ _ _ hd, List.length_append, Nat.add_assoc]

theorem parenTransparent_of_notParen :
    ∀ s : List Char, allChars notParen s = true → ParenTransparent s
  | [], _ => parenTransparent_nil
  | c :: cs, h => by
    simp only [allChars, List.all_cons, Bool.and_eq_true] at h
    have ih := parenTransparent_of_notParen cs (by simpa [allChars] using h.2)
    have hc := h.1
    simp only [notParen, Bool.and_eq_true, bne_iff_ne, ne_eq] at hc
    intro rest depth pos hd
    have e : closeScan (c :: (cs ++ rest)) depth pos = closeScan (cs ++ rest) depth (pos + 1) := by
      simp [closeScan, hc.1, hc.2]
    rw [List.cons_append, e, ih _ _ _ hd, List.length_cons]
    congr 1
    omega

theorem parenTransparent_wrap {a : List Char} (ha : ParenTransparent a) :
    ParenTransparent ('(' :: (a ++ [')'])) := by
  intro rest depth pos hd
  have h1 : ¬ (depth + 1 ≤ 1) := by omega
  have h2 : (')' : Char) ≠ '(' := by decide
  have e1 : closeScan ('(' :: (a ++ (')' :: rest))) depth pos =
      closeScan (a ++ (')' :: rest)) (depth + 1) (pos + 1) := by
    simp [closeScan]
  have e2 : closeScan (')' :: rest) (depth + 1) (pos + 1 + a.length) =
      closeScan rest depth (pos + 1 + a.length + 1) := by
    simp [closeScan, h1, h2]
  rw [List.cons_append, List.append_assoc, List.singleton_append, e1, ha _ _ _ (by omega), e2]
  congr 1
  simp only [List.length_cons, List.length_append, List.length_singleton, List.length_nil]
  omega

theorem enclosedInParens_wrap {a : List Char} (ha : ParenTransparent a) :
    enclosedInParens ('(' :: (a ++ [')'])) = true := by
  have h2 : (')' : Char) ≠ '(' := by decide
  have e : closeScan (a ++ [')']) 1 1 = some (1 + a.length) := by
    rw [ha _ _ _ (le_refl 1)]
    simp [closeScan, h2]
  simp only [enclosedInParens, List.head?_cons, beq_self_eq_true, Bool.true_and, matchingClose,
    beq_iff_eq, e, Option.some.injEq, List.length_cons, List.length_append,
    List.length_singleton, List.length_nil]
  omega

theorem notParen_digitChar (k : Nat) : notParen (digitChar k) = true := by
  have h : k % 10 < 10 := Nat.mod_lt _ (by decide)
  unfold digitChar
  interval_cases k % 10 <;> decide

theorem allChars_append (p : Char → Bool) (a b : List Char) :
    allChars p (a ++ b) = (allChars p a && allChars p b) := by
  simp [allChars]

theorem allChars_natDigitsAux (p : Char → Bool) (hp : ∀ k, p (digitChar k) = true) :
    ∀ (fuel n : Nat) (acc : List Char), allChars p acc = true →
      allChars p (natDigitsAux fuel n acc) = true
  | 0, _, _, h => by simpa [natDigitsAux] using h
  | fuel + 1, n, acc, h => by
    simp only [natDigitsAux]
    split
    · simp only [allChars, List.all_cons, hp, Bool.true_and]
      exact h
    · apply allChars_natDigitsAux p hp fuel
      simp only [allChars, List.all_cons, hp, Bool.true_and]
      exact h

theorem allChars_natDigits (p : Char → Bool) (hp : ∀ k, p (digitChar k) = true) (n : Nat) :
    allChars p (natDigits n) = true :=
  allChars_natDigitsAux p hp _ _ _ (by simp [allChars])

theorem allChars_padDigits (p : Char → Bool) (hp : ∀ k, p (digitChar k) = true) :
    ∀ (w n : Nat), allChars p (padDigits w n) = true
  | 0, _ => by simp [padDigits, allChars]
  | w + 1, n => by
    rw [padDigits, allChars_append, allChars_padDigits p hp w]
    simp [allChars, hp]

theorem notParen_to_string_int (v : Int) : allChars notParen (to_string_int v) = true := by
  unfold to_string_int
  split
  · have := allChars_natDigits notParen notParen_digitChar v.natAbs
    simp only [allChars, List.all_cons] at this ⊢
    rw [this]
    decide
  · exact allChars_natDigits notParen notParen_digitChar _

theorem notParen_to_string_double (d : Double) :
    allChars notParen (to_string_double d) = true := by
  have hs : allChars notParen (if d.sign = true then ['-'] else []) = true := by
    split <;> decide
  unfold to_string_double
  simp only
  split
  · split
    · rw [allChars_append, hs]; decide
    · rw [allChars_append, hs]; decide
  · rw [allChars_append, allChars_append, hs,
      allChars_natDigits notParen notParen_digitChar]
    have := allChars_padDigits notParen notParen_digitChar 6
    simp only [allChars, List.all_cons] at this ⊢
    rw [this]
    decide

theorem parenTransparent_literalText (value : LiteralValue)
    (h : namesSatisfyExpr notParen (.Literal value) = true) :
    ParenTransparent (literalText value) := by
  apply parenTransparent_of_notParen
  cases value with
  | int v => exact notParen_to_string_int v
  | double d => exact notParen_to_string_double d
  | bool b => cases b <;> decide
  | string s =>
    simp only [namesSatisfyExpr] at h
    simp only [literalText, allChars_append, h]
    decide
  | nil => decide

theorem notParen_binaryOpText (ty : TokenType) : allChars notParen (binaryOpText ty) = true := by
  cases ty <;> decide

theorem notParen_unaryOpText (ty : TokenType) : allChars notParen (unaryOpText ty) = true := by
  unfold unaryOpText
  split
  · decide
  · split <;> decide

mutual
theorem parenTransparent_emitExpr : ∀ (e : Expr) (x : List Char),
    namesSatisfyExpr notParen e = true → emitExpr e = some x → ParenTransparent x
  | .Literal value, x, hn, hx => by
    simp only [emitExpr, Option.some.injEq] at hx
    subst hx
    exact parenTransparent_literalText value hn
  | .Unary op right, x, hn, hx => by
    simp only [emitExpr, Option.map_eq_some'] at hx
    obtain ⟨y, hy, rfl⟩ := hx
    simp only [namesSatisfyExpr] at hn
    have ih := parenTransparent_emitExprPtr right y hn hy
    have := parenTransparent_append
      (parenTransparent_of_notParen _ (notParen_unaryOpText op.type)) (parenTransparent_wrap ih)
    simpa using this
  | .Binary left op right, x, hn, hx => by
    simp only [emitExpr, Option.bind_eq_some, Option.map_eq_some'] at hx
    obtain ⟨l, hl, r, hr, rfl⟩ := hx
    simp only [namesSatisfyExpr, Bool.and_eq_true] at hn
    have ihl := parenTransparent_emitExprPtr left l hn.1 hl
    have ihr := parenTransparent_emitExprPtr right r hn.2 hr
    have := parenTransparent_wrap (parenTransparent_append ihl (parenTransparent_append
      (parenTransparent_of_notParen _ (notParen_binaryOpText op.type)) ihr))
    simpa using this
  | .Grouping expression, x, hn, hx => by
    simp only [emitExpr, Option.map_eq_some'] at hx
    obtain ⟨y, hy, rfl⟩ := hx
    simp only [namesSatisfyExpr] at hn
    have := parenTransparent_wrap (parenTransparent_emitExprPtr expression y hn hy)
    simpa using this
  | .Variable name, x, hn, hx => by
    simp only [emitExpr, Option.some.injEq] at hx
    subst hx
    simp only [namesSatisfyExpr] at hn
    exact parenTransparent_of_notParen _ hn
  | .Assign name value, x, hn, hx => by
    simp only [emitExpr, Option.map_eq_some'] at hx
    obtain ⟨y, hy, rfl⟩ := hx
    simp only [namesSatisfyExpr, Bool.and_eq_true] at hn
    have ih := parenTransparent_emitExprPtr value y hn.2 hy
    have h1 : ParenTransparent (name.lexeme ++ " = ".toList) :=
      parenTransparent_append (parenTransparent_of_notParen _ hn.1)
        (parenTransparent_of_notParen _ (by decide))
    exact parenTransparent_append h1 ih
  | .Call callee arguments, x, hn, hx => by
    simp only [emitExpr, Option.bind_eq_some, Option.map_eq_some'] at hx
    obtain ⟨c, hc, a, ha, rfl⟩ := hx
    simp only [namesSatisfyExpr, Bool.and_eq_true] at hn
    have ihc := parenTransparent_emitExprPtr callee c hn.1 hc
    have iha := parenTransparent_emitArguments arguments 0 a hn.2 ha
    have := parenTransparent_append ihc (parenTransparent_wrap iha)
    simpa using this
theorem parenTransparent_emitExprPtr : ∀ (e : Option Expr) (x : List Char),
    namesSatisfyExprPtr notParen e = true → emitExprPtr e = some x → ParenTransparent x
  | none, x, _, hx => by simp [emitExprPtr] at hx
  | some e, x, hn, hx => by
    simp only [namesSatisfyExprPtr] at hn
    simp only [emitExprPtr] at hx
    exact parenTransparent_emitExpr e x hn hx
theorem parenTransparent_emitArguments : ∀ (a : List (Option Expr)) (i : Nat) (x : List Char),
    namesSatisfyArguments notParen a = true → emitArguments a i = some x → ParenTransparent x
  | [], i, x, _, hx => by
    simp only [emitArguments, Option.some.injEq] at hx
    subst hx
    exact parenTransparent_nil
  | a :: rest, i, x, hn, hx => by
    simp only [emitArguments, Option.bind_eq_some, Option.map_eq_some'] at hx
    obtain ⟨y, hy, z, hz, rfl⟩ := hx
    simp only [namesSatisfyArguments, Bool.and_eq_true] at hn
    have ih1 := parenTransparent_emitExprPtr a y hn.1 hy
    have ih2 := parenTransparent_emitArguments rest (i + 1) z hn.2 hz
    have h0 : ParenTransparent (if 0 < i then ", ".toList else []) := by
      apply parenTransparent_of_notParen
      split <;> decide
    exact parenTransparent_append (parenTransparent_append h0 ih1) ih2
end

/-! ## The claims about the transpiler -/

/-- C1 (fails on the code). The program `print("int main(");` has no top-level
function named `main`, yet `transpile` returns the prelude followed by the one
statement and nothing else: the fallback entry point is not appended, because
the test for a defined `main` is a search for the text `int main(` in the output. -/
theorem transpile_fallback_missing_for_main_text :
    hasTopLevelMain printsMainText = false ∧
    (transpile printsMainText Transpiler.new).map (fun r => r.1) =
      some (prelude ++ "print(\"int main(\");\n".toList) ∧
    fallbackMain.isSuffixOf (prelude ++ "print(\"int main(\");\n".toList) = false := by
  decide

/-- C2. On a fresh transpiler and any well-formed statement list, `transpile`
returns the prelude, then the texts of the non-null top-level statements in input
order, then either nothing or the fallback entry point. -/
theorem transpile_prelude_then_statements (statements : List (Option Stmt))
    (h : wellFormedStatements statements = true) :
    ∃ (texts : List (List Char)) (tail : List Char) (t' : Transpiler),
      transpile statements Transpiler.new = some (prelude ++ texts.flatten ++ tail, t') ∧
      List.Forall₂ (fun s x => stmtText 0 (some s) = some x) (statements.filterMap id) texts ∧
      (tail = [] ∨ tail = fallbackMain) := by
  obtain ⟨body, hbody⟩ := emitStatements_isSome statements 0 h
  obtain ⟨texts, hall, hflat⟩ := emitStatements_flatten 0 statements body hbody
  have hnew : Transpiler.new.indent_level = 0 := rfl
  subst hflat
  by_cases hf : find (prelude ++ texts.flatten) "int main(".toList = none
  · refine ⟨texts, fallbackMain,
      { Transpiler.new with output := prelude ++ texts.flatten ++ fallbackMain }, ?_, ?_,
      Or.inr rfl⟩
    · rw [transpile_eq, hnew, hbody, Option.map_some', finalText, if_pos hf]
      rfl
    · simpa [stmtText_eq, emitStmtPtr] using hall
  · refine ⟨texts, [],
      { Transpiler.new with output := prelude ++ texts.flatten ++ [] }, ?_, ?_, Or.inl rfl⟩
    · rw [transpile_eq, hnew, hbody, Option.map_some', finalText, if_neg hf, List.append_nil]
      rfl
    · simpa [stmtText_eq, emitStmtPtr] using hall

theorem transpile_prelude_then_statements_witness :
    wellFormedStatements smallProgram = true ∧
    ∃ (texts : List (List Char)) (tail : List Char) (t' : Transpiler),
      transpile smallProgram Transpiler.new = some (prelude ++ texts.flatten ++ tail, t') ∧
      List.Forall₂ (fun s x => stmtText 0 (some s) = some x) (smallProgram.filterMap id) texts ∧
      (tail = [] ∨ tail = fallbackMain) :=
  ⟨by decide, transpile_prelude_then_statements smallProgram (by decide)⟩

/-- C3 (as stated it fails). For `false && sideEffect()` the emitted text is the
host operator `&&` applied directly to the two operand texts, between
parentheses. -/
theorem logical_and_rendered_as_host_operator :
    exprText (some (.Literal (.bool false))) = some "false".toList ∧
    exprText (some (.Call (some (.Variable (tok .IDENTIFIER "sideEffect"))) [])) =
      some "sideEffect()".toList ∧
    exprText (some falseAndSideEffect) =
      some ("(".toList ++ "false".toList ++ " && ".toList ++ "sideEffect()".toList ++
        ")".toList) := by
  decide

/-- C3 (amended). For every Binary expression with operator AND or OR whose
operands have texts, the emitted text is `(`, the left text, the host operator
` && ` (for AND) or ` || ` (for OR), the right text, `)`: the operator is rendered
as the host operator applied directly to the two operand texts. -/
theorem logical_operators_rendered_directly (left right : Option Expr) (op : Token)
    (tl tr : List Char) (hop : op.type = .AND ∨ op.type = .OR)
    (hl : exprText left = some tl) (hr : exprText right = some tr) :
    exprText (some (.Binary left op right)) =
      some ("(".toList ++ tl ++ (if op.type = .AND then " && ".toList else " || ".toList) ++
        tr ++ ")".toList) := by
  rw [exprText_eq] at hl hr ⊢
  rcases hop with h | h <;> simp [emitExprPtr, emitExpr, hl, hr, h, binaryOpText]

theorem logical_operators_rendered_directly_witness :
    exprText (some falseAndSideEffect) = some "(false && sideEffect())".toList :=
  logical_operators_rendered_directly (some (.Literal (.bool false)))
    (some (.Call (some (.Variable (tok .IDENTIFIER "sideEffect"))) [])) (tok .AND "&&")
    "false".toList "sideEffect()".toList (Or.inl rfl) (by decide) (by decide)

/-- C4 (as stated it fails). The text of the Unary expression `-x` is `-(x)`: it
starts with the operator sign, not with `(`. -/
theorem unary_text_not_enclosed :
    exprText (some minusX) = some "-(x)".toList ∧
    "-(x)".toList.head? ≠ some '(' ∧
    enclosedInParens "-(x)".toList = false := by
  decide

/-- C4 (amended). For expressions whose operands are well formed and whose
identifiers and string literals hold no parenthesis character: the text of every
Binary and of every Grouping expression starts with `(` and ends with the `)`
matching it; the text of every Unary expression is the operator sign (`-` for
MINUS, `!` for BANG, nothing for any other operator) followed by `(`, the text of
the operand and `)`, where that `)` is the one matching the `(`. -/
theorem binary_grouping_unary_parenthesised :
    (∀ (left right : Option Expr) (op : Token),
      wellFormedExprPtr left = true → wellFormedExprPtr right = true →
      namesSatisfyExprPtr notParen left = true → namesSatisfyExprPtr notParen right = true →
      ∃ x, exprText (some (.Binary left op right)) = some x ∧ enclosedInParens x = true) ∧
    (∀ (expression : Option Expr),
      wellFormedExprPtr expression = true → namesSatisfyExprPtr notParen expression = true →
      ∃ x, exprText (some (.Grouping expression)) = some x ∧ enclosedInParens x = true) ∧
    (∀ (right : Option Expr) (op : Token),
      wellFormedExprPtr right = true → namesSatisfyExprPtr notParen right = true →
      ∃ operand, exprText right = some operand ∧
        exprText (some (.Unary op right)) =
          some ((if op.type = .MINUS then "-".toList
              else if op.type = .BANG then "!".toList else []) ++
            ("(".toList ++ operand ++ ")".toList)) ∧
        enclosedInParens ("(".toList ++ operand ++ ")".toList) = true) := by
  refine ⟨?_, ?_, ?_⟩
  · intro left right op wl wr nl nr
    obtain ⟨l, hl⟩ := emitExprPtr_isSome left wl
    obtain ⟨r, hr⟩ := emitExprPtr_isSome right wr
    have pl := parenTransparent_emitExprPtr left l nl hl
    have pr := parenTransparent_emitExprPtr right r nr hr
    refine ⟨'(' :: ((l ++ (binaryOpText op.type ++ r)) ++ [')']), ?_, ?_⟩
    · simp [exprText_eq, emitExprPtr, emitExpr, hl, hr]
    · exact enclosedInParens_wrap (parenTransparent_append pl (parenTransparent_append
        (parenTransparent_of_notParen _ (notParen_binaryOpText op.type)) pr))
  · intro expression we ne
    obtain ⟨y, hy⟩ := emitExprPtr_isSome expression we
    refine ⟨'(' :: (y ++ [')']), ?_, ?_⟩
    · simp [exprText_eq, emitExprPtr, emitExpr, hy]
    · exact enclosedInParens_wrap (parenTransparent_emitExprPtr expression y ne hy)
  · intro right op wr nr
    obtain ⟨y, hy⟩ := emitExprPtr_isSome right wr
    refine ⟨y, by rw [exprText_eq, hy], ?_, ?_⟩
    · rw [exprText_eq]
      simp only [emitExprPtr, emitExpr, hy, Option.map_some', unaryOpText, List.append_assoc]
    · have := enclosedInParens_wrap (parenTransparent_emitExprPtr right y nr hy)
      simpa using this

theorem binary_grouping_unary_parenthesised_witness :
    (∃ x, exprText (some falseAndSideEffect) = some x ∧ enclosedInParens x = true) ∧
    (∃ x, exprText (some (.Grouping (some minusX))) = some x ∧ enclosedInParens x = true) ∧
    (∃ operand, exprText (some (.Variable (tok .IDENTIFIER "x"))) = some operand ∧
      exprText (some minusX) =
        some ((if (tok .MINUS "-").type = .MINUS then "-".toList
            else if (tok .MINUS "-").type = .BANG then "!".toList else []) ++
          ("(".toList ++ operand ++ ")".toList)) ∧
      enclosedInParens ("(".toList ++ operand ++ ")".toList) = true) :=
  ⟨binary_grouping_unary_parenthesised.1 _ _ _ (by decide) (by decide) (by decide) (by decide),
    binary_grouping_unary_parenthesised.2.1 _ (by decide) (by decide),
    binary_grouping_unary_parenthesised.2.2 _ _ (by decide) (by decide)⟩

/-- C5 (fails on the code). At level 1 the statement `if (x) {}` is emitted as
`    if (x)     {` and `    }`: the opening brace gets the indentation once more in
the middle of the header line, so the text is not the level-0 text (`if (x) {`,
`}`) with four spaces in front of each line. -/
theorem if_header_indented_twice :
    stmtText 0 (some emptyIf) = some "if (x) \x7b\n\x7d\n".toList ∧
    stmtText 1 (some emptyIf) = some "    if (x)     \x7b\n    \x7d\n".toList ∧
    (stmtText 0 (some emptyIf)).map (indentLines 1) = some "    if (x) \x7b\n    \x7d\n".toList ∧
    stmtText 1 (some emptyIf) ≠ (stmtText 0 (some emptyIf)).map (indentLines 1) := by
  decide

/-- C6 (fails on the code). The expression statement `print("a\nb");`, whose
string literal holds the newline the lexer made of the escape sequence, is
emitted with that newline unescaped: the text spans two lines. -/
theorem string_newline_breaks_statement_line :
    stmtText 0 (some printsTwoLines) = some "print(\"a\nb\");\n".toList ∧
    (stmtText 0 (some printsTwoLines)).map (fun x => x.count '\n') = some 2 ∧
    (stmtText 0 (some printsTwoLines)).map isOneStatementLine = some false := by
  decide

/-- C7. A transpiler that was used for earlier `transpile` calls returns, for
every statement list, the same text as a freshly constructed one (or fails on the
same lists): `transpile` resets the buffer, the indentation level of a used
transpiler is 0, and every statement visited at level 0 leaves the level at 0. -/
theorem transpile_independent_of_earlier_calls (t : Transpiler)
    (statements : List (Option Stmt)) (h : Reachable t) :
    (transpile statements t).map (fun r => r.1) =
      (transpile statements Transpiler.new).map (fun r => r.1) ∧
    t.indent_level = 0 ∧
    (∀ (u u1 : Transpiler) (s : Stmt), u.indent_level = 0 → visitStmt s u = some u1 →
      u1.indent_level = 0) := by
  have h0 := reachable_indent_level h
  have hnew : Transpiler.new.indent_level = 0 := rfl
  refine ⟨?_, h0, ?_⟩
  · rw [transpile_eq, transpile_eq, h0, hnew]
    cases emitStatements 0 statements <;> simp
  · intro u u1 s hu hs
    rw [visitStmt_eq, Option.map_eq_some'] at hs
    obtain ⟨x, _, rfl⟩ := hs
    exact hu

theorem transpile_independent_of_earlier_calls_witness :
    Reachable usedTranspiler ∧
    (transpile smallProgram usedTranspiler).map (fun r => r.1) =
      (transpile smallProgram Transpiler.new).map (fun r => r.1) ∧
    usedTranspiler.indent_level = 0 :=
  have hr : Reachable usedTranspiler :=
    Reachable.step Reachable.fresh
      (by decide : transpile [] Transpiler.new = some (prelude ++ fallbackMain, usedTranspiler))
  ⟨hr, (transpile_independent_of_earlier_calls usedTranspiler smallProgram hr).1,
    (transpile_independent_of_earlier_calls usedTranspiler smallProgram hr).2.1⟩

/-- C8. On every well-formed statement list (no null expression child, no null
If/While branch or body) and from every state, `transpile` returns a text; the
recursion is structural, so it terminates. -/
theorem transpile_returns_on_well_formed (statements : List (Option Stmt)) (t : Transpiler)
    (h : wellFormedStatements statements = true) :
    ∃ (text : List Char) (t' : Transpiler), transpile statements t = some (text, t') := by
  obtain ⟨body, hbody⟩ := emitStatements_isSome statements t.indent_level h
  exact ⟨_, _, by rw [transpile_eq, hbody, Option.map_some']⟩

theorem transpile_returns_on_well_formed_witness :
    wellFormedStatements unknownOperatorProgram = true ∧
    (∃ (text : List Char) (t' : Transpiler),
      transpile unknownOperatorProgram Transpiler.new = some (text, t')) ∧
    (transpile unknownOperatorProgram Transpiler.new).map (fun r => r.1) =
      some (prelude ++ "(1 ? 2);\n".toList ++ fallbackMain) ∧
    (transpile [] Transpiler.new).map (fun r => r.1) = some (prelude ++ fallbackMain) :=
  ⟨by decide,
    transpile_returns_on_well_formed unknownOperatorProgram Transpiler.new (by decide),
    by decide, by decide⟩

theorem intercalate_cons (sep x : List Char) (xs : List (List Char)) :
    List.intercalate sep (x :: xs) = x ++ (xs.map (fun y => sep ++ y)).flatten := by
  induction xs generalizing x with
  | nil => simp [List.intercalate, List.intersperse]
  | cons y ys ih =>
    have h := ih y
    simp only [List.intercalate, List.intersperse, List.flatten_cons, List.map_cons] at h ⊢
    rw [h, List.append_assoc]

theorem emitArguments_later : ∀ (args : List (Option Expr)) (tas : List (List Char)) (i : Nat),
    0 < i → List.Forall₂ (fun a x => emitExprPtr a = some x) args tas →
    emitArguments args i = some (tas.map (fun y => ", ".toList ++ y)).flatten
  | [], tas, i, _, h => by
    cases h
    simp [emitArguments]
  | a :: rest, tas, i, hi, h => by
    cases h with
    | cons ha hrest =>
      simp [emitArguments, ha, emitArguments_later rest _ (i + 1) (Nat.succ_pos i) hrest, hi]

theorem emitArguments_first (args : List (Option Expr)) (tas : List (List Char))
    (h : List.Forall₂ (fun a x => emitExprPtr a = some x) args tas) :
    emitArguments args 0 = some (List.intercalate ", ".toList tas) := by
  cases h with
  | nil => simp [emitArguments, List.intercalate, List.intersperse]
  | cons ha hrest =>
    rw [intercalate_cons]
    simp [emitArguments, ha, emitArguments_later _ _ 1 Nat.one_pos hrest]

/-- C9. Operands are rendered left to right: the text of a Binary expression is
`(`, the text of the left operand, the operator text, the text of the right
operand, `)`; the text of a Call expression is the text of the callee, `(`, the
texts of the arguments in their original order separated by `, `, and `)`. -/
theorem binary_and_call_left_to_right :
    (∀ (left right : Option Expr) (op : Token) (tl tr : List Char),
      exprText left = some tl → exprText right = some tr →
      exprText (some (.Binary left op right)) =
        some ("(".toList ++ tl ++ binaryOpText op.type ++ tr ++ ")".toList)) ∧
    (∀ (callee : Option Expr) (arguments : List (Option Expr)) (tc : List Char)
      (tas : List (List Char)),
      exprText callee = some tc →
      List.Forall₂ (fun a x => exprText a = some x) arguments tas →
      exprText (some (.Call callee arguments)) =
        some (tc ++ "(".toList ++ List.intercalate ", ".toList tas ++ ")".toList)) := by
  refine ⟨?_, ?_⟩
  · intro left right op tl tr hl hr
    rw [exprText_eq] at hl hr ⊢
    simp [emitExprPtr, emitExpr, hl, hr]
  · intro callee arguments tc tas hc ha
    simp only [exprText_eq] at hc ha ⊢
    simp [emitExprPtr, emitExpr, hc, emitArguments_first arguments tas ha]

theorem binary_and_call_left_to_right_witness :
    exprText (some (.Binary (some (.Literal (.int 1))) (tok .MINUS "-")
      (some (.Literal (.int 2))))) = some "(1 - 2)".toList ∧
    exprText (some callOfThree) = some "f(a, 2, b)".toList :=
  ⟨binary_and_call_left_to_right.1 _ _ (tok .MINUS "-") "1".toList "2".toList
      (by decide) (by decide),
    binary_and_call_left_to_right.2 (some (.Variable (tok .IDENTIFIER "f"))) _ "f".toList
      ["a".toList, "2".toList, "b".toList] (by decide)
      (List.Forall₂.cons (by decide) (List.Forall₂.cons (by decide)
        (List.Forall₂.cons (by decide) List.Forall₂.nil)))⟩

/-! ## String literals -/

theorem charAt_append_cons (pre rest : List Char) (c : Char) :
    charAt (pre ++ c :: rest) pre.length = c := by
  induction pre with
  | nil => simp [charAt]
  | cons a pre ih => simpa [charAt] using ih

theorem peek_of_source {l : Lexer} {pre rest : List Char} {c : Char}
    (hs : l.source = pre ++ c :: rest) (hc : l.current = pre.length) :
    peek l = c ∧ isAtEnd l = false ∧ charAt l.source l.current = c := by
  have h2 : isAtEnd l = false := by
    simp [isAtEnd, hs, hc]
  have h3 : charAt l.source l.current = c := by rw [hs, hc, charAt_append_cons]
  exact ⟨by simp [peek, h2, h3], h2, h3⟩

theorem bodyText_cons (p : StringPiece) (rest : List StringPiece) :
    bodyText (p :: rest) = p.sourceText ++ bodyText rest := by
  simp [bodyText]

theorem movedBy_refl (l : Lexer) : MovedBy 0 l l := by
  simp [MovedBy]

theorem movedBy_trans {m n : Nat} {a b c : Lexer} (h1 : MovedBy m a b) (h2 : MovedBy n b c) :
    MovedBy (m + n) a c := by
  obtain ⟨a1, a2, a3, a4, a5, a6⟩ := h1
  obtain ⟨b1, b2, b3, b4, b5, b6⟩ := h2
  refine ⟨b1.trans a1, ?_, b3.trans a3, b4.trans a4, b5.trans a5, b6.trans a6⟩
  omega

theorem movedBy_advance (l : Lexer) : MovedBy 1 l (advance l).2 := by
  simp [MovedBy, advance]

theorem movedBy_newline (l : Lexer) :
    MovedBy 0 l (if peek l = '\n' then { l with line := l.line + 1, column := 1 } else l) := by
  split <;> simp [MovedBy]

theorem scanStringBody_ordinary (l : Lexer) (value pre rest : List Char)
    (c : Char) (hb : c ≠ '\\')
    (hs : l.source = pre ++ c :: rest) (hc : l.current = pre.length) :
    ∃ l1, MovedBy 1 l l1 ∧ scanStringBody l value = (l1, value ++ [c]) := by
  have hm := movedBy_newline l
  unfold scanStringBody
  simp only
  generalize (if peek l = '\n' then { l with line := l.line + 1, column := 1 } else l) = l1
    at hm ⊢
  obtain ⟨hp, he, hch⟩ := peek_of_source (l := l1) (hm.1.trans hs) (by rw [hm.2.1, hc]; rfl)
  refine ⟨(advance l1).2, ?_, ?_⟩
  · simpa using movedBy_trans hm (movedBy_advance l1)
  · simp [hp, he, hb, advance, hch]

theorem scanStringBody_escape (l : Lexer) (value pre rest : List Char) (p : StringPiece)
    (hp : p ≠ .ordinary p.denotes)
    (hs : l.source = pre ++ p.sourceText ++ rest) (hc : l.current = pre.length) :
    ∃ l1, MovedBy 2 l l1 ∧ scanStringBody l value = (l1, value ++ [p.denotes]) := by
  have hm := movedBy_newline l
  unfold scanStringBody
  simp only
  generalize (if peek l = '\n' then { l with line := l.line + 1, column := 1 } else l) = l1
    at hm ⊢
  obtain ⟨e, he, hden⟩ : ∃ e : Char, p.sourceText = ['\\', e] ∧
      (if e = 'n' then (((advance l1).2, value ++ ['\n']) : Lexer × List Char)
        else if e = 't' then ((advance l1).2, value ++ ['\t'])
        else if e = 'r' then ((advance l1).2, value ++ ['\r'])
        else if e = '\\' then ((advance l1).2, value ++ ['\\'])
        else if e = '"' then ((advance l1).2, value ++ ['"'])
        else (reportError ("Invalid escape sequence '\\".toList ++ [e] ++ "'".toList)
          (advance l1).2, value)) = ((advance l1).2, value ++ [p.denotes]) := by
    cases p with
    | ordinary c => exact absurd rfl hp
    | newline => exact ⟨'n', rfl, by simp [StringPiece.denotes]⟩
    | tab => exact ⟨'t', rfl, by simp [StringPiece.denotes]⟩
    | carriageReturn => exact ⟨'r', rfl, by simp [StringPiece.denotes]⟩
    | quote => exact ⟨'"', rfl, by simp [StringPiece.denotes]⟩
    | backslash => exact ⟨'\\', rfl, by simp [StringPiece.denotes]⟩
  rw [he] at hs
  have hs1 : l1.source = pre ++ '\\' :: (e :: rest) := by
    rw [hm.1, hs]; simp
  obtain ⟨hp1, he1, _⟩ := peek_of_source (l := l1) hs1 (by rw [hm.2.1, hc]; rfl)
  have hm2 := movedBy_advance l1
  have hs2 : (advance l1).2.source = (pre ++ ['\\']) ++ e :: rest := by
    rw [hm2.1, hs1]; simp
  obtain ⟨hp2, _, _⟩ := peek_of_source (l := (advance l1).2) hs2
    (by rw [hm2.2.1, hm.2.1, hc]; simp)
  refine ⟨(advance (advance l1).2).2, ?_, ?_⟩
  · simpa using movedBy_trans hm (movedBy_trans hm2 (movedBy_advance _))
  · simp only [hp1, he1, Bool.not_false, Bool.and_true, decide_True, if_true, hp2]
    rw [hden]

theorem sourceText_length (p : StringPiece) : 1 ≤ p.sourceText.length := by
  cases p <;> simp [StringPiece.sourceText]

theorem sourceText_head (p : StringPiece) (h : p.wellFormed = true) :
    ∃ c rest, p.sourceText = c :: rest ∧ c ≠ '"' := by
  cases p with
  | ordinary c =>
    simp only [StringPiece.wellFormed, Bool.and_eq_true, bne_iff_ne, ne_eq] at h
    exact ⟨c, [], rfl, h.1⟩
  | newline => exact ⟨_, _, rfl, by decide⟩
  | tab => exact ⟨_, _, rfl, by decide⟩
  | carriageReturn => exact ⟨_, _, rfl, by decide⟩
  | quote => exact ⟨_, _, rfl, by decide⟩
  | backslash => exact ⟨_, _, rfl, by decide⟩

theorem scanStringBody_piece (l : Lexer) (value pre rest : List Char) (p : StringPiece)
    (h : p.wellFormed = true)
    (hs : l.source = pre ++ p.sourceText ++ rest) (hc : l.current = pre.length) :
    ∃ l1, MovedBy p.sourceText.length l l1 ∧
      scanStringBody l value = (l1, value ++ [p.denotes]) := by
  by_cases hp : p = .ordinary p.denotes
  · cases p with
    | ordinary c =>
      simp only [StringPiece.wellFormed, Bool.and_eq_true, bne_iff_ne, ne_eq] at h
      exact scanStringBody_ordinary l value pre rest c h.2 (by simpa [StringPiece.sourceText] using hs) hc
    | newline => exact absurd hp (by simp)
    | tab => exact absurd hp (by simp)
    | carriageReturn => exact absurd hp (by simp)
    | quote => exact absurd hp (by simp)
    | backslash => exact absurd hp (by simp)
  · have hlen : p.sourceText.length = 2 := by
      cases p with
      | ordinary c => exact absurd rfl hp
      | _ => rfl
    rw [hlen]
    exact scanStringBody_escape l value pre rest p hp hs hc

theorem scanStringLoop_body : ∀ (body : List StringPiece),
    (∀ p ∈ body, p.wellFormed = true) →
    ∀ (pre post : List Char) (l : Lexer) (value : List Char) (fuel : Nat),
      l.source = pre ++ bodyText body ++ '"' :: post → l.current = pre.length →
      body.length < fuel →
      ∃ l1, MovedBy (bodyText body).length l l1 ∧
        scanStringLoop fuel l value = some (l1, value ++ body.map StringPiece.denotes)
  | [], _, pre, post, l, value, fuel, hs, hc, hf => by
    obtain ⟨fuel, rfl⟩ : ∃ k, fuel = k + 1 := ⟨fuel - 1, by simp at hf; omega⟩
    have hs1 : l.source = pre ++ '"' :: post := by simpa [bodyText] using hs
    obtain ⟨hp, he, _⟩ := peek_of_source hs1 hc
    exact ⟨l, by simpa [bodyText] using movedBy_refl l, by simp [scanStringLoop, hp]⟩
  | p :: rest, hw, pre, post, l, value, fuel, hs, hc, hf => by
    obtain ⟨fuel, rfl⟩ : ∃ k, fuel = k + 1 := ⟨fuel - 1, by simp at hf; omega⟩
    have hwp := hw p (List.mem_cons_self _ _)
    obtain ⟨c, tail, hct, hcq⟩ := sourceText_head p hwp
    have hs0 : l.source = pre ++ c :: (tail ++ bodyText rest ++ '"' :: post) := by
      rw [hs, bodyText_cons, hct]; simp
    obtain ⟨hp, he, _⟩ := peek_of_source hs0 hc
    have hs1 : l.source = pre ++ p.sourceText ++ (bodyText rest ++ '"' :: post) := by
      rw [hs, bodyText_cons]; simp
    obtain ⟨l1, hm1, hb1⟩ := scanStringBody_piece l value pre _ p hwp hs1 hc
    have hs2 : l1.source = (pre ++ p.sourceText) ++ bodyText rest ++ '"' :: post := by
      rw [hm1.1, hs1]; simp
    obtain ⟨l2, hm2, hl2⟩ := scanStringLoop_body rest
      (fun q hq => hw q (List.mem_cons_of_mem _ hq)) (pre ++ p.sourceText) post l1
      (value ++ [p.denotes]) fuel hs2 (by rw [hm1.2.1, hc]; simp)
      (by simp at hf; omega)
    refine ⟨l2, ?_, ?_⟩
    · have := movedBy_trans hm1 hm2
      simpa [bodyText_cons] using this
    · rw [scanStringLoop]
      simp only [hp, he, hb1]
      simp [hcq, hl2]

theorem bodyText_length (body : List StringPiece) : body.length ≤ (bodyText body).length := by
  induction body with
  | nil => simp
  | cons p rest ih =>
    have := sourceText_length p
    rw [bodyText_cons, List.length_append, List.length_cons]
    omega

theorem scanString_literal (body : List StringPiece) (hw : ∀ p ∈ body, p.wellFormed = true)
    (pre post : List Char) (l : Lexer)
    (hs : l.source = pre ++ bodyText body ++ '"' :: post) (hc : l.current = pre.length) :
    ∃ l1, MovedBy ((bodyText body).length + 1) l l1 ∧
      scanString l = some (addTokenWith .STRING_LITERAL (body.map StringPiece.denotes) l1) := by
  have hfuel : body.length < l.source.length + 1 := by
    have := bodyText_length body
    rw [hs]
    simp only [List.length_append, List.length_cons]
    omega
  obtain ⟨l1, hm1, hl1⟩ := scanStringLoop_body body hw pre post l [] _ hs hc hfuel
  have hs1 : l1.source = (pre ++ bodyText body) ++ '"' :: post := by rw [hm1.1, hs]
  obtain ⟨_, he, _⟩ := peek_of_source (l := l1) hs1 (by rw [hm1.2.1, hc]; simp)
  refine ⟨(advance l1).2, movedBy_trans hm1 (movedBy_advance l1), ?_⟩
  simp [scanString, hl1, he]

theorem scanToken_string_literal (getKeyword : List Char → TokenType)
    (body : List StringPiece) (hw : ∀ p ∈ body, p.wellFormed = true)
    (pre post : List Char) (l : Lexer)
    (hs : l.source = pre ++ stringLiteral body ++ post) (hc : l.current = pre.length) :
    ∃ l1, MovedBy (stringLiteral body).length l l1 ∧
      scanToken getKeyword l =
        some (addTokenWith .STRING_LITERAL (body.map StringPiece.denotes) l1) := by
  have hs0 : l.source = pre ++ '"' :: (bodyText body ++ '"' :: post) := by
    rw [hs]; simp [stringLiteral]
  obtain ⟨_, _, hch⟩ := peek_of_source hs0 hc
  have hm0 := movedBy_advance l
  have hs1 : (advance l).2.source = (pre ++ ['"']) ++ bodyText body ++ '"' :: post := by
    rw [hm0.1, hs0]; simp
  obtain ⟨l1, hm1, hl1⟩ := scanString_literal body hw (pre ++ ['"']) post (advance l).2 hs1
    (by rw [hm0.2.1, hc]; simp)
  refine ⟨l1, ?_, ?_⟩
  · have := movedBy_trans hm0 hm1
    have hlen : (stringLiteral body).length = 1 + ((bodyText body).length + 1) := by
      simp [stringLiteral]; omega
    rw [hlen]
    exact this
  · have hadv : advance l = ('"', (advance l).2) := by
      rw [← hch]; rfl
    unfold scanToken
    rw [hadv]
    simp only [hl1]
    simp

/-- C10. A string literal whose body is made of ordinary characters (neither `"`
nor a backslash) and of the escape sequences `\n`, `\t`, `\r`, `\"`, `\\` is
scanned into exactly one STRING_LITERAL token, whose lexeme is the body with each
escape sequence replaced by the character it denotes: one call of `scanToken` at
the opening quote, anywhere in a source, appends that token and nothing else,
reports nothing and moves just past the closing quote; `scanTokens` on the
literal alone returns that token and END_OF_FILE. -/
theorem string_literal_unescaped (getKeyword : List Char → TokenType)
    (body : List StringPiece) (hw : body.all StringPiece.wellFormed = true) :
    (∀ (l : Lexer) (pre post : List Char),
      l.source = pre ++ stringLiteral body ++ post → l.current = pre.length →
      ∃ (l1 : Lexer) (token : Token),
        scanToken getKeyword l = some l1 ∧ l1.tokens = l.tokens ++ [token] ∧
        token.type = .STRING_LITERAL ∧ token.lexeme = body.map StringPiece.denotes ∧
        l1.current = l.current + (stringLiteral body).length ∧
        l1.diagnostics = l.diagnostics) ∧
    (∀ filename : List Char,
      ∃ r, scanTokens getKeyword (Lexer.new (stringLiteral body) filename) = some r ∧
        typesAndLexemes r.1 =
          [(.STRING_LITERAL, body.map StringPiece.denotes), (.END_OF_FILE, [])] ∧
        r.2.diagnostics = []) := by
  have hw1 : ∀ p ∈ body, p.wellFormed = true := by simpa using hw
  refine ⟨?_, ?_⟩
  · intro l pre post hs hc
    obtain ⟨l1, hm, h1⟩ := scanToken_string_literal getKeyword body hw1 pre post l hs hc
    exact ⟨_, ⟨.STRING_LITERAL, body.map StringPiece.denotes, l1.line,
        l1.column - (body.map StringPiece.denotes).length⟩, h1,
      by simp [addTokenWith, hm.2.2.1], rfl, rfl,
      by simp [addTokenWith, hm.2.1], by simp [addTokenWith, hm.2.2.2.1]⟩
  · intro filename
    have hlen : (stringLiteral body).length = (bodyText body).length + 1 + 1 := by
      simp [stringLiteral]
    obtain ⟨l1, hm, h1⟩ := scanToken_string_literal getKeyword body hw1 [] []
      { Lexer.new (stringLiteral body) filename with start := 0 } (by simp [Lexer.new]) rfl
    have he0 : isAtEnd (Lexer.new (stringLiteral body) filename) = false := by
      simp [isAtEnd, Lexer.new, hlen]
    have he1 : isAtEnd (addTokenWith .STRING_LITERAL (body.map StringPiece.denotes) l1) = true := by
      simp [isAtEnd, addTokenWith, hm.1, hm.2.1, Lexer.new]
    have hloop : scanTokensLoop getKeyword ((stringLiteral body).length + 1)
        (Lexer.new (stringLiteral body) filename) =
        some (addTokenWith .STRING_LITERAL (body.map StringPiece.denotes) l1) := by
      rw [hlen, scanTokensLoop]
      simp only [he0, Bool.not_false, if_true]
      have h1' : scanToken getKeyword
          { Lexer.new (stringLiteral body) filename with
            start := (Lexer.new (stringLiteral body) filename).current } =
          some (addTokenWith .STRING_LITERAL (body.map StringPiece.denotes) l1) := h1
      rw [h1', Option.some_bind, scanTokensLoop]
      simp [he1]
    refine ⟨((addTokenWith .STRING_LITERAL (body.map StringPiece.denotes) l1).tokens ++
        [⟨.END_OF_FILE, [], l1.line, l1.column⟩],
      { addTokenWith .STRING_LITERAL (body.map StringPiece.denotes) l1 with
        tokens := (addTokenWith .STRING_LITERAL (body.map StringPiece.denotes) l1).tokens ++
          [⟨.END_OF_FILE, [], l1.line, l1.column⟩] }), ?_, ?_, ?_⟩
    · unfold scanTokens
      have hreset : ({ Lexer.new (stringLiteral body) filename with
          tokens := [], start := 0, current := 0, line := 1, column := 1 } : Lexer) =
          Lexer.new (stringLiteral body) filename := rfl
      simp only [hreset]
      have hsrc : (Lexer.new (stringLiteral body) filename).source = stringLiteral body := rfl
      rw [hsrc, hloop]
      rfl
    · simp [typesAndLexemes, addTokenWith, hm.2.2.1, Lexer.new]
    · simp [addTokenWith, hm.2.2.2.1, Lexer.new]

theorem string_literal_unescaped_witness :
    ∃ r, scanTokens (fun _ => TokenType.IDENTIFIER)
        (Lexer.new "\"\\n\\t\\r\\\"\\\\\"".toList []) = some r ∧
      typesAndLexemes r.1 =
        [(.STRING_LITERAL, "\n\t\r\"\\".toList), (.END_OF_FILE, [])] ∧
      r.2.diagnostics = [] :=
  (string_literal_unescaped (fun _ => TokenType.IDENTIFIER)
    [.newline, .tab, .carriageReturn, .quote, .backslash] (by decide)).2 []

/-! ## Every scan returns, moves on and adds tokens of emitted types -/

theorem emittedType_fixed (getKeyword : List Char → TokenType) {ty : TokenType}
    (h : ty ∈ fixedTokenTypes) : EmittedType getKeyword ty := Or.inl h

theorem extends_refl (getKeyword : List Char → TokenType) (l : Lexer) :
    Extends getKeyword l l :=
  ⟨rfl, rfl, le_refl _, [], by simp, by simp⟩

theorem extends_trans {getKeyword : List Char → TokenType} {a b c : Lexer}
    (h1 : Extends getKeyword a b) (h2 : Extends getKeyword b c) : Extends getKeyword a c := by
  obtain ⟨s1, f1, c1, n1, t1, e1⟩ := h1
  obtain ⟨s2, f2, c2, n2, t2, e2⟩ := h2
  refine ⟨s2.trans s1, f2.trans f1, le_trans c1 c2, n1 ++ n2, ?_, ?_⟩
  · rw [t2, t1, List.append_assoc]
  · intro t ht
    rcases List.mem_append.mp ht with h | h
    · exact e1 t h
    · exact e2 t h

theorem extends_advance (getKeyword : List Char → TokenType) (l : Lexer) :
    Extends getKeyword l (advance l).2 :=
  ⟨rfl, rfl, Nat.le_succ _, [], by simp [advance], by simp⟩

theorem extends_matchChar (getKeyword : List Char → TokenType) (c : Char) (l : Lexer) :
    Extends getKeyword l (matchChar c l).2 := by
  unfold matchChar
  split
  · exact extends_refl _ _
  · exact ⟨rfl, rfl, Nat.le_succ _, [], by simp, by simp⟩

theorem extends_addToken (getKeyword : List Char → TokenType) (ty : TokenType) (l : Lexer)
    (h : EmittedType getKeyword ty) : Extends getKeyword l (addToken ty l) :=
  ⟨rfl, rfl, le_refl _, _, rfl, by simpa using h⟩

theorem extends_addTokenWith (getKeyword : List Char → TokenType) (ty : TokenType)
    (lexeme : List Char) (l : Lexer) (h : EmittedType getKeyword ty) :
    Extends getKeyword l (addTokenWith ty lexeme l) :=
  ⟨rfl, rfl, le_refl _, _, rfl, by simpa using h⟩

theorem extends_reportError (getKeyword : List Char → TokenType) (message : List Char)
    (l : Lexer) : Extends getKeyword l (reportError message l) :=
  ⟨rfl, rfl, le_refl _, _, rfl, by
    simpa using emittedType_fixed getKeyword (by decide : TokenType.ERROR ∈ fixedTokenTypes)⟩

theorem extends_position (getKeyword : List Char → TokenType) (l : Lexer) (a b : Int) :
    Extends getKeyword l { l with line := a, column := b } :=
  ⟨rfl, rfl, le_refl _, [], by simp, by simp⟩

theorem not_isAtEnd_of_peek {p : Char → Bool} (hp : p (Char.ofNat 0) = false) {l : Lexer}
    (h : p (peek l) = true) : l.current < l.source.length := by
  by_contra hc
  have he : isAtEnd l = true := by simp [isAtEnd]; omega
  simp [peek, he, hp] at h

theorem lt_of_not_isAtEnd {l : Lexer} (h : isAtEnd l = false) :
    l.current < l.source.length := by
  simpa [isAtEnd] using h

theorem advanceWhile_total (getKeyword : List Char → TokenType) (p : Char → Bool)
    (hp : p (Char.ofNat 0) = false) :
    ∀ (fuel : Nat) (l : Lexer) (ran : Bool), l.source.length - l.current < fuel →
      ∃ r, advanceWhile p fuel l ran = some r ∧ Extends getKeyword l r.1
  | 0, l, ran, h => by omega
  | fuel + 1, l, ran, h => by
    rw [advanceWhile]
    by_cases hc : p (peek l) = true
    · have hlt := not_isAtEnd_of_peek hp hc
      obtain ⟨r, hr, he⟩ := advanceWhile_total getKeyword p hp fuel (advance l).2 true
        (by simp [advance]; omega)
      exact ⟨r, by simp [hc, hr], extends_trans (extends_advance _ l) he⟩
    · exact ⟨(l, ran), by simp [hc], extends_refl _ _⟩

theorem scanStringBody_extends (getKeyword : List Char → TokenType) (l : Lexer)
    (value : List Char) :
    Extends getKeyword l (scanStringBody l value).1 ∧
      l.current + 1 ≤ (scanStringBody l value).1.current := by
  have h1 : Extends getKeyword l
      (if peek l = '\n' then { l with line := l.line + 1, column := 1 } else l) := by
    split
    · exact extends_position _ _ _ _
    · exact extends_refl _ _
  have h2 : (if peek l = '\n' then { l with line := l.line + 1, column := 1 } else l).current =
      l.current := by
    split <;> rfl
  unfold scanStringBody
  simp only
  generalize (if peek l = '\n' then { l with line := l.line + 1, column := 1 } else l) = l1
    at *
  have ha := extends_advance getKeyword l1
  have haa := extends_advance getKeyword (advance l1).2
  have hr : ∀ m, Extends getKeyword (advance l1).2
      (advance (reportError m (advance l1).2)).2 :=
    fun m => extends_trans (extends_reportError _ m _) (extends_advance _ _)
  split_ifs
  all_goals first
    | exact ⟨extends_trans h1 (extends_trans ha haa), by simp [advance]; omega⟩
    | exact ⟨extends_trans h1 (extends_trans ha (hr _)), by simp [advance, reportError]; omega⟩
    | exact ⟨extends_trans h1 ha, by simp [advance]; omega⟩

theorem scanStringLoop_total (getKeyword : List Char → TokenType) :
    ∀ (fuel : Nat) (l : Lexer) (value : List Char), l.source.length - l.current < fuel →
      ∃ r, scanStringLoop fuel l value = some r ∧ Extends getKeyword l r.1
  | 0, l, value, h => by omega
  | fuel + 1, l, value, h => by
    rw [scanStringLoop]
    by_cases hc : (peek l != '"' && !isAtEnd l) = true
    · have hlt : l.current < l.source.length := by
        simp only [Bool.and_eq_true, Bool.not_eq_true'] at hc
        exact lt_of_not_isAtEnd hc.2
      obtain ⟨he, hcur⟩ := scanStringBody_extends getKeyword l value
      obtain ⟨r, hr, her⟩ := scanStringLoop_total getKeyword fuel (scanStringBody l value).1
        (scanStringBody l value).2 (by rw [he.1]; omega)
      exact ⟨r, by simp only [hc, if_true, hr], extends_trans he her⟩
    · exact ⟨(l, value), by simp only [hc, Bool.false_eq_true, if_false], extends_refl _ _⟩

theorem blockCommentBody_extends (getKeyword : List Char → TokenType) (l : Lexer)
    (nesting : Int) :
    Extends getKeyword l (blockCommentBody l nesting).1 ∧
      l.current + 1 ≤ (blockCommentBody l nesting).1.current := by
  have ha := extends_advance getKeyword l
  have haa := extends_advance getKeyword (advance l).2
  unfold blockCommentBody
  split_ifs
  all_goals first
    | exact ⟨extends_trans ha haa, by simp [advance]⟩
    | exact ⟨extends_trans ha (extends_position _ _ _ _), by simp [advance]⟩

theorem blockCommentLoop_total (getKeyword : List Char → TokenType) :
    ∀ (fuel : Nat) (l : Lexer) (nesting : Int), l.source.length - l.current < fuel →
      ∃ r, blockCommentLoop fuel l nesting = some r ∧ Extends getKeyword l r.1
  | 0, l, nesting, h => by omega
  | fuel + 1, l, nesting, h => by
    rw [blockCommentLoop]
    by_cases hc : (decide (0 < nesting) && !isAtEnd l) = true
    · have hlt : l.current < l.source.length := by
        simp only [Bool.and_eq_true, Bool.not_eq_true'] at hc
        exact lt_of_not_isAtEnd hc.2
      obtain ⟨he, hcur⟩ := blockCommentBody_extends getKeyword l nesting
      obtain ⟨r, hr, her⟩ := blockCommentLoop_total getKeyword fuel (blockCommentBody l nesting).1
        (blockCommentBody l nesting).2 (by rw [he.1]; omega)
      exact ⟨r, by simp only [hc, if_true, hr], extends_trans he her⟩
    · exact ⟨(l, nesting), by simp only [hc, Bool.false_eq_true, if_false], extends_refl _ _⟩

theorem lineCommentLoop_total (getKeyword : List Char → TokenType) :
    ∀ (fuel : Nat) (l : Lexer), l.source.length - l.current < fuel →
      ∃ r, lineCommentLoop fuel l = some r ∧ Extends getKeyword l r
  | 0, l, h => by omega
  | fuel + 1, l, h => by
    rw [lineCommentLoop]
    by_cases hc : (peek l != '\n' && !isAtEnd l) = true
    · have hlt : l.current < l.source.length := by
        simp only [Bool.and_eq_true, Bool.not_eq_true'] at hc
        exact lt_of_not_isAtEnd hc.2
      obtain ⟨r, hr, her⟩ := lineCommentLoop_total getKeyword fuel (advance l).2
        (by simp [advance]; omega)
      exact ⟨r, by simp only [hc, if_true, hr], extends_trans (extends_advance _ l) her⟩
    · exact ⟨l, by simp only [hc, Bool.false_eq_true, if_false], extends_refl _ _⟩

theorem scanString_total (getKeyword : List Char → TokenType) (l : Lexer) :
    ∃ r, scanString l = some r ∧ Extends getKeyword l r := by
  obtain ⟨⟨l1, value⟩, hr, he⟩ := scanStringLoop_total getKeyword (l.source.length + 1) l []
    (by omega)
  unfold scanString
  simp only [hr, Option.bind_eq_bind, Option.some_bind]
  split
  · exact ⟨_, rfl, extends_trans he (extends_reportError _ _ _)⟩
  · exact ⟨_, rfl, extends_trans he (extends_trans (extends_advance _ _)
      (extends_addTokenWith _ _ _ _ (emittedType_fixed _ (by decide))))⟩

theorem isdigit_null : isdigit (Char.ofNat 0) = false := by decide

theorem isxdigit_null : isxdigit (Char.ofNat 0) = false := by decide

theorem scanNumber_total (getKeyword : List Char → TokenType) (l : Lexer) :
    ∃ r, scanNumber l = some r ∧ Extends getKeyword l r := by
  have hloop : ∀ (p : Char → Bool), p (Char.ofNat 0) = false → ∀ (m : Lexer) (ran : Bool),
      Extends getKeyword l m →
      ∃ r, advanceWhile p (l.source.length + 1) m ran = some r ∧ Extends getKeyword l r.1 := by
    intro p hp m ran hm
    obtain ⟨r, hr, he⟩ := advanceWhile_total getKeyword p hp (l.source.length + 1) m ran
      (by rw [hm.1]; omega)
    exact ⟨r, hr, extends_trans hm he⟩
  have hint := emittedType_fixed getKeyword
    (by decide : TokenType.INTEGER_LITERAL ∈ fixedTokenTypes)
  have hflt := emittedType_fixed getKeyword
    (by decide : TokenType.FLOAT_LITERAL ∈ fixedTokenTypes)
  unfold scanNumber
  split_ifs
  · obtain ⟨⟨l2, hd⟩, hr, he⟩ := hloop isxdigit isxdigit_null (advance l).2 false
      (extends_advance _ _)
    simp only [hr, Option.bind_eq_bind, Option.some_bind]
    split
    · exact ⟨_, rfl, extends_trans he (extends_reportError _ _ _)⟩
    · exact ⟨_, rfl, extends_trans he (extends_addToken _ _ _ hint)⟩
  · obtain ⟨⟨l2, hd⟩, hr, he⟩ := hloop (fun c => c = '0' || c = '1') (by decide) (advance l).2 false
      (extends_advance _ _)
    simp only [hr, Option.bind_eq_bind, Option.some_bind]
    split
    · exact ⟨_, rfl, extends_trans he (extends_reportError _ _ _)⟩
    · exact ⟨_, rfl, extends_trans he (extends_addToken _ _ _ hint)⟩
  · obtain ⟨⟨l1, hd1⟩, hr1, he1⟩ := hloop isdigit isdigit_null l false (extends_refl _ _)
    simp only [hr1, Option.bind_eq_bind, Option.some_bind]
    split
    · obtain ⟨⟨l3, hd3⟩, hr3, he3⟩ := hloop isdigit isdigit_null (advance l1).2 false
        (extends_trans he1 (extends_advance _ _))
      simp only [hr3, Option.bind_eq_bind, Option.some_bind]
      split
      · have he5 : Extends getKeyword l
            (if (peek (advance l3).2 = '+' || peek (advance l3).2 = '-') = true then
              (advance (advance l3).2).2 else (advance l3).2) := by
          split
          · exact extends_trans he3 (extends_trans (extends_advance _ _) (extends_advance _ _))
          · exact extends_trans he3 (extends_advance _ _)
        generalize (if (peek (advance l3).2 = '+' || peek (advance l3).2 = '-') = true then
              (advance (advance l3).2).2 else (advance l3).2) = l5 at he5 ⊢
        split
        · exact ⟨_, rfl, extends_trans he5 (extends_reportError _ _ _)⟩
        · obtain ⟨⟨l6, hd6⟩, hr6, he6⟩ := hloop isdigit isdigit_null l5 false he5
          simp only [hr6, Option.bind_eq_bind, Option.some_bind]
          exact ⟨_, rfl, extends_trans he6 (extends_addToken _ _ _ hflt)⟩
      · exact ⟨_, rfl, extends_trans he3 (extends_addToken _ _ _ hflt)⟩
    · exact ⟨_, rfl, extends_trans he1 (extends_addToken _ _ _ hint)⟩

theorem scanIdentifier_total (getKeyword : List Char → TokenType) (l : Lexer) :
    ∃ r, scanIdentifier getKeyword l = some r ∧ Extends getKeyword l r := by
  obtain ⟨⟨l1, hd⟩, hr, he⟩ := advanceWhile_total getKeyword
    (fun c => isalnum c || c = '_') (by decide) (l.source.length + 1) l false (by omega)
  unfold scanIdentifier
  simp only [hr, Option.bind_eq_bind, Option.some_bind]
  split
  · exact ⟨_, rfl, extends_trans he (extends_addTokenWith _ _ _ _
      (emittedType_fixed _ (by decide)))⟩
  · rename_i hne
    refine ⟨_, rfl, extends_trans he (extends_addToken _ _ _ (Or.inr ⟨_, rfl, ?_, ?_⟩))⟩
    · intro h; simp [h] at hne
    · intro h; simp [h] at hne

/-! ## The cases of `scanToken` -/

theorem scanToken_eq (getKeyword : List Char → TokenType) (l : Lexer) :
    scanToken getKeyword l =
      scanTokenCase getKeyword (startKind (advance l).1) (advance l).1 (advance l).2 := by
  rcases hadv : advance l with ⟨c, l1⟩
  unfold scanToken startKind
  rw [hadv]
  dsimp only
  by_cases h : c = '('
  · subst h
    rfl
  simp only [h, if_false]
  clear h
  by_cases h : c = ')'
  · subst h
    rfl
  simp only [h, if_false]
  clear h
  by_cases h : c = '{'
  · subst h
    rfl
  simp only [h, if_false]
  clear h
  by_cases h : c = '}'
  · subst h
    rfl
  simp only [h, if_false]
  clear h
  by_cases h : c = '['
  · subst h
    rfl
  simp only [h, if_false]
  clear h
  by_cases h : c = ']'
  · subst h
    rfl
  simp only [h, if_false]
  clear h
  by_cases h : c = ','
  · subst h
    rfl
  simp only [h, if_false]
  clear h
  by_cases h : c = '.'
  · subst h
    rfl
  simp only [h, if_false]
  clear h
  by_cases h : c = ';'
  · subst h
    rfl
  simp only [h, if_false]
  clear h
  by_cases h : c = ':'
  · subst h
    rfl
  simp only [h, if_false]
  clear h
  by_cases h : c = '+'
  · subst h
    rfl
  simp only [h, if_false]
  clear h
  by_cases h : c = '-'
  · subst h
    rfl
  simp only [h, if_false]
  clear h
  by_cases h : c = '*'
  · subst h
    rfl
  simp only [h, if_false]
  clear h
  by_cases h : c = '%'
  · subst h
    rfl
  simp only [h, if_false]
  clear h
  by_cases h : c = '!'
  · subst h
    rfl
  simp only [h, if_false]
  clear h
  by_cases h : c = '='
  · subst h
    rfl
  simp only [h, if_false]
  clear h
  by_cases h : c = '<'
  · subst h
    rfl
  simp only [h, if_false]
  clear h
  by_cases h : c = '>'
  · subst h
    rfl
  simp only [h, if_false]
  clear h
  by_cases h : c = '&'
  · subst h
    rfl
  simp only [h, if_false]
  clear h
  by_cases h : c = '|'
  · subst h
    rfl
  simp only [h, if_false]
  clear h
  by_cases h : c = '/'
  · subst h
    rfl
  simp only [h, if_false]
  clear h
  split_ifs <;> rfl

theorem startKind_valid (c : Char) : (startKind c).valid = true := by
  unfold startKind
  by_cases h : c = '('
  · subst h
    rfl
  simp only [h, if_false]
  clear h
  by_cases h : c = ')'
  · subst h
    rfl
  simp only [h, if_false]
  clear h
  by_cases h : c = '{'
  · subst h
    rfl
  simp only [h, if_false]
  clear h
  by_cases h : c = '}'
  · subst h
    rfl
  simp only [h, if_false]
  clear h
  by_cases h : c = '['
  · subst h
    rfl
  simp only [h, if_false]
  clear h
  by_cases h : c = ']'
  · subst h
    rfl
  simp only [h, if_false]
  clear h
  by_cases h : c = ','
  · subst h
    rfl
  simp only [h, if_false]
  clear h
  by_cases h : c = '.'
  · subst h
    rfl
  simp only [h, if_false]
  clear h
  by_cases h : c = ';'
  · subst h
    rfl
  simp only [h, if_false]
  clear h
  by_cases h : c = ':'
  · subst h
    rfl
  simp only [h, if_false]
  clear h
  by_cases h : c = '+'
  · subst h
    rfl
  simp only [h, if_false]
  clear h
  by_cases h : c = '-'
  · subst h
    rfl
  simp only [h, if_false]
  clear h
  by_cases h : c = '*'
  · subst h
    rfl
  simp only [h, if_false]
  clear h
  by_cases h : c = '%'
  · subst h
    rfl
  simp only [h, if_false]
  clear h
  by_cases h : c = '!'
  · subst h
    rfl
  simp only [h, if_false]
  clear h
  by_cases h : c = '='
  · subst h
    rfl
  simp only [h, if_false]
  clear h
  by_cases h : c = '<'
  · subst h
    rfl
  simp only [h, if_false]
  clear h
  by_cases h : c = '>'
  · subst h
    rfl
  simp only [h, if_false]
  clear h
  by_cases h : c = '&'
  · subst h
    rfl
  simp only [h, if_false]
  clear h
  by_cases h : c = '|'
  · subst h
    rfl
  simp only [h, if_false]
  clear h
  by_cases h : c = '/'
  · subst h
    rfl
  simp only [h, if_false]
  clear h
  split_ifs <;> rfl

theorem scanTokenCase_total (getKeyword : List Char → TokenType) (k : StartKind)
    (hk : k.valid = true) (c : Char) (l : Lexer) :
    ∃ r, scanTokenCase getKeyword k c l = some r ∧ Extends getKeyword l r := by
  have hfix : ∀ ty, ty ∈ fixedTokenTypes → ∀ m, Extends getKeyword l m →
      ∃ r, some (addToken ty m) = some r ∧ Extends getKeyword l r :=
    fun ty hty m hm => ⟨_, rfl, extends_trans hm (extends_addToken _ _ _ (Or.inl hty))⟩
  have herr : ∀ msg m, Extends getKeyword l m →
      ∃ r, some (reportError msg m) = some r ∧ Extends getKeyword l r :=
    fun msg m hm => ⟨_, rfl, extends_trans hm (extends_reportError _ _ _)⟩
  have hm : ∀ c, Extends getKeyword l (matchChar c l).2 := fun c => extends_matchChar _ _ _
  cases k with
  | single ty =>
    simp only [StartKind.valid, decide_eq_true_eq] at hk
    exact hfix ty hk l (extends_refl _ _)
  | withEqual alone both =>
    simp only [StartKind.valid, Bool.and_eq_true, decide_eq_true_eq] at hk
    simp only [scanTokenCase]
    split
    · exact hfix _ hk.2 _ (hm _)
    · exact hfix _ hk.1 _ (hm _)
  | ampersand =>
    simp only [scanTokenCase]
    split
    · exact hfix _ (by decide) _ (hm _)
    · exact herr _ _ (hm _)
  | bar =>
    simp only [scanTokenCase]
    split
    · exact hfix _ (by decide) _ (hm _)
    · exact herr _ _ (hm _)
  | slash =>
    simp only [scanTokenCase]
    have hmm : Extends getKeyword l (matchChar '*' (matchChar '/' l).2).2 :=
      extends_trans (hm _) (extends_matchChar _ _ _)
    split
    · obtain ⟨r, hr, he⟩ := lineCommentLoop_total getKeyword (l.source.length + 1)
        (matchChar '/' l).2 (by rw [(hm '/').1]; omega)
      exact ⟨r, hr, extends_trans (hm _) he⟩
    · split
      · obtain ⟨r, hr, he⟩ := blockCommentLoop_total getKeyword (l.source.length + 1)
          (matchChar '*' (matchChar '/' l).2).2 1 (by rw [hmm.1]; omega)
        rw [hr, Option.some_bind]
        split
        · exact herr _ _ (extends_trans hmm he)
        · exact ⟨_, rfl, extends_trans hmm he⟩
      · exact hfix _ (by decide) _ hmm
  | blank => exact ⟨_, rfl, extends_refl _ _⟩
  | newline => exact ⟨_, rfl, extends_position _ _ _ _⟩
  | quote => exact scanString_total getKeyword l
  | digit => exact scanNumber_total getKeyword l
  | letter => exact scanIdentifier_total getKeyword l
  | other => exact herr _ _ (extends_refl _ _)

theorem scanToken_total (getKeyword : List Char → TokenType) (l : Lexer) :
    ∃ r, scanToken getKeyword l = some r ∧ Extends getKeyword (advance l).2 r := by
  rw [scanToken_eq]
  exact scanTokenCase_total getKeyword _ (startKind_valid _) _ _

theorem scanTokensLoop_total (getKeyword : List Char → TokenType) :
    ∀ (fuel : Nat) (l : Lexer), l.source.length - l.current < fuel →
      ∃ r, scanTokensLoop getKeyword fuel l = some r ∧ Extends getKeyword l r ∧
        isAtEnd r = true
  | 0, l, h => by omega
  | fuel + 1, l, h => by
    rw [scanTokensLoop]
    by_cases hc : isAtEnd l = true
    · exact ⟨l, by simp [hc], extends_refl _ _, hc⟩
    · have hlt : l.current < l.source.length := lt_of_not_isAtEnd (by simpa using hc)
      obtain ⟨r1, hr1, he1⟩ := scanToken_total getKeyword { l with start := l.current }
      have he0 : Extends getKeyword l (advance { l with start := l.current }).2 :=
        ⟨rfl, rfl, Nat.le_succ _, [], by simp [advance], by simp⟩
      have he : Extends getKeyword l r1 := extends_trans he0 he1
      have hcur : l.current + 1 ≤ r1.current := he1.2.2.1
      obtain ⟨r, hr, her, hend⟩ := scanTokensLoop_total getKeyword fuel r1
        (by rw [he.1]; omega)
      exact ⟨r, by simp [hc, hr1, hr], extends_trans he her, hend⟩

theorem scanTokens_total (getKeyword : List Char → TokenType) (l : Lexer) :
    ∃ (r : Lexer) (added : List Token),
      scanTokens getKeyword l =
        some (added ++ [⟨.END_OF_FILE, [], r.line, r.column⟩],
          { r with tokens := added ++ [⟨.END_OF_FILE, [], r.line, r.column⟩] }) ∧
      r.tokens = added ∧ r.source = l.source ∧ isAtEnd r = true ∧
      (∀ t ∈ added, EmittedType getKeyword t.type) ∧
      scanTokensLoop getKeyword (l.source.length + 1)
        { l with tokens := [], start := 0, current := 0, line := 1, column := 1 } = some r := by
  obtain ⟨r, hr, he, hend⟩ := scanTokensLoop_total getKeyword (l.source.length + 1)
    { l with tokens := [], start := 0, current := 0, line := 1, column := 1 } (by simp)
  obtain ⟨hs, _, _, added, ht, hall⟩ := he
  simp only [List.nil_append] at ht
  refine ⟨r, added, ?_, ht, hs, hend, hall, hr⟩
  unfold scanTokens
  simp only [hr, Option.bind_eq_bind, Option.some_bind, ht]

theorem scanNumber_eq (l : Lexer) :
    scanNumber l =
      if peek l = 'x' && l.current - l.start = 1 && charAt l.source l.start = '0' then
        scanHexDigits l
      else if peek l = 'b' && l.current - l.start = 1 && charAt l.source l.start = '0' then
        scanBinaryDigits l
      else scanDecimal l := by
  rfl

/-! ## Scanning behind a prefix -/

theorem optSim_some {R : Lexer → Lexer → Prop} {a a' : Lexer} (h : R a a') :
    OptSim R (some a) (some a') := by
  intro r hr
  cases hr
  exact ⟨a', rfl, h⟩

theorem optSim_bind {α : Type} {R : Lexer → Lexer → Prop} {x x' : Option (Lexer × α)}
    {f f' : Lexer × α → Option Lexer} (hx : OptSimWith R x x')
    (hf : ∀ (a a' : Lexer) (v : α), R a a' → OptSim R (f (a, v)) (f' (a', v))) :
    OptSim R (x.bind f) (x'.bind f') := by
  intro r hr
  rw [Option.bind_eq_some] at hr
  obtain ⟨⟨a, v⟩, ha, hfa⟩ := hr
  obtain ⟨⟨a', v'⟩, ha', hR, hv⟩ := hx _ ha
  simp only at hv hR
  subst hv
  obtain ⟨r', hr', hRr⟩ := hf a a' v' hR r hfa
  exact ⟨r', by rw [ha', Option.some_bind, hr'], hRr⟩

theorem forall₂_snoc {α β : Type} {R : α → β → Prop} {as : List α} {bs : List β} {a : α}
    {b : β} (h : List.Forall₂ R as bs) (hab : R a b) : List.Forall₂ R (as ++ [a]) (bs ++ [b]) := by
  induction h with
  | nil => exact List.Forall₂.cons hab List.Forall₂.nil
  | cons h1 _ ih => exact List.Forall₂.cons h1 ih

theorem charAt_append_left (pre s : List Char) (i : Nat) :
    charAt (pre ++ s) (pre.length + i) = charAt s i := by
  induction pre with
  | nil => simp
  | cons a pre ih =>
    have : (a :: pre).length + i = (pre.length + i) + 1 := by simp; omega
    rw [this]
    simpa [charAt] using ih

theorem substr_append_left (pre s : List Char) (a n : Nat) :
    substr (pre ++ s) (pre.length + a) n = substr s a n := by
  unfold substr
  congr 1
  induction pre with
  | nil => simp
  | cons c pre ih =>
    have : (c :: pre).length + a = (pre.length + a) + 1 := by simp; omega
    rw [this]
    simp

section Shift

variable {pre : List Char} {pos : Bool} {dl : Int} {l l' : Lexer}

theorem shift_isAtEnd (h : ShiftRel pre pos dl l l') : isAtEnd l' = isAtEnd l := by
  obtain ⟨hs, hc, _⟩ := h
  simp [isAtEnd, hs, hc]

theorem shift_charAt (h : ShiftRel pre pos dl l l') :
    charAt l'.source l'.current = charAt l.source l.current := by
  obtain ⟨hs, hc, _⟩ := h
  rw [hs, hc, charAt_append_left]

theorem shift_peek (h : ShiftRel pre pos dl l l') : peek l' = peek l := by
  simp [peek, shift_isAtEnd h, shift_charAt h]

theorem shift_peekNext (h : ShiftRel pre pos dl l l') : peekNext l' = peekNext l := by
  obtain ⟨hs, hc, _⟩ := h
  have e : pre.length + l.current + 1 = pre.length + (l.current + 1) := by omega
  simp only [peekNext, hs, hc, List.length_append, e, charAt_append_left]
  by_cases hlt : l.source.length ≤ l.current + 1
  · simp [hlt]
  · have : ¬ pre.length + l.source.length ≤ pre.length + (l.current + 1) := by omega
    simp [hlt, this]

theorem shift_lexeme (h : ShiftRel pre pos dl l l') :
    substr l'.source l'.start (l'.current - l'.start) =
      substr l.source l.start (l.current - l.start) := by
  obtain ⟨hs, hc, hst, _⟩ := h
  have e : pre.length + l.current - (pre.length + l.start) = l.current - l.start := by omega
  rw [hs, hc, hst, e, substr_append_left]

theorem shift_startChar (h : ShiftRel pre pos dl l l') :
    charAt l'.source l'.start = charAt l.source l.start := by
  obtain ⟨hs, _, hst, _⟩ := h
  rw [hs, hst, charAt_append_left]

theorem shift_width (h : ShiftRel pre pos dl l l') :
    l'.current - l'.start = l.current - l.start := by
  obtain ⟨_, hc, hst, _⟩ := h
  omega

theorem shift_advance (h : ShiftRel pre pos dl l l') :
    (advance l').1 = (advance l).1 ∧ ShiftRel pre pos dl (advance l).2 (advance l').2 := by
  refine ⟨shift_charAt h, ?_⟩
  obtain ⟨hs, hc, hst, ht, hp⟩ := h
  refine ⟨hs, ?_, hst, ht, ?_⟩
  · simp [advance, hc]; omega
  · intro hpos
    obtain ⟨h1, h2⟩ := hp hpos
    simp [advance, h1, h2]

theorem shift_matchChar (c : Char) (h : ShiftRel pre pos dl l l') :
    (matchChar c l').1 = (matchChar c l).1 ∧
      ShiftRel pre pos dl (matchChar c l).2 (matchChar c l').2 := by
  have he := shift_isAtEnd h
  have hc := shift_charAt h
  unfold matchChar
  rw [he, hc]
  split
  · exact ⟨rfl, h⟩
  · refine ⟨rfl, ?_⟩
    obtain ⟨hs, hcur, hst, ht, hp⟩ := h
    refine ⟨hs, ?_, hst, ht, ?_⟩
    · simp [hcur]; omega
    · intro hpos
      obtain ⟨h1, h2⟩ := hp hpos
      simp [h1, h2]

theorem shift_addTokenWith (ty : TokenType) (lexeme : List Char)
    (h : ShiftRel pre pos dl l l') :
    ShiftRel pre pos dl (addTokenWith ty lexeme l) (addTokenWith ty lexeme l') := by
  obtain ⟨hs, hc, hst, ht, hp⟩ := h
  refine ⟨hs, hc, hst, forall₂_snoc ht ⟨rfl, rfl, ?_⟩, hp⟩
  intro hpos
  obtain ⟨h1, h2⟩ := hp hpos
  simp [h1, h2]

theorem shift_addToken (ty : TokenType) (h : ShiftRel pre pos dl l l') :
    ShiftRel pre pos dl (addToken ty l) (addToken ty l') := by
  have hl := shift_lexeme h
  obtain ⟨hs, hc, hst, ht, hp⟩ := h
  refine ⟨hs, hc, hst, forall₂_snoc ht ⟨rfl, hl, ?_⟩, hp⟩
  intro hpos
  obtain ⟨h1, h2⟩ := hp hpos
  simp only [h1, h2, hl, and_self]

theorem shift_reportError (message : List Char) (h : ShiftRel pre pos dl l l') :
    ShiftRel pre pos dl (reportError message l) (reportError message l') := by
  obtain ⟨hs, hc, hst, ht, hp⟩ := h
  exact ⟨hs, hc, hst, forall₂_snoc ht ⟨rfl, rfl, hp⟩, hp⟩

theorem shift_newline (h : ShiftRel pre pos dl l l') :
    ShiftRel pre pos dl { l with line := l.line + 1, column := 1 }
      { l' with line := l'.line + 1, column := 1 } := by
  obtain ⟨hs, hc, hst, ht, hp⟩ := h
  refine ⟨hs, hc, hst, ht, ?_⟩
  intro hpos
  obtain ⟨h1, h2⟩ := hp hpos
  simp only [h1, and_true]
  omega

theorem shift_advanceWhile (p : Char → Bool) :
    ∀ (fuel fuel' : Nat) (l l' : Lexer) (ran : Bool), fuel ≤ fuel' →
      ShiftRel pre pos dl l l' →
      OptSimWith (ShiftRel pre pos dl) (advanceWhile p fuel l ran)
        (advanceWhile p fuel' l' ran)
  | 0, _, _, _, _, _, _ => by
    intro r hr
    simp [advanceWhile] at hr
  | fuel + 1, 0, _, _, _, hf, _ => by omega
  | fuel + 1, fuel' + 1, l, l', ran, hf, h => by
    intro r hr
    rw [advanceWhile] at hr ⊢
    rw [shift_peek h]
    by_cases hc : p (peek l) = true
    · simp only [hc, if_true] at hr ⊢
      exact shift_advanceWhile p fuel fuel' _ _ true (by omega) (shift_advance h).2 r hr
    · simp only [hc, Bool.false_eq_true, if_false, Option.some.injEq] at hr ⊢
      subst hr
      exact ⟨(l', ran), rfl, h, rfl⟩

theorem shift_scanStringBody (value : List Char) (h : ShiftRel pre pos dl l l') :
    ShiftRel pre pos dl (scanStringBody l value).1 (scanStringBody l' value).1 ∧
      (scanStringBody l' value).2 = (scanStringBody l value).2 := by
  have h1 : ShiftRel pre pos dl
      (if peek l = '\n' then { l with line := l.line + 1, column := 1 } else l)
      (if peek l = '\n' then { l' with line := l'.line + 1, column := 1 } else l') := by
    split
    · exact shift_newline h
    · exact h
  unfold scanStringBody
  simp only [shift_peek h]
  generalize (if peek l = '\n' then { l with line := l.line + 1, column := 1 } else l) = m
    at h1 ⊢
  generalize (if peek l = '\n' then { l' with line := l'.line + 1, column := 1 } else l') = m'
    at h1 ⊢
  have ha := shift_advance h1
  have hp2 := shift_peek ha.2
  rw [shift_peek h1, shift_isAtEnd h1, hp2]
  have haa := (shift_advance ha.2).2
  have hr : ∀ msg, ShiftRel pre pos dl (advance (reportError msg (advance m).2)).2
      (advance (reportError msg (advance m').2)).2 :=
    fun msg => (shift_advance (shift_reportError msg ha.2)).2
  split_ifs
  all_goals first
    | exact ⟨haa, rfl⟩
    | exact ⟨hr _, rfl⟩
    | exact ⟨ha.2, by simp [ha.1]⟩

theorem shift_scanStringLoop :
    ∀ (fuel fuel' : Nat) (l l' : Lexer) (value : List Char), fuel ≤ fuel' →
      ShiftRel pre pos dl l l' →
      OptSimWith (ShiftRel pre pos dl) (scanStringLoop fuel l value)
        (scanStringLoop fuel' l' value)
  | 0, _, _, _, _, _, _ => by
    intro r hr
    simp [scanStringLoop] at hr
  | fuel + 1, 0, _, _, _, hf, _ => by omega
  | fuel + 1, fuel' + 1, l, l', value, hf, h => by
    intro r hr
    rw [scanStringLoop] at hr ⊢
    rw [shift_peek h, shift_isAtEnd h]
    by_cases hc : (peek l != '"' && !isAtEnd l) = true
    · simp only [hc, if_true] at hr ⊢
      obtain ⟨hb, hv⟩ := shift_scanStringBody value h
      rw [hv]
      exact shift_scanStringLoop fuel fuel' _ _ _ (by omega) hb r hr
    · simp only [hc, Bool.false_eq_true, if_false, Option.some.injEq] at hr ⊢
      subst hr
      exact ⟨(l', value), rfl, h, rfl⟩

theorem shift_blockCommentBody (nesting : Int) (h : ShiftRel pre pos dl l l') :
    ShiftRel pre pos dl (blockCommentBody l nesting).1 (blockCommentBody l' nesting).1 ∧
      (blockCommentBody l' nesting).2 = (blockCommentBody l nesting).2 := by
  have ha := (shift_advance h).2
  have haa := (shift_advance ha).2
  unfold blockCommentBody
  rw [shift_peek h, shift_peekNext h]
  split_ifs
  all_goals first
    | exact ⟨haa, rfl⟩
    | exact ⟨shift_newline ha, rfl⟩
    | exact ⟨ha, rfl⟩

theorem shift_blockCommentLoop :
    ∀ (fuel fuel' : Nat) (l l' : Lexer) (nesting : Int), fuel ≤ fuel' →
      ShiftRel pre pos dl l l' →
      OptSimWith (ShiftRel pre pos dl) (blockCommentLoop fuel l nesting)
        (blockCommentLoop fuel' l' nesting)
  | 0, _, _, _, _, _, _ => by
    intro r hr
    simp [blockCommentLoop] at hr
  | fuel + 1, 0, _, _, _, hf, _ => by omega
  | fuel + 1, fuel' + 1, l, l', nesting, hf, h => by
    intro r hr
    rw [blockCommentLoop] at hr ⊢
    rw [shift_isAtEnd h]
    by_cases hc : (decide (0 < nesting) && !isAtEnd l) = true
    · simp only [hc, if_true] at hr ⊢
      obtain ⟨hb, hv⟩ := shift_blockCommentBody nesting h
      rw [hv]
      exact shift_blockCommentLoop fuel fuel' _ _ _ (by omega) hb r hr
    · simp only [hc, Bool.false_eq_true, if_false, Option.some.injEq] at hr ⊢
      subst hr
      exact ⟨(l', nesting), rfl, h, rfl⟩

theorem shift_lineCommentLoop :
    ∀ (fuel fuel' : Nat) (l l' : Lexer), fuel ≤ fuel' → ShiftRel pre pos dl l l' →
      OptSim (ShiftRel pre pos dl) (lineCommentLoop fuel l) (lineCommentLoop fuel' l')
  | 0, _, _, _, _, _ => by
    intro r hr
    simp [lineCommentLoop] at hr
  | fuel + 1, 0, _, _, hf, _ => by omega
  | fuel + 1, fuel' + 1, l, l', hf, h => by
    intro r hr
    rw [lineCommentLoop] at hr ⊢
    rw [shift_peek h, shift_isAtEnd h]
    by_cases hc : (peek l != '\n' && !isAtEnd l) = true
    · simp only [hc, if_true] at hr ⊢
      exact shift_lineCommentLoop fuel fuel' _ _ (by omega) (shift_advance h).2 r hr
    · simp only [hc, Bool.false_eq_true, if_false, Option.some.injEq] at hr ⊢
      subst hr
      exact ⟨l', rfl, h⟩

theorem shift_fuel (h : ShiftRel pre pos dl l l') :
    l.source.length + 1 ≤ l'.source.length + 1 := by
  rw [h.1, List.length_append]
  omega

theorem shift_scanString (h : ShiftRel pre pos dl l l') :
    OptSim (ShiftRel pre pos dl) (scanString l) (scanString l') := by
  unfold scanString
  simp only [Option.bind_eq_bind]
  refine optSim_bind (shift_scanStringLoop _ _ _ _ _ (shift_fuel h) h) ?_
  intro a a' v hR
  dsimp only
  rw [shift_isAtEnd hR]
  split
  · exact optSim_some (shift_reportError _ hR)
  · exact optSim_some (shift_addTokenWith _ _ (shift_advance hR).2)


end Shift

section Shift

variable {pre : List Char} {pos : Bool} {dl : Int} {l l' : Lexer}

theorem shift_digits_then {p : Char → Bool} {fuel fuel' : Nat} {ran : Bool}
    {f f' : Lexer × Bool → Option Lexer} (hf : fuel ≤ fuel') (h : ShiftRel pre pos dl l l')
    (hcont : ∀ (a a' : Lexer) (v : Bool), ShiftRel pre pos dl a a' →
      OptSim (ShiftRel pre pos dl) (f (a, v)) (f' (a', v))) :
    OptSim (ShiftRel pre pos dl) ((advanceWhile p fuel l ran).bind f)
      ((advanceWhile p fuel' l' ran).bind f') :=
  optSim_bind (shift_advanceWhile p fuel fuel' l l' ran hf h) hcont

theorem shift_scanHexDigits (h : ShiftRel pre pos dl l l') :
    OptSim (ShiftRel pre pos dl) (scanHexDigits l) (scanHexDigits l') := by
  unfold scanHexDigits
  refine shift_digits_then (shift_fuel h) (shift_advance h).2 ?_
  intro a a' v hR
  dsimp only
  split
  · exact optSim_some (shift_reportError _ hR)
  · exact optSim_some (shift_addToken _ hR)

theorem shift_scanBinaryDigits (h : ShiftRel pre pos dl l l') :
    OptSim (ShiftRel pre pos dl) (scanBinaryDigits l) (scanBinaryDigits l') := by
  unfold scanBinaryDigits
  refine shift_digits_then (shift_fuel h) (shift_advance h).2 ?_
  intro a a' v hR
  dsimp only
  split
  · exact optSim_some (shift_reportError _ hR)
  · exact optSim_some (shift_addToken _ hR)

theorem shift_afterSign (h : ShiftRel pre pos dl l l') :
    ShiftRel pre pos dl (afterSign l) (afterSign l') := by
  unfold afterSign
  rw [shift_peek h]
  split
  · exact (shift_advance h).2
  · exact h

theorem shift_scanExponent {fuel fuel' : Nat} (hf : fuel ≤ fuel')
    (h : ShiftRel pre pos dl l l') :
    OptSim (ShiftRel pre pos dl) (scanExponent fuel l) (scanExponent fuel' l') := by
  have hs := shift_afterSign (shift_advance h).2
  unfold scanExponent
  rw [shift_peek h, shift_peek hs]
  split
  · split
    · exact optSim_some (shift_reportError _ hs)
    · refine shift_digits_then hf hs ?_
      intro a a' v hR
      exact optSim_some (shift_addToken _ hR)
  · exact optSim_some (shift_addToken _ h)

theorem shift_scanFraction {fuel fuel' : Nat} (hf : fuel ≤ fuel')
    (h : ShiftRel pre pos dl l l') :
    OptSim (ShiftRel pre pos dl) (scanFraction fuel l) (scanFraction fuel' l') := by
  unfold scanFraction
  rw [shift_peek h, shift_peekNext h]
  split
  · refine shift_digits_then hf (shift_advance h).2 ?_
    intro a a' v hR
    exact shift_scanExponent hf hR
  · exact optSim_some (shift_addToken _ h)

theorem shift_scanDecimal (h : ShiftRel pre pos dl l l') :
    OptSim (ShiftRel pre pos dl) (scanDecimal l) (scanDecimal l') := by
  unfold scanDecimal
  refine shift_digits_then (shift_fuel h) h ?_
  intro a a' v hR
  exact shift_scanFraction (shift_fuel h) hR

theorem shift_scanNumber (h : ShiftRel pre pos dl l l') :
    OptSim (ShiftRel pre pos dl) (scanNumber l) (scanNumber l') := by
  rw [scanNumber_eq, scanNumber_eq, shift_peek h, shift_width h, shift_startChar h]
  split
  · exact shift_scanHexDigits h
  · split
    · exact shift_scanBinaryDigits h
    · exact shift_scanDecimal h

theorem shift_scanIdentifier (getKeyword : List Char → TokenType)
    (h : ShiftRel pre pos dl l l') :
    OptSim (ShiftRel pre pos dl) (scanIdentifier getKeyword l)
      (scanIdentifier getKeyword l') := by
  unfold scanIdentifier
  simp only [Option.bind_eq_bind]
  refine optSim_bind (shift_advanceWhile _ _ _ _ _ _ (shift_fuel h) h) ?_
  intro a a' v hR
  dsimp only
  rw [shift_lexeme hR]
  split
  · exact optSim_some (shift_addTokenWith _ _ hR)
  · exact optSim_some (shift_addToken _ hR)

theorem shift_scanTokenCase (getKeyword : List Char → TokenType) (k : StartKind) (c : Char)
    (h : ShiftRel pre pos dl l l') :
    OptSim (ShiftRel pre pos dl) (scanTokenCase getKeyword k c l)
      (scanTokenCase getKeyword k c l') := by
  have hfuel := shift_fuel h
  cases k with
  | single ty => exact optSim_some (shift_addToken _ h)
  | withEqual alone both =>
    simp only [scanTokenCase]
    rw [(shift_matchChar '=' h).1]
    exact optSim_some (shift_addToken _ (shift_matchChar '=' h).2)
  | ampersand =>
    simp only [scanTokenCase]
    rw [(shift_matchChar '&' h).1]
    split
    · exact optSim_some (shift_addToken _ (shift_matchChar '&' h).2)
    · exact optSim_some (shift_reportError _ (shift_matchChar '&' h).2)
  | bar =>
    simp only [scanTokenCase]
    rw [(shift_matchChar '|' h).1]
    split
    · exact optSim_some (shift_addToken _ (shift_matchChar '|' h).2)
    · exact optSim_some (shift_reportError _ (shift_matchChar '|' h).2)
  | slash =>
    simp only [scanTokenCase]
    have h1 := shift_matchChar '/' h
    have h2 := shift_matchChar '*' h1.2
    rw [h1.1, h2.1]
    split
    · exact shift_lineCommentLoop _ _ _ _ hfuel h1.2
    · split
      · refine optSim_bind (shift_blockCommentLoop _ _ _ _ _ hfuel h2.2) ?_
        intro a a' v hR
        dsimp only
        split
        · exact optSim_some (shift_reportError _ hR)
        · exact optSim_some hR
      · exact optSim_some (shift_addToken _ h2.2)
  | blank => exact optSim_some h
  | newline => exact optSim_some (shift_newline h)
  | quote => exact shift_scanString h
  | digit => exact shift_scanNumber h
  | letter => exact shift_scanIdentifier getKeyword h
  | other => exact optSim_some (shift_reportError _ h)

theorem shift_scanToken (getKeyword : List Char → TokenType) (h : ShiftRel pre pos dl l l') :
    OptSim (ShiftRel pre pos dl) (scanToken getKeyword l) (scanToken getKeyword l') := by
  rw [scanToken_eq, scanToken_eq, (shift_advance h).1]
  exact shift_scanTokenCase getKeyword _ _ (shift_advance h).2

theorem shiftTop_start (h : ShiftTop pre pos dl l l') :
    ShiftRel pre pos dl { l with start := l.current } { l' with start := l'.current } := by
  obtain ⟨hs, hc, ht, hp⟩ := h
  exact ⟨hs, hc, hc, ht, hp⟩

theorem shiftTop_of_shiftRel (h : ShiftRel pre pos dl l l') : ShiftTop pre pos dl l l' := by
  obtain ⟨hs, hc, _, ht, hp⟩ := h
  exact ⟨hs, hc, ht, hp⟩

theorem shift_scanTokensLoop (getKeyword : List Char → TokenType) :
    ∀ (fuel fuel' : Nat) (l l' : Lexer), fuel ≤ fuel' → ShiftTop pre pos dl l l' →
      OptSim (ShiftTop pre pos dl) (scanTokensLoop getKeyword fuel l)
        (scanTokensLoop getKeyword fuel' l')
  | 0, _, _, _, _, _ => by
    intro r hr
    simp [scanTokensLoop] at hr
  | fuel + 1, 0, _, _, hf, _ => by omega
  | fuel + 1, fuel' + 1, l, l', hf, h => by
    intro r hr
    have hR := shiftTop_start h
    rw [scanTokensLoop] at hr ⊢
    have he : isAtEnd l' = isAtEnd l := by
      have := shift_isAtEnd hR
      simpa [isAtEnd] using this
    rw [he]
    by_cases hc : isAtEnd l = true
    · simp only [hc, Bool.not_true, Bool.false_eq_true, if_false, Option.some.injEq] at hr ⊢
      subst hr
      exact ⟨l', rfl, h⟩
    · simp only [hc, Bool.not_false, if_true, Bool.not_eq_true] at hr ⊢
      rw [Option.bind_eq_some] at hr
      obtain ⟨m, hm, hrest⟩ := hr
      obtain ⟨m', hm', hRm⟩ := shift_scanToken getKeyword hR m hm
      rw [hm', Option.some_bind]
      exact shift_scanTokensLoop getKeyword fuel fuel' m m' (by omega)
        (shiftTop_of_shiftRel hRm) r hrest

end Shift

/-! ## Whitespace and comments in front of a source -/

theorem movedTop_refl (l : Lexer) : MovedTop 0 l l := by
  simp [MovedTop]

theorem movedTop_trans {m n : Nat} {a b c : Lexer} (h1 : MovedTop m a b)
    (h2 : MovedTop n b c) : MovedTop (m + n) a c := by
  obtain ⟨a1, a2, a3, a4, a5⟩ := h1
  obtain ⟨b1, b2, b3, b4, b5⟩ := h2
  refine ⟨b1.trans a1, ?_, b3.trans a3, b4.trans a4, b5.trans a5⟩
  omega

theorem movedTop_of_movedBy {n : Nat} {l l1 : Lexer} (h : MovedBy n l l1) :
    MovedTop n l l1 :=
  ⟨h.1, h.2.1, h.2.2.1, h.2.2.2.1, h.2.2.2.2.2⟩

theorem advance_of_source {l : Lexer} {pre rest : List Char} {c : Char}
    (hs : l.source = pre ++ c :: rest) (hc : l.current = pre.length) :
    (advance l).1 = c ∧ (advance l).2.source = (pre ++ [c]) ++ rest ∧
      (advance l).2.current = (pre ++ [c]).length := by
  refine ⟨(peek_of_source hs hc).2.2, ?_, ?_⟩
  · simp [advance, hs]
  · simp [advance, hc]

theorem scanTokensLoop_step (getKeyword : List Char → TokenType) (fuel : Nat) (l : Lexer)
    (h : isAtEnd l = false) :
    scanTokensLoop getKeyword (fuel + 1) l =
      (scanToken getKeyword { l with start := l.current }).bind
        (scanTokensLoop getKeyword fuel) := by
  rw [scanTokensLoop]
  simp [h]

theorem scanTokensLoop_end (getKeyword : List Char → TokenType) (fuel : Nat) (l : Lexer)
    (h : isAtEnd l = true) : scanTokensLoop getKeyword (fuel + 1) l = some l := by
  rw [scanTokensLoop]
  simp [h]

theorem startKind_whitespace {c : Char} (h : isWhitespace c = true) :
    startKind c = .blank ∨ startKind c = .newline := by
  simp only [isWhitespace, Bool.or_eq_true, decide_eq_true_eq] at h
  rcases h with ((h | h) | h) | h <;> subst h
  · exact Or.inl rfl
  · exact Or.inl rfl
  · exact Or.inl rfl
  · exact Or.inr rfl

theorem scanToken_whitespace (getKeyword : List Char → TokenType) (l : Lexer)
    (pre rest : List Char) (c : Char) (hw : isWhitespace c = true)
    (hs : l.source = pre ++ c :: rest) (hc : l.current = pre.length) :
    ∃ l1, scanToken getKeyword l = some l1 ∧ MovedTop 1 l l1 := by
  have ha := (advance_of_source hs hc).1
  rw [scanToken_eq, ha]
  rcases startKind_whitespace hw with hk | hk <;> rw [hk]
  · exact ⟨_, rfl, by simp [MovedTop, advance]⟩
  · exact ⟨_, rfl, by simp [MovedTop, advance]⟩

theorem scanTokensLoop_whitespace (getKeyword : List Char → TokenType) :
    ∀ (w : List Char), w.all isWhitespace = true →
    ∀ (pre rest : List Char) (l : Lexer) (fuel : Nat),
      l.source = pre ++ w ++ rest → l.current = pre.length →
      ∃ l1, MovedTop w.length l l1 ∧
        scanTokensLoop getKeyword (fuel + w.length) l = scanTokensLoop getKeyword fuel l1
  | [], _, pre, rest, l, fuel, _, _ => ⟨l, movedTop_refl l, rfl⟩
  | c :: w, hw, pre, rest, l, fuel, hs, hc => by
    simp only [List.all_cons, Bool.and_eq_true] at hw
    have hs1 : l.source = pre ++ c :: (w ++ rest) := by simpa using hs
    have hs0 : ({ l with start := l.current } : Lexer).source = pre ++ c :: (w ++ rest) := hs1
    obtain ⟨l1, h1, hm1⟩ := scanToken_whitespace getKeyword { l with start := l.current }
      pre (w ++ rest) c hw.1 hs0 hc
    have hm1' : MovedTop 1 l l1 := hm1
    have hs2 : l1.source = (pre ++ [c]) ++ w ++ rest := by
      rw [hm1'.1, hs1]; simp
    obtain ⟨l2, hm2, h2⟩ := scanTokensLoop_whitespace getKeyword w hw.2 (pre ++ [c]) rest l1 fuel
      hs2 (by rw [hm1'.2.1, hc]; simp)
    refine ⟨l2, ?_, ?_⟩
    · have := movedTop_trans hm1' hm2
      rw [List.length_cons, Nat.add_comm]
      exact this
    · have he : isAtEnd l = false := (peek_of_source hs1 hc).2.1
      have hf : fuel + (c :: w).length = (fuel + w.length) + 1 := by simp; omega
      rw [hf, scanTokensLoop_step getKeyword _ l he, h1, Option.some_bind, h2]

theorem peekNext_of_source {l : Lexer} {pre rest : List Char} {c c2 : Char}
    (hs : l.source = pre ++ c :: c2 :: rest) (hc : l.current = pre.length) :
    peekNext l = c2 := by
  have h := charAt_append_cons (pre ++ [c]) rest c2
  simp only [List.append_assoc, List.singleton_append, List.length_append,
    List.length_singleton] at h
  simp [peekNext, hs, hc, h]

theorem blockCommentBody_open {l : Lexer} (nesting : Int) (h1 : peek l = '/')
    (h2 : peekNext l = '*') :
    blockCommentBody l nesting = ((advance (advance l).2).2, nesting + 1) ∧
      MovedBy 2 l (advance (advance l).2).2 := by
  refine ⟨by simp [blockCommentBody, h1, h2], ?_⟩
  exact movedBy_trans (movedBy_advance l) (movedBy_advance _)

theorem blockCommentBody_close {l : Lexer} (nesting : Int) (h1 : peek l = '*')
    (h2 : peekNext l = '/') :
    blockCommentBody l nesting = ((advance (advance l).2).2, nesting - 1) ∧
      MovedBy 2 l (advance (advance l).2).2 := by
  refine ⟨by simp [blockCommentBody, h1, h2], ?_⟩
  exact movedBy_trans (movedBy_advance l) (movedBy_advance _)

theorem blockCommentBody_other {l : Lexer} (nesting : Int)
    (h1 : ¬ (peek l = '/' ∧ peekNext l = '*')) (h2 : ¬ (peek l = '*' ∧ peekNext l = '/')) :
    ∃ l1, blockCommentBody l nesting = (l1, nesting) ∧ MovedBy 1 l l1 := by
  unfold blockCommentBody
  have e1 : (decide (peek l = '/') && decide (peekNext l = '*')) = false := by
    simpa using h1
  have e2 : (decide (peek l = '*') && decide (peekNext l = '/')) = false := by
    simpa using h2
  simp only [e1, e2, Bool.false_eq_true, if_false]
  by_cases h3 : peek l = '\n'
  · simp only [h3, if_true]
    exact ⟨_, rfl, by simp [MovedBy, advance]⟩
  · simp only [h3, if_false]
    exact ⟨_, rfl, movedBy_advance l⟩

theorem blockCommentLoop_succ (fuel : Nat) (l : Lexer) (nesting : Int) (h1 : 0 < nesting)
    (h2 : isAtEnd l = false) :
    blockCommentLoop (fuel + 1) l nesting =
      blockCommentLoop fuel (blockCommentBody l nesting).1 (blockCommentBody l nesting).2 := by
  rw [blockCommentLoop]
  simp [h1, h2]

theorem blockCommentLoop_closed : ∀ (t : List Char) (d : Nat),
    markerScan t d = some (0, false) →
    ∀ (pre rest : List Char) (l : Lexer) (fuel : Nat),
      l.source = pre ++ t ++ '*' :: '/' :: rest → l.current = pre.length →
      t.length + 2 ≤ fuel →
      ∃ r, blockCommentLoop fuel l ((d : Int) + 1) = some (r, 0) ∧
        MovedBy (t.length + 2) l r := by
  intro t d
  induction t, d using markerScan.induct with
  | case1 d =>
    intro h pre rest l fuel hs hc hf
    obtain ⟨fuel, rfl⟩ : ∃ k, fuel = k + 2 := ⟨fuel - 2, by simp at hf; omega⟩
    simp only [markerScan, Option.some.injEq, Prod.mk.injEq, and_true] at h
    subst h
    have hs1 : l.source = pre ++ '*' :: '/' :: rest := by simpa using hs
    obtain ⟨hp, he, _⟩ := peek_of_source hs1 hc
    have hn := peekNext_of_source hs1 hc
    obtain ⟨hb, hm⟩ := blockCommentBody_close (l := l) ((0 : Nat) + 1 : Int) hp hn
    rw [blockCommentLoop_succ _ _ _ (by norm_num) he, hb]
    refine ⟨_, ?_, by simpa using hm⟩
    rw [blockCommentLoop]
    simp
  | case2 t d ih =>
    intro h pre rest l fuel hs hc hf
    obtain ⟨fuel, rfl⟩ : ∃ k, fuel = k + 1 := ⟨fuel - 1, by simp at hf; omega⟩
    have h1 : markerScan t (d + 1) = some (0, false) := by simpa [markerScan] using h
    have hs1 : l.source = pre ++ '/' :: '*' :: (t ++ '*' :: '/' :: rest) := by simpa using hs
    obtain ⟨hp, he, _⟩ := peek_of_source hs1 hc
    have hn := peekNext_of_source hs1 hc
    obtain ⟨hb, hm⟩ := blockCommentBody_open (l := l) ((d : Int) + 1) hp hn
    rw [blockCommentLoop_succ _ _ _ (by omega) he, hb]
    have hs2 : (advance (advance l).2).2.source = (pre ++ ['/', '*']) ++ t ++ '*' :: '/' :: rest := by
      rw [hm.1, hs1]; simp
    obtain ⟨r, hr, hmr⟩ := ih h1 (pre ++ ['/', '*']) rest _ fuel hs2
      (by rw [hm.2.1, hc]; simp) (by simp at hf; omega)
    refine ⟨r, ?_, ?_⟩
    · rw [← hr]; push_cast; rfl
    · have := movedBy_trans hm hmr
      simpa [Nat.add_comm, Nat.add_left_comm, Nat.add_assoc] using this
  | case3 t =>
    intro h
    simp [markerScan] at h
  | case4 t d hd ih =>
    intro h pre rest l fuel hs hc hf
    obtain ⟨fuel, rfl⟩ : ∃ k, fuel = k + 1 := ⟨fuel - 1, by simp at hf; omega⟩
    have h1 : markerScan t (d - 1) = some (0, false) := by simpa [markerScan, hd] using h
    have hs1 : l.source = pre ++ '*' :: '/' :: (t ++ '*' :: '/' :: rest) := by simpa using hs
    obtain ⟨hp, he, _⟩ := peek_of_source hs1 hc
    have hn := peekNext_of_source hs1 hc
    obtain ⟨hb, hm⟩ := blockCommentBody_close (l := l) ((d : Int) + 1) hp hn
    rw [blockCommentLoop_succ _ _ _ (by omega) he, hb]
    have hs2 : (advance (advance l).2).2.source = (pre ++ ['*', '/']) ++ t ++ '*' :: '/' :: rest := by
      rw [hm.1, hs1]; simp
    obtain ⟨r, hr, hmr⟩ := ih h1 (pre ++ ['*', '/']) rest _ fuel hs2
      (by rw [hm.2.1, hc]; simp) (by simp at hf; omega)
    refine ⟨r, ?_, ?_⟩
    · rw [← hr]
      have e : ((d : Int) + 1 - 1) = (((d - 1 : Nat) : Int) + 1) := by omega
      rw [e]
    · have := movedBy_trans hm hmr
      simpa [Nat.add_comm, Nat.add_left_comm, Nat.add_assoc] using this
  | case5 d =>
    intro h
    simp [markerScan] at h
  | case6 c t d n1 n2 n3 ih =>
    intro h pre rest l fuel hs hc hf
    obtain ⟨fuel, rfl⟩ : ∃ k, fuel = k + 1 := ⟨fuel - 1, by simp at hf; omega⟩
    have h1 : markerScan t d = some (0, false) := by
      rw [markerScan] at h
      · exact h
      · exact n1
      · exact n2
      · exact n3
    have hs1 : l.source = pre ++ c :: (t ++ '*' :: '/' :: rest) := by simpa using hs
    obtain ⟨hp, he, _⟩ := peek_of_source hs1 hc
    have hn : peekNext l = (t ++ '*' :: '/' :: rest).head (by simp) := by
      cases t with
      | nil => exact peekNext_of_source (by simpa using hs1) hc
      | cons c2 t => exact peekNext_of_source (by simpa using hs1) hc
    have k1 : ¬ (peek l = '/' ∧ peekNext l = '*') := by
      rintro ⟨a, b⟩
      rw [hp] at a
      rw [hn] at b
      cases t with
      | nil => exact n3 a rfl
      | cons c2 t => exact n1 t a (by simp at b; rw [b])
    have k2 : ¬ (peek l = '*' ∧ peekNext l = '/') := by
      rintro ⟨a, b⟩
      rw [hp] at a
      rw [hn] at b
      cases t with
      | nil => simp at b
      | cons c2 t => exact n2 t a (by simp at b; rw [b])
    obtain ⟨l1, hb, hm⟩ := blockCommentBody_other (l := l) ((d : Int) + 1) k1 k2
    rw [blockCommentLoop_succ _ _ _ (by omega) he, hb]
    have hs2 : l1.source = (pre ++ [c]) ++ t ++ '*' :: '/' :: rest := by
      rw [hm.1, hs1]; simp
    obtain ⟨r, hr, hmr⟩ := ih h1 (pre ++ [c]) rest _ fuel hs2
      (by rw [hm.2.1, hc]; simp) (by simp at hf; omega)
    refine ⟨r, hr, ?_⟩
    have := movedBy_trans hm hmr
    simpa [Nat.add_comm, Nat.add_left_comm, Nat.add_assoc] using this

theorem matchChar_hit {l : Lexer} {pre rest : List Char} {c : Char}
    (hs : l.source = pre ++ c :: rest) (hc : l.current = pre.length) :
    (matchChar c l).1 = true ∧ MovedBy 1 l (matchChar c l).2 ∧
      (matchChar c l).2.line = l.line := by
  obtain ⟨_, he, hch⟩ := peek_of_source hs hc
  simp [matchChar, he, hch, MovedBy]

theorem matchChar_miss {l : Lexer} {pre rest : List Char} {c : Char} (expected : Char)
    (hs : l.source = pre ++ c :: rest) (hc : l.current = pre.length) (hne : c ≠ expected) :
    matchChar expected l = (false, l) := by
  obtain ⟨_, he, hch⟩ := peek_of_source hs hc
  simp [matchChar, he, hch, hne]

theorem matchChar_end {l : Lexer} (expected : Char) (he : isAtEnd l = true) :
    matchChar expected l = (false, l) := by
  simp [matchChar, he]

theorem isAtEnd_of_source {l : Lexer} {pre : List Char} (hs : l.source = pre)
    (hc : l.current = pre.length) : isAtEnd l = true := by
  simp [isAtEnd, hs, hc]

theorem peek_of_end {l : Lexer} (he : isAtEnd l = true) : peek l = Char.ofNat 0 := by
  simp [peek, he]

theorem scanToken_block_comment (getKeyword : List Char → TokenType) (t : List Char)
    (ht : markersClosed t = true) (pre rest : List Char) (l : Lexer)
    (hs : l.source = pre ++ '/' :: '*' :: (t ++ '*' :: '/' :: rest))
    (hc : l.current = pre.length) :
    ∃ l1, scanToken getKeyword l = some l1 ∧ MovedBy (t.length + 4) l l1 := by
  have ht0 : markerScan t 0 = some (0, false) := by simpa [markersClosed] using ht
  obtain ⟨ha, hs1, hc1⟩ := advance_of_source hs hc
  have hm0 := movedBy_advance l
  have hs1' : (advance l).2.source = (pre ++ ['/']) ++ '*' :: (t ++ '*' :: '/' :: rest) := by
    rw [hs1]
  have h1 := matchChar_miss (l := (advance l).2) '/' hs1' hc1 (by decide)
  obtain ⟨h2, hm2, _⟩ := matchChar_hit (l := (advance l).2) hs1' hc1
  have hs2 : (matchChar '*' (advance l).2).2.source =
      (pre ++ ['/', '*']) ++ t ++ '*' :: '/' :: rest := by
    rw [hm2.1, hs1']; simp
  obtain ⟨r, hr, hmr⟩ := blockCommentLoop_closed t 0 ht0 (pre ++ ['/', '*']) rest
    (matchChar '*' (advance l).2).2 ((advance l).2.source.length + 1) hs2
    (by rw [hm2.2.1, hc1]; simp) (by rw [hs1']; simp; omega)
  refine ⟨r, ?_, ?_⟩
  · rw [scanToken_eq, ha]
    have hk : startKind '/' = .slash := rfl
    rw [hk]
    simp only [scanTokenCase, h1, Bool.false_eq_true, if_false, h2, if_true]
    have hr' : blockCommentLoop ((advance l).2.source.length + 1)
        (matchChar '*' (advance l).2).2 1 = some (r, 0) := by simpa using hr
    rw [hr']
    simp
  · have := movedBy_trans (movedBy_trans hm0 hm2) hmr
    simpa [Nat.add_comm, Nat.add_left_comm, Nat.add_assoc] using this

theorem lineCommentLoop_run : ∀ (c : List Char), (∀ x ∈ c, x ≠ '\n') →
    ∀ (pre rest : List Char) (l : Lexer) (fuel : Nat),
      l.source = pre ++ c ++ rest → l.current = pre.length →
      (rest = [] ∨ ∃ s, rest = '\n' :: s) → c.length < fuel →
      ∃ r, lineCommentLoop fuel l = some r ∧ MovedBy c.length l r ∧ r.line = l.line
  | [], _, pre, rest, l, fuel, hs, hc, hrest, hf => by
    obtain ⟨fuel, rfl⟩ : ∃ k, fuel = k + 1 := ⟨fuel - 1, by simp at hf; omega⟩
    refine ⟨l, ?_, movedBy_refl l, rfl⟩
    rw [lineCommentLoop]
    rcases hrest with rfl | ⟨s, rfl⟩
    · have he := isAtEnd_of_source (l := l) (by simpa using hs) hc
      simp [he]
    · obtain ⟨hp, _, _⟩ := peek_of_source (l := l) (by simpa using hs) hc
      simp [hp]
  | x :: c, hx, pre, rest, l, fuel, hs, hc, hrest, hf => by
    obtain ⟨fuel, rfl⟩ : ∃ k, fuel = k + 1 := ⟨fuel - 1, by simp at hf; omega⟩
    have hs1 : l.source = pre ++ x :: (c ++ rest) := by simpa using hs
    obtain ⟨hp, he, _⟩ := peek_of_source hs1 hc
    have hne : x ≠ '\n' := hx x (List.mem_cons_self _ _)
    have hm := movedBy_advance l
    obtain ⟨r, hr, hmr, hl⟩ := lineCommentLoop_run c
      (fun y hy => hx y (List.mem_cons_of_mem _ hy)) (pre ++ [x]) rest (advance l).2 fuel
      (by rw [hm.1, hs1]; simp) (by rw [hm.2.1, hc]; simp) hrest (by simp at hf; omega)
    refine ⟨r, ?_, ?_, hl⟩
    · rw [lineCommentLoop]
      simp [hp, he, hne, hr]
    · have := movedBy_trans hm hmr
      simpa [Nat.add_comm] using this

theorem scanToken_line_comment (getKeyword : List Char → TokenType) (c : List Char)
    (hn : ∀ x ∈ c, x ≠ '\n') (pre rest : List Char) (l : Lexer)
    (hs : l.source = pre ++ '/' :: '/' :: (c ++ rest)) (hc : l.current = pre.length)
    (hrest : rest = [] ∨ ∃ s, rest = '\n' :: s) :
    ∃ l1, scanToken getKeyword l = some l1 ∧ MovedBy (c.length + 2) l l1 ∧
      l1.line = l.line := by
  obtain ⟨ha, hs1, hc1⟩ := advance_of_source hs hc
  have hm0 := movedBy_advance l
  have hs1' : (advance l).2.source = (pre ++ ['/']) ++ '/' :: (c ++ rest) := by rw [hs1]
  obtain ⟨h2, hm2, hl2⟩ := matchChar_hit (l := (advance l).2) hs1' hc1
  obtain ⟨r, hr, hmr, hlr⟩ := lineCommentLoop_run c hn (pre ++ ['/', '/']) rest
    (matchChar '/' (advance l).2).2 ((advance l).2.source.length + 1)
    (by rw [hm2.1, hs1']; simp) (by rw [hm2.2.1, hc1]; simp) hrest
    (by rw [hs1']; simp; omega)
  refine ⟨r, ?_, ?_, ?_⟩
  · rw [scanToken_eq, ha]
    have hk : startKind '/' = .slash := rfl
    rw [hk]
    simp only [scanTokenCase, h2, if_true]
    exact hr
  · have := movedBy_trans (movedBy_trans hm0 hm2) hmr
    simpa [Nat.add_comm, Nat.add_left_comm, Nat.add_assoc] using this
  · rw [hlr, hl2]
    simp [advance]

theorem scanToken_newline (getKeyword : List Char → TokenType) (pre rest : List Char)
    (l : Lexer) (hs : l.source = pre ++ '\n' :: rest) (hc : l.current = pre.length) :
    ∃ l1, scanToken getKeyword l = some l1 ∧ MovedBy 1 l l1 ∧ l1.line = l.line + 1 ∧
      l1.column = 1 := by
  obtain ⟨ha, _, _⟩ := advance_of_source hs hc
  rw [scanToken_eq, ha]
  have hk : startKind '\n' = .newline := rfl
  rw [hk]
  exact ⟨_, rfl, by simp [MovedBy, advance], by simp [advance], rfl⟩

theorem scanTokensLoop_skip (getKeyword : List Char → TokenType) (fuel : Nat) (l l1 : Lexer)
    (he : isAtEnd l = false)
    (h : scanToken getKeyword { l with start := l.current } = some l1) :
    scanTokensLoop getKeyword (fuel + 1) l = scanTokensLoop getKeyword fuel l1 := by
  rw [scanTokensLoop_step getKeyword fuel l he, h, Option.some_bind]

theorem scanTokens_of_loop (getKeyword : List Char → TokenType) (source filename : List Char)
    (r : Lexer)
    (h : scanTokensLoop getKeyword (source.length + 1) (Lexer.new source filename) = some r) :
    scanTokens getKeyword (Lexer.new source filename) =
      some (r.tokens ++ [⟨.END_OF_FILE, [], r.line, r.column⟩],
        { r with tokens := r.tokens ++ [⟨.END_OF_FILE, [], r.line, r.column⟩] }) := by
  have h0 : scanTokensLoop getKeyword ((Lexer.new source filename).source.length + 1)
      { Lexer.new source filename with
        tokens := [], start := 0, current := 0, line := 1, column := 1 } = some r := h
  unfold scanTokens
  simp only [h0, Option.bind_eq_bind, Option.some_bind]

/-! ## A source behind a text that produces no token -/

theorem typesAndLexemes_of_shift {pos : Bool} {dl : Int} {a b : List Token}
    (h : List.Forall₂ (TokenShift pos dl) a b) : typesAndLexemes b = typesAndLexemes a := by
  induction h with
  | nil => rfl
  | cons h _ ih =>
    simp only [typesAndLexemes, List.map_cons, List.cons.injEq, Prod.mk.injEq] at ih ⊢
    exact ⟨⟨h.1, h.2.1⟩, ih⟩

theorem lines_of_shift {dl : Int} {a b : List Token}
    (h : List.Forall₂ (TokenShift true dl) a b) :
    b.map (fun t => t.line) = a.map (fun t => t.line + dl) ∧
      b.map (fun t => t.column) = a.map (fun t => t.column) := by
  induction h with
  | nil => exact ⟨rfl, rfl⟩
  | cons h _ ih =>
    simp only [List.map_cons, List.cons.injEq]
    exact ⟨⟨(h.2.2 rfl).1, ih.1⟩, ⟨(h.2.2 rfl).2, ih.2⟩⟩

theorem scanTokens_behind (getKeyword : List Char → TokenType)
    (pre s filename filename' : List Char) (pos : Bool) (dl : Int) (fuel : Nat) (l1 : Lexer)
    (hloop : scanTokensLoop getKeyword ((pre ++ s).length + 1) (Lexer.new (pre ++ s) filename) =
      scanTokensLoop getKeyword fuel l1)
    (hfuel : s.length + 1 ≤ fuel)
    (hrel : ShiftTop pre pos dl (Lexer.new s filename') l1) :
    ∃ r r', scanTokens getKeyword (Lexer.new s filename') = some r ∧
      scanTokens getKeyword (Lexer.new (pre ++ s) filename) = some r' ∧
      List.Forall₂ (TokenShift pos dl) r.1 r'.1 := by
  obtain ⟨r, added, hr, hadd, _, _, _, hl⟩ :=
    scanTokens_total getKeyword (Lexer.new s filename')
  have hl' : scanTokensLoop getKeyword (s.length + 1) (Lexer.new s filename') = some r := hl
  obtain ⟨r', hr', hrr⟩ := shift_scanTokensLoop getKeyword _ _ _ _ hfuel hrel r hl'
  refine ⟨_, (r'.tokens ++ [⟨.END_OF_FILE, [], r'.line, r'.column⟩],
    { r' with tokens := r'.tokens ++ [⟨.END_OF_FILE, [], r'.line, r'.column⟩] }), hr, ?_, ?_⟩
  · have h0 : scanTokensLoop getKeyword ((Lexer.new (pre ++ s) filename).source.length + 1)
        { Lexer.new (pre ++ s) filename with
          tokens := [], start := 0, current := 0, line := 1, column := 1 } = some r' := by
      rw [← hr', ← hloop]
      rfl
    unfold scanTokens
    simp only [h0, Option.bind_eq_bind, Option.some_bind]
  · obtain ⟨_, _, ht, hp⟩ := hrr
    rw [← hadd]
    exact forall₂_snoc ht ⟨rfl, rfl, hp⟩

/-! ## One token at the scanner's position -/

theorem startKind_plain {c : Char} (h : c ∉ specialChars) :
    startKind c =
      if isdigit c then .digit else if isalpha c || c = '_' then .letter else .other := by
  simp only [specialChars, operatorChars, List.cons_append, List.nil_append, List.mem_cons,
    List.mem_singleton, not_or, List.not_mem_nil, not_false_eq_true, and_true] at h
  obtain ⟨h1, h2, h3, h4, h5, h6, h7, h8, h9, h10, h11, h12, h13, h14, h15, h16, h17, h18,
    h19, h20, h21, h22, h23, h24, h25, h26⟩ := h
  unfold startKind
  simp only [h1, h2, h3, h4, h5, h6, h7, h8, h9, h10, h11, h12, h13, h14, h15, h16, h17, h18,
    h19, h20, h21, h22, h23, h24, h25, h26, if_false, decide_False, Bool.or_self,
    Bool.false_eq_true]

theorem not_special_of {p : Char → Bool} (hp : ∀ x ∈ specialChars, p x = false) {c : Char}
    (hc : p c = true) : c ∉ specialChars := by
  intro hm
  rw [hp c hm] at hc
  cases hc

theorem isdigit_of_isalpha {c : Char} (h : (isalpha c || c = '_') = true) :
    isdigit c = false := by
  by_contra hd
  simp only [Bool.not_eq_false, isdigit, decide_eq_true_eq] at hd
  simp only [isalpha, Bool.or_eq_true, decide_eq_true_eq] at h
  rcases h with (h | h) | h
  · exact absurd (le_trans h.1 hd.2) (by decide)
  · exact absurd (le_trans h.1 hd.2) (by decide)
  · subst h
    exact absurd hd (by decide)

theorem startKind_digit {c : Char} (h : isdigit c = true) : startKind c = .digit := by
  rw [startKind_plain (not_special_of (p := isdigit) (by decide) h)]
  simp [h]

theorem startKind_letter {c : Char} (h : (isalpha c || c = '_') = true) :
    startKind c = .letter := by
  rw [startKind_plain (not_special_of (p := fun c => isalpha c || c = '_') (by decide) h)]
  simp only [isdigit_of_isalpha h, h, Bool.false_eq_true, if_false, if_true]

theorem startKind_other {c : Char} (h : cannotStartToken c = true) : startKind c = .other := by
  have hs : c ∉ specialChars := by
    intro hm
    revert h
    simp only [specialChars, List.mem_append, List.mem_cons, List.mem_singleton,
      List.not_mem_nil, or_false] at hm
    rcases hm with hm | hm
    · simp [cannotStartToken, hm]
    · rcases hm with rfl | rfl | rfl | rfl | rfl <;> decide
  rw [startKind_plain hs]
  simp only [cannotStartToken, Bool.and_eq_true, Bool.not_eq_true', bne_iff_ne, ne_eq] at h
  obtain ⟨⟨⟨⟨⟨_, hd⟩, ha⟩, hu⟩, _⟩, _⟩ := h
  simp [hd, ha, hu]

theorem substr_of_source (pre t rest : List Char) :
    substr (pre ++ t ++ rest) pre.length t.length = t := by
  simp [substr]

theorem addToken_lexeme {l : Lexer} {pre t rest : List Char} (type : TokenType)
    (hs : l.source = pre ++ t ++ rest) (hst : l.start = pre.length)
    (hc : l.current = pre.length + t.length) :
    ∃ token, (addToken type l).tokens = l.tokens ++ [token] ∧ token.type = type ∧
      token.lexeme = t := by
  refine ⟨_, rfl, rfl, ?_⟩
  show substr l.source l.start (l.current - l.start) = t
  rw [hs, hst, hc, Nat.add_sub_cancel_left, substr_of_source]

theorem addToken_frame (type : TokenType) (l : Lexer) :
    (addToken type l).source = l.source ∧ (addToken type l).current = l.current ∧
      (addToken type l).diagnostics = l.diagnostics := ⟨rfl, rfl, rfl⟩

theorem advanceWhile_run (p : Char → Bool) (hp : p (Char.ofNat 0) = false) :
    ∀ (ds : List Char), ds.all p = true →
    ∀ (pre rest : List Char) (l : Lexer) (fuel : Nat) (ran : Bool),
      l.source = pre ++ ds ++ rest → l.current = pre.length →
      notContinuedBy p rest = true → ds.length < fuel →
      ∃ r, advanceWhile p fuel l ran = some (r, ran || !ds.isEmpty) ∧
        MovedBy ds.length l r ∧ r.line = l.line
  | [], _, pre, rest, l, fuel, ran, hs, hc, hrest, hf => by
    obtain ⟨fuel, rfl⟩ : ∃ k, fuel = k + 1 := ⟨fuel - 1, by simp at hf; omega⟩
    refine ⟨l, ?_, movedBy_refl l, rfl⟩
    rw [advanceWhile]
    cases rest with
    | nil =>
      have he := isAtEnd_of_source (l := l) (by simpa using hs) hc
      simp [peek_of_end he, hp]
    | cons c rest =>
      obtain ⟨hpk, _, _⟩ := peek_of_source (l := l) (by simpa using hs) hc
      have : p c = false := by simpa [notContinuedBy] using hrest
      simp [hpk, this]
  | x :: ds, hx, pre, rest, l, fuel, ran, hs, hc, hrest, hf => by
    obtain ⟨fuel, rfl⟩ : ∃ k, fuel = k + 1 := ⟨fuel - 1, by simp at hf; omega⟩
    simp only [List.all_cons, Bool.and_eq_true] at hx
    have hs1 : l.source = pre ++ x :: (ds ++ rest) := by simpa using hs
    obtain ⟨hpk, _, _⟩ := peek_of_source hs1 hc
    have hm := movedBy_advance l
    obtain ⟨r, hr, hmr, hl⟩ := advanceWhile_run p hp ds hx.2 (pre ++ [x]) rest (advance l).2
      fuel true (by rw [hm.1, hs1]; simp) (by rw [hm.2.1, hc]; simp) hrest
      (by simp at hf; omega)
    refine ⟨r, ?_, ?_, ?_⟩
    · rw [advanceWhile]
      simp [hpk, hx.1, hr]
    · have := movedBy_trans hm hmr
      simpa [Nat.add_comm] using this
    · rw [hl]; rfl

theorem scanTokens_single (getKeyword : List Char → TokenType) (source filename : List Char)
    (l1 : Lexer) (token : Token) (hne : source ≠ [])
    (h : scanToken getKeyword (Lexer.new source filename) = some l1)
    (hs : l1.source = source) (hc : l1.current = source.length)
    (ht : l1.tokens = (Lexer.new source filename).tokens ++ [token]) :
    ∃ r, scanTokens getKeyword (Lexer.new source filename) = some r ∧
      typesAndLexemes r.1 = [(token.type, token.lexeme), (.END_OF_FILE, [])] := by
  have he0 : isAtEnd (Lexer.new source filename) = false := by
    cases source with
    | nil => exact absurd rfl hne
    | cons c cs => simp [isAtEnd, Lexer.new]
  have he1 : isAtEnd l1 = true := by simp [isAtEnd, hs, hc]
  have hloop : scanTokensLoop getKeyword (source.length + 1) (Lexer.new source filename) =
      some l1 := by
    cases source with
    | nil => exact absurd rfl hne
    | cons c cs =>
      have e : (c :: cs).length + 1 = cs.length + 1 + 1 := by simp
      rw [e, scanTokensLoop_skip getKeyword _ _ l1 he0 h, scanTokensLoop_end _ _ _ he1]
  refine ⟨_, scanTokens_of_loop getKeyword _ filename l1 hloop, ?_⟩
  have ht' : l1.tokens = [token] := by rw [ht]; rfl
  simp [typesAndLexemes, ht']

theorem scanTokens_of_emits (getKeyword : List Char → TokenType) (source filename : List Char)
    (ty : TokenType) (lexeme : List Char) (hne : source ≠ [])
    (h : EmitsToken getKeyword (Lexer.new source filename) source.length ty lexeme) :
    ∃ r, scanTokens getKeyword (Lexer.new source filename) = some r ∧
      typesAndLexemes r.1 = [(ty, lexeme), (.END_OF_FILE, [])] := by
  obtain ⟨l1, token, h1, hs, hc, ht, hty, hlex, _⟩ := h
  obtain ⟨r, hr, hr2⟩ := scanTokens_single getKeyword source filename l1 token hne h1 hs
    (by rw [hc]; simp [Lexer.new]) ht
  exact ⟨r, hr, by rw [hr2, hty, hlex]⟩

theorem movedBy_cast {m n : Nat} {l r : Lexer} (h : MovedBy m l r) (e : m = n) :
    MovedBy n l r := e ▸ h

theorem peek_of_position {l : Lexer} {pre rest : List Char} (hs : l.source = pre ++ rest)
    (hc : l.current = pre.length) : peek l = rest.headD (Char.ofNat 0) := by
  cases rest with
  | nil => exact peek_of_end (isAtEnd_of_source (by simpa using hs) hc)
  | cons c rest => exact (peek_of_source hs hc).1

theorem headD_not_of_notContinued {p : Char → Bool} (hp : p (Char.ofNat 0) = false)
    {rest : List Char} (h : notContinuedBy p rest = true) :
    p (rest.headD (Char.ofNat 0)) = false := by
  cases rest with
  | nil => exact hp
  | cons c rest => simpa [notContinuedBy] using h

theorem matchChar_notContinued {l : Lexer} {pre rest : List Char} (expected : Char)
    (hs : l.source = pre ++ rest) (hc : l.current = pre.length)
    (hn : notContinuedBy (fun c => decide (c = expected)) rest = true) :
    matchChar expected l = (false, l) := by
  cases rest with
  | nil => exact matchChar_end expected (isAtEnd_of_source (by simpa using hs) hc)
  | cons c rest =>
    exact matchChar_miss expected hs hc (by simpa [notContinuedBy] using hn)

theorem emits_of_addToken {getKeyword : List Char → TokenType} {l l2 : Lexer}
    {pre t rest : List Char} (ty : TokenType)
    (hs : l.source = pre ++ t ++ rest) (hc : l.current = pre.length)
    (hst : l.start = pre.length) (hm : MovedBy t.length l l2)
    (h : scanToken getKeyword l = some (addToken ty l2)) :
    EmitsToken getKeyword l t.length ty t := by
  obtain ⟨token, ht, hty, hlex⟩ := addToken_lexeme (l := l2) ty (hm.1.trans hs)
    (hm.2.2.2.2.1.trans hst) (by rw [hm.2.1, hc])
  exact ⟨_, token, h, hm.1, hm.2.1, by rw [ht, hm.2.2.1], hty, hlex, hm.2.2.2.1⟩

theorem reports_of_reportError {getKeyword : List Char → TokenType} {l l1 : Lexer} {n : Nat}
    (message : List Char) (hm : MovedBy n l l1)
    (h : scanToken getKeyword l = some (reportError message l1)) :
    ReportsError getKeyword l n message :=
  ⟨_, ⟨.ERROR, message, l1.line, l1.column⟩,
    ⟨.ERROR, message, getCurrentLocation l1, getLineContext l1⟩, h, hm.1, hm.2.1,
    by rw [← hm.2.2.1]; rfl, rfl, rfl, by rw [← hm.2.2.2.1]; rfl, rfl, rfl⟩

theorem scanStringLoop_succ (fuel : Nat) (l : Lexer) (value : List Char)
    (hp : peek l ≠ '"') (he : isAtEnd l = false) :
    scanStringLoop (fuel + 1) l value =
      scanStringLoop fuel (scanStringBody l value).1 (scanStringBody l value).2 := by
  rw [scanStringLoop]
  simp [hp, he]

theorem scanStringLoop_end (fuel : Nat) (l : Lexer) (value : List Char)
    (he : isAtEnd l = true) : scanStringLoop (fuel + 1) l value = some (l, value) := by
  rw [scanStringLoop]
  simp [he]

theorem blockCommentLoop_end (fuel : Nat) (l : Lexer) (nesting : Int)
    (he : isAtEnd l = true) : blockCommentLoop (fuel + 1) l nesting = some (l, nesting) := by
  rw [blockCommentLoop]
  simp [he]

theorem peekNext_of_position {l : Lexer} {pre rest : List Char} {c : Char}
    (hs : l.source = pre ++ c :: rest) (hc : l.current = pre.length) :
    peekNext l = rest.headD (Char.ofNat 0) := by
  cases rest with
  | nil => simp [peekNext, hs, hc]
  | cons c2 rest => exact peekNext_of_source hs hc

/-! ## Scanning a source followed by whitespace -/

theorem peek_eq_charAt (l : Lexer) : peek l = charAt l.source l.current := by
  unfold peek isAtEnd charAt
  split
  · rename_i h
    simp only [decide_eq_true_eq] at h
    exact (List.getD_eq_default _ _ h).symm
  · rfl

theorem peekNext_eq_charAt (l : Lexer) : peekNext l = charAt l.source (l.current + 1) := by
  unfold peekNext charAt
  split
  · rename_i h
    exact (List.getD_eq_default _ _ h).symm
  · rfl

theorem charAt_append_lt (s w : List Char) (j : Nat) (hj : j < s.length) :
    charAt (s ++ w) j = charAt s j := by
  unfold charAt
  rw [List.getD_append _ _ _ _ hj]

theorem charAt_beyond (s : List Char) (j : Nat) (hj : s.length ≤ j) :
    charAt s j = Char.ofNat 0 := by
  unfold charAt
  exact List.getD_eq_default _ _ hj

theorem blank_charAt_of_all : ∀ (w : List Char), w.all isWhitespace = true → ∀ i,
    isBlankOrNull (charAt w i) = true
  | [], _, i => by simp [charAt, isBlankOrNull]
  | c :: w, h, 0 => by
    simp only [List.all_cons, Bool.and_eq_true] at h
    simp [charAt, isBlankOrNull, h.1]
  | c :: w, h, i + 1 => by
    simp only [List.all_cons, Bool.and_eq_true] at h
    have := blank_charAt_of_all w h.2 i
    simpa [charAt] using this

theorem blank_charAt (s w : List Char) (hw : w.all isWhitespace = true) (j : Nat)
    (hj : s.length ≤ j) : isBlankOrNull (charAt (s ++ w) j) = true := by
  obtain ⟨i, rfl⟩ : ∃ i, j = s.length + i := ⟨j - s.length, by omega⟩
  rw [charAt_append_left]
  exact blank_charAt_of_all w hw i

theorem blind_charAt {p : Char → Bool} (hp : BlankBlind p) (s w : List Char)
    (hw : w.all isWhitespace = true) (j : Nat) :
    p (charAt (s ++ w) j) = p (charAt s j) := by
  by_cases hj : j < s.length
  · rw [charAt_append_lt s w j hj]
  · rw [hp _ (blank_charAt s w hw j (by omega)), charAt_beyond s j (by omega)]
    exact (hp _ (by decide)).symm

theorem same_mono {b b' : Bool} {a c : List Token} (hbb : b' = true → b = true)
    (h : List.Forall₂ (TokenSame b) a c) : List.Forall₂ (TokenSame b') a c :=
  h.imp (fun _ _ ht => ⟨ht.1, fun hb => ht.2 (hbb hb)⟩)

theorem forall₂_init {α β : Type} {R : α → β → Prop} {as : List α} {bs : List β} {a : α}
    {b : β} (h : List.Forall₂ R (as ++ [a]) (bs ++ [b])) : List.Forall₂ R as bs ∧ R a b := by
  rw [← List.forall₂_reverse_iff] at h
  simp only [List.reverse_append, List.reverse_cons, List.reverse_nil, List.nil_append,
    List.singleton_append, List.forall₂_cons] at h
  exact ⟨List.forall₂_reverse_iff.mp h.2, h.1⟩

section Ext

variable {w : List Char} {strict : Bool} {l l' : Lexer}

theorem base_move {m m' : Lexer} (h : ExtBase w strict l l') (hs : m.source = l.source)
    (hs' : m'.source = l'.source) (ht : m.tokens = l.tokens) (ht' : m'.tokens = l'.tokens)
    (hl : l.current ≤ l.source.length) (hm : m.current ≤ l.source.length) :
    ExtBase w strict m m' := by
  refine ⟨by rw [hs', hs]; exact h.source, h.blank, fun hov => ?_, ?_⟩
  · rw [hs] at hov
    omega
  · rw [ht, ht', hs]
    exact same_mono (by simp [hl, hm]) h.tokens

theorem base_keep {m m' : Lexer} (h : ExtBase w strict l l') (hs : m.source = l.source)
    (hs' : m'.source = l'.source) (hc : m.current = l.current) (ht : m.tokens = l.tokens)
    (ht' : m'.tokens = l'.tokens) : ExtBase w strict m m' := by
  refine ⟨by rw [hs', hs]; exact h.source, h.blank, ?_, ?_⟩
  · rw [hs, hc, ht, ht']
    exact h.over
  · rw [hs, hc, ht, ht']
    exact h.tokens

theorem lock_test_peek {p : Char → Bool} (hp : BlankBlind p) (h : ExtLock w strict l l') :
    p (peek l') = p (peek l) := by
  rw [peek_eq_charAt, peek_eq_charAt, h.base.source, h.current]
  exact blind_charAt hp _ _ h.base.blank _

theorem lock_test_peekNext {p : Char → Bool} (hp : BlankBlind p)
    (h : ExtLock w strict l l') : p (peekNext l') = p (peekNext l) := by
  rw [peekNext_eq_charAt, peekNext_eq_charAt, h.base.source, h.current]
  exact blind_charAt hp _ _ h.base.blank _

theorem lock_test_charAt {p : Char → Bool} (hp : BlankBlind p) (h : ExtLock w strict l l')
    (j : Nat) : p (charAt l'.source j) = p (charAt l.source j) := by
  rw [h.base.source]
  exact blind_charAt hp _ _ h.base.blank _

theorem lock_charAt_lt (h : ExtLock w strict l l') (hlt : l.current < l.source.length) :
    charAt l'.source l'.current = charAt l.source l.current := by
  rw [h.base.source, h.current, charAt_append_lt _ _ _ hlt]

theorem lock_peek_lt (h : ExtLock w strict l l') (hlt : l.current < l.source.length) :
    peek l' = peek l := by
  rw [peek_eq_charAt, peek_eq_charAt, lock_charAt_lt h hlt]

theorem lock_isAtEnd_lt (h : ExtLock w strict l l') (hlt : l.current < l.source.length) :
    isAtEnd l = false ∧ isAtEnd l' = false := by
  constructor
  · simp [isAtEnd, hlt]
  · simp [isAtEnd, h.base.source, h.current]
    omega

theorem lt_of_test_peek {p : Char → Bool} (hp : BlankBlind p)
    (ht : p (peek l) = true) : l.current < l.source.length := by
  by_contra hge
  rw [peek_eq_charAt, charAt_beyond _ _ (by omega), hp _ (by decide)] at ht
  cases ht

theorem lock_advance (h : ExtLock w strict l l') (hlt : l.current < l.source.length) :
    ExtLock w strict (advance l).2 (advance l').2 ∧ (advance l').1 = (advance l).1 := by
  refine ⟨⟨base_move h.base rfl rfl rfl rfl h.bound
    (by show l.current + 1 ≤ l.source.length; omega), ?_, h.start, ?_⟩, lock_charAt_lt h hlt⟩
  · show l'.current + 1 = l.current + 1
    rw [h.current]
  · show l.current + 1 ≤ l.source.length
    omega

theorem lock_position (h : ExtLock w strict l l') (line line' column column' : Int) :
    ExtLock w strict { l with line := line, column := column }
      { l' with line := line', column := column' } :=
  ⟨base_keep h.base rfl rfl rfl rfl rfl, h.current, h.start, h.bound⟩

theorem lock_setStart (h : ExtLock w strict l l') :
    ExtLock w strict { l with start := l.current } { l' with start := l'.current } :=
  ⟨base_keep h.base rfl rfl rfl rfl rfl, h.current, h.current, h.bound⟩

theorem matchChar_eq (expected : Char) (he : expected ≠ Char.ofNat 0) (l : Lexer) :
    matchChar expected l =
      if charAt l.source l.current = expected then
        (true, { l with current := l.current + 1, column := l.column + 1 })
      else (false, l) := by
  unfold matchChar
  by_cases hend : isAtEnd l = true
  · have hc : charAt l.source l.current = Char.ofNat 0 :=
      charAt_beyond _ _ (by simpa [isAtEnd] using hend)
    have hne : ¬ (Char.ofNat 0 = expected) := fun e => he e.symm
    simp [hend, hc, hne]
  · simp only [Bool.not_eq_true] at hend
    by_cases hc : charAt l.source l.current = expected
    · simp [hend, hc]
    · simp [hend, hc]

theorem lock_matchChar (expected : Char) (he : isBlankOrNull expected = false)
    (h : ExtLock w strict l l') :
    (matchChar expected l').1 = (matchChar expected l).1 ∧
      ExtLock w strict (matchChar expected l).2 (matchChar expected l').2 := by
  have hne : expected ≠ Char.ofNat 0 := by
    rintro rfl
    exact absurd he (by decide)
  have hblind : BlankBlind (fun c => decide (c = expected)) := by
    intro c hc
    simp only [decide_eq_false_iff_not]
    rintro rfl
    rw [hc] at he
    cases he
  have ht : charAt l'.source l'.current = expected ↔ charAt l.source l.current = expected := by
    have := lock_test_charAt hblind h l.current
    rw [h.current]
    simpa only [decide_eq_decide] using this
  rw [matchChar_eq expected hne, matchChar_eq expected hne]
  by_cases hc : charAt l.source l.current = expected
  · have hlt : l.current < l.source.length := by
      by_contra hge
      rw [charAt_beyond _ _ (by omega)] at hc
      exact hne hc.symm
    rw [if_pos hc, if_pos (ht.mpr hc)]
    refine ⟨rfl, ⟨base_move h.base rfl rfl rfl rfl h.bound
      (by show l.current + 1 ≤ l.source.length; omega), ?_, h.start, ?_⟩⟩
    · show l'.current + 1 = l.current + 1
      rw [h.current]
    · show l.current + 1 ≤ l.source.length
      omega
  · rw [if_neg hc, if_neg (fun e => hc (ht.mp e))]
    exact ⟨rfl, h⟩

theorem substr_append_bound (s w : List Char) (a b : Nat) (hb : b ≤ s.length) :
    substr (s ++ w) a (b - a) = substr s a (b - a) := by
  unfold substr
  by_cases hab : a ≤ b
  · rw [List.drop_append_of_le_length (by omega), List.take_append_of_le_length]
    simp
    omega
  · have : b - a = 0 := by omega
    simp [this]

theorem lock_lexeme (h : ExtLock w strict l l') :
    substr l'.source l'.start (l'.current - l'.start) =
      substr l.source l.start (l.current - l.start) := by
  rw [h.base.source, h.current, h.start, substr_append_bound _ _ _ _ h.bound]

theorem base_addTokens (h : ExtBase w strict l l') (t t' : Token) (ht : TokenSame strict t t') :
    ExtBase w strict { l with tokens := l.tokens ++ [t] } { l' with tokens := l'.tokens ++ [t'] } :=
  ⟨h.source, h.blank,
    fun hov => ⟨(h.over hov).1, fun hw hF => (h.over hov).2 hw (forall₂_init hF).1⟩,
    forall₂_snoc h.tokens ⟨ht.1, fun hb => ht.2 (by
      simp only [Bool.and_eq_true] at hb
      exact hb.1)⟩⟩

theorem lock_addTokenWith (type : TokenType) (lexeme : List Char)
    (h : ExtLock w strict l l') :
    ExtLock w strict (addTokenWith type lexeme l) (addTokenWith type lexeme l') :=
  ⟨base_addTokens h.base _ _ ⟨rfl, fun _ => rfl⟩, h.current, h.start, h.bound⟩

theorem lock_addToken (type : TokenType) (h : ExtLock w strict l l') :
    ExtLock w strict (addToken type l) (addToken type l') :=
  ⟨base_addTokens h.base _ _ ⟨rfl, fun _ => lock_lexeme h⟩, h.current, h.start, h.bound⟩

theorem base_reportError (message message' : List Char)
    (hm : strict = true → message' = message) (h : ExtBase w strict l l') :
    ExtBase w strict (reportError message l) (reportError message' l') :=
  ⟨h.source, h.blank,
    fun hov => ⟨(h.over hov).1, fun hw hF => (h.over hov).2 hw (forall₂_init hF).1⟩,
    forall₂_snoc h.tokens ⟨rfl, fun hb => hm (by
      simp only [Bool.and_eq_true] at hb
      exact hb.1)⟩⟩

theorem lock_reportError (message message' : List Char)
    (hm : strict = true → message' = message) (h : ExtLock w strict l l') :
    ExtLock w strict (reportError message l) (reportError message' l') :=
  ⟨base_reportError message message' hm h.base, h.current, h.start, h.bound⟩

theorem done_reportError (message message' : List Char)
    (hm : strict = true → message' = message) (h : ExtDone w strict l l') :
    ExtDone w strict (reportError message l) (reportError message' l') :=
  ⟨base_reportError message message' hm h.base, h.left, h.right⟩

theorem rel_reportError (message : List Char) (h : ExtRel w strict l l') :
    ExtRel w strict (reportError message l) (reportError message l') := by
  rcases h with h | h
  · exact Or.inl (lock_reportError message message (fun _ => rfl) h)
  · exact Or.inr (done_reportError message message (fun _ => rfl) h)

end Ext

theorem optSim_mono {R Q : Lexer → Lexer → Prop} {x x' : Option Lexer}
    (h : OptSim R x x') (hRQ : ∀ a a', R a a' → Q a a') : OptSim Q x x' := by
  intro r hr
  obtain ⟨r', hr', hR⟩ := h r hr
  exact ⟨r', hr', hRQ _ _ hR⟩

theorem optSim_bind_to {α : Type} {R Q : Lexer → Lexer → Prop} {x x' : Option (Lexer × α)}
    {f f' : Lexer × α → Option Lexer} (hx : OptSimWith R x x')
    (hf : ∀ (a a' : Lexer) (v : α), R a a' → OptSim Q (f (a, v)) (f' (a', v))) :
    OptSim Q (x.bind f) (x'.bind f') := by
  intro r hr
  rw [Option.bind_eq_some] at hr
  obtain ⟨⟨a, v⟩, ha, hfa⟩ := hr
  obtain ⟨⟨a', v'⟩, ha', hR, hv⟩ := hx _ ha
  simp only at hv hR
  subst hv
  obtain ⟨r', hr', hRr⟩ := hf a a' v' hR r hfa
  exact ⟨r', by rw [ha', Option.some_bind, hr'], hRr⟩

theorem blind_of {p : Char → Bool}
    (h : [' ', '\r', '\t', '\n', Char.ofNat 0].all (fun c => !p c) = true) : BlankBlind p := by
  intro c hc
  simp only [List.all_cons, List.all_nil, Bool.and_true, Bool.and_eq_true,
    Bool.not_eq_true'] at h
  simp only [isBlankOrNull, isWhitespace, Bool.or_eq_true, decide_eq_true_eq] at hc
  rcases hc with (((rfl | rfl) | rfl) | rfl) | rfl
  · exact h.1
  · exact h.2.1
  · exact h.2.2.1
  · exact h.2.2.2.1
  · exact h.2.2.2.2

theorem blind_is (c : Char) (hc : isBlankOrNull c = false) :
    BlankBlind (fun x => decide (x = c)) := by
  intro x hx
  simp only [decide_eq_false_iff_not]
  rintro rfl
  rw [hx] at hc
  cases hc

section Ext

variable {w : List Char} {strict : Bool} {l l' : Lexer}

theorem lock_peek_is (c : Char) (hc : isBlankOrNull c = false) (h : ExtLock w strict l l') :
    decide (peek l' = c) = decide (peek l = c) :=
  lock_test_peek (blind_is c hc) h

theorem lock_peekNext_is (c : Char) (hc : isBlankOrNull c = false)
    (h : ExtLock w strict l l') : decide (peekNext l' = c) = decide (peekNext l = c) :=
  lock_test_peekNext (blind_is c hc) h

theorem lock_isdigit_peek (h : ExtLock w strict l l') :
    isdigit (peek l') = isdigit (peek l) :=
  lock_test_peek (p := isdigit) (blind_of (by decide)) h

theorem lock_isdigit_peekNext (h : ExtLock w strict l l') :
    isdigit (peekNext l') = isdigit (peekNext l) :=
  lock_test_peekNext (p := isdigit) (blind_of (by decide)) h

theorem lock_startChar_is (c : Char) (hc : isBlankOrNull c = false)
    (h : ExtLock w strict l l') :
    decide (charAt l'.source l'.start = c) = decide (charAt l.source l.start = c) := by
  rw [h.start]
  exact lock_test_charAt (blind_is c hc) h l.start

theorem ext_fuel (h : ExtLock w strict l l') :
    l.source.length + 1 ≤ l'.source.length + 1 := by
  rw [h.base.source, List.length_append]
  omega

theorem ext_advanceWhile {p : Char → Bool} (hp : BlankBlind p) :
    ∀ (fuel fuel' : Nat) (l l' : Lexer) (ran : Bool), fuel ≤ fuel' →
      ExtLock w strict l l' →
      OptSimWith (ExtLock w strict) (advanceWhile p fuel l ran) (advanceWhile p fuel' l' ran)
  | 0, _, _, _, _, _, _ => by
    intro r hr
    simp [advanceWhile] at hr
  | fuel + 1, 0, _, _, _, hf, _ => by omega
  | fuel + 1, fuel' + 1, l, l', ran, hf, h => by
    intro r hr
    rw [advanceWhile] at hr ⊢
    rw [lock_test_peek hp h]
    by_cases hc : p (peek l) = true
    · simp only [hc, if_true] at hr ⊢
      exact ext_advanceWhile hp fuel fuel' _ _ true (by omega)
        (lock_advance h (lt_of_test_peek hp hc)).1 r hr
    · simp only [hc, Bool.false_eq_true, if_false, Option.some.injEq] at hr ⊢
      subst hr
      exact ⟨(l', ran), rfl, h, rfl⟩

theorem ext_digits_then {p : Char → Bool} (hp : BlankBlind p) {fuel fuel' : Nat} {ran : Bool}
    {Q : Lexer → Lexer → Prop}
    {f f' : Lexer × Bool → Option Lexer} (hf : fuel ≤ fuel') (h : ExtLock w strict l l')
    (hcont : ∀ (a a' : Lexer) (v : Bool), ExtLock w strict a a' →
      OptSim Q (f (a, v)) (f' (a', v))) :
    OptSim Q ((advanceWhile p fuel l ran).bind f) ((advanceWhile p fuel' l' ran).bind f') :=
  optSim_bind_to (ext_advanceWhile hp fuel fuel' l l' ran hf h) hcont

theorem lt_of_peek_is {c : Char} (hc : isBlankOrNull c = false) (hp : peek l = c) :
    l.current < l.source.length :=
  lt_of_test_peek (blind_is c hc) (by simpa using hp)

theorem ext_scanHexDigits (h : ExtLock w strict l l') (hx : peek l = 'x') :
    OptSim (ExtLock w strict) (scanHexDigits l) (scanHexDigits l') := by
  unfold scanHexDigits
  refine ext_digits_then (p := isxdigit) (blind_of (by decide)) (ext_fuel h)
    (lock_advance h (lt_of_peek_is (by decide) hx)).1 ?_
  intro a a' v hR
  dsimp only
  split
  · exact optSim_some (lock_reportError _ _ (fun _ => rfl) hR)
  · exact optSim_some (lock_addToken _ hR)

theorem ext_scanBinaryDigits (h : ExtLock w strict l l') (hx : peek l = 'b') :
    OptSim (ExtLock w strict) (scanBinaryDigits l) (scanBinaryDigits l') := by
  unfold scanBinaryDigits
  refine ext_digits_then (p := fun c => c = '0' || c = '1') (blind_of (by decide)) (ext_fuel h)
    (lock_advance h (lt_of_peek_is (by decide) hx)).1 ?_
  intro a a' v hR
  dsimp only
  split
  · exact optSim_some (lock_reportError _ _ (fun _ => rfl) hR)
  · exact optSim_some (lock_addToken _ hR)

theorem ext_afterSign (h : ExtLock w strict l l') :
    ExtLock w strict (afterSign l) (afterSign l') := by
  unfold afterSign
  rw [lock_peek_is '+' (by decide) h, lock_peek_is '-' (by decide) h]
  split
  · rename_i hc
    have hlt : l.current < l.source.length :=
      lt_of_test_peek (p := fun c => decide (c = '+') || decide (c = '-'))
        (blind_of (by decide)) hc
    exact (lock_advance h hlt).1
  · exact h

theorem ext_scanExponent {fuel fuel' : Nat} (hf : fuel ≤ fuel')
    (h : ExtLock w strict l l') :
    OptSim (ExtLock w strict) (scanExponent fuel l) (scanExponent fuel' l') := by
  unfold scanExponent
  rw [lock_peek_is 'e' (by decide) h, lock_peek_is 'E' (by decide) h]
  split
  · rename_i hc
    have hlt : l.current < l.source.length :=
      lt_of_test_peek (p := fun c => decide (c = 'e') || decide (c = 'E'))
        (blind_of (by decide)) hc
    have hs := ext_afterSign (lock_advance h hlt).1
    rw [lock_isdigit_peek hs]
    split
    · exact optSim_some (lock_reportError _ _ (fun _ => rfl) hs)
    · refine ext_digits_then (p := isdigit) (blind_of (by decide)) hf hs ?_
      intro a a' v hR
      exact optSim_some (lock_addToken _ hR)
  · exact optSim_some (lock_addToken _ h)

theorem ext_scanFraction {fuel fuel' : Nat} (hf : fuel ≤ fuel')
    (h : ExtLock w strict l l') :
    OptSim (ExtLock w strict) (scanFraction fuel l) (scanFraction fuel' l') := by
  unfold scanFraction
  rw [lock_peek_is '.' (by decide) h, lock_isdigit_peekNext h]
  split
  · rename_i hc
    have hp : decide (peek l = '.') = true := by
      simp only [Bool.and_eq_true] at hc
      exact hc.1
    have hlt : l.current < l.source.length :=
      lt_of_test_peek (blind_is '.' (by decide)) hp
    refine ext_digits_then (p := isdigit) (blind_of (by decide)) hf (lock_advance h hlt).1 ?_
    intro a a' v hR
    exact ext_scanExponent hf hR
  · exact optSim_some (lock_addToken _ h)

theorem ext_scanDecimal (h : ExtLock w strict l l') :
    OptSim (ExtLock w strict) (scanDecimal l) (scanDecimal l') := by
  unfold scanDecimal
  refine ext_digits_then (p := isdigit) (blind_of (by decide)) (ext_fuel h) h ?_
  intro a a' v hR
  exact ext_scanFraction (ext_fuel h) hR

theorem ext_scanNumber (h : ExtLock w strict l l') :
    OptSim (ExtLock w strict) (scanNumber l) (scanNumber l') := by
  rw [scanNumber_eq, scanNumber_eq, lock_peek_is 'x' (by decide) h,
    lock_peek_is 'b' (by decide) h, lock_startChar_is '0' (by decide) h, h.current, h.start]
  split
  · rename_i hc
    simp only [Bool.and_eq_true, decide_eq_true_eq] at hc
    exact ext_scanHexDigits h hc.1.1
  · split
    · rename_i hc
      simp only [Bool.and_eq_true, decide_eq_true_eq] at hc
      exact ext_scanBinaryDigits h hc.1.1
    · exact ext_scanDecimal h

theorem ext_scanIdentifier (getKeyword : List Char → TokenType)
    (h : ExtLock w strict l l') :
    OptSim (ExtLock w strict) (scanIdentifier getKeyword l)
      (scanIdentifier getKeyword l') := by
  unfold scanIdentifier
  simp only [Option.bind_eq_bind]
  refine optSim_bind_to (ext_advanceWhile (p := fun c => isalnum c || c = '_')
    (blind_of (by decide)) _ _ _ _ _ (ext_fuel h) h) ?_
  intro a a' v hR
  dsimp only
  rw [lock_lexeme hR]
  split
  · exact optSim_some (lock_addTokenWith _ _ hR)
  · exact optSim_some (lock_addToken _ hR)

end Ext

/-! ## Loops that run on through the trailing whitespace -/

theorem whitespace_charAt_of_all : ∀ (w : List Char), w.all isWhitespace = true → ∀ i,
    i < w.length → isWhitespace (charAt w i) = true
  | [], _, i, hi => by simp at hi
  | c :: w, h, 0, _ => by
    simp only [List.all_cons, Bool.and_eq_true] at h
    simpa [charAt] using h.1
  | c :: w, h, i + 1, hi => by
    simp only [List.all_cons, Bool.and_eq_true] at h
    have := whitespace_charAt_of_all w h.2 i (by simpa using hi)
    simpa [charAt] using this

theorem tail_mono {l m : Lexer} (h : TailBlank l) (hs : m.source = l.source)
    (hc : l.current ≤ m.current) : TailBlank m := by
  intro j hj hlt
  rw [hs] at hlt ⊢
  exact h j (by omega) hlt

theorem tail_of_base {w : List Char} {strict : Bool} {l l' : Lexer}
    (h : ExtBase w strict l l') (hc : l.source.length ≤ l'.current) : TailBlank l' := by
  intro j hj hlt
  rw [h.source] at hlt ⊢
  obtain ⟨i, rfl⟩ : ∃ i, j = l.source.length + i := ⟨j - l.source.length, by omega⟩
  rw [charAt_append_left]
  exact whitespace_charAt_of_all w h.blank i (by simp at hlt; omega)

theorem tail_peek {l : Lexer} (h : TailBlank l) (hlt : l.current < l.source.length) :
    isWhitespace (peek l) = true := by
  rw [peek_eq_charAt]
  exact h _ (le_refl _) hlt

theorem not_of_whitespace {c x : Char} (hc : isWhitespace c = true)
    (hx : isWhitespace x = false) : c ≠ x := by
  rintro rfl
  rw [hc] at hx
  cases hx

theorem scanStringBody_plain (l : Lexer) (value : List Char) (hp : peek l ≠ '\\') :
    ∃ l1 v1, scanStringBody l value = (l1, v1) ∧ MovedBy 1 l l1 := by
  have hm := movedBy_newline l
  have hpk : peek (if peek l = '\n' then { l with line := l.line + 1, column := 1 } else l) =
      peek l := by
    split <;> rfl
  unfold scanStringBody
  simp only
  generalize (if peek l = '\n' then { l with line := l.line + 1, column := 1 } else l) = l1
    at hm hpk ⊢
  have hb : ¬ (peek l1 = '\\') := by rw [hpk]; exact hp
  simp only [hb, decide_False, Bool.false_and, Bool.false_eq_true, if_false]
  exact ⟨_, _, rfl, by simpa using movedBy_trans hm (movedBy_advance l1)⟩

theorem string_through : ∀ (fuel : Nat) (m : Lexer) (value : List Char), TailBlank m →
    m.source.length - m.current < fuel →
    ∃ r, scanStringLoop fuel m value = some r ∧ isAtEnd r.1 = true ∧
      r.1.tokens = m.tokens ∧ r.1.source = m.source
  | 0, _, _, _, h => by omega
  | fuel + 1, m, value, ht, h => by
    by_cases hend : isAtEnd m = true
    · exact ⟨(m, value), scanStringLoop_end _ _ _ hend, hend, rfl, rfl⟩
    · have hlt : m.current < m.source.length := by simpa [isAtEnd] using hend
      have hw := tail_peek ht hlt
      obtain ⟨l1, v1, hb, hm⟩ := scanStringBody_plain m value
        (not_of_whitespace hw (by decide))
      obtain ⟨r, hr, hre, hrt, hrs⟩ := string_through fuel l1 v1
        (tail_mono ht hm.1 (by rw [hm.2.1]; omega)) (by rw [hm.1, hm.2.1]; omega)
      refine ⟨r, ?_, hre, hrt.trans hm.2.2.1, hrs.trans hm.1⟩
      rw [scanStringLoop_succ _ _ _ (not_of_whitespace hw (by decide))
        (by simpa using hend), hb]
      exact hr

theorem block_through : ∀ (fuel : Nat) (m : Lexer) (nesting : Int), TailBlank m →
    m.source.length - m.current < fuel →
    ∃ r, blockCommentLoop fuel m nesting = some (r, nesting) ∧ m.current ≤ r.current ∧
      r.tokens = m.tokens ∧ r.source = m.source
  | 0, _, _, _, h => by omega
  | fuel + 1, m, nesting, ht, h => by
    by_cases hc : (decide (0 < nesting) && !isAtEnd m) = true
    · simp only [Bool.and_eq_true, decide_eq_true_eq, Bool.not_eq_true'] at hc
      have hlt : m.current < m.source.length := by simpa [isAtEnd] using hc.2
      have hw := tail_peek ht hlt
      obtain ⟨l1, hb, hm⟩ := blockCommentBody_other (l := m) nesting
        (fun e => not_of_whitespace hw (by decide) e.1)
        (fun e => not_of_whitespace hw (by decide) e.1)
      obtain ⟨r, hr, hrc, hrt, hrs⟩ := block_through fuel l1 nesting
        (tail_mono ht hm.1 (by rw [hm.2.1]; omega)) (by rw [hm.1, hm.2.1]; omega)
      refine ⟨r, ?_, by rw [hm.2.1] at hrc; omega, hrt.trans hm.2.2.1, hrs.trans hm.1⟩
      rw [blockCommentLoop_succ _ _ _ hc.1 hc.2, hb]
      exact hr
    · refine ⟨m, ?_, le_refl _, rfl, rfl⟩
      rw [blockCommentLoop]
      simp only [hc, Bool.false_eq_true, if_false]

theorem line_through : ∀ (fuel : Nat) (m : Lexer), m.source.length - m.current < fuel →
    ∃ r, lineCommentLoop fuel m = some r ∧ m.current ≤ r.current ∧
      r.tokens = m.tokens ∧ r.source = m.source
  | 0, _, h => by omega
  | fuel + 1, m, h => by
    rw [lineCommentLoop]
    by_cases hc : (peek m != '\n' && !isAtEnd m) = true
    · have hlt : m.current < m.source.length := by
        simp only [Bool.and_eq_true, Bool.not_eq_true'] at hc
        simpa [isAtEnd] using hc.2
      obtain ⟨r, hr, hrc, hrt, hrs⟩ := line_through fuel (advance m).2
        (by simp only [advance]; omega)
      refine ⟨r, by simp only [hc, if_true]; exact hr, ?_, hrt, hrs⟩
      simp only [advance] at hrc
      omega
    · exact ⟨m, by simp only [hc, Bool.false_eq_true, if_false], le_refl _, rfl, rfl⟩

theorem scanToken_whitespace_at (getKeyword : List Char → TokenType) (l : Lexer)
    (hw : isWhitespace (charAt l.source l.current) = true) :
    ∃ l1, scanToken getKeyword l = some l1 ∧ MovedTop 1 l l1 := by
  have ha : (advance l).1 = charAt l.source l.current := rfl
  rw [scanToken_eq, ha]
  rcases startKind_whitespace hw with hk | hk <;> rw [hk]
  · exact ⟨_, rfl, by simp [MovedTop, advance]⟩
  · exact ⟨_, rfl, by simp [MovedTop, advance]⟩

theorem top_through (getKeyword : List Char → TokenType) :
    ∀ (fuel : Nat) (m : Lexer), TailBlank m → m.source.length - m.current < fuel →
    ∃ r, scanTokensLoop getKeyword fuel m = some r ∧ r.tokens = m.tokens ∧
      r.source = m.source
  | 0, _, _, h => by omega
  | fuel + 1, m, ht, h => by
    by_cases hend : isAtEnd m = true
    · exact ⟨m, scanTokensLoop_end _ _ _ hend, rfl, rfl⟩
    · have hlt : m.current < m.source.length := by simpa [isAtEnd] using hend
      obtain ⟨l1, h1, hm⟩ := scanToken_whitespace_at getKeyword { m with start := m.current }
        (ht _ (le_refl _) hlt)
      have hm' : MovedTop 1 m l1 := hm
      obtain ⟨r, hr, hrt, hrs⟩ := top_through getKeyword fuel l1
        (tail_mono ht hm'.1 (by rw [hm'.2.1]; omega)) (by rw [hm'.1, hm'.2.1]; omega)
      refine ⟨r, ?_, hrt.trans hm'.2.2.1, hrs.trans hm'.1⟩
      rw [scanTokensLoop_skip getKeyword fuel m l1 (by simpa using hend) h1]
      exact hr

/-! ## The scan of a source followed by whitespace -/

section Ext

variable {w : List Char} {strict : Bool} {l l' : Lexer}

theorem done_of_lock_end (h : ExtLock w strict l l') (he : l.source.length ≤ l.current) :
    ExtDone w strict l l' :=
  ⟨h.base, he, by rw [h.current]; exact he⟩

theorem getLast?_of_charAt {s : List Char} {j : Nat} (hj : j + 1 = s.length) :
    s.getLast? = some (charAt s j) := by
  have hlt : j < s.length := by omega
  rw [List.getLast?_eq_getElem?]
  have e : s.length - 1 = j := by omega
  rw [e]
  unfold charAt
  rw [List.getD_eq_getElem?_getD, List.getElem?_eq_getElem hlt]
  rfl

theorem ext_scanStringBody (value : List Char) (h : ExtLock w strict l l')
    (hlt : l.current < l.source.length) :
    (ExtLock w strict (scanStringBody l value).1 (scanStringBody l' value).1 ∧
        (scanStringBody l' value).2 = (scanStringBody l value).2) ∨
      ExtDone w strict (scanStringBody l value).1 (scanStringBody l' value).1 := by
  have hpk := lock_peek_lt h hlt
  have h1 : ExtLock w strict
      (if peek l = '\n' then { l with line := l.line + 1, column := 1 } else l)
      (if peek l' = '\n' then { l' with line := l'.line + 1, column := 1 } else l') := by
    rw [hpk]
    split
    · exact lock_position h _ _ _ _
    · exact h
  have hlt1 : (if peek l = '\n' then { l with line := l.line + 1, column := 1 } else l).current
      < (if peek l = '\n' then { l with line := l.line + 1, column := 1 }
        else l).source.length := by
    split <;> exact hlt
  unfold scanStringBody
  simp only
  generalize (if peek l = '\n' then { l with line := l.line + 1, column := 1 } else l) = a
    at h1 hlt1 ⊢
  generalize (if peek l' = '\n' then { l' with line := l'.line + 1, column := 1 } else l') = a'
    at h1 ⊢
  have he := lock_isAtEnd_lt h1 hlt1
  rw [lock_peek_lt h1 hlt1, he.1, he.2]
  by_cases hb : peek a = '\\'
  · simp only [hb, decide_True, Bool.not_false, Bool.and_self, if_true]
    have h2 := (lock_advance h1 hlt1).1
    by_cases hlt2 : (advance a).2.current < (advance a).2.source.length
    · rw [lock_peek_lt h2 hlt2]
      split_ifs
      · exact Or.inl ⟨(lock_advance h2 hlt2).1, rfl⟩
      · exact Or.inl ⟨(lock_advance h2 hlt2).1, rfl⟩
      · exact Or.inl ⟨(lock_advance h2 hlt2).1, rfl⟩
      · exact Or.inl ⟨(lock_advance h2 hlt2).1, rfl⟩
      · exact Or.inl ⟨(lock_advance h2 hlt2).1, rfl⟩
      · refine Or.inl ⟨(lock_advance (lock_reportError _ _ (fun _ => rfl) h2) hlt2).1, rfl⟩
    · have hge : ¬ a.current + 1 < a.source.length := by simpa [advance] using hlt2
      have hlast : a.source.getLast? = some '\\' := by
        rw [getLast?_of_charAt (j := a.current) (by omega), ← peek_eq_charAt, hb]
      have hnull : peek (advance a).2 = Char.ofNat 0 := by
        rw [peek_eq_charAt]
        exact charAt_beyond _ _ (by omega)
      have hblank : isBlankOrNull (peek (advance a').2) = true := by
        rw [peek_eq_charAt, h2.base.source, h2.current]
        exact blank_charAt _ _ h2.base.blank _ (by omega)
      have n1 : ¬ peek (advance a').2 = 'n' := by
        simpa using blind_is 'n' (by decide) _ hblank
      have n2 : ¬ peek (advance a').2 = 't' := by
        simpa using blind_is 't' (by decide) _ hblank
      have n3 : ¬ peek (advance a').2 = 'r' := by
        simpa using blind_is 'r' (by decide) _ hblank
      have n4 : ¬ peek (advance a').2 = '\\' := by
        simpa using blind_is '\\' (by decide) _ hblank
      have n5 : ¬ peek (advance a').2 = '"' := by
        simpa using blind_is '"' (by decide) _ hblank
      have m1 : ¬ (Char.ofNat 0 = 'n') := by decide
      have m2 : ¬ (Char.ofNat 0 = 't') := by decide
      have m3 : ¬ (Char.ofNat 0 = 'r') := by decide
      have m4 : ¬ (Char.ofNat 0 = '\\') := by decide
      have m5 : ¬ (Char.ofNat 0 = '"') := by decide
      simp only [n1, n2, n3, n4, n5, hnull, m1, m2, m3, m4, m5, if_false]
      have hout : ∀ b : Bool, ¬ (b && decide (a.current + 1 + 1 ≤ a.source.length)) = true := by
        intro b hs
        simp only [Bool.and_eq_true, decide_eq_true_eq] at hs
        omega
      refine Or.inr ⟨⟨h2.base.source, h2.base.blank, fun _ => ⟨hlast, fun hw hF => ?_⟩,
        forall₂_snoc (same_mono (fun hs => absurd hs (hout strict)) h2.base.tokens)
          ⟨rfl, fun hs => absurd hs (hout strict)⟩⟩, ?_, ?_⟩
      · have heq := (forall₂_init hF).2.2 rfl
        have hchar : peek (advance a').2 = Char.ofNat 0 := by
          have heq' : "Invalid escape sequence '\\".toList ++ [peek (advance a').2] ++
              "'".toList = "Invalid escape sequence '\\".toList ++ [Char.ofNat 0] ++
              "'".toList := heq
          simpa using heq'
        have hws : isWhitespace (peek (advance a').2) = true := by
          rw [peek_eq_charAt, h2.base.source, h2.current]
          have e : (advance a).2.current = (advance a).2.source.length + 0 := by
            show a.current + 1 = a.source.length + 0
            omega
          rw [e, charAt_append_left]
          exact whitespace_charAt_of_all w h2.base.blank 0
            (List.length_pos.mpr hw)
        rw [hchar] at hws
        exact absurd hws (by decide)
      · show (advance a).2.source.length ≤ (advance a).2.current + 1
        omega
      · show (advance a).2.source.length ≤ (advance a').2.current + 1
        rw [h2.current]
        omega
  · simp only [hb, decide_False, Bool.false_and, Bool.false_eq_true, if_false]
    exact Or.inl ⟨(lock_advance h1 hlt1).1, by rw [(lock_advance h1 hlt1).2]⟩

theorem string_finish {m m' : Lexer} (value : List Char) (fuel : Nat)
    (h : ExtDone w strict m m') (hf : w.length < fuel) :
    ∃ r', scanStringLoop fuel m' value = some r' ∧ ExtDone w strict m r'.1 ∧
      isAtEnd r'.1 = true := by
  have hlen : m'.source.length = m.source.length + w.length := by
    rw [h.base.source, List.length_append]
  obtain ⟨r', hr', hend, ht, hs⟩ := string_through fuel m' value
    (tail_of_base h.base h.right) (by have := h.right; omega)
  refine ⟨r', hr', ⟨base_keep h.base rfl hs rfl rfl ht, h.left, ?_⟩, hend⟩
  · have : r'.1.source.length ≤ r'.1.current := by simpa [isAtEnd] using hend
    rw [hs, hlen] at this
    omega

theorem ext_scanStringLoop : ∀ (fuel fuel' : Nat) (l l' : Lexer) (value : List Char)
    (r : Lexer × List Char), fuel + w.length ≤ fuel' → ExtLock w strict l l' →
    scanStringLoop fuel l value = some r →
    ∃ r', scanStringLoop fuel' l' value = some r' ∧
      ((ExtLock w strict r.1 r'.1 ∧ isAtEnd r.1 = false ∧ isAtEnd r'.1 = false ∧
          r'.2 = r.2) ∨
        (ExtDone w strict r.1 r'.1 ∧ isAtEnd r.1 = true ∧ isAtEnd r'.1 = true))
  | 0, _, _, _, _, _, _, _, hr => by simp [scanStringLoop] at hr
  | fuel + 1, 0, _, _, _, _, hf, _, _ => by omega
  | fuel + 1, fuel' + 1, l, l', value, r, hf, h, hr => by
    by_cases hlt : l.current < l.source.length
    · have he := lock_isAtEnd_lt h hlt
      have hpk := lock_peek_lt h hlt
      by_cases hq : peek l = '"'
      · rw [scanStringLoop] at hr ⊢
        simp only [hq, hpk, bne_self_eq_false, Bool.false_and, Bool.false_eq_true, if_false,
          Option.some.injEq] at hr ⊢
        subst hr
        exact ⟨_, rfl, Or.inl ⟨h, he.1, he.2, rfl⟩⟩
      · rw [scanStringLoop_succ _ _ _ hq he.1] at hr
        rw [scanStringLoop_succ _ _ _ (by rw [hpk]; exact hq) he.2]
        rcases ext_scanStringBody value h hlt with ⟨hb, hv⟩ | hb
        · rw [hv]
          exact ext_scanStringLoop fuel fuel' _ _ _ r (by omega) hb hr
        · have hend : isAtEnd (scanStringBody l value).1 = true := by
            simpa [isAtEnd] using hb.left
          obtain ⟨fuel, rfl⟩ : ∃ k, fuel = k + 1 := by
            cases fuel with
            | zero => simp [scanStringLoop] at hr
            | succ k => exact ⟨k, rfl⟩
          rw [scanStringLoop_end _ _ _ hend, Option.some.injEq] at hr
          subst hr
          obtain ⟨r', hr', hd, hend'⟩ := string_finish (scanStringBody l' value).2 fuel' hb
            (by omega)
          exact ⟨r', hr', Or.inr ⟨hd, hend, hend'⟩⟩
    · have hend : isAtEnd l = true := by simpa [isAtEnd] using hlt
      rw [scanStringLoop_end _ _ _ hend, Option.some.injEq] at hr
      subst hr
      obtain ⟨r', hr', hd, hend'⟩ := string_finish value (fuel' + 1)
        (done_of_lock_end h (by omega)) (by omega)
      exact ⟨r', hr', Or.inr ⟨hd, hend, hend'⟩⟩

theorem ext_scanString (h : ExtLock w strict l l') :
    OptSim (ExtRel w strict) (scanString l) (scanString l') := by
  intro r hr
  unfold scanString at hr ⊢
  simp only [Option.bind_eq_bind, Option.bind_eq_some] at hr
  obtain ⟨⟨a, v⟩, ha, hr⟩ := hr
  have hlen : l'.source.length = l.source.length + w.length := by
    rw [h.base.source, List.length_append]
  obtain ⟨⟨a', v'⟩, ha', hrel⟩ := ext_scanStringLoop (l.source.length + 1)
    (l'.source.length + 1) l l' [] (a, v) (by omega) h ha
  simp only [ha', Option.bind_eq_bind, Option.some_bind]
  rcases hrel with ⟨hlock, he, he', hv⟩ | ⟨hdone, he, he'⟩
  · simp only at hlock he he' hv
    simp only [he, Bool.false_eq_true, if_false, Option.some.injEq] at hr
    simp only [he', Bool.false_eq_true, if_false]
    subst hr
    subst hv
    exact ⟨_, rfl, Or.inl (lock_addTokenWith _ _
      (lock_advance hlock (lt_of_not_isAtEnd he)).1)⟩
  · simp only at hdone he he'
    simp only [he, if_true, Option.some.injEq] at hr
    simp only [he', if_true]
    subst hr
    exact ⟨_, rfl, Or.inr (done_reportError _ _ (fun _ => rfl) hdone)⟩

end Ext

section Ext

variable {w : List Char} {strict : Bool} {l l' : Lexer}

theorem lt_of_peekNext_is {c : Char} (hc : isBlankOrNull c = false) (hp : peekNext l = c) :
    l.current + 1 < l.source.length := by
  by_contra hge
  rw [peekNext_eq_charAt, charAt_beyond _ _ (by omega)] at hp
  rw [← hp] at hc
  exact absurd hc (by decide)

theorem ext_blockCommentBody (nesting : Int) (h : ExtLock w strict l l')
    (hlt : l.current < l.source.length) :
    ExtLock w strict (blockCommentBody l nesting).1 (blockCommentBody l' nesting).1 ∧
      (blockCommentBody l' nesting).2 = (blockCommentBody l nesting).2 := by
  have h1 := (lock_advance h hlt).1
  unfold blockCommentBody
  rw [lock_peek_lt h hlt, lock_peekNext_is '*' (by decide) h,
    lock_peekNext_is '/' (by decide) h]
  split
  · rename_i hc
    simp only [Bool.and_eq_true, decide_eq_true_eq] at hc
    have hlt2 : (advance l).2.current < (advance l).2.source.length :=
      lt_of_peekNext_is (by decide) hc.2
    exact ⟨(lock_advance h1 hlt2).1, rfl⟩
  · split
    · rename_i hc
      simp only [Bool.and_eq_true, decide_eq_true_eq] at hc
      have hlt2 : (advance l).2.current < (advance l).2.source.length :=
        lt_of_peekNext_is (by decide) hc.2
      exact ⟨(lock_advance h1 hlt2).1, rfl⟩
    · split
      · exact ⟨lock_position h1 _ _ _ _, rfl⟩
      · exact ⟨h1, rfl⟩

theorem ext_blockCommentLoop : ∀ (fuel fuel' : Nat) (l l' : Lexer) (nesting : Int)
    (r : Lexer × Int), fuel + w.length ≤ fuel' → ExtLock w strict l l' →
    blockCommentLoop fuel l nesting = some r →
    ∃ r', blockCommentLoop fuel' l' nesting = some (r', r.2) ∧ ExtRel w strict r.1 r'
  | 0, _, _, _, _, _, _, _, hr => by simp [blockCommentLoop] at hr
  | fuel + 1, 0, _, _, _, _, hf, _, _ => by omega
  | fuel + 1, fuel' + 1, l, l', nesting, r, hf, h, hr => by
    have hlen : l'.source.length = l.source.length + w.length := by
      rw [h.base.source, List.length_append]
    by_cases hn : 0 < nesting
    · by_cases hlt : l.current < l.source.length
      · have he := lock_isAtEnd_lt h hlt
        rw [blockCommentLoop_succ _ _ _ hn he.1] at hr
        rw [blockCommentLoop_succ _ _ _ hn he.2]
        obtain ⟨hb, hv⟩ := ext_blockCommentBody nesting h hlt
        rw [hv]
        exact ext_blockCommentLoop fuel fuel' _ _ _ r (by omega) hb hr
      · have hend : isAtEnd l = true := by simpa [isAtEnd] using hlt
        rw [blockCommentLoop_end _ _ _ hend, Option.some.injEq] at hr
        subst hr
        obtain ⟨r', hr', hc, ht, hs⟩ := block_through (fuel' + 1) l' nesting
          (tail_of_base h.base (by rw [h.current]; omega)) (by rw [hlen, h.current]; omega)
        refine ⟨r', hr', Or.inr ⟨base_keep h.base rfl hs rfl rfl ht, ?_, ?_⟩⟩
        · show l.source.length ≤ l.current
          omega
        · show l.source.length ≤ r'.current
          rw [h.current] at hc
          omega
    · rw [blockCommentLoop] at hr ⊢
      simp only [hn, decide_False, Bool.false_and, Bool.false_eq_true, if_false,
        Option.some.injEq] at hr ⊢
      subst hr
      exact ⟨l', rfl, Or.inl h⟩

theorem ext_lineCommentLoop : ∀ (fuel fuel' : Nat) (l l' : Lexer) (r : Lexer),
    fuel + w.length ≤ fuel' → ExtLock w strict l l' → lineCommentLoop fuel l = some r →
    ∃ r', lineCommentLoop fuel' l' = some r' ∧ ExtRel w strict r r'
  | 0, _, _, _, _, _, _, hr => by simp [lineCommentLoop] at hr
  | fuel + 1, 0, _, _, _, hf, _, _ => by omega
  | fuel + 1, fuel' + 1, l, l', r, hf, h, hr => by
    have hlen : l'.source.length = l.source.length + w.length := by
      rw [h.base.source, List.length_append]
    by_cases hlt : l.current < l.source.length
    · have he := lock_isAtEnd_lt h hlt
      rw [lineCommentLoop] at hr ⊢
      rw [lock_peek_lt h hlt, he.2]
      rw [he.1] at hr
      by_cases hc : peek l = '\n'
      · simp only [hc, bne_self_eq_false, Bool.false_and, Bool.false_eq_true, if_false,
          Option.some.injEq] at hr ⊢
        subst hr
        exact ⟨l', rfl, Or.inl h⟩
      · have hc' : (peek l != '\n') = true := by simpa using hc
        simp only [hc', Bool.not_false, Bool.and_self, if_true] at hr ⊢
        exact ext_lineCommentLoop fuel fuel' _ _ r (by omega) (lock_advance h hlt).1 hr
    · have hend : isAtEnd l = true := by simpa [isAtEnd] using hlt
      rw [lineCommentLoop] at hr
      simp only [hend, Bool.not_true, Bool.and_false, Bool.false_eq_true, if_false,
        Option.some.injEq] at hr
      subst hr
      obtain ⟨r', hr', hc, ht, hs⟩ := line_through (fuel' + 1) l'
        (by rw [hlen, h.current]; omega)
      refine ⟨r', hr', Or.inr ⟨base_keep h.base rfl hs rfl rfl ht, by omega, ?_⟩⟩
      · rw [h.current] at hc
        omega

theorem ext_scanTokenCase (getKeyword : List Char → TokenType) (k : StartKind) (c : Char)
    (h : ExtLock w strict l l') :
    OptSim (ExtRel w strict) (scanTokenCase getKeyword k c l)
      (scanTokenCase getKeyword k c l') := by
  have hlen : l'.source.length = l.source.length + w.length := by
    rw [h.base.source, List.length_append]
  have lock : ∀ {x x' : Option Lexer}, OptSim (ExtLock w strict) x x' →
      OptSim (ExtRel w strict) x x' := fun hx => optSim_mono hx (fun _ _ hR => Or.inl hR)
  cases k with
  | single ty => exact optSim_some (Or.inl (lock_addToken _ h))
  | withEqual alone both =>
    simp only [scanTokenCase]
    rw [(lock_matchChar '=' (by decide) h).1]
    exact optSim_some (Or.inl (lock_addToken _ (lock_matchChar '=' (by decide) h).2))
  | ampersand =>
    simp only [scanTokenCase]
    rw [(lock_matchChar '&' (by decide) h).1]
    split
    · exact optSim_some (Or.inl (lock_addToken _ (lock_matchChar '&' (by decide) h).2))
    · exact optSim_some (Or.inl (lock_reportError _ _ (fun _ => rfl)
        (lock_matchChar '&' (by decide) h).2))
  | bar =>
    simp only [scanTokenCase]
    rw [(lock_matchChar '|' (by decide) h).1]
    split
    · exact optSim_some (Or.inl (lock_addToken _ (lock_matchChar '|' (by decide) h).2))
    · exact optSim_some (Or.inl (lock_reportError _ _ (fun _ => rfl)
        (lock_matchChar '|' (by decide) h).2))
  | slash =>
    simp only [scanTokenCase]
    have h1 := lock_matchChar '/' (by decide) h
    have h2 := lock_matchChar '*' (by decide) h1.2
    rw [h1.1, h2.1]
    split
    · intro r hr
      exact ext_lineCommentLoop _ _ _ _ r (by omega) h1.2 hr
    · split
      · intro r hr
        rw [Option.bind_eq_some] at hr
        obtain ⟨⟨a, n⟩, ha, hr⟩ := hr
        obtain ⟨a', ha', hrel⟩ := ext_blockCommentLoop _ (l'.source.length + 1) _ _ _ (a, n)
          (by omega) h2.2 ha
        simp only [ha', Option.some_bind]
        simp only at hr
        split at hr
        · rename_i hn
          simp only [Option.some.injEq] at hr
          subst hr
          simp only [hn, if_true]
          exact ⟨_, rfl, rel_reportError _ hrel⟩
        · rename_i hn
          simp only [Option.some.injEq] at hr
          subst hr
          simp only [hn, if_false]
          exact ⟨_, rfl, hrel⟩
      · exact optSim_some (Or.inl (lock_addToken _ h2.2))
  | blank => exact optSim_some (Or.inl h)
  | newline => exact optSim_some (Or.inl (lock_position h _ _ _ _))
  | quote => exact ext_scanString h
  | digit => exact lock (ext_scanNumber h)
  | letter => exact lock (ext_scanIdentifier getKeyword h)
  | other => exact optSim_some (Or.inl (lock_reportError _ _ (fun _ => rfl) h))

theorem ext_scanToken (getKeyword : List Char → TokenType) (h : ExtLock w strict l l')
    (hlt : l.current < l.source.length) :
    OptSim (ExtRel w strict) (scanToken getKeyword l) (scanToken getKeyword l') := by
  rw [scanToken_eq, scanToken_eq, (lock_advance h hlt).2]
  exact ext_scanTokenCase getKeyword _ _ (lock_advance h hlt).1

theorem extTop_of_rel (h : ExtRel w strict l l') : ExtTop w strict l l' := by
  rcases h with h | h
  · exact ⟨h.base, Or.inl ⟨h.current, h.bound⟩⟩
  · exact ⟨h.base, Or.inr ⟨h.left, h.right⟩⟩

theorem ext_scanTokensLoop (getKeyword : List Char → TokenType) :
    ∀ (fuel fuel' : Nat) (l l' : Lexer) (r : Lexer), fuel + w.length ≤ fuel' →
    ExtTop w strict l l' → scanTokensLoop getKeyword fuel l = some r →
    ∃ r', scanTokensLoop getKeyword fuel' l' = some r' ∧ ExtBase w strict r r'
  | 0, _, _, _, _, _, _, hr => by simp [scanTokensLoop] at hr
  | fuel + 1, 0, _, _, _, hf, _, _ => by omega
  | fuel + 1, fuel' + 1, l, l', r, hf, h, hr => by
    have hlen : l'.source.length = l.source.length + w.length := by
      rw [h.1.source, List.length_append]
    by_cases hlt : l.current < l.source.length
    · have hcur : l'.current = l.current := by
        rcases h.2 with hc | hc
        · exact hc.1
        · omega
      have hlock : ExtLock w strict { l with start := l.current }
          { l' with start := l'.current } :=
        ⟨base_keep h.1 rfl rfl rfl rfl rfl, hcur, hcur, by
          show l.current ≤ l.source.length
          omega⟩
      have he : isAtEnd l = false := by simp [isAtEnd, hlt]
      have he' : isAtEnd l' = false := by
        simp [isAtEnd, hlen, hcur]
        omega
      rw [scanTokensLoop_step _ _ _ he, Option.bind_eq_some] at hr
      obtain ⟨a, ha, hr⟩ := hr
      obtain ⟨a', ha', hrel⟩ := ext_scanToken getKeyword hlock hlt a ha
      rw [scanTokensLoop_step _ _ _ he', ha', Option.some_bind]
      exact ext_scanTokensLoop getKeyword fuel fuel' a a' r (by omega) (extTop_of_rel hrel) hr
    · have hend : isAtEnd l = true := by simpa [isAtEnd] using hlt
      rw [scanTokensLoop_end _ _ _ hend, Option.some.injEq] at hr
      subst hr
      have hge : l.source.length ≤ l'.current := by
        rcases h.2 with hc | hc
        · rw [hc.1]; omega
        · exact hc.2
      obtain ⟨r', hr', ht, hs⟩ := top_through getKeyword (fuel' + 1) l'
        (tail_of_base h.1 hge) (by rw [hlen]; omega)
      exact ⟨r', hr', base_keep h.1 rfl hs rfl rfl ht⟩

end Ext

theorem scanTokens_trailing_whitespace (getKeyword : List Char → TokenType)
    (s w filename : List Char) (strict : Bool) (hw : w.all isWhitespace = true) :
    ∃ r r', scanTokens getKeyword (Lexer.new s filename) = some r ∧
      scanTokens getKeyword (Lexer.new (s ++ w) filename) = some r' ∧
      List.Forall₂ (TokenSame (strict && decide (r.2.current ≤ s.length))) r.1 r'.1 ∧
      (s.length < r.2.current → s.getLast? = some '\\' ∧
        (w ≠ [] → ¬ List.Forall₂ (TokenSame true) r.1 r'.1)) := by
  obtain ⟨r, added, hr, hadd, hsrc, _, _, hl⟩ :=
    scanTokens_total getKeyword (Lexer.new s filename)
  have hl' : scanTokensLoop getKeyword (s.length + 1) (Lexer.new s filename) = some r := hl
  have hsrc' : r.source = s := hsrc
  have h0 : ExtTop w strict (Lexer.new s filename) (Lexer.new (s ++ w) filename) :=
    ⟨⟨rfl, hw, fun hov => absurd hov (Nat.not_lt_zero _), List.Forall₂.nil⟩,
      Or.inl ⟨rfl, Nat.zero_le _⟩⟩
  obtain ⟨r', hr', hrel⟩ := ext_scanTokensLoop getKeyword (s.length + 1)
    ((s ++ w).length + 1) (Lexer.new s filename) (Lexer.new (s ++ w) filename) r
    (by simp; omega) h0 hl'
  refine ⟨_, _, hr, scanTokens_of_loop getKeyword _ filename r' hr', ?_, ?_⟩
  · rw [← hadd]
    have ht := hrel.tokens
    rw [hsrc'] at ht
    exact forall₂_snoc ht ⟨rfl, fun _ => rfl⟩
  · intro hov
    have ho := hrel.over (by rw [hsrc']; exact hov)
    rw [hsrc'] at ho
    refine ⟨ho.1, fun hne hF => ho.2 hne ?_⟩
    rw [← hadd] at hF
    exact (forall₂_init hF).1

theorem same_of_typesAndLexemes : ∀ {a b : List Token},
    typesAndLexemes b = typesAndLexemes a → List.Forall₂ (TokenSame true) a b
  | [], [], _ => List.Forall₂.nil
  | [], _ :: _, h => by simp [typesAndLexemes] at h
  | _ :: _, [], h => by simp [typesAndLexemes] at h
  | x :: a, y :: b, h => by
    simp only [typesAndLexemes, List.map_cons, List.cons.injEq, Prod.mk.injEq] at h
    exact List.Forall₂.cons ⟨h.1.1, fun _ => h.1.2⟩ (same_of_typesAndLexemes h.2)

theorem typesOf_of_same {strict : Bool} {a b : List Token}
    (h : List.Forall₂ (TokenSame strict) a b) : typesOf b = typesOf a := by
  induction h with
  | nil => rfl
  | cons h _ ih =>
    simp only [typesOf, List.map_cons, List.cons.injEq] at ih ⊢
    exact ⟨h.1, ih⟩

theorem typesAndLexemes_of_same {a b : List Token}
    (h : List.Forall₂ (TokenSame true) a b) : typesAndLexemes b = typesAndLexemes a := by
  induction h with
  | nil => rfl
  | cons h _ ih =>
    simp only [typesAndLexemes, List.map_cons, List.cons.injEq, Prod.mk.injEq] at ih ⊢
    exact ⟨⟨h.1, h.2 rfl⟩, ih⟩

/-! ## Block comments -/

/-- C11, counterexample. The text `/` has balanced markers (it has none), yet on
`/*` + `/` + `*/` + `x` the scanner reads the `/` and the `*` after it as an opening
marker, so the comment is not closed: the tokens are an `ERROR` token `Unterminated
comment` and `END_OF_FILE`, whereas on `x` alone they are `IDENTIFIER` and
`END_OF_FILE`. -/
theorem block_comment_trailing_slash_reopens :
    markersBalanced "/".toList = true ∧
    (scanTokens Keywords.getKeyword (Lexer.new "/*/*/x".toList [])).map
        (fun r => typesAndLexemes r.1) =
      some [(.ERROR, "Unterminated comment".toList), (.END_OF_FILE, [])] ∧
    (scanTokens Keywords.getKeyword (Lexer.new "x".toList [])).map
        (fun r => typesAndLexemes r.1) =
      some [(.IDENTIFIER, "x".toList), (.END_OF_FILE, [])] := by
  refine ⟨by decide, by rfl, by rfl⟩

/-- C11, amended. Block comments nest: for every text `t` in which the markers
`/*` and `*/`, read left to right without overlap, are balanced and never close
more than they open, and which does not end with a `/` outside a marker, and for
every source `s`, `scanTokens` on `/*` + `t` + `*/` + `s` returns, and returns the
same sequence of token types and lexemes as on `s` alone. -/
theorem block_comment_nests (getKeyword : List Char → TokenType)
    (t s filename : List Char) (ht : markersClosed t = true) :
    ∃ r r', scanTokens getKeyword (Lexer.new s filename) = some r ∧
      scanTokens getKeyword (Lexer.new ("/*".toList ++ t ++ "*/".toList ++ s) filename)
        = some r' ∧
      typesAndLexemes r'.1 = typesAndLexemes r.1 := by
  have hsrc : "/*".toList ++ t ++ "*/".toList ++ s = ('/' :: '*' :: (t ++ ['*', '/'])) ++ s := by
    simp
  rw [hsrc]
  generalize hl0 : Lexer.new (('/' :: '*' :: (t ++ ['*', '/'])) ++ s) filename = l0
  have hs0 : ({ l0 with start := l0.current } : Lexer).source =
      [] ++ '/' :: '*' :: (t ++ '*' :: '/' :: s) := by
    rw [← hl0]; simp [Lexer.new]
  have hc0 : ({ l0 with start := l0.current } : Lexer).current = ([] : List Char).length := by
    rw [← hl0]; rfl
  obtain ⟨l1, h1, hm1⟩ := scanToken_block_comment getKeyword t ht [] s _ hs0 hc0
  have he0 : isAtEnd l0 = false := (peek_of_source (l := l0) hs0 hc0).2.1
  have hloop := scanTokensLoop_skip getKeyword (t.length + 4 + s.length) l0 l1 he0 h1
  have hlen : (('/' :: '*' :: (t ++ ['*', '/'])) ++ s).length + 1 =
      t.length + 4 + s.length + 1 := by
    simp; omega
  obtain ⟨r, r', hr, hr', hrel⟩ := scanTokens_behind getKeyword
    ('/' :: '*' :: (t ++ ['*', '/'])) s filename filename false 0
    (t.length + 4 + s.length) l1 (by rw [hl0, hlen]; exact hloop) (by omega)
    ⟨by rw [hm1.1, ← hl0]; simp [Lexer.new],
      by rw [hm1.2.1, ← hl0]; simp [Lexer.new],
      by rw [hm1.2.2.1, ← hl0]; exact List.Forall₂.nil,
      by intro h; cases h⟩
  exact ⟨r, r', hr, by rw [← hl0]; exact hr', typesAndLexemes_of_shift hrel⟩

theorem block_comment_nests_witness :
    markersClosed " outer /* inner */ comment ".toList = true ∧
    ∃ r r', scanTokens Keywords.getKeyword (Lexer.new " var x = 42;".toList []) = some r ∧
      scanTokens Keywords.getKeyword
        (Lexer.new ("/*".toList ++ " outer /* inner */ comment ".toList ++ "*/".toList ++
          " var x = 42;".toList) []) = some r' ∧
      typesAndLexemes r'.1 = typesAndLexemes r.1 :=
  ⟨by decide, block_comment_nests Keywords.getKeyword " outer /* inner */ comment ".toList
    " var x = 42;".toList [] (by decide)⟩

/-! ## Numbers -/

theorem isRunOf_cons {p : Char → Bool} {ds : List Char} (h : isRunOf p ds = true) :
    ∃ d rest, ds = d :: rest ∧ p d = true ∧ rest.all p = true ∧ ds.all p = true := by
  cases ds with
  | nil => simp [isRunOf] at h
  | cons d rest =>
    simp only [isRunOf, List.isEmpty_cons, Bool.not_false, Bool.true_and, List.all_cons,
      Bool.and_eq_true] at h
    exact ⟨d, rest, rfl, h.1, h.2, by simp [h.1, h.2]⟩

theorem emits_hex (getKeyword : List Char → TokenType) {l : Lexer} {pre rest ds : List Char}
    (hd : isRunOf isxdigit ds = true)
    (hs : l.source = pre ++ ('0' :: 'x' :: ds) ++ rest) (hc : l.current = pre.length)
    (hst : l.start = pre.length) (hn : notContinuedBy isxdigit rest = true) :
    EmitsToken getKeyword l ('0' :: 'x' :: ds).length .INTEGER_LITERAL ('0' :: 'x' :: ds) := by
  obtain ⟨d, ds', hds, _, _, hall⟩ := isRunOf_cons hd
  have hs0 : l.source = pre ++ '0' :: ('x' :: (ds ++ rest)) := by simpa using hs
  obtain ⟨ha, hs1, hc1⟩ := advance_of_source hs0 hc
  have hm0 := movedBy_advance l
  obtain ⟨hp1, _, _⟩ := peek_of_source (l := (advance l).2) hs1 hc1
  have hm1 := movedBy_advance (advance l).2
  obtain ⟨r, hr, hmr, _⟩ := advanceWhile_run isxdigit (by decide) ds hall (pre ++ ['0', 'x'])
    rest (advance (advance l).2).2 ((advance l).2.source.length + 1) false
    (by rw [hm1.1, hs1]; simp) (by rw [hm1.2.1, hc1]; simp) hn (by rw [hs1]; simp; omega)
  have hflag : (false || !ds.isEmpty) = true := by rw [hds]; rfl
  rw [hflag] at hr
  have hm : MovedBy ('0' :: 'x' :: ds).length l r := by
    exact movedBy_cast (movedBy_trans (movedBy_trans hm0 hm1) hmr) (by simp; omega)
  refine emits_of_addToken .INTEGER_LITERAL hs hc hst hm ?_
  have hk : startKind '0' = .digit := rfl
  have hw : (advance l).2.current - (advance l).2.start = 1 := by
    rw [hm0.2.1, hm0.2.2.2.2.1, hc, hst]; simp
  have h0 : charAt (advance l).2.source (advance l).2.start = '0' := by
    rw [hm0.1, hm0.2.2.2.2.1, hs0, hst, charAt_append_cons]
  rw [scanToken_eq, ha, hk]
  simp only [scanTokenCase, scanNumber_eq, hp1, hw, h0, decide_True, Bool.and_self, if_true,
    scanHexDigits, hr, Option.some_bind, Bool.not_true, Bool.false_eq_true, if_false]

theorem emits_binary (getKeyword : List Char → TokenType) {l : Lexer}
    {pre rest ds : List Char} (hd : isRunOf (fun c => c = '0' || c = '1') ds = true)
    (hs : l.source = pre ++ ('0' :: 'b' :: ds) ++ rest) (hc : l.current = pre.length)
    (hst : l.start = pre.length)
    (hn : notContinuedBy (fun c => c = '0' || c = '1') rest = true) :
    EmitsToken getKeyword l ('0' :: 'b' :: ds).length .INTEGER_LITERAL ('0' :: 'b' :: ds) := by
  obtain ⟨d, ds', hds, _, _, hall⟩ := isRunOf_cons hd
  have hs0 : l.source = pre ++ '0' :: ('b' :: (ds ++ rest)) := by simpa using hs
  obtain ⟨ha, hs1, hc1⟩ := advance_of_source hs0 hc
  have hm0 := movedBy_advance l
  obtain ⟨hp1, _, _⟩ := peek_of_source (l := (advance l).2) hs1 hc1
  have hm1 := movedBy_advance (advance l).2
  obtain ⟨r, hr, hmr, _⟩ := advanceWhile_run (fun c => c = '0' || c = '1') (by decide) ds hall
    (pre ++ ['0', 'b']) rest (advance (advance l).2).2 ((advance l).2.source.length + 1) false
    (by rw [hm1.1, hs1]; simp) (by rw [hm1.2.1, hc1]; simp) hn (by rw [hs1]; simp; omega)
  have hflag : (false || !ds.isEmpty) = true := by rw [hds]; rfl
  rw [hflag] at hr
  have hm : MovedBy ('0' :: 'b' :: ds).length l r := by
    exact movedBy_cast (movedBy_trans (movedBy_trans hm0 hm1) hmr) (by simp; omega)
  refine emits_of_addToken .INTEGER_LITERAL hs hc hst hm ?_
  have hk : startKind '0' = .digit := rfl
  have hw : (advance l).2.current - (advance l).2.start = 1 := by
    rw [hm0.2.1, hm0.2.2.2.2.1, hc, hst]; simp
  have h0 : charAt (advance l).2.source (advance l).2.start = '0' := by
    rw [hm0.1, hm0.2.2.2.2.1, hs0, hst, charAt_append_cons]
  have hx : ('b' = 'x') = False := by decide
  rw [scanToken_eq, ha, hk]
  simp only [scanTokenCase, scanNumber_eq, hp1, hw, h0, hx, decide_True, decide_False,
    Bool.and_self, Bool.false_and, if_true, Bool.false_eq_true, if_false,
    scanBinaryDigits, hr, Option.some_bind, Bool.not_true]

theorem not_sign_of_isdigit {c : Char} (h : isdigit c = true) :
    (decide (c = '+') || decide (c = '-')) = false := by
  have h1 : c ≠ '+' := by
    rintro rfl
    exact absurd h (by decide)
  have h2 : c ≠ '-' := by
    rintro rfl
    exact absurd h (by decide)
  simp [h1, h2]

theorem afterSign_text (sign : Option Char)
    (hsign : (sign = none || sign = some '+' || sign = some '-') = true) {l : Lexer}
    {done rest : List Char} {x : Char} (hx : isdigit x = true)
    (hs : l.source = done ++ (sign.toList ++ x :: rest)) (hc : l.current = done.length) :
    MovedBy sign.toList.length l (afterSign l) := by
  cases sign with
  | none =>
    have hs1 : l.source = done ++ x :: rest := by simpa using hs
    obtain ⟨hp, _, _⟩ := peek_of_source hs1 hc
    have := not_sign_of_isdigit hx
    simp only [afterSign, hp, this, Bool.false_eq_true, if_false]
    exact movedBy_refl l
  | some sg =>
    have hs1 : l.source = done ++ sg :: (x :: rest) := by simpa using hs
    obtain ⟨hp, _, _⟩ := peek_of_source hs1 hc
    have hsg : (decide (sg = '+') || decide (sg = '-')) = true := by simpa using hsign
    simp only [afterSign, hp, hsg, if_true]
    exact movedBy_advance l

theorem scanExponent_text (e : Exponent) (he : e.wellFormed = true) {l : Lexer}
    {done rest : List Char} (fuel : Nat) (hs : l.source = done ++ (e.text ++ rest))
    (hc : l.current = done.length) (hn : e.endsBefore rest = true)
    (hf : e.text.length < fuel) :
    ∃ r, scanExponent fuel l = some (addToken .FLOAT_LITERAL r) ∧
      MovedBy e.text.length l r := by
  cases e with
  | absent =>
    have hs' : l.source = done ++ rest := by simpa [Exponent.text] using hs
    have hp := peek_of_position hs' hc
    have hx := headD_not_of_notContinued (p := fun c => isdigit c || c = 'e' || c = 'E')
      (by decide) hn
    simp only [Bool.or_eq_false_iff, decide_eq_false_iff_not] at hx
    refine ⟨l, ?_, movedBy_refl l⟩
    have hcond : (decide (peek l = 'e') || decide (peek l = 'E')) = false := by
      rw [hp]
      simp only [hx.1.2, hx.2, decide_False, Bool.or_self]
    simp only [scanExponent, hcond, Bool.false_eq_true, if_false]
  | present marker sign xs =>
    simp only [Exponent.wellFormed, Bool.and_eq_true] at he
    obtain ⟨⟨hmark, hsign⟩, hxs⟩ := he
    obtain ⟨x, xs', hxs', hx, _, hall⟩ := isRunOf_cons hxs
    have hs0 : l.source = done ++ marker :: (sign.toList ++ x :: (xs' ++ rest)) := by
      rw [hs, hxs']; simp [Exponent.text]
    obtain ⟨hp, _, _⟩ := peek_of_source hs0 hc
    obtain ⟨_, hs1, hc1⟩ := advance_of_source hs0 hc
    have hm0 := movedBy_advance l
    have hm1 := afterSign_text sign hsign (l := (advance l).2) hx hs1 hc1
    have hs2 : (afterSign (advance l).2).source =
        (done ++ marker :: sign.toList) ++ xs ++ rest := by
      rw [hm1.1, hs1, hxs']; simp
    have hc2 : (afterSign (advance l).2).current = (done ++ marker :: sign.toList).length := by
      rw [hm1.2.1, hc1]; simp; omega
    have hp2 : peek (afterSign (advance l).2) = x :=
      (peek_of_source (by rw [hs2, hxs']; simp : (afterSign (advance l).2).source =
        (done ++ marker :: sign.toList) ++ x :: (xs' ++ rest)) hc2).1
    obtain ⟨r, hr, hmr, _⟩ := advanceWhile_run isdigit (by decide) xs hall
      (done ++ marker :: sign.toList) rest (afterSign (advance l).2) fuel false hs2 hc2 hn
      (by simp [Exponent.text] at hf; omega)
    refine ⟨r, ?_, movedBy_cast (movedBy_trans (movedBy_trans hm0 hm1) hmr)
      (by simp [Exponent.text]; omega)⟩
    have hmark' : (decide (marker = 'e') || decide (marker = 'E')) = true := hmark
    simp only [scanExponent, hp, hmark', if_true, hp2, hx, Bool.not_true, Bool.false_eq_true,
      if_false, hr, Option.some_bind]

theorem scanFraction_text {l : Lexer} {done f tail : List Char} (fuel : Nat)
    (hf : isRunOf isdigit f = true) (hs : l.source = done ++ '.' :: (f ++ tail))
    (hc : l.current = done.length) (hn : notContinuedBy isdigit tail = true)
    (hfuel : f.length < fuel) :
    ∃ r, scanFraction fuel l = scanExponent fuel r ∧ MovedBy (1 + f.length) l r := by
  obtain ⟨x, f', hf', hx, _, hall⟩ := isRunOf_cons hf
  have hs0 : l.source = done ++ '.' :: x :: (f' ++ tail) := by rw [hs, hf']; simp
  obtain ⟨hp, _, _⟩ := peek_of_source hs0 hc
  have hpn := peekNext_of_source hs0 hc
  obtain ⟨_, hs1, hc1⟩ := advance_of_source hs hc
  have hm0 := movedBy_advance l
  obtain ⟨r, hr, hmr, _⟩ := advanceWhile_run isdigit (by decide) f hall (done ++ ['.']) tail
    (advance l).2 fuel false (by rw [hs1]; simp) hc1 hn hfuel
  refine ⟨r, ?_, movedBy_trans hm0 hmr⟩
  simp only [scanFraction, hp, hpn, hx, decide_True, Bool.and_self, if_true, hr,
    Option.some_bind]

theorem notContinuedBy_digit_text (e : Exponent) (he : e.wellFormed = true)
    (rest : List Char) (hn : e.endsBefore rest = true) :
    notContinuedBy isdigit (e.text ++ rest) = true := by
  cases e with
  | absent =>
    cases rest with
    | nil => rfl
    | cons c rest =>
      simp only [Exponent.endsBefore, notContinuedBy, Bool.not_eq_true',
        Bool.or_eq_false_iff] at hn
      simp [Exponent.text, notContinuedBy, hn.1.1]
  | present marker sign xs =>
    simp only [Exponent.wellFormed, Bool.and_eq_true, Bool.or_eq_true,
      decide_eq_true_eq] at he
    rcases he.1.1 with h | h <;> subst h <;> rfl

theorem emits_float (getKeyword : List Char → TokenType) {l : Lexer}
    {pre rest i f : List Char} {e : Exponent} (hi : isRunOf isdigit i = true)
    (hf : isRunOf isdigit f = true) (he : e.wellFormed = true)
    (hs : l.source = pre ++ floatText i f e ++ rest) (hc : l.current = pre.length)
    (hst : l.start = pre.length) (hn : e.endsBefore rest = true) :
    EmitsToken getKeyword l (floatText i f e).length .FLOAT_LITERAL (floatText i f e) := by
  obtain ⟨d, ds, hds, hd, hall, _⟩ := isRunOf_cons hi
  have hs0 : l.source = pre ++ d :: (ds ++ '.' :: (f ++ (e.text ++ rest))) := by
    rw [hs, hds]; simp [floatText]
  obtain ⟨ha, hs1, hc1⟩ := advance_of_source hs0 hc
  have hm0 := movedBy_advance l
  have hlen : (floatText i f e).length < (advance l).2.source.length + 1 := by
    rw [hm0.1, hs]; simp; omega
  have hlen' : (floatText i f e).length = 1 + ds.length + (1 + f.length) + e.text.length := by
    rw [hds]; simp [floatText]; omega
  obtain ⟨r1, hr1, hm1, _⟩ := advanceWhile_run isdigit (by decide) ds hall (pre ++ [d])
    ('.' :: (f ++ (e.text ++ rest))) (advance l).2 ((advance l).2.source.length + 1) false
    (by rw [hs1]; simp) hc1 rfl (by omega)
  obtain ⟨r2, hr2, hm2⟩ := scanFraction_text (l := r1)
    ((advance l).2.source.length + 1) hf
    (by rw [hm1.1, hs1]; simp :
      r1.source = (pre ++ d :: ds) ++ '.' :: (f ++ (e.text ++ rest)))
    (by rw [hm1.2.1, hc1]; simp; omega)
    (notContinuedBy_digit_text e he rest hn) (by omega)
  obtain ⟨r3, hr3, hm3⟩ := scanExponent_text e he (l := r2)
    ((advance l).2.source.length + 1)
    (by rw [hm2.1, hm1.1, hs1]; simp :
      r2.source = (pre ++ d :: (ds ++ '.' :: f)) ++ (e.text ++ rest))
    (by rw [hm2.2.1, hm1.2.1, hc1]; simp; omega) hn
    (by omega)
  have hm : MovedBy (floatText i f e).length l r3 :=
    movedBy_cast (movedBy_trans (movedBy_trans (movedBy_trans hm0 hm1) hm2) hm3)
      (by rw [hlen'])
  refine emits_of_addToken .FLOAT_LITERAL hs hc hst hm ?_
  have hp1 := peek_of_position (l := (advance l).2) hs1 hc1
  have hx : (decide (peek (advance l).2 = 'x')) = false := by
    rw [hp1]
    cases ds with
    | nil => rfl
    | cons d2 ds =>
      simp only [List.all_cons, Bool.and_eq_true] at hall
      have : d2 ≠ 'x' := by
        rintro rfl
        exact absurd hall.1 (by decide)
      simpa using this
  have hb : (decide (peek (advance l).2 = 'b')) = false := by
    rw [hp1]
    cases ds with
    | nil => rfl
    | cons d2 ds =>
      simp only [List.all_cons, Bool.and_eq_true] at hall
      have : d2 ≠ 'b' := by
        rintro rfl
        exact absurd hall.1 (by decide)
      simpa using this
  rw [scanToken_eq, ha, startKind_digit hd]
  simp only [scanTokenCase, scanNumber_eq, hx, hb, Bool.false_and, Bool.false_eq_true,
    if_false, scanDecimal, hr1, Option.some_bind, hr2, hr3]

/-- C12. Numeric literal formats. At a state of the scanner positioned at the start
of the text: `0x` followed by one or more hexadecimal digits, not continued by a
hexadecimal digit, and `0b` followed by one or more binary digits, not continued by
a binary digit, each yield exactly one `INTEGER_LITERAL` token whose lexeme is the
whole text; a decimal number with a fractional part and an optional exponent
(digits `.` digits, then optionally `e` or `E`, an optional sign and one or more
digits), not continued by a digit (nor, without exponent, by `e` or `E`), yields
exactly one `FLOAT_LITERAL` token whose lexeme is the whole text. On each of these
texts alone `scanTokens` returns that token and `END_OF_FILE`. -/
theorem numeric_literal_formats (getKeyword : List Char → TokenType) (l : Lexer)
    (pre rest : List Char) (h : l.current = pre.length ∧ l.start = pre.length) :
    (∀ ds, isRunOf isxdigit ds = true → l.source = pre ++ ('0' :: 'x' :: ds) ++ rest →
      notContinuedBy isxdigit rest = true →
      EmitsToken getKeyword l ('0' :: 'x' :: ds).length .INTEGER_LITERAL ('0' :: 'x' :: ds)) ∧
    (∀ ds, isRunOf (fun c => c = '0' || c = '1') ds = true →
      l.source = pre ++ ('0' :: 'b' :: ds) ++ rest →
      notContinuedBy (fun c => c = '0' || c = '1') rest = true →
      EmitsToken getKeyword l ('0' :: 'b' :: ds).length .INTEGER_LITERAL ('0' :: 'b' :: ds)) ∧
    (∀ i f e, isRunOf isdigit i = true → isRunOf isdigit f = true → e.wellFormed = true →
      l.source = pre ++ floatText i f e ++ rest → e.endsBefore rest = true →
      EmitsToken getKeyword l (floatText i f e).length .FLOAT_LITERAL (floatText i f e)) ∧
    (∀ ds filename, isRunOf isxdigit ds = true →
      ∃ r, scanTokens getKeyword (Lexer.new ('0' :: 'x' :: ds) filename) = some r ∧
        typesAndLexemes r.1 = [(.INTEGER_LITERAL, '0' :: 'x' :: ds), (.END_OF_FILE, [])]) ∧
    (∀ ds filename, isRunOf (fun c => c = '0' || c = '1') ds = true →
      ∃ r, scanTokens getKeyword (Lexer.new ('0' :: 'b' :: ds) filename) = some r ∧
        typesAndLexemes r.1 = [(.INTEGER_LITERAL, '0' :: 'b' :: ds), (.END_OF_FILE, [])]) ∧
    (∀ i f e filename, isRunOf isdigit i = true → isRunOf isdigit f = true →
      e.wellFormed = true →
      ∃ r, scanTokens getKeyword (Lexer.new (floatText i f e) filename) = some r ∧
        typesAndLexemes r.1 = [(.FLOAT_LITERAL, floatText i f e), (.END_OF_FILE, [])]) := by
  obtain ⟨hc, hst⟩ := h
  refine ⟨fun ds hd hs hn => emits_hex getKeyword hd hs hc hst hn,
    fun ds hd hs hn => emits_binary getKeyword hd hs hc hst hn,
    fun i f e hi hf he hs hn => emits_float getKeyword hi hf he hs hc hst hn, ?_, ?_, ?_⟩
  · intro ds filename hd
    exact scanTokens_of_emits getKeyword _ filename _ _ (by simp)
      (emits_hex getKeyword hd (by simp [Lexer.new] :
        (Lexer.new ('0' :: 'x' :: ds) filename).source = [] ++ ('0' :: 'x' :: ds) ++ [])
        rfl rfl rfl)
  · intro ds filename hd
    exact scanTokens_of_emits getKeyword _ filename _ _ (by simp)
      (emits_binary getKeyword hd (by simp [Lexer.new] :
        (Lexer.new ('0' :: 'b' :: ds) filename).source = [] ++ ('0' :: 'b' :: ds) ++ [])
        rfl rfl rfl)
  · intro i f e filename hi hf he
    have hne : floatText i f e ≠ [] := by simp [floatText]
    have hend : e.endsBefore [] = true := by cases e <;> rfl
    exact scanTokens_of_emits getKeyword _ filename _ _ hne
      (emits_float getKeyword hi hf he (by simp [Lexer.new] :
        (Lexer.new (floatText i f e) filename).source = [] ++ floatText i f e ++ [])
        rfl rfl hend)

theorem numeric_literal_formats_witness :
    ((Lexer.new "0x1A 0b1010 1.23e-4 1.23E+4".toList []).current = ([] : List Char).length ∧
      (Lexer.new "0x1A 0b1010 1.23e-4 1.23E+4".toList []).start = ([] : List Char).length) ∧
    EmitsToken Keywords.getKeyword (Lexer.new "0x1A 0b1010 1.23e-4 1.23E+4".toList []) 4
      .INTEGER_LITERAL "0x1A".toList ∧
    (∃ r, scanTokens Keywords.getKeyword (Lexer.new "1.23e-4".toList []) = some r ∧
      typesAndLexemes r.1 = [(.FLOAT_LITERAL, "1.23e-4".toList), (.END_OF_FILE, [])]) :=
  ⟨⟨rfl, rfl⟩,
    (numeric_literal_formats Keywords.getKeyword
      (Lexer.new "0x1A 0b1010 1.23e-4 1.23E+4".toList []) [] " 0b1010 1.23e-4 1.23E+4".toList
      ⟨rfl, rfl⟩).1 "1A".toList (by decide) rfl (by decide),
    (numeric_literal_formats Keywords.getKeyword
      (Lexer.new "0x1A 0b1010 1.23e-4 1.23E+4".toList []) [] " 0b1010 1.23e-4 1.23E+4".toList
      ⟨rfl, rfl⟩).2.2.2.2.2 "1".toList "23".toList (.present 'e' (some '-') "4".toList) []
      (by decide) (by decide) (by decide)⟩

/-! ## Words -/

theorem emits_word (getKeyword : List Char → TokenType) {l : Lexer} {pre rest w : List Char}
    (hw : isWord w = true) (hs : l.source = pre ++ w ++ rest) (hc : l.current = pre.length)
    (hst : l.start = pre.length) (hn : notContinuedBy isWordChar rest = true) :
    EmitsToken getKeyword l w.length (wordType (getKeyword w)) w := by
  cases w with
  | nil => simp [isWord] at hw
  | cons c cs =>
    simp only [isWord, Bool.and_eq_true] at hw
    have hs0 : l.source = pre ++ c :: (cs ++ rest) := by simpa using hs
    obtain ⟨ha, hs1, hc1⟩ := advance_of_source hs0 hc
    have hm0 := movedBy_advance l
    obtain ⟨r, hr, hmr, _⟩ := advanceWhile_run isWordChar (by decide) cs hw.2 (pre ++ [c]) rest
      (advance l).2 ((advance l).2.source.length + 1) false (by rw [hs1]; simp) hc1 hn
      (by rw [hs1]; simp; omega)
    have hm : MovedBy (c :: cs).length l r := by
      have := movedBy_trans hm0 hmr
      simpa [Nat.add_comm] using this
    have htext : substr r.source r.start (r.current - r.start) = c :: cs := by
      rw [hm.1, hm.2.2.2.2.1, hm.2.1, hs, hst, hc, Nat.add_sub_cancel_left, substr_of_source]
    have hscan : scanToken getKeyword l =
        if getKeyword (c :: cs) = .TRUE || getKeyword (c :: cs) = .FALSE then
          some (addTokenWith .BOOL_LITERAL (c :: cs) r)
        else some (addToken (getKeyword (c :: cs)) r) := by
      rw [scanToken_eq, ha, startKind_letter hw.1]
      have hr' : advanceWhile (fun c => isalnum c || c = '_')
          ((advance l).2.source.length + 1) (advance l).2 false =
            some (r, false || !cs.isEmpty) := by
        rw [← hr]
        rfl
      simp only [scanTokenCase, scanIdentifier, hr', Option.bind_eq_bind, Option.some_bind,
        htext]
    by_cases hb : getKeyword (c :: cs) = .TRUE ∨ getKeyword (c :: cs) = .FALSE
    · have hb' : (decide (getKeyword (c :: cs) = .TRUE) ||
          decide (getKeyword (c :: cs) = .FALSE)) = true := by simpa using hb
      rw [if_pos hb'] at hscan
      refine ⟨_, ⟨.BOOL_LITERAL, c :: cs, r.line, r.column - ((c :: cs).length : Int)⟩,
        hscan, hm.1, hm.2.1, ?_, ?_, rfl, hm.2.2.2.1⟩
      · rw [← hm.2.2.1]; rfl
      · simp [wordType, hb]
    · have hb' : (decide (getKeyword (c :: cs) = .TRUE) ||
          decide (getKeyword (c :: cs) = .FALSE)) = false := by simpa using hb
      rw [hb'] at hscan
      have := emits_of_addToken (t := c :: cs)
        (getKeyword (c :: cs)) hs hc hst hm hscan
      simpa [wordType, hb] using this

theorem scanTokens_no_true_false (getKeyword : List Char → TokenType) (l : Lexer) :
    ∃ r, scanTokens getKeyword l = some r ∧
      ∀ t ∈ r.1, t.type ≠ .TRUE ∧ t.type ≠ .FALSE := by
  obtain ⟨r, added, hr, _, _, _, hall, _⟩ := scanTokens_total getKeyword l
  refine ⟨_, hr, ?_⟩
  intro t ht
  simp only [List.mem_append, List.mem_singleton] at ht
  rcases ht with ht | rfl
  · rcases hall t ht with h | ⟨_, _, h1, h2⟩
    · constructor <;> (intro e; rw [e] at h; revert h; decide)
    · exact ⟨h1, h2⟩
  · exact ⟨fun e => TokenType.noConfusion e, fun e => TokenType.noConfusion e⟩

/-- C13. Words are classified as follows, for every keyword lookup `getKeyword`: at
a state of the scanner positioned at the start of a word `w` (a letter or
underscore followed by letters, digits and underscores) that is not continued by
such a character, `scanToken` adds exactly one token with lexeme `w`, of type
`BOOL_LITERAL` when the lookup of `w` is `TRUE` or `FALSE` and of the type the
lookup returns otherwise; on `w` alone `scanTokens` returns that token and
`END_OF_FILE`; and no token returned by `scanTokens` has type `TRUE` or `FALSE`.
With the keyword table modelled from the specification the types are
`BOOL_LITERAL` for `true` and `false`, the keyword's own type for the eleven other
keywords and `IDENTIFIER` otherwise. -/
theorem words_classified (getKeyword : List Char → TokenType) (w : List Char)
    (hw : isWord w = true) :
    (∀ (l : Lexer) (pre rest : List Char), l.source = pre ++ w ++ rest →
      l.current = pre.length → l.start = pre.length →
      notContinuedBy isWordChar rest = true →
      EmitsToken getKeyword l w.length (wordType (getKeyword w)) w) ∧
    (∀ filename, ∃ r, scanTokens getKeyword (Lexer.new w filename) = some r ∧
      typesAndLexemes r.1 = [(wordType (getKeyword w), w), (.END_OF_FILE, [])]) ∧
    (∀ l : Lexer, ∃ r, scanTokens getKeyword l = some r ∧
      ∀ t ∈ r.1, t.type ≠ .TRUE ∧ t.type ≠ .FALSE) ∧
    (w ∉ Keywords.keywords.map (fun p => p.1) →
      wordType (Keywords.getKeyword w) = .IDENTIFIER) ∧
    Keywords.keywords.map (fun p => (p.1, wordType (Keywords.getKeyword p.1))) =
      [("function".toList, .FUNCTION), ("var".toList, .VAR), ("const".toList, .CONST),
       ("if".toList, .IF), ("else".toList, .ELSE), ("while".toList, .WHILE),
       ("for".toList, .FOR), ("return".toList, .RETURN), ("break".toList, .BREAK),
       ("continue".toList, .CONTINUE), ("true".toList, .BOOL_LITERAL),
       ("false".toList, .BOOL_LITERAL), ("nil".toList, .NIL)] := by
  refine ⟨fun l pre rest hs hc hst hn => emits_word getKeyword hw hs hc hst hn, ?_,
    scanTokens_no_true_false getKeyword, ?_, by decide⟩
  · intro filename
    have hne : w ≠ [] := by
      rintro rfl
      simp [isWord] at hw
    exact scanTokens_of_emits getKeyword w filename _ w hne
      (emits_word getKeyword hw (by simp [Lexer.new] :
        (Lexer.new w filename).source = [] ++ w ++ []) rfl rfl rfl)
  · intro hnot
    have hfind : Keywords.keywords.find? (fun p => decide (p.1 = w)) = none := by
      rw [List.find?_eq_none]
      intro p hp hpw
      exact hnot (List.mem_map.mpr ⟨p, hp, by simpa using hpw⟩)
    simp only [Keywords.getKeyword, hfind]
    rfl

theorem words_classified_witness :
    isWord "_var123".toList = true ∧
    (∃ r, scanTokens Keywords.getKeyword (Lexer.new "_var123".toList []) = some r ∧
      typesAndLexemes r.1 =
        [(wordType (Keywords.getKeyword "_var123".toList), "_var123".toList),
          (.END_OF_FILE, [])]) ∧
    wordType (Keywords.getKeyword "_var123".toList) = .IDENTIFIER :=
  ⟨by decide, (words_classified Keywords.getKeyword "_var123".toList (by decide)).2.1 [],
    (words_classified Keywords.getKeyword "_var123".toList (by decide)).2.2.2.1 (by decide)⟩

/-! ## Operators -/

theorem emits_single (getKeyword : List Char → TokenType) {l : Lexer} {pre rest : List Char}
    {c : Char} {ty : TokenType} (hk : startKind c = .single ty)
    (hs : l.source = pre ++ c :: rest) (hc : l.current = pre.length)
    (hst : l.start = pre.length) : EmitsToken getKeyword l 1 ty [c] := by
  have ha := (advance_of_source hs hc).1
  refine emits_of_addToken (t := [c]) ty (by simpa using hs) hc hst (movedBy_advance l) ?_
  rw [scanToken_eq, ha, hk]
  rfl

theorem emits_with_equal (getKeyword : List Char → TokenType) {l : Lexer}
    {pre rest : List Char} {c : Char} {alone both : TokenType}
    (hk : startKind c = .withEqual alone both)
    (hs : l.source = pre ++ c :: '=' :: rest) (hc : l.current = pre.length)
    (hst : l.start = pre.length) : EmitsToken getKeyword l 2 both [c, '='] := by
  obtain ⟨ha, hs1, hc1⟩ := advance_of_source hs hc
  obtain ⟨h1, hm1, _⟩ := matchChar_hit (l := (advance l).2) hs1 hc1
  refine emits_of_addToken (t := [c, '=']) both (by simpa using hs) hc hst
    (movedBy_trans (movedBy_advance l) hm1) ?_
  rw [scanToken_eq, ha, hk]
  simp [scanTokenCase, h1]

theorem emits_without_equal (getKeyword : List Char → TokenType) {l : Lexer}
    {pre rest : List Char} {c : Char} {alone both : TokenType}
    (hk : startKind c = .withEqual alone both)
    (hs : l.source = pre ++ c :: rest) (hc : l.current = pre.length)
    (hst : l.start = pre.length)
    (hn : notContinuedBy (fun c => decide (c = '=')) rest = true) :
    EmitsToken getKeyword l 1 alone [c] := by
  obtain ⟨ha, hs1, hc1⟩ := advance_of_source hs hc
  have h1 := matchChar_notContinued (l := (advance l).2) '=' hs1 hc1 hn
  refine emits_of_addToken (t := [c]) alone (by simpa using hs) hc hst (movedBy_advance l) ?_
  rw [scanToken_eq, ha, hk]
  simp [scanTokenCase, h1]

theorem emits_and (getKeyword : List Char → TokenType) {l : Lexer} {pre rest : List Char}
    (hs : l.source = pre ++ '&' :: '&' :: rest) (hc : l.current = pre.length)
    (hst : l.start = pre.length) : EmitsToken getKeyword l 2 .AND ['&', '&'] := by
  obtain ⟨ha, hs1, hc1⟩ := advance_of_source hs hc
  obtain ⟨h1, hm1, _⟩ := matchChar_hit (l := (advance l).2) hs1 hc1
  refine emits_of_addToken (t := ['&', '&']) .AND (by simpa using hs) hc hst
    (movedBy_trans (movedBy_advance l) hm1) ?_
  rw [scanToken_eq, ha]
  have hk : startKind '&' = .ampersand := rfl
  rw [hk]
  simp [scanTokenCase, h1]

theorem emits_or (getKeyword : List Char → TokenType) {l : Lexer} {pre rest : List Char}
    (hs : l.source = pre ++ '|' :: '|' :: rest) (hc : l.current = pre.length)
    (hst : l.start = pre.length) : EmitsToken getKeyword l 2 .OR ['|', '|'] := by
  obtain ⟨ha, hs1, hc1⟩ := advance_of_source hs hc
  obtain ⟨h1, hm1, _⟩ := matchChar_hit (l := (advance l).2) hs1 hc1
  refine emits_of_addToken (t := ['|', '|']) .OR (by simpa using hs) hc hst
    (movedBy_trans (movedBy_advance l) hm1) ?_
  rw [scanToken_eq, ha]
  have hk : startKind '|' = .bar := rfl
  rw [hk]
  simp [scanTokenCase, h1]

theorem emits_slash (getKeyword : List Char → TokenType) {l : Lexer} {pre rest : List Char}
    (hs : l.source = pre ++ '/' :: rest) (hc : l.current = pre.length)
    (hst : l.start = pre.length)
    (hn : notContinuedBy (fun c => c = '/' || c = '*') rest = true) :
    EmitsToken getKeyword l 1 .SLASH ['/'] := by
  obtain ⟨ha, hs1, hc1⟩ := advance_of_source hs hc
  have hn1 : notContinuedBy (fun c => decide (c = '/')) rest = true := by
    cases rest with
    | nil => rfl
    | cons c rest =>
      simp only [notContinuedBy, Bool.not_eq_true', Bool.or_eq_false_iff] at hn ⊢
      exact hn.1
  have hn2 : notContinuedBy (fun c => decide (c = '*')) rest = true := by
    cases rest with
    | nil => rfl
    | cons c rest =>
      simp only [notContinuedBy, Bool.not_eq_true', Bool.or_eq_false_iff] at hn ⊢
      exact hn.2
  have h1 := matchChar_notContinued (l := (advance l).2) '/' hs1 hc1 hn1
  have h2 := matchChar_notContinued (l := (advance l).2) '*' hs1 hc1 hn2
  refine emits_of_addToken (t := ['/']) .SLASH (by simpa using hs) hc hst (movedBy_advance l) ?_
  rw [scanToken_eq, ha]
  have hk : startKind '/' = .slash := rfl
  rw [hk]
  simp [scanTokenCase, h1, h2]

/-- C14. Operators are scanned with longest match. At a state of the scanner whose
position is the start of the operator: each of `+ - * %` yields its own
one-character token, and so does `/` when no `/` or `*` follows (which would open a
comment); each of `!`, `=`, `<`, `>` followed by `=` yields the two-character token
and otherwise the one-character token; `&&` yields `AND` and `||` yields `OR`; the
lexeme is the operator text, and nothing is reported. On an operator alone
`scanTokens` returns that token and `END_OF_FILE`. -/
theorem operators_longest_match (getKeyword : List Char → TokenType) (l : Lexer)
    (pre rest : List Char) (h : l.current = pre.length ∧ l.start = pre.length) :
    (∀ c ty, (c, ty) ∈ [('+', TokenType.PLUS), ('-', .MINUS), ('*', .STAR), ('%', .PERCENT)] →
      l.source = pre ++ c :: rest → EmitsToken getKeyword l 1 ty [c]) ∧
    (l.source = pre ++ '/' :: rest →
      notContinuedBy (fun c => c = '/' || c = '*') rest = true →
      EmitsToken getKeyword l 1 .SLASH ['/']) ∧
    (∀ c alone both, (c, alone, both) ∈ equalOperators →
      (l.source = pre ++ c :: '=' :: rest → EmitsToken getKeyword l 2 both [c, '=']) ∧
      (l.source = pre ++ c :: rest → notContinuedBy (fun c => decide (c = '=')) rest = true →
        EmitsToken getKeyword l 1 alone [c])) ∧
    (l.source = pre ++ '&' :: '&' :: rest → EmitsToken getKeyword l 2 .AND ['&', '&']) ∧
    (l.source = pre ++ '|' :: '|' :: rest → EmitsToken getKeyword l 2 .OR ['|', '|']) ∧
    (∀ op ty filename, (op, ty) ∈ operatorTable →
      ∃ r, scanTokens getKeyword (Lexer.new op filename) = some r ∧
        typesAndLexemes r.1 = [(ty, op), (.END_OF_FILE, [])]) := by
  obtain ⟨hc, hst⟩ := h
  refine ⟨?_, ?_, ?_, ?_, ?_, ?_⟩
  · intro c ty hm hs
    have hk : startKind c = .single ty := by
      simp only [List.mem_cons, Prod.mk.injEq, List.mem_singleton, List.not_mem_nil,
        or_false] at hm
      rcases hm with ⟨rfl, rfl⟩ | ⟨rfl, rfl⟩ | ⟨rfl, rfl⟩ | ⟨rfl, rfl⟩ <;> rfl
    exact emits_single getKeyword hk hs hc hst
  · intro hs hn
    exact emits_slash getKeyword hs hc hst hn
  · intro c alone both hm
    have hk : startKind c = .withEqual alone both := by
      simp only [equalOperators, List.mem_cons, Prod.mk.injEq, List.mem_singleton,
        List.not_mem_nil, or_false] at hm
      rcases hm with ⟨rfl, rfl, rfl⟩ | ⟨rfl, rfl, rfl⟩ | ⟨rfl, rfl, rfl⟩ | ⟨rfl, rfl, rfl⟩ <;>
        rfl
    exact ⟨fun hs => emits_with_equal getKeyword hk hs hc hst,
      fun hs hn => emits_without_equal getKeyword hk hs hc hst hn⟩
  · intro hs
    exact emits_and getKeyword hs hc hst
  · intro hs
    exact emits_or getKeyword hs hc hst
  · intro op ty filename hm
    simp only [operatorTable, List.mem_cons, Prod.mk.injEq, List.mem_singleton,
      List.not_mem_nil, or_false] at hm
    rcases hm with h | h | h | h | h | h | h | h | h | h | h | h | h | h | h <;>
      obtain ⟨rfl, rfl⟩ := h <;> exact ⟨_, rfl, rfl⟩

theorem operators_longest_match_witness :
    ((Lexer.new "<= 3".toList []).current = ([] : List Char).length ∧
      (Lexer.new "<= 3".toList []).start = ([] : List Char).length) ∧
    EmitsToken Keywords.getKeyword (Lexer.new "<= 3".toList []) 2 .LESS_EQUAL "<=".toList ∧
    (∃ r, scanTokens Keywords.getKeyword (Lexer.new "&&".toList []) = some r ∧
        typesAndLexemes r.1 = [(.AND, "&&".toList), (.END_OF_FILE, [])]) :=
  ⟨⟨rfl, rfl⟩,
    ((operators_longest_match Keywords.getKeyword (Lexer.new "<= 3".toList []) []
      " 3".toList ⟨rfl, rfl⟩).2.2.1 '<' .LESS .LESS_EQUAL (by decide)).1 rfl,
    (operators_longest_match Keywords.getKeyword (Lexer.new "<= 3".toList []) []
      " 3".toList ⟨rfl, rfl⟩).2.2.2.2.2 "&&".toList .AND [] (by decide)⟩

/-! ## Unexpected characters -/

theorem reports_unexpected (getKeyword : List Char → TokenType) {l : Lexer}
    {pre rest : List Char} {c : Char} (hk : cannotStartToken c = true)
    (hs : l.source = pre ++ c :: rest) (hc : l.current = pre.length) :
    ReportsError getKeyword l 1 (unexpectedCharacter c) := by
  have ha := (advance_of_source hs hc).1
  refine reports_of_reportError _ (movedBy_advance l) ?_
  rw [scanToken_eq, ha, startKind_other hk]
  rfl

theorem reports_lone_ampersand (getKeyword : List Char → TokenType) {l : Lexer}
    {pre rest : List Char} (hs : l.source = pre ++ '&' :: rest) (hc : l.current = pre.length)
    (hn : notContinuedBy (fun c => decide (c = '&')) rest = true) :
    ReportsError getKeyword l 1 (unexpectedCharacter '&') := by
  obtain ⟨ha, hs1, hc1⟩ := advance_of_source hs hc
  have h1 := matchChar_notContinued (l := (advance l).2) '&' hs1 hc1 hn
  refine reports_of_reportError _ (movedBy_advance l) ?_
  rw [scanToken_eq, ha]
  have hk : startKind '&' = .ampersand := rfl
  rw [hk]
  simp only [scanTokenCase, h1, Bool.false_eq_true, if_false]
  rfl

theorem reports_lone_bar (getKeyword : List Char → TokenType) {l : Lexer}
    {pre rest : List Char} (hs : l.source = pre ++ '|' :: rest) (hc : l.current = pre.length)
    (hn : notContinuedBy (fun c => decide (c = '|')) rest = true) :
    ReportsError getKeyword l 1 (unexpectedCharacter '|') := by
  obtain ⟨ha, hs1, hc1⟩ := advance_of_source hs hc
  have h1 := matchChar_notContinued (l := (advance l).2) '|' hs1 hc1 hn
  refine reports_of_reportError _ (movedBy_advance l) ?_
  rw [scanToken_eq, ha]
  have hk : startKind '|' = .bar := rfl
  rw [hk]
  simp only [scanTokenCase, h1, Bool.false_eq_true, if_false]
  rfl

/-- C15. An unexpected character is reported and skipped, not fatal. At a state of
the scanner positioned at a character `c` that cannot start a token, or at a `&`
or `|` that is not doubled, `scanToken` adds exactly one `ERROR` token with lexeme
`Unexpected character 'c'`, reports one diagnostic of severity `ERROR` with that
message and moves to the next character; `scanTokens` returns on every source; and
on `var x = @;` it gives `VAR`, `IDENTIFIER`, `EQUAL`, `ERROR`, `SEMICOLON`,
`END_OF_FILE` with one diagnostic. -/
theorem unexpected_character_reported (getKeyword : List Char → TokenType) (l : Lexer)
    (pre rest : List Char) (c : Char)
    (h : l.source = pre ++ c :: rest ∧ l.current = pre.length) :
    (cannotStartToken c = true → ReportsError getKeyword l 1 (unexpectedCharacter c)) ∧
    ((c = '&' ∨ c = '|') → notContinuedBy (fun x => decide (x = c)) rest = true →
      ReportsError getKeyword l 1 (unexpectedCharacter c)) ∧
    (∃ r, scanTokens getKeyword l = some r) ∧
    (scanTokens Keywords.getKeyword (Lexer.new "var x = @;".toList [])).map
        (fun r => (typesAndLexemes r.1, r.2.diagnostics.map (fun d => (d.severity, d.message))))
      = some ([(.VAR, "var".toList), (.IDENTIFIER, "x".toList), (.EQUAL, "=".toList),
          (.ERROR, "Unexpected character '@'".toList), (.SEMICOLON, ";".toList),
          (.END_OF_FILE, [])],
        [(.ERROR, "Unexpected character '@'".toList)]) := by
  obtain ⟨hs, hc⟩ := h
  refine ⟨fun hk => reports_unexpected getKeyword hk hs hc, ?_, ?_, by rfl⟩
  · rintro (rfl | rfl) hn
    · exact reports_lone_ampersand getKeyword hs hc hn
    · exact reports_lone_bar getKeyword hs hc hn
  · obtain ⟨r, added, hr, _⟩ := scanTokens_total getKeyword l
    exact ⟨_, hr⟩

theorem unexpected_character_reported_witness :
    ((Lexer.new "@;".toList []).source = [] ++ '@' :: ";".toList ∧
      (Lexer.new "@;".toList []).current = ([] : List Char).length) ∧
    ReportsError Keywords.getKeyword (Lexer.new "@;".toList []) 1
      "Unexpected character '@'".toList :=
  ⟨⟨rfl, rfl⟩,
    (unexpected_character_reported Keywords.getKeyword (Lexer.new "@;".toList []) []
      ";".toList '@' ⟨rfl, rfl⟩).1 (by decide)⟩

/-! ## Unterminated strings and comments -/

theorem onlyErrors_refl (l : Lexer) : OnlyErrors 0 l l :=
  ⟨rfl, rfl, rfl, [], by simp, by simp⟩

theorem onlyErrors_trans {m n : Nat} {a b c : Lexer} (h1 : OnlyErrors m a b)
    (h2 : OnlyErrors n b c) : OnlyErrors (m + n) a c := by
  obtain ⟨a1, a2, a3, x, a4, a5⟩ := h1
  obtain ⟨b1, b2, b3, y, b4, b5⟩ := h2
  refine ⟨b1.trans a1, by omega, b3.trans a3, x ++ y, by rw [b4, a4]; simp, ?_⟩
  intro t ht
  rcases List.mem_append.mp ht with h | h
  · exact a5 t h
  · exact b5 t h

theorem onlyErrors_of_movedBy {n : Nat} {l r : Lexer} (h : MovedBy n l r) :
    OnlyErrors n l r :=
  ⟨h.1, h.2.1, h.2.2.2.2.1, [], by simp [h.2.2.1], by simp⟩

theorem scanStringBody_backslash (l : Lexer) (value : List Char) (hp : peek l = '\\')
    (he : isAtEnd l = false) :
    ∃ l1 v1, scanStringBody l value = (l1, v1) ∧ OnlyErrors 2 l l1 := by
  have hn : ¬ ('\\' = '\n') := by decide
  unfold scanStringBody
  simp only [hp, hn, if_false, he, decide_True, Bool.not_false, Bool.and_self, if_true]
  split_ifs
  · exact ⟨_, _, rfl, rfl, rfl, rfl, [], by simp [advance], by simp⟩
  · exact ⟨_, _, rfl, rfl, rfl, rfl, [], by simp [advance], by simp⟩
  · exact ⟨_, _, rfl, rfl, rfl, rfl, [], by simp [advance], by simp⟩
  · exact ⟨_, _, rfl, rfl, rfl, rfl, [], by simp [advance], by simp⟩
  · exact ⟨_, _, rfl, rfl, rfl, rfl, [], by simp [advance], by simp⟩
  · exact ⟨_, _, rfl, rfl, rfl, rfl, [_], rfl, by simp⟩

theorem scanStringLoop_unterminated : ∀ (body : List Char),
    stringUnterminated body = true →
    ∀ (pre : List Char) (l : Lexer) (value : List Char) (fuel : Nat),
      l.source = pre ++ body → l.current = pre.length → body.length < fuel →
      ∃ r v n, scanStringLoop fuel l value = some (r, v) ∧ isAtEnd r = true ∧
        OnlyErrors n l r := by
  intro body
  induction body using stringUnterminated.induct with
  | case1 =>
    intro _ pre l value fuel hs hc hf
    obtain ⟨fuel, rfl⟩ : ∃ k, fuel = k + 1 := ⟨fuel - 1, by simp at hf; omega⟩
    have he := isAtEnd_of_source (l := l) (by simpa using hs) hc
    exact ⟨l, value, 0, scanStringLoop_end _ _ _ he, he, onlyErrors_refl l⟩
  | case2 c rest ih =>
    intro h pre l value fuel hs hc hf
    obtain ⟨fuel, rfl⟩ : ∃ k, fuel = k + 1 := ⟨fuel - 1, by simp at hf; omega⟩
    have h1 : stringUnterminated rest = true := by simpa [stringUnterminated] using h
    obtain ⟨hp, he, _⟩ := peek_of_source hs hc
    obtain ⟨l1, v1, hb, ho⟩ := scanStringBody_backslash l value hp he
    obtain ⟨r, v, n, hr, hend, hor⟩ := ih h1 (pre ++ ['\\', c]) l1 v1 fuel
      (by rw [ho.1, hs]; simp) (by rw [ho.2.1, hc]; simp) (by simp at hf; omega)
    refine ⟨r, v, 2 + n, ?_, hend, onlyErrors_trans ho hor⟩
    rw [scanStringLoop_succ _ _ _ (by rw [hp]; decide) he, hb]
    exact hr
  | case3 tail =>
    intro h
    simp [stringUnterminated] at h
  | case4 c rest n1 n2 ih =>
    intro h pre l value fuel hs hc hf
    obtain ⟨fuel, rfl⟩ : ∃ k, fuel = k + 1 := ⟨fuel - 1, by simp at hf; omega⟩
    have h1 : stringUnterminated rest = true := by
      rw [stringUnterminated] at h
      · exact h
      · exact n1
      · exact n2
    obtain ⟨hp, he, _⟩ := peek_of_source hs hc
    have hq : peek l ≠ '"' := by
      rw [hp]
      exact fun e => n2 e
    by_cases hb : c = '\\'
    · subst hb
      have hrest : rest = [] := by
        cases rest with
        | nil => rfl
        | cons x xs => exact (n1 x xs rfl rfl).elim
      subst hrest
      obtain ⟨fuel, rfl⟩ : ∃ k, fuel = k + 1 := ⟨fuel - 1, by simp at hf; omega⟩
      obtain ⟨l1, v1, hb, ho⟩ := scanStringBody_backslash l value hp he
      have hend : isAtEnd l1 = true := by
        simp [isAtEnd, ho.1, ho.2.1, hs, hc]
      refine ⟨l1, v1, 2, ?_, hend, ho⟩
      rw [scanStringLoop_succ _ _ _ hq he, hb]
      exact scanStringLoop_end _ _ _ hend
    · obtain ⟨l1, hm, hbody⟩ := scanStringBody_ordinary l value pre rest c hb hs hc
      obtain ⟨r, v, n, hr, hend, hor⟩ := ih h1 (pre ++ [c]) l1 (value ++ [c]) fuel
        (by rw [hm.1, hs]; simp) (by rw [hm.2.1, hc]; simp) (by simp at hf; omega)
      refine ⟨r, v, 1 + n, ?_, hend, onlyErrors_trans (onlyErrors_of_movedBy hm) hor⟩
      rw [scanStringLoop_succ _ _ _ hq he, hbody]
      exact hr

theorem blockCommentLoop_unterminated : ∀ (t : List Char) (n : Nat),
    afterComment t n = none → 1 ≤ n →
    ∀ (pre : List Char) (l : Lexer) (fuel : Nat),
      l.source = pre ++ t → l.current = pre.length → t.length < fuel →
      ∃ r k, blockCommentLoop fuel l (n : Int) = some (r, k) ∧ 0 < k ∧
        MovedBy t.length l r := by
  intro t n
  induction t, n using afterComment.induct with
  | case1 n =>
    intro _ hn pre l fuel hs hc hf
    obtain ⟨fuel, rfl⟩ : ∃ k, fuel = k + 1 := ⟨fuel - 1, by simp at hf; omega⟩
    have he := isAtEnd_of_source (l := l) (by simpa using hs) hc
    exact ⟨l, n, blockCommentLoop_end _ _ _ he, by omega, movedBy_refl l⟩
  | case2 t n ih =>
    intro h hn pre l fuel hs hc hf
    obtain ⟨fuel, rfl⟩ : ∃ k, fuel = k + 1 := ⟨fuel - 1, by simp at hf; omega⟩
    have h1 : afterComment t (n + 1) = none := by simpa [afterComment] using h
    obtain ⟨hp, he, _⟩ := peek_of_source hs hc
    have hpn := peekNext_of_source hs hc
    obtain ⟨hb, hm⟩ := blockCommentBody_open (l := l) (n : Int) hp hpn
    obtain ⟨r, k, hr, hk, hmr⟩ := ih h1 (by omega) (pre ++ ['/', '*']) _ fuel
      (by rw [hm.1, hs]; simp) (by rw [hm.2.1, hc]; simp) (by simp at hf; omega)
    refine ⟨r, k, ?_, hk, movedBy_cast (movedBy_trans hm hmr) (by simp; omega)⟩
    rw [blockCommentLoop_succ _ _ _ (by omega) he, hb]
    rw [← hr]
    push_cast
    rfl
  | case3 t n hn1 =>
    intro h
    simp [afterComment, hn1] at h
  | case4 t n hn1 ih =>
    intro h hn pre l fuel hs hc hf
    obtain ⟨fuel, rfl⟩ : ∃ k, fuel = k + 1 := ⟨fuel - 1, by simp at hf; omega⟩
    have h1 : afterComment t (n - 1) = none := by simpa [afterComment, hn1] using h
    obtain ⟨hp, he, _⟩ := peek_of_source hs hc
    have hpn := peekNext_of_source hs hc
    obtain ⟨hb, hm⟩ := blockCommentBody_close (l := l) (n : Int) hp hpn
    obtain ⟨r, k, hr, hk, hmr⟩ := ih h1 (by omega) (pre ++ ['*', '/']) _ fuel
      (by rw [hm.1, hs]; simp) (by rw [hm.2.1, hc]; simp) (by simp at hf; omega)
    refine ⟨r, k, ?_, hk, movedBy_cast (movedBy_trans hm hmr) (by simp; omega)⟩
    rw [blockCommentLoop_succ _ _ _ (by omega) he, hb]
    rw [← hr]
    have e : ((n : Int) - 1) = ((n - 1 : Nat) : Int) := by omega
    rw [e]
  | case5 c t n n1 n2 ih =>
    intro h hn pre l fuel hs hc hf
    obtain ⟨fuel, rfl⟩ : ∃ k, fuel = k + 1 := ⟨fuel - 1, by simp at hf; omega⟩
    have h1 : afterComment t n = none := by
      rw [afterComment] at h
      · exact h
      · exact n1
      · exact n2
    obtain ⟨hp, he, _⟩ := peek_of_source hs hc
    have hpn := peekNext_of_position hs hc
    have k1 : ¬ (peek l = '/' ∧ peekNext l = '*') := by
      rintro ⟨a, b⟩
      rw [hp] at a
      rw [hpn] at b
      cases t with
      | nil => exact absurd b (by decide)
      | cons c2 t => exact n1 t a (by simp at b; rw [b])
    have k2 : ¬ (peek l = '*' ∧ peekNext l = '/') := by
      rintro ⟨a, b⟩
      rw [hp] at a
      rw [hpn] at b
      cases t with
      | nil => exact absurd b (by decide)
      | cons c2 t => exact n2 t a (by simp at b; rw [b])
    obtain ⟨l1, hb, hm⟩ := blockCommentBody_other (l := l) (n : Int) k1 k2
    obtain ⟨r, k, hr, hk, hmr⟩ := ih h1 hn (pre ++ [c]) l1 fuel
      (by rw [hm.1, hs]; simp) (by rw [hm.2.1, hc]; simp) (by simp at hf; omega)
    refine ⟨r, k, ?_, hk, movedBy_cast (movedBy_trans hm hmr) (by simp; omega)⟩
    rw [blockCommentLoop_succ _ _ _ (by omega) he, hb]
    exact hr

theorem reports_unterminated_comment (getKeyword : List Char → TokenType) {l : Lexer}
    {pre t : List Char} (ht : afterComment t 1 = none)
    (hs : l.source = pre ++ '/' :: '*' :: t) (hc : l.current = pre.length) :
    ∃ r, scanToken getKeyword l = some (reportError "Unterminated comment".toList r) ∧
      MovedBy (t.length + 2) l r := by
  obtain ⟨ha, hs1, hc1⟩ := advance_of_source hs hc
  have hm0 := movedBy_advance l
  have h1 := matchChar_miss (l := (advance l).2) '/' hs1 hc1 (by decide)
  obtain ⟨h2, hm2, _⟩ := matchChar_hit (l := (advance l).2) hs1 hc1
  obtain ⟨r, k, hr, hk, hmr⟩ := blockCommentLoop_unterminated t 1 ht (le_refl 1)
    (pre ++ ['/', '*']) (matchChar '*' (advance l).2).2 ((advance l).2.source.length + 1)
    (by rw [hm2.1, hs1]; simp) (by rw [hm2.2.1, hc1]; simp) (by rw [hs1]; simp; omega)
  refine ⟨r, ?_, movedBy_cast (movedBy_trans (movedBy_trans hm0 hm2) hmr) (by omega)⟩
  rw [scanToken_eq, ha]
  have hk0 : startKind '/' = .slash := rfl
  rw [hk0]
  simp only [scanTokenCase, h1, Bool.false_eq_true, if_false, h2, if_true]
  have hr' : blockCommentLoop ((advance l).2.source.length + 1)
      (matchChar '*' (advance l).2).2 1 = some (r, k) := by simpa using hr
  rw [hr']
  simp [hk]

theorem scanToken_unterminated_string (getKeyword : List Char → TokenType) {l : Lexer}
    {pre body : List Char} (hb : stringUnterminated body = true)
    (hs : l.source = pre ++ '"' :: body) (hc : l.current = pre.length) :
    ∃ (l1 : Lexer) (added : List Token) (token : Token),
      scanToken getKeyword l = some l1 ∧ l1.tokens = l.tokens ++ added ++ [token] ∧
      token.type = .ERROR ∧ token.lexeme = "Unterminated string".toList ∧
      (∀ t ∈ added, t.type = .ERROR) ∧ isAtEnd l1 = true := by
  obtain ⟨ha, hs1, hc1⟩ := advance_of_source hs hc
  obtain ⟨r, v, n, hr, hend, hor⟩ := scanStringLoop_unterminated body hb (pre ++ ['"'])
    (advance l).2 [] ((advance l).2.source.length + 1) hs1 hc1 (by rw [hs1]; simp; omega)
  obtain ⟨_, _, _, added, hadd, hall⟩ := hor
  refine ⟨reportError "Unterminated string".toList r, added, ⟨.ERROR, _, r.line, r.column⟩,
    ?_, ?_, rfl, rfl, hall, hend⟩
  · rw [scanToken_eq, ha]
    have hk0 : startKind '"' = .quote := rfl
    rw [hk0]
    simp [scanTokenCase, scanString, hr, hend]
  · show r.tokens ++ _ = _
    rw [hadd]
    rfl

theorem scanTokens_one_call (getKeyword : List Char → TokenType) (source filename : List Char)
    (l1 : Lexer) (hne : source ≠ [])
    (h : scanToken getKeyword (Lexer.new source filename) = some l1)
    (hend : isAtEnd l1 = true) :
    scanTokens getKeyword (Lexer.new source filename) =
      some (l1.tokens ++ [⟨.END_OF_FILE, [], l1.line, l1.column⟩],
        { l1 with tokens := l1.tokens ++ [⟨.END_OF_FILE, [], l1.line, l1.column⟩] }) := by
  cases source with
  | nil => exact absurd rfl hne
  | cons c cs =>
    have he0 : isAtEnd (Lexer.new (c :: cs) filename) = false := by simp [isAtEnd, Lexer.new]
    apply scanTokens_of_loop
    have e : (c :: cs).length + 1 = cs.length + 1 + 1 := by simp
    rw [e, scanTokensLoop_skip getKeyword _ _ l1 he0 h, scanTokensLoop_end _ _ _ hend]

/-- C16. Unterminated constructs are reported. At a state of the scanner
positioned at an opening `"` after which no unescaped `"` closes the literal,
`scanToken` consumes the rest of the source and adds only `ERROR` tokens (no
`STRING_LITERAL`), the last of them with lexeme `Unterminated string`; positioned at
a `/*` after which the source ends inside the comment, it adds exactly one `ERROR`
token with lexeme `Unterminated comment` and reports one diagnostic. On such a
source `scanTokens` returns these tokens followed by `END_OF_FILE`, and on every source
the list it returns ends with `END_OF_FILE`. -/
theorem unterminated_constructs_reported (getKeyword : List Char → TokenType) (l : Lexer)
    (pre text : List Char) (h : l.current = pre.length) :
    (l.source = pre ++ '"' :: text → stringUnterminated text = true →
      ∃ (l1 : Lexer) (added : List Token) (token : Token),
        scanToken getKeyword l = some l1 ∧ l1.tokens = l.tokens ++ added ++ [token] ∧
        token.type = .ERROR ∧ token.lexeme = "Unterminated string".toList ∧
        (∀ t ∈ added, t.type = .ERROR) ∧ isAtEnd l1 = true) ∧
    (l.source = pre ++ '/' :: '*' :: text → afterComment text 1 = none →
      ReportsError getKeyword l (text.length + 2) "Unterminated comment".toList) ∧
    (stringUnterminated text = true → ∀ filename,
      ∃ r front, scanTokens getKeyword (Lexer.new ('"' :: text) filename) = some r ∧
        typesAndLexemes r.1 =
          front ++ [(.ERROR, "Unterminated string".toList), (.END_OF_FILE, [])] ∧
        ∀ p ∈ front, p.1 = .ERROR) ∧
    (afterComment text 1 = none → ∀ filename,
      ∃ r, scanTokens getKeyword (Lexer.new ('/' :: '*' :: text) filename) = some r ∧
        typesAndLexemes r.1 =
          [(.ERROR, "Unterminated comment".toList), (.END_OF_FILE, [])]) ∧
    (∃ r last, scanTokens getKeyword l = some r ∧ r.1.getLast? = some last ∧
      last.type = .END_OF_FILE) := by
  refine ⟨fun hs hb => scanToken_unterminated_string getKeyword hb hs h, ?_, ?_, ?_, ?_⟩
  · intro hs ht
    obtain ⟨r, hr, hm⟩ := reports_unterminated_comment getKeyword ht hs h
    exact reports_of_reportError _ hm hr
  · intro hb filename
    obtain ⟨l1, added, token, h1, ht, hty, hlex, hall, hend⟩ :=
      scanToken_unterminated_string getKeyword hb
        (show (Lexer.new ('"' :: text) filename).source = [] ++ '"' :: text from rfl) rfl
    refine ⟨_, typesAndLexemes added,
      scanTokens_one_call getKeyword _ filename l1 (by simp) h1 hend, ?_, ?_⟩
    · have ht' : l1.tokens = added ++ [token] := by rw [ht]; rfl
      simp [typesAndLexemes, ht', hty, hlex]
    · intro p hp
      simp only [typesAndLexemes, List.mem_map] at hp
      obtain ⟨t, htm, rfl⟩ := hp
      exact hall t htm
  · intro ht filename
    obtain ⟨r, hr, hm⟩ := reports_unterminated_comment getKeyword ht
      (show (Lexer.new ('/' :: '*' :: text) filename).source = [] ++ '/' :: '*' :: text
        from rfl) rfl
    have hend : isAtEnd (reportError "Unterminated comment".toList r) = true := by
      have a : r.source = '/' :: '*' :: text := hm.1
      have b : r.current = text.length + 2 := by rw [hm.2.1]; simp [Lexer.new]
      simp [isAtEnd, reportError, a, b]
    refine ⟨_, scanTokens_one_call getKeyword _ filename _ (by simp) hr hend, ?_⟩
    have htok : r.tokens = [] := hm.2.2.1
    simp [typesAndLexemes, reportError, htok]
  · obtain ⟨r, added, hr, _⟩ := scanTokens_total getKeyword l
    exact ⟨_, ⟨.END_OF_FILE, [], r.line, r.column⟩, hr, by simp, rfl⟩

theorem unterminated_constructs_reported_witness :
    (Lexer.new "\"unterminated".toList []).current = ([] : List Char).length ∧
    (∃ (l1 : Lexer) (added : List Token) (token : Token),
      scanToken Keywords.getKeyword (Lexer.new "\"unterminated".toList []) = some l1 ∧
      l1.tokens = (Lexer.new "\"unterminated".toList []).tokens ++ added ++ [token] ∧
      token.type = .ERROR ∧ token.lexeme = "Unterminated string".toList ∧
      (∀ t ∈ added, t.type = .ERROR) ∧ isAtEnd l1 = true) ∧
    (∃ r, scanTokens Keywords.getKeyword (Lexer.new "/* unterminated".toList []) = some r ∧
      typesAndLexemes r.1 = [(.ERROR, "Unterminated comment".toList), (.END_OF_FILE, [])]) :=
  ⟨rfl,
    (unterminated_constructs_reported Keywords.getKeyword
      (Lexer.new "\"unterminated".toList []) [] "unterminated".toList rfl).1 rfl (by decide),
    (unterminated_constructs_reported Keywords.getKeyword
      (Lexer.new "\"unterminated".toList []) [] " unterminated".toList rfl).2.2.2.1
      (by decide) []⟩

/-! ## The end of the token list -/

theorem getKeyword_mem (text : List Char) :
    Keywords.getKeyword text = .IDENTIFIER ∨
      Keywords.getKeyword text ∈ Keywords.keywords.map (fun p => p.2) := by
  unfold Keywords.getKeyword
  cases h : Keywords.keywords.find? (fun p => p.1 = text) with
  | none => exact Or.inl rfl
  | some p => exact Or.inr (List.mem_map.mpr ⟨p, List.mem_of_find?_eq_some h, rfl⟩)

theorem getKeyword_ne_end_of_file (text : List Char) :
    Keywords.getKeyword text ≠ .END_OF_FILE := by
  rcases getKeyword_mem text with h | h
  · rw [h]; decide
  · intro e
    rw [e] at h
    revert h
    decide

theorem emittedType_ne_end_of_file {getKeyword : List Char → TokenType}
    (hk : ∀ text, getKeyword text ≠ .END_OF_FILE) {ty : TokenType}
    (h : EmittedType getKeyword ty) : ty ≠ .END_OF_FILE := by
  rcases h with h | ⟨text, h, _, _⟩
  · intro e
    rw [e] at h
    revert h
    decide
  · rw [h]
    exact hk text

/-- C17. For every source (the empty one included) and whatever state the lexer is
in, `scanTokens` returns a non-empty list whose last token has type `END_OF_FILE`
and an empty lexeme, and no other token of the list has type `END_OF_FILE`, given
that `getKeyword` never returns `END_OF_FILE` (as when it returns only keyword
types or `IDENTIFIER`). -/
theorem scanTokens_ends_with_end_of_file (getKeyword : List Char → TokenType) (l : Lexer)
    (hk : ∀ text, getKeyword text ≠ .END_OF_FILE) :
    ∃ (r : List Token × Lexer) (front : List Token) (last : Token),
      scanTokens getKeyword l = some r ∧ r.1 = front ++ [last] ∧
      last.type = .END_OF_FILE ∧ last.lexeme = [] ∧
      ∀ t ∈ front, t.type ≠ .END_OF_FILE := by
  obtain ⟨r, added, hr, _, _, _, hall, _⟩ := scanTokens_total getKeyword l
  exact ⟨_, added, _, hr, rfl, rfl, rfl,
    fun t ht => emittedType_ne_end_of_file hk (hall t ht)⟩

theorem scanTokens_ends_with_end_of_file_witness :
    (∀ text, Keywords.getKeyword text ≠ .END_OF_FILE) ∧
    ∃ (r : List Token × Lexer) (front : List Token) (last : Token),
      scanTokens Keywords.getKeyword (Lexer.new [] []) = some r ∧ r.1 = front ++ [last] ∧
      last.type = .END_OF_FILE ∧ last.lexeme = [] ∧
      ∀ t ∈ front, t.type ≠ .END_OF_FILE :=
  ⟨getKeyword_ne_end_of_file,
    scanTokens_ends_with_end_of_file Keywords.getKeyword (Lexer.new [] [])
      getKeyword_ne_end_of_file⟩

/-! ## Line comments -/

theorem mem_of_not_newline {c : List Char} (hc : '\n' ∉ c) : ∀ x ∈ c, x ≠ '\n' := by
  intro x hx e
  exact hc (e ▸ hx)

/-- C18. Line comments produce no tokens: for every text `c` that contains no
newline and every source `s`, `scanTokens` on `//` + `c` + newline + `s` returns the
same sequence of token types and lexemes as on `s` alone, with every line number
increased by one; and on `//` + `c` alone it returns only `END_OF_FILE`. -/
theorem line_comment_produces_no_token (getKeyword : List Char → TokenType)
    (c s filename : List Char) (hc : '\n' ∉ c) :
    (∃ r r', scanTokens getKeyword (Lexer.new s filename) = some r ∧
      scanTokens getKeyword (Lexer.new ("//".toList ++ c ++ '\n' :: s) filename) = some r' ∧
      typesAndLexemes r'.1 = typesAndLexemes r.1 ∧
      r'.1.map (fun t => t.line) = r.1.map (fun t => t.line + 1)) ∧
    (∃ r, scanTokens getKeyword (Lexer.new ("//".toList ++ c) filename) = some r ∧
      typesAndLexemes r.1 = [(.END_OF_FILE, [])]) := by
  have hn := mem_of_not_newline hc
  constructor
  · have hsrc : "//".toList ++ c ++ '\n' :: s = ('/' :: '/' :: (c ++ ['\n'])) ++ s := by simp
    rw [hsrc]
    generalize hl0 : Lexer.new (('/' :: '/' :: (c ++ ['\n'])) ++ s) filename = l0
    have hs0 : ({ l0 with start := l0.current } : Lexer).source =
        [] ++ '/' :: '/' :: (c ++ '\n' :: s) := by
      rw [← hl0]; simp [Lexer.new]
    have hc0 : ({ l0 with start := l0.current } : Lexer).current = ([] : List Char).length := by
      rw [← hl0]; rfl
    obtain ⟨l1, h1, hm1, hline1⟩ := scanToken_line_comment getKeyword c hn [] ('\n' :: s) _
      hs0 hc0 (Or.inr ⟨s, rfl⟩)
    have he0 : isAtEnd l0 = false := (peek_of_source (l := l0) hs0 hc0).2.1
    have hs1 : ({ l1 with start := l1.current } : Lexer).source =
        ('/' :: '/' :: c) ++ '\n' :: s := by
      show l1.source = _
      rw [hm1.1, hs0]; simp
    have hc1 : ({ l1 with start := l1.current } : Lexer).current = ('/' :: '/' :: c).length := by
      show l1.current = _
      rw [hm1.2.1, hc0]; simp
    obtain ⟨l2, h2, hm2, hline2, hcol2⟩ := scanToken_newline getKeyword _ s _ hs1 hc1
    have he1 : isAtEnd l1 = false := (peek_of_source (l := l1) hs1 hc1).2.1
    have hloop1 := scanTokensLoop_skip getKeyword (c.length + 2 + s.length + 1) l0 l1 he0 h1
    have hloop2 := scanTokensLoop_skip getKeyword (c.length + 2 + s.length) l1 l2 he1 h2
    have hlen : (('/' :: '/' :: (c ++ ['\n'])) ++ s).length + 1 =
        c.length + 2 + s.length + 1 + 1 := by
      simp; omega
    obtain ⟨r, r', hr, hr', hrel⟩ := scanTokens_behind getKeyword
      ('/' :: '/' :: (c ++ ['\n'])) s filename filename true 1
      (c.length + 2 + s.length) l2 (by rw [hl0, hlen, hloop1, hloop2]) (by omega)
      ⟨by rw [hm2.1, hs1]; simp [Lexer.new],
        by rw [hm2.2.1, hc1]; simp [Lexer.new],
        by rw [hm2.2.2.1]; show List.Forall₂ _ _ l1.tokens
           rw [hm1.2.2.1, ← hl0]; exact List.Forall₂.nil,
        by intro _
           refine ⟨?_, hcol2⟩
           rw [hline2]; show l1.line + 1 = _
           rw [hline1, ← hl0]; rfl⟩
    exact ⟨r, r', hr, by rw [← hl0]; exact hr', typesAndLexemes_of_shift hrel,
      (lines_of_shift hrel).1⟩
  · have hsrc : "//".toList ++ c = '/' :: '/' :: c := by simp
    rw [hsrc]
    generalize hl0 : Lexer.new ('/' :: '/' :: c) filename = l0
    have hs0 : ({ l0 with start := l0.current } : Lexer).source =
        [] ++ '/' :: '/' :: (c ++ []) := by
      rw [← hl0]; simp [Lexer.new]
    have hc0 : ({ l0 with start := l0.current } : Lexer).current = ([] : List Char).length := by
      rw [← hl0]; rfl
    obtain ⟨l1, h1, hm1, _⟩ := scanToken_line_comment getKeyword c hn [] [] _
      hs0 hc0 (Or.inl rfl)
    have he0 : isAtEnd l0 = false := (peek_of_source (l := l0) hs0 hc0).2.1
    have he1 : isAtEnd l1 = true := by
      have a : l1.source = '/' :: '/' :: c := by rw [hm1.1, hs0]; simp
      have b : l1.current = c.length + 2 := by rw [hm1.2.1, hc0]; simp
      simp [isAtEnd, a, b]
    have hloop : scanTokensLoop getKeyword (('/' :: '/' :: c).length + 1) l0 = some l1 := by
      have e : ('/' :: '/' :: c).length + 1 = (c.length + 1) + 1 + 1 := by simp
      rw [e, scanTokensLoop_skip getKeyword _ l0 l1 he0 h1, scanTokensLoop_end _ _ _ he1]
    subst hl0
    refine ⟨_, scanTokens_of_loop getKeyword _ filename l1 hloop, ?_⟩
    have ht : l1.tokens = [] := by rw [hm1.2.2.1]; rfl
    simp [typesAndLexemes, ht]

theorem line_comment_produces_no_token_witness :
    '\n' ∉ " This is a comment".toList ∧
    (∃ r r', scanTokens Keywords.getKeyword (Lexer.new "var x = 42;".toList []) = some r ∧
      scanTokens Keywords.getKeyword
        (Lexer.new ("//".toList ++ " This is a comment".toList ++ '\n' :: "var x = 42;".toList)
          []) = some r' ∧
      typesAndLexemes r'.1 = typesAndLexemes r.1 ∧
      r'.1.map (fun t => t.line) = r.1.map (fun t => t.line + 1)) ∧
    (∃ r, scanTokens Keywords.getKeyword
        (Lexer.new ("//".toList ++ " This is a comment".toList) []) = some r ∧
      typesAndLexemes r.1 = [(.END_OF_FILE, [])]) :=
  ⟨by decide, line_comment_produces_no_token Keywords.getKeyword " This is a comment".toList
    "var x = 42;".toList [] (by decide)⟩

/-! ## Whitespace around a source -/

theorem scanTokens_leading_whitespace (getKeyword : List Char → TokenType)
    (w s filename : List Char) (hw : w.all isWhitespace = true) :
    ∃ r r', scanTokens getKeyword (Lexer.new s filename) = some r ∧
      scanTokens getKeyword (Lexer.new (w ++ s) filename) = some r' ∧
      typesAndLexemes r'.1 = typesAndLexemes r.1 := by
  obtain ⟨l1, hm1, h1⟩ := scanTokensLoop_whitespace getKeyword w hw [] s
    (Lexer.new (w ++ s) filename) (s.length + 1) (by simp [Lexer.new]) rfl
  have hlen : (w ++ s).length + 1 = s.length + 1 + w.length := by simp; omega
  obtain ⟨r, r', hr, hr', hrel⟩ := scanTokens_behind getKeyword w s filename filename false 0
    (s.length + 1) l1 (by rw [hlen, h1]) (le_refl _)
    ⟨by rw [hm1.1]; simp [Lexer.new], by rw [hm1.2.1]; simp [Lexer.new],
      by rw [hm1.2.2.1]; exact List.Forall₂.nil, by intro h; cases h⟩
  exact ⟨r, r', hr, hr', typesAndLexemes_of_shift hrel⟩

theorem scanTokens_only_whitespace (getKeyword : List Char → TokenType)
    (w filename : List Char) (hw : w.all isWhitespace = true) :
    ∃ r, scanTokens getKeyword (Lexer.new w filename) = some r ∧
      typesAndLexemes r.1 = [(.END_OF_FILE, [])] := by
  obtain ⟨l1, hm1, h1⟩ := scanTokensLoop_whitespace getKeyword w hw [] []
    (Lexer.new w filename) 1 (by simp [Lexer.new]) rfl
  have he1 : isAtEnd l1 = true := by
    have a := hm1.1
    have b := hm1.2.1
    simp only [Lexer.new] at a b
    simp [isAtEnd, a, b]
  have hloop : scanTokensLoop getKeyword (w.length + 1) (Lexer.new w filename) = some l1 := by
    rw [Nat.add_comm, h1, scanTokensLoop_end _ _ _ he1]
  refine ⟨_, scanTokens_of_loop getKeyword _ filename l1 hloop, ?_⟩
  have ht : l1.tokens = [] := by rw [hm1.2.2.1]; rfl
  simp [typesAndLexemes, ht]

/-- C19, counterexample. For the source `"\` (an opening quote and a backslash) and
`w` one space, the lexemes on `s + w` differ from those on `s`: the message of the
invalid escape sequence quotes the character read after the backslash, which is the
null character at the end of `s` and the space in `s + w`. -/
theorem trailing_whitespace_changes_lexeme :
    (" ".toList.all isWhitespace = true) ∧
    (scanTokens Keywords.getKeyword (Lexer.new "\"\\".toList [])).map
        (fun r => typesAndLexemes r.1) =
      some [(.ERROR, "Invalid escape sequence '\\".toList ++ [Char.ofNat 0] ++ "'".toList),
        (.ERROR, "Unterminated string".toList), (.END_OF_FILE, [])] ∧
    (scanTokens Keywords.getKeyword (Lexer.new ("\"\\".toList ++ " ".toList) [])).map
        (fun r => typesAndLexemes r.1) =
      some [(.ERROR, "Invalid escape sequence '\\ '".toList),
        (.ERROR, "Unterminated string".toList), (.END_OF_FILE, [])] := by
  refine ⟨by decide, by rfl, by rfl⟩

/-- C19, amended. Whitespace is insignificant: for every source `s` and every
string `w` made only of spaces, tabs, carriage returns and newlines, `scanTokens`
returns on `s`, `w + s`, `s + w` and `w`; on `w + s` it returns the same sequence
of token types and lexemes as on `s`; on `s + w` it returns the same sequence of
token types as on `s`, and the lexemes are the same too exactly when `w` is empty
or the scan of `s` has not moved `current` past the end of `s`, which it does only
on a source that ends with a backslash; on `w` alone it returns only
`END_OF_FILE`. -/
theorem whitespace_insignificant (getKeyword : List Char → TokenType)
    (s w filename : List Char) (hw : w.all isWhitespace = true) :
    ∃ r front back blank,
      scanTokens getKeyword (Lexer.new s filename) = some r ∧
      scanTokens getKeyword (Lexer.new (w ++ s) filename) = some front ∧
      scanTokens getKeyword (Lexer.new (s ++ w) filename) = some back ∧
      scanTokens getKeyword (Lexer.new w filename) = some blank ∧
      typesAndLexemes front.1 = typesAndLexemes r.1 ∧
      typesOf back.1 = typesOf r.1 ∧
      (typesAndLexemes back.1 = typesAndLexemes r.1 ↔
        (r.2.current ≤ s.length ∨ w = [])) ∧
      (s.length < r.2.current → s.getLast? = some '\\') ∧
      typesAndLexemes blank.1 = [(.END_OF_FILE, [])] := by
  obtain ⟨r, front, hr, hfront, h1⟩ := scanTokens_leading_whitespace getKeyword w s filename hw
  obtain ⟨r2, back, hr2, hback, h2, hover⟩ :=
    scanTokens_trailing_whitespace getKeyword s w filename true hw
  obtain ⟨blank, hblank, h3⟩ := scanTokens_only_whitespace getKeyword w filename hw
  have e2 : r2 = r := by
    rw [hr] at hr2
    exact (Option.some.inj hr2).symm
  subst e2
  refine ⟨r2, front, back, blank, hr, hfront, hback, hblank, h1, typesOf_of_same h2,
    ⟨fun heq => ?_, fun hor => ?_⟩, fun hov => (hover hov).1, h3⟩
  · by_contra hno
    simp only [not_or, not_le] at hno
    exact (hover hno.1).2 hno.2 (same_of_typesAndLexemes heq)
  · rcases hor with hin | hnil
    · exact typesAndLexemes_of_same (same_mono (by simp [hin]) h2)
    · subst hnil
      rw [List.append_nil, hr, Option.some.injEq] at hback
      rw [← hback]

theorem whitespace_insignificant_witness :
    (" \n".toList.all isWhitespace = true) ∧
    ("x = \"a\\\\".toList.getLast? = some '\\') ∧
    ((scanTokens Keywords.getKeyword
        (Lexer.new ("x = \"a\\\\".toList ++ " \n".toList) [])).map
        (fun r => typesAndLexemes r.1) =
      (scanTokens Keywords.getKeyword (Lexer.new "x = \"a\\\\".toList [])).map
        (fun r => typesAndLexemes r.1)) ∧
    ∃ r front back blank,
      scanTokens Keywords.getKeyword (Lexer.new "x = \"a\\\\".toList []) = some r ∧
      scanTokens Keywords.getKeyword
        (Lexer.new (" \n".toList ++ "x = \"a\\\\".toList) []) = some front ∧
      scanTokens Keywords.getKeyword
        (Lexer.new ("x = \"a\\\\".toList ++ " \n".toList) []) = some back ∧
      scanTokens Keywords.getKeyword (Lexer.new " \n".toList []) = some blank ∧
      typesAndLexemes front.1 = typesAndLexemes r.1 ∧
      typesOf back.1 = typesOf r.1 ∧
      (typesAndLexemes back.1 = typesAndLexemes r.1 ↔
        (r.2.current ≤ "x = \"a\\\\".toList.length ∨ " \n".toList = [])) ∧
      ("x = \"a\\\\".toList.length < r.2.current →
        "x = \"a\\\\".toList.getLast? = some '\\') ∧
      typesAndLexemes blank.1 = [(.END_OF_FILE, [])] :=
  ⟨by decide, by decide, by rfl,
    whitespace_insignificant Keywords.getKeyword "x = \"a\\\\".toList " \n".toList []
      (by decide)⟩

/-! ## The module and its context -/

theorem addModule_context_new (module : Module) (jit : JIT) (h : Heap)
    (hm : module.context < h.contexts) :
    (JIT.addModule module jit h).1.added = jit.added ++ [⟨module, h.contexts⟩] ∧
      h.contexts ≠ module.context :=
  ⟨rfl, by omega⟩

/-- C21. For a module created in the context of the code generator (address 0),
`JIT::addModule` hands `compile_layer.add` a `ThreadSafeModule` whose context is the
one `std::make_unique<llvm::LLVMContext>()` has just created (address 1), not the
context the module was created in. -/
theorem addModule_pairs_module_with_new_context :
    (JIT.addModule generatedModule JIT.new codeGeneratorHeap).1.added.map
        (fun t => (t.module.context, t.context)) = [(0, 1)] := by
  decide

/-! ## Inputs on which the lexer misses its description -/

/-- C22. A run of digits followed by an exponent and no fractional part is not one
token: `1e5` gives an `INTEGER_LITERAL` `1` and an `IDENTIFIER` `e5`, and `2E-3`
gives `2`, `E`, `-`, `3`. -/
theorem exponent_without_fraction_is_split :
    (scanTokens Keywords.getKeyword (Lexer.new "1e5".toList [])).map
        (fun r => typesAndLexemes r.1) =
      some [(.INTEGER_LITERAL, "1".toList), (.IDENTIFIER, "e5".toList),
        (.END_OF_FILE, [])] ∧
    (scanTokens Keywords.getKeyword (Lexer.new "2E-3".toList [])).map
        (fun r => typesAndLexemes r.1) =
      some [(.INTEGER_LITERAL, "2".toList), (.IDENTIFIER, "E".toList),
        (.MINUS, "-".toList), (.INTEGER_LITERAL, "3".toList), (.END_OF_FILE, [])] := by
  refine ⟨by rfl, by rfl⟩

/-- C25. On the source `"\` (a quote and a backslash, length 2) the escape branch of
`scanString` calls `advance` a second time at the end of the source: `scanTokens`
leaves `current` at 3. -/
theorem advance_past_end_after_backslash (getKeyword : List Char → TokenType) :
    (scanTokens getKeyword (Lexer.new "\"\\".toList [])).map
        (fun r => (r.2.source.length, r.2.current)) = some (2, 3) ∧
    isAtEnd (advance { Lexer.new "\"\\".toList [] with current := 1 }).2 = true ∧
    (scanStringBody { Lexer.new "\"\\".toList [] with current := 1 } []).1.current = 3 := by
  refine ⟨by rfl, by rfl, by rfl⟩

/-- C26. On the source `"s"` the `STRING_LITERAL` token, whose first character is at
index 0, gets column 3: the column after the closing quote minus the length of the
value. -/
theorem string_literal_column_off (getKeyword : List Char → TokenType) :
    (scanTokens getKeyword (Lexer.new "\"s\"".toList [])).map
        (fun r => r.1.map (fun t => (t.type, t.line, t.column))) =
      some [(.STRING_LITERAL, 1, 3), (.END_OF_FILE, 1, 4)] := by
  rfl

/-- C27. On the source `"\` + newline + `"` (one newline) the newline is consumed as
the escaped character without being counted: the `END_OF_FILE` token has line 1. -/
theorem newline_after_backslash_not_counted (getKeyword : List Char → TokenType) :
    "\"\\\n\"".toList.count '\n' = 1 ∧
    (scanTokens getKeyword (Lexer.new "\"\\\n\"".toList [])).map
        (fun r => r.1.map (fun t => (t.type, t.line))) =
      some [(.ERROR, 1), (.STRING_LITERAL, 1), (.END_OF_FILE, 1)] := by
  refine ⟨by decide, by rfl⟩

/-! ## The entry point -/

theorem find_append_needle (needle : List Char) : ∀ (a b : List Char),
    find (a ++ needle ++ b) needle ≠ none
  | [], b => by
    cases hn : needle ++ b with
    | nil =>
      simp only [List.append_eq_nil] at hn
      simp [find, hn.1, hn.2]
    | cons c cs =>
      have hp : needle.isPrefixOf (c :: cs) = true := by
        rw [← hn]
        simp
      simp [find, hn, hp]
  | x :: a, b => by
    have ih := find_append_needle needle a b
    simp only [List.cons_append, find]
    split
    · simp
    · cases h : find (a ++ needle ++ b) needle with
      | none => exact absurd h ih
      | some n => simp

theorem emitStatements_holds_main (d : Int) : ∀ (ss : List (Option Stmt)) (body : List Char),
    hasTopLevelMain ss = true → emitStatements d ss = some body →
    ∃ a b, body = a ++ "int main(".toList ++ b
  | [], _, h, _ => by simp [hasTopLevelMain] at h
  | none :: rest, body, h, hb => by
    simp only [hasTopLevelMain] at h
    simp only [emitStatements] at hb
    exact emitStatements_holds_main d rest body h hb
  | some s :: rest, body, h, hb => by
    simp only [emitStatements, Option.bind_eq_some, Option.map_eq_some'] at hb
    obtain ⟨x, hx, y, hy, rfl⟩ := hb
    by_cases hm : ∃ name params fbody, s = .Function name params fbody ∧
        name.lexeme = "main".toList
    · obtain ⟨name, params, fbody, rfl, hname⟩ := hm
      simp only [emitStmt, hname, if_true, Option.map_eq_some'] at hx
      obtain ⟨fb, _, rfl⟩ := hx
      refine ⟨indentText d, paramsText params 0 ++ ") ".toList ++
        wrapBraces d (fb ++ (indentText (d + 1) ++ "return 0;\n".toList)) ++ y, ?_⟩
      simp [List.append_assoc]
    · have hrest : hasTopLevelMain rest = true := by
        cases s with
        | Function name params fbody =>
          simp only [hasTopLevelMain, Bool.or_eq_true, decide_eq_true_eq] at h
          rcases h with h | h
          · exact absurd ⟨name, params, fbody, rfl, h⟩ hm
          · exact h
        | _ => simpa [hasTopLevelMain] using h
      obtain ⟨a, b, rfl⟩ := emitStatements_holds_main d rest y hrest hy
      exact ⟨x ++ a, b, by simp⟩

/-- C29. For every well-formed list of statements that contains a top-level
`Function` statement named `main`, and from every state of the transpiler,
`transpile` returns the prelude followed by the texts of the non-null top-level
statements in order, with nothing after the last statement's text: no fallback
entry point is appended. -/
theorem transpile_with_main_appends_nothing (statements : List (Option Stmt))
    (t : Transpiler) (hmain : hasTopLevelMain statements = true)
    (hw : wellFormedStatements statements = true) :
    ∃ (texts : List (List Char)) (t' : Transpiler),
      transpile statements t = some (prelude ++ texts.flatten, t') ∧
      List.Forall₂ (fun s x => stmtText t.indent_level (some s) = some x)
        (statements.filterMap id) texts := by
  obtain ⟨body, hbody⟩ := emitStatements_isSome statements t.indent_level hw
  obtain ⟨texts, hall, hflat⟩ := emitStatements_flatten t.indent_level statements body hbody
  obtain ⟨a, b, hab⟩ := emitStatements_holds_main t.indent_level statements body hmain hbody
  subst hflat
  have hfind : find (prelude ++ texts.flatten) "int main(".toList ≠ none := by
    rw [hab]
    have := find_append_needle "int main(".toList (prelude ++ a) b
    simpa [List.append_assoc] using this
  refine ⟨texts, { t with output := prelude ++ texts.flatten }, ?_, ?_⟩
  · rw [transpile_eq, hbody, Option.map_some']
    simp only [finalText, hfind, if_false]
  · simpa only [stmtText_eq, emitStmtPtr] using hall

theorem transpile_with_main_appends_nothing_witness :
    hasTopLevelMain [some (.Function (tok .IDENTIFIER "main") []
      [some (.Return none)])] = true ∧
    wellFormedStatements [some (.Function (tok .IDENTIFIER "main") []
      [some (.Return none)])] = true ∧
    ∃ (texts : List (List Char)) (t' : Transpiler),
      transpile [some (.Function (tok .IDENTIFIER "main") [] [some (.Return none)])]
        usedTranspiler = some (prelude ++ texts.flatten, t') ∧
      List.Forall₂ (fun s x => stmtText usedTranspiler.indent_level (some s) = some x)
        ([some (Stmt.Function (tok .IDENTIFIER "main") []
          [some (.Return none)])].filterMap id) texts :=
  ⟨by decide, by decide,
    transpile_with_main_appends_nothing _ usedTranspiler (by decide) (by decide)⟩

theorem paramsText_later : ∀ (params : List Token) (i : Nat), 0 < i →
    paramsText params i =
      (params.map (fun p => ", ".toList ++ ("auto ".toList ++ p.lexeme))).flatten
  | [], _, _ => by simp [paramsText]
  | p :: rest, i, hi => by
    simp [paramsText, hi, paramsText_later rest (i + 1) (Nat.succ_pos i)]

theorem paramsText_first (params : List Token) :
    paramsText params 0 =
      List.intercalate ", ".toList (params.map (fun p => "auto ".toList ++ p.lexeme)) := by
  cases params with
  | nil => simp [paramsText, List.intercalate, List.intersperse]
  | cons p rest =>
    rw [List.map_cons, intercalate_cons]
    simp [paramsText, paramsText_later rest 1 Nat.one_pos, List.map_map, Function.comp_def]

/-- C30. Entry-point shape. At every level `d`, the text of a `Function` statement
is the indentation, then `int main(` when the name is `main` and `auto n(` for any
other name `n`, then the parameters, each as `auto p`, in declaration order and
separated by `, `, then `) `, the opening brace line, the text of the body at level
`d + 1`, a line `return 0;` at level `d + 1` when the name is `main` and nothing
otherwise, and the closing brace line. -/
theorem function_entry_point_shape (d : Int) (name : Token) (params : List Token)
    (body : List (Option Stmt)) :
    stmtText d (some (.Function name params body)) =
      (statementsText (d + 1) body).map (fun b =>
        indentText d ++
          (if name.lexeme = "main".toList then "int main(".toList
            else "auto ".toList ++ name.lexeme ++ "(".toList) ++
          List.intercalate ", ".toList (params.map (fun p => "auto ".toList ++ p.lexeme)) ++
          ") ".toList ++ indentText d ++ "\x7b\n".toList ++ b ++
          (if name.lexeme = "main".toList then indentText (d + 1) ++ "return 0;\n".toList
            else []) ++
          indentText d ++ "\x7d\n".toList) := by
  rw [stmtText_eq, statementsText_eq]
  simp only [emitStmtPtr, emitStmt, paramsText_first, wrapBraces]
  cases emitStatements (d + 1) body with
  | none => rfl
  | some b =>
    by_cases hm : name.lexeme = "main".toList
    · simp only [hm, if_true, Option.map_some']
      simp [List.append_assoc]
    · simp only [hm, if_false, Option.map_some']
      simp [List.append_assoc]

/-! ## Termination of the scan -/

/-- C24. `scanTokens` terminates on every source: it returns from every state of
the lexer; each call of `scanToken` returns and advances `current` by at least one
character; each inner loop (line comment, block comment, string, and the digit and
identifier loops of `scanNumber` and `scanIdentifier`) returns within as many
iterations as there are characters left, because each iteration advances `current`
and the loop stops at the end of the input. -/
theorem scanTokens_terminates (getKeyword : List Char → TokenType) :
    (∀ l : Lexer, ∃ r, scanTokens getKeyword l = some r) ∧
    (∀ l : Lexer, ∃ r, scanToken getKeyword l = some r ∧ l.current + 1 ≤ r.current) ∧
    (∀ (fuel : Nat) (l : Lexer), l.source.length - l.current < fuel →
      ∃ r, lineCommentLoop fuel l = some r ∧ l.current ≤ r.current) ∧
    (∀ (fuel : Nat) (l : Lexer) (nesting : Int), l.source.length - l.current < fuel →
      ∃ r, blockCommentLoop fuel l nesting = some r ∧ l.current ≤ r.1.current) ∧
    (∀ (fuel : Nat) (l : Lexer) (value : List Char), l.source.length - l.current < fuel →
      ∃ r, scanStringLoop fuel l value = some r ∧ l.current ≤ r.1.current) ∧
    (∀ l : Lexer, ∃ r, scanNumber l = some r ∧ l.current ≤ r.current) ∧
    (∀ l : Lexer, ∃ r, scanIdentifier getKeyword l = some r ∧ l.current ≤ r.current) ∧
    (∀ l : Lexer, (advance l).2.current = l.current + 1) ∧
    (∀ (l : Lexer) (nesting : Int), l.current + 1 ≤ (blockCommentBody l nesting).1.current) ∧
    (∀ (l : Lexer) (value : List Char), l.current + 1 ≤ (scanStringBody l value).1.current) ∧
    (∀ (fuel : Nat) (l : Lexer), isAtEnd l = true →
      lineCommentLoop (fuel + 1) l = some l ∧
      (∀ nesting, blockCommentLoop (fuel + 1) l nesting = some (l, nesting)) ∧
      (∀ value, scanStringLoop (fuel + 1) l value = some (l, value)) ∧
      (∀ ran, advanceWhile isdigit (fuel + 1) l ran = some (l, ran)) ∧
      (∀ ran, advanceWhile isxdigit (fuel + 1) l ran = some (l, ran)) ∧
      (∀ ran, advanceWhile (fun c => c = '0' || c = '1') (fuel + 1) l ran = some (l, ran)) ∧
      (∀ ran, advanceWhile (fun c => isalnum c || c = '_') (fuel + 1) l ran =
        some (l, ran))) := by
  refine ⟨?_, ?_, ?_, ?_, ?_, ?_, ?_, fun _ => rfl, ?_, ?_, ?_⟩
  · intro l
    obtain ⟨r, added, hr, _⟩ := scanTokens_total getKeyword l
    exact ⟨_, hr⟩
  · intro l
    obtain ⟨r, hr, he⟩ := scanToken_total getKeyword l
    exact ⟨r, hr, he.2.2.1⟩
  · intro fuel l h
    obtain ⟨r, hr, he⟩ := lineCommentLoop_total getKeyword fuel l h
    exact ⟨r, hr, he.2.2.1⟩
  · intro fuel l nesting h
    obtain ⟨r, hr, he⟩ := blockCommentLoop_total getKeyword fuel l nesting h
    exact ⟨r, hr, he.2.2.1⟩
  · intro fuel l value h
    obtain ⟨r, hr, he⟩ := scanStringLoop_total getKeyword fuel l value h
    exact ⟨r, hr, he.2.2.1⟩
  · intro l
    obtain ⟨r, hr, he⟩ := scanNumber_total getKeyword l
    exact ⟨r, hr, he.2.2.1⟩
  · intro l
    obtain ⟨r, hr, he⟩ := scanIdentifier_total getKeyword l
    exact ⟨r, hr, he.2.2.1⟩
  · intro l nesting
    exact (blockCommentBody_extends getKeyword l nesting).2
  · intro l value
    exact (scanStringBody_extends getKeyword l value).2
  · intro fuel l he
    have hp := peek_of_end he
    refine ⟨?_, fun n => blockCommentLoop_end _ _ _ he, fun v => scanStringLoop_end _ _ _ he,
      ?_, ?_, ?_, ?_⟩
    · rw [lineCommentLoop]
      simp [he]
    · intro ran
      rw [advanceWhile, hp]
      rfl
    · intro ran
      rw [advanceWhile, hp]
      rfl
    · intro ran
      rw [advanceWhile, hp]
      rfl
    · intro ran
      rw [advanceWhile, hp]
      rfl

/-! ## Braces and parentheses of the emitted text -/

theorem count_take_le (a : Char) (n : Nat) (s : List Char) : (s.take n).count a ≤ s.count a :=
  (List.take_sublist n s).count_le a

theorem balanced_nil (o c : Char) : Balanced o c [] := by
  simp [Balanced]

theorem balanced_append {o c : Char} {a b : List Char} (ha : Balanced o c a)
    (hb : Balanced o c b) : Balanced o c (a ++ b) := by
  refine ⟨by simp [List.count_append, ha.1, hb.1], fun n => ?_⟩
  rw [List.take_append_eq_append_take, List.count_append, List.count_append]
  exact Nat.add_le_add (ha.2 n) (hb.2 _)

/-- A text between an opening part and a closing part that hold as many openers as
closers between them. -/
theorem balanced_between {o c : Char} {pre x post : List Char} (h1 : pre.count c = 0)
    (h2 : post.count o = 0) (h3 : pre.count o = post.count c) (hx : Balanced o c x) :
    Balanced o c (pre ++ x ++ post) := by
  refine ⟨by simp [List.count_append, h1, h2, h3, hx.1]; omega, fun n => ?_⟩
  rw [List.take_append_eq_append_take, List.take_append_eq_append_take]
  simp only [List.count_append]
  have a1 := count_take_le c n pre
  have a2 := hx.2 (n - pre.length)
  have a3 := count_take_le c (n - (pre ++ x).length) post
  by_cases hn : n ≤ (pre ++ x).length
  · have : n - (pre ++ x).length = 0 := by omega
    simp only [this, List.take_zero, List.count_nil]
    omega
  · have hp : pre.take n = pre := List.take_of_length_le (by
      simp only [List.length_append] at hn; omega)
    rw [hp]
    omega

theorem balanced_of_free {o c : Char} {s : List Char} (ho : s.count o = 0)
    (hc : s.count c = 0) : Balanced o c s := by
  refine ⟨by rw [ho, hc], fun n => ?_⟩
  have := count_take_le c n s
  omega

theorem count_of_allChars {p : Char → Bool} {a : Char} (ha : p a = false) :
    ∀ s : List Char, allChars p s = true → s.count a = 0
  | [], _ => rfl
  | x :: xs, h => by
    simp only [allChars, List.all_cons, Bool.and_eq_true] at h
    have ih := count_of_allChars ha xs (by simpa [allChars] using h.2)
    have hx : x ≠ a := fun e => by
      rw [e, ha] at h
      exact absurd h.1 (by simp)
    rw [List.count_cons_of_ne hx.symm, ih]

theorem notBracket_of_pair {o c : Char} (h : IsBracketPair o c) :
    notBracket o = false ∧ notBracket c = false := by
  rcases h with ⟨rfl, rfl⟩ | ⟨rfl, rfl⟩ <;> exact ⟨by decide, by decide⟩

theorem balanced_of_notBracket {o c : Char} (h : IsBracketPair o c) {s : List Char}
    (hs : allChars notBracket s = true) : Balanced o c s :=
  balanced_of_free (count_of_allChars (notBracket_of_pair h).1 s hs)
    (count_of_allChars (notBracket_of_pair h).2 s hs)

theorem depthAfter_counts {o c : Char} (hoc : o ≠ c) :
    ∀ (s : List Char) (d e : Nat), depthAfter o c s d = some e →
      d + s.count o = e + s.count c ∧ ∀ n, (s.take n).count c ≤ d + (s.take n).count o
  | [], d, e, h => by
    simp only [depthAfter, Option.some.injEq] at h
    simp [h]
  | x :: xs, d, e, h => by
    simp only [depthAfter] at h
    by_cases hxo : x = o
    · simp only [hxo, if_true] at h
      have ih := depthAfter_counts hoc xs (d + 1) e h
      subst hxo
      refine ⟨by simp [List.count_cons_of_ne (Ne.symm hoc)]; omega, fun n => ?_⟩
      cases n with
      | zero => simp
      | succ n =>
        have := ih.2 n
        simp only [List.take_succ_cons, List.count_cons_self,
          List.count_cons_of_ne (Ne.symm hoc)]
        omega
    · simp only [hxo, if_false] at h
      by_cases hxc : x = c
      · simp only [hxc, if_true] at h
        by_cases hd : d = 0
        · simp [hd] at h
        · simp only [hd, if_false] at h
          have ih := depthAfter_counts hoc xs (d - 1) e h
          subst hxc
          refine ⟨by simp [List.count_cons_of_ne hoc]; omega, fun n => ?_⟩
          cases n with
          | zero => simp
          | succ n =>
            have := ih.2 n
            simp only [List.take_succ_cons, List.count_cons_self,
              List.count_cons_of_ne hoc]
            omega
      · simp only [hxc, if_false] at h
        have ih := depthAfter_counts hoc xs d e h
        refine ⟨by
          simp [List.count_cons_of_ne (Ne.symm hxo), List.count_cons_of_ne (Ne.symm hxc)]
          exact ih.1, fun n => ?_⟩
        cases n with
        | zero => simp
        | succ n =>
          have := ih.2 n
          simp only [List.take_succ_cons, List.count_cons_of_ne (Ne.symm hxo),
            List.count_cons_of_ne (Ne.symm hxc)]
          omega

theorem balanced_of_depthAfter {o c : Char} (hoc : o ≠ c) {s : List Char}
    (h : depthAfter o c s 0 = some 0) : Balanced o c s := by
  have := depthAfter_counts hoc s 0 0 h
  exact ⟨by omega, fun n => by have := this.2 n; omega⟩

theorem pair_ne {o c : Char} (h : IsBracketPair o c) : o ≠ c := by
  rcases h with ⟨rfl, rfl⟩ | ⟨rfl, rfl⟩ <;> decide

theorem balanced_prelude {o c : Char} (h : IsBracketPair o c) : Balanced o c prelude := by
  apply balanced_of_depthAfter (pair_ne h)
  rcases h with ⟨rfl, rfl⟩ | ⟨rfl, rfl⟩ <;> rfl

theorem balanced_fallbackMain {o c : Char} (h : IsBracketPair o c) :
    Balanced o c fallbackMain := by
  apply balanced_of_depthAfter (pair_ne h)
  rcases h with ⟨rfl, rfl⟩ | ⟨rfl, rfl⟩ <;> rfl

theorem balanced_finalText {o c : Char} (h : IsBracketPair o c) {body : List Char}
    (hb : Balanced o c body) : Balanced o c (finalText body) := by
  unfold finalText
  split
  · exact balanced_append (balanced_append (balanced_prelude h) hb) (balanced_fallbackMain h)
  · exact balanced_append (balanced_prelude h) hb

theorem notBracket_replicate (n : Nat) : allChars notBracket (List.replicate n ' ') = true := by
  simp only [allChars, List.all_eq_true]
  intro x hx
  rw [List.eq_of_mem_replicate hx]
  decide

theorem notBracket_indentText (d : Int) : allChars notBracket (indentText d) = true := by
  unfold indentText
  simp only [allChars, List.all_eq_true, List.mem_flatten, List.mem_replicate]
  rintro x ⟨l, ⟨_, rfl⟩, hx⟩
  revert x
  decide

theorem notBracket_digitChar (k : Nat) : notBracket (digitChar k) = true := by
  have h : k % 10 < 10 := Nat.mod_lt _ (by decide)
  unfold digitChar
  interval_cases k % 10 <;> decide

theorem notBracket_to_string_int (v : Int) : allChars notBracket (to_string_int v) = true := by
  unfold to_string_int
  split
  · have := allChars_natDigits notBracket notBracket_digitChar v.natAbs
    simp only [allChars, List.all_cons] at this ⊢
    rw [this]
    decide
  · exact allChars_natDigits notBracket notBracket_digitChar _

theorem notBracket_to_string_double (d : Double) :
    allChars notBracket (to_string_double d) = true := by
  have hs : allChars notBracket (if d.sign = true then ['-'] else []) = true := by
    split <;> decide
  unfold to_string_double
  simp only
  split
  · split
    · rw [allChars_append, hs]; decide
    · rw [allChars_append, hs]; decide
  · rw [allChars_append, allChars_append, hs,
      allChars_natDigits notBracket notBracket_digitChar]
    have := allChars_padDigits notBracket notBracket_digitChar 6
    simp only [allChars, List.all_cons] at this ⊢
    rw [this]
    decide

theorem notBracket_literalText (value : LiteralValue)
    (h : namesSatisfyExpr notBracket (.Literal value) = true) :
    allChars notBracket (literalText value) = true := by
  cases value with
  | int v => exact notBracket_to_string_int v
  | double d => exact notBracket_to_string_double d
  | bool b => cases b <;> decide
  | string s =>
    simp only [namesSatisfyExpr] at h
    simp only [literalText, allChars_append, h]
    decide
  | nil => decide

theorem notBracket_binaryOpText (ty : TokenType) :
    allChars notBracket (binaryOpText ty) = true := by
  cases ty <;> decide

theorem notBracket_unaryOpText (ty : TokenType) :
    allChars notBracket (unaryOpText ty) = true := by
  unfold unaryOpText
  split
  · decide
  · split <;> decide

theorem balanced_wrap_pair {o c o' c' : Char} (h : IsBracketPair o c)
    (h' : IsBracketPair o' c') {x : List Char} (hx : Balanced o c x) :
    Balanced o c (o' :: (x ++ [c'])) := by
  have := @balanced_between o c [o'] x [c']
    (by rcases h with ⟨rfl, rfl⟩ | ⟨rfl, rfl⟩ <;> rcases h' with ⟨rfl, rfl⟩ | ⟨rfl, rfl⟩ <;> decide)
    (by rcases h with ⟨rfl, rfl⟩ | ⟨rfl, rfl⟩ <;> rcases h' with ⟨rfl, rfl⟩ | ⟨rfl, rfl⟩ <;> decide)
    (by rcases h with ⟨rfl, rfl⟩ | ⟨rfl, rfl⟩ <;> rcases h' with ⟨rfl, rfl⟩ | ⟨rfl, rfl⟩ <;> decide)
    hx
  simpa using this

theorem balanced_parens {o c : Char} (h : IsBracketPair o c) {x : List Char}
    (hx : Balanced o c x) : Balanced o c ('(' :: (x ++ [')'])) :=
  balanced_wrap_pair h (Or.inl ⟨rfl, rfl⟩) hx

theorem balanced_wrapBraces {o c : Char} (h : IsBracketPair o c) (d : Int) {x : List Char}
    (hx : Balanced o c x) : Balanced o c (wrapBraces d x) := by
  have hi := balanced_of_notBracket h (notBracket_indentText d)
  have hn : Balanced o c "\n".toList := balanced_of_notBracket h (by decide)
  have := balanced_append (balanced_append hi
    (balanced_wrap_pair h (Or.inr ⟨rfl, rfl⟩) (balanced_append (balanced_append hn hx) hi))) hn
  simpa [wrapBraces] using this

theorem notBracket_paramsText : ∀ (params : List Token) (i : Nat),
    params.all (fun q => allChars notBracket q.lexeme) = true →
      allChars notBracket (paramsText params i) = true
  | [], _, _ => by simp [paramsText, allChars]
  | p :: rest, i, h => by
    simp only [List.all_cons, Bool.and_eq_true] at h
    have ih := notBracket_paramsText rest (i + 1) h.2
    have h0 : allChars notBracket (if 0 < i then ", ".toList else []) = true := by
      split <;> decide
    rw [paramsText, allChars_append, allChars_append, allChars_append, h0, h.1, ih]
    decide

mutual
theorem balanced_emitExpr {o c : Char} (h : IsBracketPair o c) : ∀ (e : Expr) (x : List Char),
    namesSatisfyExpr notBracket e = true → emitExpr e = some x → Balanced o c x
  | .Literal value, x, hn, hx => by
    simp only [emitExpr, Option.some.injEq] at hx
    subst hx
    exact balanced_of_notBracket h (notBracket_literalText value hn)
  | .Unary op right, x, hn, hx => by
    simp only [emitExpr, Option.map_eq_some'] at hx
    obtain ⟨y, hy, rfl⟩ := hx
    simp only [namesSatisfyExpr] at hn
    have ih := balanced_emitExprPtr h right y hn hy
    have := balanced_append (balanced_of_notBracket h (notBracket_unaryOpText op.type))
      (balanced_parens h ih)
    simpa using this
  | .Binary left op right, x, hn, hx => by
    simp only [emitExpr, Option.bind_eq_some, Option.map_eq_some'] at hx
    obtain ⟨l, hl, r, hr, rfl⟩ := hx
    simp only [namesSatisfyExpr, Bool.and_eq_true] at hn
    have ihl := balanced_emitExprPtr h left l hn.1 hl
    have ihr := balanced_emitExprPtr h right r hn.2 hr
    have := balanced_parens h (balanced_append ihl (balanced_append
      (balanced_of_notBracket h (notBracket_binaryOpText op.type)) ihr))
    simpa using this
  | .Grouping expression, x, hn, hx => by
    simp only [emitExpr, Option.map_eq_some'] at hx
    obtain ⟨y, hy, rfl⟩ := hx
    simp only [namesSatisfyExpr] at hn
    have := balanced_parens h (balanced_emitExprPtr h expression y hn hy)
    simpa using this
  | .Variable name, x, hn, hx => by
    simp only [emitExpr, Option.some.injEq] at hx
    subst hx
    simp only [namesSatisfyExpr] at hn
    exact balanced_of_notBracket h hn
  | .Assign name value, x, hn, hx => by
    simp only [emitExpr, Option.map_eq_some'] at hx
    obtain ⟨y, hy, rfl⟩ := hx
    simp only [namesSatisfyExpr, Bool.and_eq_true] at hn
    have ih := balanced_emitExprPtr h value y hn.2 hy
    have h1 : Balanced o c (name.lexeme ++ " = ".toList) :=
      balanced_append (balanced_of_notBracket h hn.1) (balanced_of_notBracket h (by decide))
    exact balanced_append h1 ih
  | .Call callee arguments, x, hn, hx => by
    simp only [emitExpr, Option.bind_eq_some, Option.map_eq_some'] at hx
    obtain ⟨f, hf, a, ha, rfl⟩ := hx
    simp only [namesSatisfyExpr, Bool.and_eq_true] at hn
    have ihc := balanced_emitExprPtr h callee f hn.1 hf
    have iha := balanced_emitArguments h arguments 0 a hn.2 ha
    have := balanced_append ihc (balanced_parens h iha)
    simpa using this
theorem balanced_emitExprPtr {o c : Char} (h : IsBracketPair o c) :
    ∀ (e : Option Expr) (x : List Char),
      namesSatisfyExprPtr notBracket e = true → emitExprPtr e = some x → Balanced o c x
  | none, x, _, hx => by simp [emitExprPtr] at hx
  | some e, x, hn, hx => by
    simp only [namesSatisfyExprPtr] at hn
    simp only [emitExprPtr] at hx
    exact balanced_emitExpr h e x hn hx
theorem balanced_emitArguments {o c : Char} (h : IsBracketPair o c) :
    ∀ (a : List (Option Expr)) (i : Nat) (x : List Char),
      namesSatisfyArguments notBracket a = true → emitArguments a i = some x → Balanced o c x
  | [], i, x, _, hx => by
    simp only [emitArguments, Option.some.injEq] at hx
    subst hx
    exact balanced_nil o c
  | a :: rest, i, x, hn, hx => by
    simp only [emitArguments, Option.bind_eq_some, Option.map_eq_some'] at hx
    obtain ⟨y, hy, z, hz, rfl⟩ := hx
    simp only [namesSatisfyArguments, Bool.and_eq_true] at hn
    have ih1 := balanced_emitExprPtr h a y hn.1 hy
    have ih2 := balanced_emitArguments h rest (i + 1) z hn.2 hz
    have h0 : Balanced o c (if 0 < i then ", ".toList else []) := by
      apply balanced_of_notBracket h
      split <;> decide
    exact balanced_append (balanced_append h0 ih1) ih2
end

theorem balanced_emitBranch {o c : Char} (h : IsBracketPair o c) (d : Int) (isBlk : Bool)
    (same deeper : Option (List Char)) (hs : ∀ x, same = some x → Balanced o c x)
    (hd : ∀ x, deeper = some x → Balanced o c x) (x : List Char)
    (hx : emitBranch d isBlk same deeper = some x) : Balanced o c x := by
  unfold emitBranch at hx
  split at hx
  · exact hs x hx
  · simp only [Option.map_eq_some'] at hx
    obtain ⟨y, hy, rfl⟩ := hx
    exact balanced_wrapBraces h d (hd y hy)

mutual
theorem balanced_emitStmt {o c : Char} (h : IsBracketPair o c) :
    ∀ (s : Stmt) (d : Int) (x : List Char),
      namesSatisfyStmt notBracket s = true → emitStmt d s = some x → Balanced o c x
  | .Expression expression, d, x, hn, hx => by
    simp only [emitStmt, Option.map_eq_some'] at hx
    obtain ⟨y, hy, rfl⟩ := hx
    simp only [namesSatisfyStmt] at hn
    exact balanced_append (balanced_append (balanced_of_notBracket h (notBracket_indentText d))
      (balanced_emitExprPtr h expression y hn hy)) (balanced_of_notBracket h (by decide))
  | .VarDecl name isConst initializer, d, x, hn, hx => by
    simp only [namesSatisfyStmt, Bool.and_eq_true] at hn
    have hk : Balanced o c (if isConst then "const auto ".toList else "auto ".toList) := by
      apply balanced_of_notBracket h
      split <;> decide
    have hi : ∀ y, (match initializer with
        | some e => (emitExpr e).map (fun x => " = ".toList ++ x)
        | none => some []) = some y → Balanced o c y := by
      intro y hy
      cases initializer with
      | none =>
        simp only [Option.some.injEq] at hy
        subst hy
        exact balanced_nil o c
      | some e =>
        simp only [Option.map_eq_some'] at hy
        obtain ⟨z, hz, rfl⟩ := hy
        simp only [namesSatisfyExprPtr] at hn
        exact balanced_append (balanced_of_notBracket h (by decide))
          (balanced_emitExpr h e z hn.2 hz)
    simp only [emitStmt, Option.map_eq_some'] at hx
    obtain ⟨y, hy, rfl⟩ := hx
    exact balanced_append (balanced_append (balanced_append (balanced_append
      (balanced_of_notBracket h (notBracket_indentText d)) hk)
      (balanced_of_notBracket h hn.1)) (hi y hy)) (balanced_of_notBracket h (by decide))
  | .Block statements, d, x, hn, hx => by
    simp only [emitStmt, Option.map_eq_some'] at hx
    obtain ⟨y, hy, rfl⟩ := hx
    simp only [namesSatisfyStmt] at hn
    exact balanced_wrapBraces h d (balanced_emitStatements h statements (d + 1) y hn hy)
  | .If condition thenBranch elseBranch, d, x, hn, hx => by
    have ihT := balanced_emitStmtPtr h thenBranch
    have ihE := balanced_emitStmtPtr h elseBranch
    simp only [namesSatisfyStmt, Bool.and_eq_true] at hn
    have b3 : Balanced o c "if ".toList := balanced_of_notBracket h (by decide)
    have b1 : Balanced o c " ".toList := balanced_of_notBracket h (by decide)
    have bi := balanced_of_notBracket h (notBracket_indentText d)
    cases elseBranch with
    | none =>
      simp only [emitStmt, Option.bind_eq_some, Option.map_eq_some', Option.some.injEq,
        exists_eq_left] at hx
      obtain ⟨k, hk, th, hth, el, rfl, rfl⟩ := hx
      have bk := balanced_emitExprPtr h condition k hn.1.1 hk
      have bth := balanced_emitBranch h d _ _ _ (fun y hy => ihT d y hn.1.2 hy)
        (fun y hy => ihT (d + 1) y hn.1.2 hy) th hth
      have := balanced_append (balanced_append (balanced_append (balanced_append bi b3)
        (balanced_parens h bk)) b1) bth
      simpa using this
    | some s =>
      simp only [emitStmt, Option.bind_eq_some, Option.map_eq_some'] at hx
      obtain ⟨k, hk, th, hth, el, ⟨z, hz, rfl⟩, rfl⟩ := hx
      have bk := balanced_emitExprPtr h condition k hn.1.1 hk
      have bth := balanced_emitBranch h d _ _ _ (fun y hy => ihT d y hn.1.2 hy)
        (fun y hy => ihT (d + 1) y hn.1.2 hy) th hth
      have bz := balanced_emitBranch h d _ _ _ (fun y hy => ihE d y hn.2 hy)
        (fun y hy => ihE (d + 1) y hn.2 hy) z hz
      have bel := balanced_append (balanced_append bi
        (balanced_of_notBracket h (show allChars notBracket "else ".toList = true by decide))) bz
      have := balanced_append (balanced_append (balanced_append (balanced_append
        (balanced_append bi b3) (balanced_parens h bk)) b1) bth) bel
      simpa using this
  | .While condition body, d, x, hn, hx => by
    have ihB := balanced_emitStmtPtr h body
    simp only [namesSatisfyStmt, Bool.and_eq_true] at hn
    simp only [emitStmt, Option.bind_eq_some, Option.map_eq_some'] at hx
    obtain ⟨k, hk, b, hb, rfl⟩ := hx
    have bk := balanced_emitExprPtr h condition k hn.1 hk
    have bb := balanced_emitBranch h d _ _ _ (fun y hy => ihB d y hn.2 hy)
      (fun y hy => ihB (d + 1) y hn.2 hy) b hb
    have b3 : Balanced o c "while ".toList := balanced_of_notBracket h (by decide)
    have b1 : Balanced o c " ".toList := balanced_of_notBracket h (by decide)
    have := balanced_append (balanced_append (balanced_append (balanced_append
      (balanced_of_notBracket h (notBracket_indentText d)) b3) (balanced_parens h bk)) b1) bb
    simpa using this
  | .Function name params body, d, x, hn, hx => by
    simp only [namesSatisfyStmt, Bool.and_eq_true] at hn
    simp only [emitStmt, Option.map_eq_some'] at hx
    obtain ⟨b, hb, rfl⟩ := hx
    have bb := balanced_emitStatements h body (d + 1) b hn.2 hb
    have bi := balanced_of_notBracket h (notBracket_indentText d)
    have b0 : Balanced o c
        (if name.lexeme = "main".toList then "int ".toList else "auto ".toList) := by
      apply balanced_of_notBracket h
      split <;> decide
    have b2 : Balanced o c
        (if name.lexeme = "main".toList then indentText (d + 1) ++ "return 0;\n".toList
          else []) := by
      split
      · exact balanced_append (balanced_of_notBracket h (notBracket_indentText (d + 1)))
          (balanced_of_notBracket h (by decide))
      · exact balanced_nil o c
    have b1 : Balanced o c " ".toList := balanced_of_notBracket h (by decide)
    have bp := balanced_parens h (balanced_of_notBracket h (notBracket_paramsText params 0 hn.1.2))
    have := balanced_append (balanced_append (balanced_append (balanced_append
      (balanced_append bi b0) (balanced_of_notBracket h hn.1.1)) bp) b1)
      (balanced_wrapBraces h d (balanced_append bb b2))
    simpa using this
  | .Return value, d, x, hn, hx => by
    simp only [namesSatisfyStmt] at hn
    have hi : ∀ y, (match value with
        | some e => (emitExpr e).map (fun x => " ".toList ++ x)
        | none => some []) = some y → Balanced o c y := by
      intro y hy
      cases value with
      | none =>
        simp only [Option.some.injEq] at hy
        subst hy
        exact balanced_nil o c
      | some e =>
        simp only [Option.map_eq_some'] at hy
        obtain ⟨z, hz, rfl⟩ := hy
        simp only [namesSatisfyExprPtr] at hn
        exact balanced_append (balanced_of_notBracket h (by decide))
          (balanced_emitExpr h e z hn hz)
    simp only [emitStmt, Option.map_eq_some'] at hx
    obtain ⟨y, hy, rfl⟩ := hx
    exact balanced_append (balanced_append (balanced_append
      (balanced_of_notBracket h (notBracket_indentText d))
      (balanced_of_notBracket h (by decide))) (hi y hy)) (balanced_of_notBracket h (by decide))
termination_by s => sizeOf s
theorem balanced_emitStmtPtr {o c : Char} (h : IsBracketPair o c) :
    ∀ (s : Option Stmt) (d : Int) (x : List Char),
      namesSatisfyStmtPtr notBracket s = true → emitStmtPtr d s = some x → Balanced o c x
  | none, d, x, _, hx => by simp [emitStmtPtr] at hx
  | some s, d, x, hn, hx => by
    simp only [namesSatisfyStmtPtr] at hn
    simp only [emitStmtPtr] at hx
    exact balanced_emitStmt h s d x hn hx
termination_by s => sizeOf s
theorem balanced_emitStatements {o c : Char} (h : IsBracketPair o c) :
    ∀ (ss : List (Option Stmt)) (d : Int) (x : List Char),
      namesSatisfyStatements notBracket ss = true → emitStatements d ss = some x →
        Balanced o c x
  | [], d, x, _, hx => by
    simp only [emitStatements, Option.some.injEq] at hx
    subst hx
    exact balanced_nil o c
  | none :: rest, d, x, hn, hx => by
    simp only [namesSatisfyStatements, Bool.and_eq_true] at hn
    simp only [emitStatements] at hx
    exact balanced_emitStatements h rest d x hn.2 hx
  | some s :: rest, d, x, hn, hx => by
    simp only [namesSatisfyStatements, namesSatisfyStmtPtr, Bool.and_eq_true] at hn
    simp only [emitStatements, Option.bind_eq_some, Option.map_eq_some'] at hx
    obtain ⟨y, hy, z, hz, rfl⟩ := hx
    exact balanced_append (balanced_emitStmt h s d y hn.1 hy)
      (balanced_emitStatements h rest d z hn.2 hz)
termination_by ss => sizeOf ss
end

/-- C23. Every Block is emitted as a brace scope, and for a well-formed program
whose identifiers and string literals hold no brace and no parenthesis,
`transpile` returns a text with as many `{` as `}` and as many `(` as `)`, no
prefix of which holds more closing than opening characters of either kind. -/
theorem transpile_brackets_balanced (statements : List (Option Stmt)) (t : Transpiler)
    (hw : wellFormedStatements statements = true)
    (hn : namesSatisfyStatements notBracket statements = true) :
    (∀ (d : Int) (ss : List (Option Stmt)),
      stmtText d (some (.Block ss)) = (statementsText (d + 1) ss).map (fun x =>
        indentText d ++ "\x7b\n".toList ++ x ++ indentText d ++ "\x7d\n".toList)) ∧
    ∃ text t', transpile statements t = some (text, t') ∧
      text.count '{' = text.count '}' ∧ text.count '(' = text.count ')' ∧
      ∀ n, (text.take n).count '}' ≤ (text.take n).count '{' ∧
        (text.take n).count ')' ≤ (text.take n).count '(' := by
  refine ⟨fun d ss => ?_, ?_⟩
  · rw [stmtText_eq, statementsText_eq]
    rfl
  · obtain ⟨body, hb⟩ := emitStatements_isSome statements t.indent_level hw
    have hp := balanced_finalText (Or.inl ⟨rfl, rfl⟩)
      (balanced_emitStatements (Or.inl ⟨rfl, rfl⟩) statements _ body hn hb)
    have hc := balanced_finalText (Or.inr ⟨rfl, rfl⟩)
      (balanced_emitStatements (Or.inr ⟨rfl, rfl⟩) statements _ body hn hb)
    refine ⟨finalText body, _, by rw [transpile_eq, hb]; rfl, hc.1, hp.1, fun n => ?_⟩
    exact ⟨hc.2 n, hp.2 n⟩

theorem transpile_brackets_balanced_witness :
    wellFormedStatements smallProgram = true ∧
    namesSatisfyStatements notBracket smallProgram = true ∧
    ∃ text t', transpile smallProgram usedTranspiler = some (text, t') ∧
      text.count '{' = text.count '}' ∧ text.count '(' = text.count ')' ∧
      ∀ n, (text.take n).count '}' ≤ (text.take n).count '{' ∧
        (text.take n).count ')' ≤ (text.take n).count '(' :=
  ⟨by decide, by decide,
    (transpile_brackets_balanced smallProgram usedTranspiler (by decide) (by decide)).2⟩

/-! ## Lexemes and the source -/

theorem substr_succ (s : List Char) (a b : Nat) (hab : a ≤ b) (hb : b < s.length) :
    substr s a (b + 1 - a) = substr s a (b - a) ++ [charAt s b] := by
  unfold substr charAt
  have e : b + 1 - a = (b - a) + 1 := by omega
  have e2 : a + (b - a) = b := by omega
  rw [e, List.take_succ, List.getElem?_drop, e2, List.getElem?_eq_getElem hb,
    List.getD_eq_getElem _ _ hb]
  rfl

theorem take_eq_take_append_substr (s : List Char) (a b : Nat) (hab : a ≤ b) :
    s.take b = s.take a ++ substr s a (b - a) := by
  unfold substr
  have e : b = a + (b - a) := by omega
  conv_lhs => rw [e]
  exact List.take_add s a (b - a)

theorem charAt_no_quote {s : List Char} (h : '"' ∉ s) (i : Nat) : charAt s i ≠ '"' := by
  intro e
  by_cases hi : i < s.length
  · apply h
    rw [← e, charAt, List.getD_eq_getElem _ _ hi]
    exact List.getElem_mem _
  · rw [charAt_beyond s i (by omega)] at e
    exact absurd e (by decide)

theorem charAt_zero_cons (c : Char) (s : List Char) : charAt (c :: s) 0 = c := rfl

theorem charAt_succ_cons (c : Char) (s : List Char) (i : Nat) :
    charAt (c :: s) (i + 1) = charAt s i := rfl

theorem charAt_zero_eq (s : List Char) (x : Char) (hx : x ≠ Char.ofNat 0)
    (h : charAt s 0 = x) : s.head? = some x := by
  cases s with
  | nil => exact absurd h.symm hx
  | cons c s => simpa [charAt_zero_cons] using h

theorem charAt_no_opener : ∀ (s : List Char), hasCommentOpener s = false → ∀ i,
    charAt s i = '/' → charAt s (i + 1) ≠ '/' ∧ charAt s (i + 1) ≠ '*'
  | [], _, i, h => by
    rw [charAt_beyond [] i (by simp)] at h
    exact absurd h (by decide)
  | c :: rest, hs, i, h => by
    simp only [hasCommentOpener, Bool.or_eq_false_iff, Bool.and_eq_false_imp,
      decide_eq_true_eq, decide_eq_false_iff_not, not_or] at hs
    cases i with
    | zero =>
      rw [charAt_zero_cons] at h
      rw [charAt_succ_cons]
      have h2 := hs.1 h
      exact ⟨fun e => h2.1 (charAt_zero_eq rest _ (by decide) e),
        fun e => h2.2 (charAt_zero_eq rest _ (by decide) e)⟩
    | succ i =>
      rw [charAt_succ_cons] at h ⊢
      exact charAt_no_opener rest hs.2 i h

theorem not_blank_of {c : Char} (h : isBlankOrNull c = false) :
    isWhitespace c = false ∧ c ≠ Char.ofNat 0 := by
  simp only [isBlankOrNull, Bool.or_eq_false_iff, decide_eq_false_iff_not] at h
  exact h

theorem inside_start (l : Lexer) (h : l.current ≤ l.source.length) :
    Inside l { l with start := l.current } := by
  refine ⟨rfl, rfl, rfl, le_refl _, h, ?_⟩
  simp [substr]

theorem inside_advance {l m : Lexer} (hm : Inside l m) (hlt : m.current < m.source.length)
    (hw : isWhitespace (charAt m.source m.current) = false) : Inside l (advance m).2 := by
  obtain ⟨h1, h2, h3, h4, h5, h6⟩ := hm
  refine ⟨h1, h2, h3, ?_, ?_, ?_⟩
  · show l.current ≤ m.current + 1
    omega
  · show m.current + 1 ≤ l.source.length
    rw [h1] at hlt
    omega
  · show (substr l.source l.current (m.current + 1 - l.current)).all _ = true
    rw [h1] at hlt hw
    rw [substr_succ _ _ _ h4 hlt, List.all_append, h6]
    simp [hw]

theorem inside_advance_peek {l m : Lexer} (hm : Inside l m)
    (hp : isBlankOrNull (peek m) = false) : Inside l (advance m).2 := by
  rw [peek_eq_charAt] at hp
  obtain ⟨hw, hz⟩ := not_blank_of hp
  refine inside_advance hm ?_ hw
  by_contra hge
  exact hz (charAt_beyond _ _ (by omega))

theorem inside_advanceWhile {p : Char → Bool} (hp : BlankBlind p) {l : Lexer} :
    ∀ (fuel : Nat) (m : Lexer) (ran : Bool) (r : Lexer × Bool),
      advanceWhile p fuel m ran = some r → Inside l m → Inside l r.1
  | 0, m, ran, r, h, _ => by simp [advanceWhile] at h
  | fuel + 1, m, ran, r, h, hm => by
    rw [advanceWhile] at h
    by_cases ht : p (peek m) = true
    · simp only [ht, if_true] at h
      have hb : isBlankOrNull (peek m) = false := by
        by_contra hb
        simp only [Bool.not_eq_false] at hb
        rw [hp _ hb] at ht
        cases ht
      exact inside_advanceWhile hp fuel _ _ r h (inside_advance_peek hm hb)
    · simp only [ht, if_false, Option.some.injEq, Bool.false_eq_true] at h
      subst h
      exact hm

theorem inside_matchChar {l m : Lexer} (expected : Char)
    (he : isBlankOrNull expected = false) (hm : Inside l m) :
    Inside l (matchChar expected m).2 := by
  obtain ⟨hw, hz⟩ := not_blank_of he
  rw [matchChar_eq expected hz]
  by_cases hc : charAt m.source m.current = expected
  · simp only [hc, if_true]
    have := inside_advance_peek hm (by rw [peek_eq_charAt, hc]; exact he)
    exact this
  · simp only [hc, if_false]
    exact hm

theorem inside_afterSign {l m : Lexer} (hm : Inside l m) : Inside l (afterSign m) := by
  unfold afterSign
  split
  · rename_i h
    apply inside_advance_peek hm
    simp only [Bool.or_eq_true, decide_eq_true_eq] at h
    rcases h with h | h <;> rw [h] <;> decide
  · exact hm

theorem lexemesOf_append (ts : List Token) (t : Token) :
    lexemesOf (ts ++ [t]) = lexemesOf ts ++ t.lexeme := by
  simp [lexemesOf]

theorem withoutWhitespace_append (a b : List Char) :
    withoutWhitespace (a ++ b) = withoutWhitespace a ++ withoutWhitespace b := by
  simp [withoutWhitespace]

theorem withoutWhitespace_of_all {a : List Char}
    (h : a.all (fun c => !isWhitespace c) = true) : withoutWhitespace a = a := by
  unfold withoutWhitespace
  rw [List.filter_eq_self]
  simpa using h

theorem covered_of_token {l m r : Lexer} (token : Token) (hl : Covered l) (hm : Inside l m)
    (hs : r.source = m.source) (hc : r.current = m.current)
    (ht : r.tokens = m.tokens ++ [token])
    (hx : token.lexeme = substr m.source m.start (m.current - m.start)) : Covered r := by
  obtain ⟨h1, h2, h3, h4, h5, h6⟩ := hm
  rcases hl with ⟨t, htm, hte⟩ | ⟨_, hcov⟩
  · exact Or.inl ⟨t, by rw [ht, h2]; exact List.mem_append_left _ htm, hte⟩
  · refine Or.inr ⟨by rw [hs, hc, h1]; exact h5, ?_⟩
    rw [ht, lexemesOf_append, h2, hcov, hx, hs, hc, h1, h3,
      take_eq_take_append_substr l.source l.current m.current h4, withoutWhitespace_append,
      withoutWhitespace_of_all h6]

theorem covered_addToken {l m : Lexer} (ty : TokenType) (hl : Covered l) (hm : Inside l m) :
    Covered (addToken ty m) :=
  covered_of_token _ hl hm rfl rfl rfl rfl

theorem covered_addTokenWith {l m : Lexer} (ty : TokenType) (hl : Covered l)
    (hm : Inside l m) :
    Covered (addTokenWith ty (substr m.source m.start (m.current - m.start)) m) :=
  covered_of_token _ hl hm rfl rfl rfl rfl

theorem covered_reportError (message : List Char) (m : Lexer) :
    Covered (reportError message m) :=
  Or.inl ⟨⟨.ERROR, message, m.line, m.column⟩, by simp [reportError], rfl⟩

theorem covered_of_whitespace {l m : Lexer} (hl : Covered l) (hs : m.source = l.source)
    (ht : m.tokens = l.tokens) (hc : m.current = l.current + 1)
    (hlt : l.current < l.source.length)
    (hw : isWhitespace (charAt l.source l.current) = true) : Covered m := by
  rcases hl with ⟨t, htm, hte⟩ | ⟨_, hcov⟩
  · exact Or.inl ⟨t, by rw [ht]; exact htm, hte⟩
  · refine Or.inr ⟨by rw [hs, hc]; omega, ?_⟩
    have e := substr_succ l.source l.current l.current (le_refl _) hlt
    have e0 : substr l.source l.current (l.current - l.current) = [] := by simp [substr]
    rw [e0, List.nil_append] at e
    rw [ht, hcov, hs, hc,
      take_eq_take_append_substr l.source l.current (l.current + 1) (by omega), e,
      withoutWhitespace_append]
    simp [withoutWhitespace, hw]

theorem not_blank_of_eq {x c : Char} (h : x = c) (hc : isBlankOrNull c = false) :
    isBlankOrNull x = false := by
  rw [h]
  exact hc

theorem covered_digits_then {l m : Lexer} {p : Char → Bool} (hp : BlankBlind p) (fuel : Nat)
    (message : List Char) (ty : TokenType) (hl : Covered l) (hm : Inside l m) {r : Lexer}
    (h : (advanceWhile p fuel m false).bind (fun r =>
      if !r.2 then some (reportError message r.1) else some (addToken ty r.1)) = some r) :
    Covered r := by
  rw [Option.bind_eq_some] at h
  obtain ⟨r1, hr1, h⟩ := h
  have hi := inside_advanceWhile hp fuel m false r1 hr1 hm
  split at h
  · simp only [Option.some.injEq] at h
    subst h
    exact covered_reportError _ _
  · simp only [Option.some.injEq] at h
    subst h
    exact covered_addToken ty hl hi

theorem covered_scanExponent {l m r : Lexer} (fuel : Nat) (hl : Covered l) (hm : Inside l m)
    (h : scanExponent fuel m = some r) : Covered r := by
  unfold scanExponent at h
  split at h
  · rename_i he
    have hb : isBlankOrNull (peek m) = false := by
      simp only [Bool.or_eq_true, decide_eq_true_eq] at he
      rcases he with he | he <;> rw [he] <;> decide
    have hi := inside_afterSign (inside_advance_peek hm hb)
    split at h
    · simp only [Option.some.injEq] at h
      subst h
      exact covered_reportError _ _
    · rw [Option.bind_eq_some] at h
      obtain ⟨r1, hr1, h⟩ := h
      simp only [Option.some.injEq] at h
      subst h
      exact covered_addToken _ hl
        (inside_advanceWhile (blind_of (by decide)) fuel _ false r1 hr1 hi)
  · simp only [Option.some.injEq] at h
    subst h
    exact covered_addToken _ hl hm

theorem covered_scanFraction {l m r : Lexer} (fuel : Nat) (hl : Covered l) (hm : Inside l m)
    (h : scanFraction fuel m = some r) : Covered r := by
  unfold scanFraction at h
  split at h
  · rename_i hd
    simp only [Bool.and_eq_true, decide_eq_true_eq] at hd
    have hb : isBlankOrNull (peek m) = false := not_blank_of_eq hd.1 (by decide)
    rw [Option.bind_eq_some] at h
    obtain ⟨r1, hr1, h⟩ := h
    exact covered_scanExponent fuel hl
      (inside_advanceWhile (blind_of (by decide)) fuel _ false r1 hr1
        (inside_advance_peek hm hb)) h
  · simp only [Option.some.injEq] at h
    subst h
    exact covered_addToken _ hl hm

theorem covered_scanNumber {l m r : Lexer} (hl : Covered l) (hm : Inside l m)
    (h : scanNumber m = some r) : Covered r := by
  rw [scanNumber_eq] at h
  split at h
  · rename_i hx
    simp only [Bool.and_eq_true, decide_eq_true_eq] at hx
    exact covered_digits_then (blind_of (by decide)) _ _ _ hl
      (inside_advance_peek hm (not_blank_of_eq hx.1.1 (by decide))) h
  · split at h
    · rename_i hx
      simp only [Bool.and_eq_true, decide_eq_true_eq] at hx
      exact covered_digits_then (blind_of (by decide)) _ _ _ hl
        (inside_advance_peek hm (not_blank_of_eq hx.1.1 (by decide))) h
    · unfold scanDecimal at h
      rw [Option.bind_eq_some] at h
      obtain ⟨r1, hr1, h⟩ := h
      exact covered_scanFraction _ hl
        (inside_advanceWhile (blind_of (by decide)) _ _ false r1 hr1 hm) h

theorem covered_scanIdentifier (getKeyword : List Char → TokenType) {l m r : Lexer}
    (hl : Covered l) (hm : Inside l m) (h : scanIdentifier getKeyword m = some r) :
    Covered r := by
  unfold scanIdentifier at h
  simp only [Option.bind_eq_bind, Option.bind_eq_some] at h
  obtain ⟨r1, hr1, h⟩ := h
  have hi := inside_advanceWhile (p := fun c => isalnum c || c = '_') (blind_of (by decide))
    _ _ false r1 hr1 hm
  split at h
  · simp only [Option.some.injEq] at h
    subst h
    exact covered_addTokenWith _ hl hi
  · simp only [Option.some.injEq] at h
    subst h
    exact covered_addToken _ hl hi

theorem startKind_special_facts : ∀ c ∈ specialChars,
    ((startKind c = .blank ∨ startKind c = .newline) → isWhitespace c = true) ∧
    (startKind c = .slash → c = '/') ∧ (startKind c = .quote → c = '"') := by
  decide

theorem startKind_facts (c : Char) :
    ((startKind c = .blank ∨ startKind c = .newline) → isWhitespace c = true) ∧
    (startKind c = .slash → c = '/') ∧ (startKind c = .quote → c = '"') := by
  by_cases hs : c ∈ specialChars
  · exact startKind_special_facts c hs
  · rw [startKind_plain hs]
    refine ⟨fun h => ?_, fun h => ?_, fun h => ?_⟩
    · rcases h with h | h <;> split_ifs at h
    · split_ifs at h
    · split_ifs at h

theorem covered_scanToken (getKeyword : List Char → TokenType) {l r : Lexer}
    (hq : '"' ∉ l.source) (ho : hasCommentOpener l.source = false) (hl : Covered l)
    (he : isAtEnd l = false)
    (h : scanToken getKeyword { l with start := l.current } = some r) : Covered r := by
  have hlt : l.current < l.source.length := lt_of_not_isAtEnd he
  have h0 : Inside l { l with start := l.current } := inside_start l (by omega)
  obtain ⟨r', hr', hext⟩ := scanToken_total getKeyword { l with start := l.current }
  rw [h, Option.some.injEq] at hr'
  subst hr'
  rcases hl with ⟨t, htm, hte⟩ | hclean
  · obtain ⟨_, _, _, added, hadd, _⟩ := hext
    exact Or.inl ⟨t, by rw [hadd]; exact List.mem_append_left _ htm, hte⟩
  · have hl : Covered l := Or.inr hclean
    rw [scanToken_eq] at h
    have hc : (advance { l with start := l.current }).1 = charAt l.source l.current := rfl
    obtain ⟨f1, f2, f3⟩ := startKind_facts (charAt l.source l.current)
    rw [hc] at h
    by_cases hw : isWhitespace (charAt l.source l.current) = true
    · have hm : ∀ m : Lexer, m.source = l.source → m.tokens = l.tokens →
          m.current = l.current + 1 → Covered m :=
        fun m a b c => covered_of_whitespace hl a b c hlt hw
      rcases startKind_whitespace hw with hk | hk
      · rw [hk] at h
        simp only [scanTokenCase, Option.some.injEq] at h
        subst h
        exact hm _ rfl rfl rfl
      · rw [hk] at h
        simp only [scanTokenCase, Option.some.injEq] at h
        subst h
        exact hm _ rfl rfl rfl
    · simp only [Bool.not_eq_true] at hw
      have h1 : Inside l (advance { l with start := l.current }).2 :=
        inside_advance h0 hlt hw
      cases hk : startKind (charAt l.source l.current) with
      | single ty =>
        rw [hk] at h
        simp only [scanTokenCase, Option.some.injEq] at h
        subst h
        exact covered_addToken _ hl h1
      | withEqual alone both =>
        rw [hk] at h
        simp only [scanTokenCase, Option.some.injEq] at h
        subst h
        exact covered_addToken _ hl (inside_matchChar '=' (by decide) h1)
      | ampersand =>
        rw [hk] at h
        simp only [scanTokenCase] at h
        split at h
        · simp only [Option.some.injEq] at h
          subst h
          exact covered_addToken _ hl (inside_matchChar '&' (by decide) h1)
        · simp only [Option.some.injEq] at h
          subst h
          exact covered_reportError _ _
      | bar =>
        rw [hk] at h
        simp only [scanTokenCase] at h
        split at h
        · simp only [Option.some.injEq] at h
          subst h
          exact covered_addToken _ hl (inside_matchChar '|' (by decide) h1)
        · simp only [Option.some.injEq] at h
          subst h
          exact covered_reportError _ _
      | slash =>
        rw [hk] at h
        have hno := charAt_no_opener l.source ho l.current (f2 hk)
        have e1 : matchChar '/' (advance { l with start := l.current }).2 =
            (false, (advance { l with start := l.current }).2) := by
          rw [matchChar_eq '/' (by decide)]
          exact if_neg hno.1
        have e2 : matchChar '*' (advance { l with start := l.current }).2 =
            (false, (advance { l with start := l.current }).2) := by
          rw [matchChar_eq '*' (by decide)]
          exact if_neg hno.2
        simp only [scanTokenCase, e1, e2, Bool.false_eq_true, if_false,
          Option.some.injEq] at h
        subst h
        exact covered_addToken _ hl h1
      | blank => rw [f1 (Or.inl hk)] at hw; cases hw
      | newline => rw [f1 (Or.inr hk)] at hw; cases hw
      | quote => exact absurd (f3 hk) (charAt_no_quote hq _)
      | digit =>
        rw [hk] at h
        simp only [scanTokenCase] at h
        exact covered_scanNumber hl h1 h
      | letter =>
        rw [hk] at h
        simp only [scanTokenCase] at h
        exact covered_scanIdentifier getKeyword hl h1 h
      | other =>
        rw [hk] at h
        simp only [scanTokenCase, Option.some.injEq] at h
        subst h
        exact covered_reportError _ _

theorem covered_scanTokensLoop (getKeyword : List Char → TokenType) :
    ∀ (fuel : Nat) (l r : Lexer), '"' ∉ l.source → hasCommentOpener l.source = false →
      Covered l → scanTokensLoop getKeyword fuel l = some r →
        r.source = l.source ∧ Covered r ∧ isAtEnd r = true
  | 0, l, r, _, _, _, h => by simp [scanTokensLoop] at h
  | fuel + 1, l, r, hq, ho, hl, h => by
    by_cases he : isAtEnd l = true
    · rw [scanTokensLoop_end getKeyword fuel l he, Option.some.injEq] at h
      subst h
      exact ⟨rfl, hl, he⟩
    · simp only [Bool.not_eq_true] at he
      rw [scanTokensLoop_step getKeyword fuel l he, Option.bind_eq_some] at h
      obtain ⟨l1, h1, h2⟩ := h
      have hc := covered_scanToken getKeyword hq ho hl he h1
      obtain ⟨r', hr', hext⟩ := scanToken_total getKeyword { l with start := l.current }
      rw [h1, Option.some.injEq] at hr'
      subst hr'
      have hs : l1.source = l.source := hext.1
      obtain ⟨a, b, c⟩ := covered_scanTokensLoop getKeyword fuel l1 r (by rw [hs]; exact hq)
        (by rw [hs]; exact ho) hc h2
      exact ⟨a.trans hs, b, c⟩

/-- C28. For a source without `"` and without a comment opener, `scanTokens`
returns, and when no returned token is an `ERROR` token the lexemes of the
returned tokens, concatenated in order, are the source without its spaces, tabs,
carriage returns and newlines. -/
theorem lexemes_cover_source (getKeyword : List Char → TokenType) (l : Lexer)
    (hq : '"' ∉ l.source) (ho : hasCommentOpener l.source = false) :
    ∃ r, scanTokens getKeyword l = some r ∧
      ((∀ t ∈ r.1, t.type ≠ .ERROR) → lexemesOf r.1 = withoutWhitespace l.source) := by
  have key : ∀ l0 : Lexer, l0.source = l.source → Covered l0 →
      l0.source.length - l0.current < l.source.length + 1 →
      ∃ r, scanTokensLoop getKeyword (l.source.length + 1) l0 = some r ∧
        r.source = l.source ∧ Covered r ∧ isAtEnd r = true := by
    intro l0 hs0 hc0 hf
    obtain ⟨r, hr, _, _⟩ := scanTokensLoop_total getKeyword _ l0 hf
    obtain ⟨hs, hc, he⟩ := covered_scanTokensLoop getKeyword _ l0 r (by rw [hs0]; exact hq)
      (by rw [hs0]; exact ho) hc0 hr
    exact ⟨r, hr, hs.trans hs0, hc, he⟩
  obtain ⟨r, hr, hs, hc, he⟩ :=
    key { l with tokens := [], start := 0, current := 0, line := 1, column := 1 } rfl
      (Or.inr ⟨Nat.zero_le _, by simp [lexemesOf, withoutWhitespace]⟩)
      (by show l.source.length - 0 < _; omega)
  refine ⟨(r.tokens ++ [⟨.END_OF_FILE, [], r.line, r.column⟩],
    { r with tokens := r.tokens ++ [⟨.END_OF_FILE, [], r.line, r.column⟩] }), ?_, ?_⟩
  · unfold scanTokens
    simp only [Option.bind_eq_bind]
    rw [hr]
    rfl
  · intro hne
    rcases hc with ⟨t, htm, hte⟩ | ⟨hle, hcov⟩
    · exact absurd hte (hne t (List.mem_append_left _ htm))
    · have hend : r.source.length ≤ r.current := by simpa [isAtEnd] using he
      rw [lexemesOf_append, hcov, List.take_of_length_le hend, hs]
      simp

theorem lexemes_cover_source_witness :
    '"' ∉ (Lexer.new sampleSource []).source ∧
    hasCommentOpener (Lexer.new sampleSource []).source = false ∧
    (scanTokens Keywords.getKeyword (Lexer.new sampleSource [])).map
      (fun r => r.1.all (fun t => t.type != .ERROR)) = some true ∧
    ∃ r, scanTokens Keywords.getKeyword (Lexer.new sampleSource []) = some r ∧
      ((∀ t ∈ r.1, t.type ≠ .ERROR) →
        lexemesOf r.1 = withoutWhitespace (Lexer.new sampleSource []).source) :=
  ⟨by decide, by decide, by rfl,
    lexemes_cover_source Keywords.getKeyword (Lexer.new sampleSource []) (by decide)
      (by decide)⟩

end mana
